import Mathlib

/-!
# Clipper2D: a shallow embedding of the polygon clipper

The C++ sources `Clipper/Vector2.hpp`, `Clipper/Clipper.hpp` and `Clipper/Clipper.cpp`,
and the contour comparison `TestContour` of `Tests/main.cpp`, are embedded as follows.

* `float` is modelled by exact rational arithmetic (`ℚ`); the statements on the geometry
  of the crossings are statements in exact arithmetic. The namespace `Binary32` holds a
  second model of the arithmetic, with every operation rounded to binary32; it is used
  for the tolerance tests of `Tests/main.cpp` and to evaluate the code where rounding
  changes the outcome.
* The pointer graph is an explicit heap: a list of `ClipVertex` cells, a pointer is
  `Option Nat` (`none` is `nullptr`), `new ClipVertex()` appends a cell.
  Dereferencing `nullptr` makes the operation fail (`none`).
* Every `do ... while` / `while` loop of the source takes a fuel argument; running out
  of fuel is reported as `none`, so `some r` always means "the code returns `r`".
  `Returns f r` says that `f` yields `r` for every large enough fuel, and the `_mono`
  lemmas show that more fuel never changes a result.
* The public overloads `Union`, `Subtract`, `Intersect` keep their names; the overloads
  on a `ClipVertexList` are `UnionList`, `SubtractList`, `IntersectList`.
-/

namespace Clipper2D

/-! ## Vector2.hpp -/

/-- Planar point of `Vector2.hpp`. -/
structure Vec2 where
  x : ℚ
  y : ℚ
deriving DecidableEq

namespace Vec2

/-- Component sum, `Vec2::operator+`. -/
def add (a b : Vec2) : Vec2 := ⟨a.x + b.x, a.y + b.y⟩

/-- Component difference, `Vec2::operator-`. -/
def sub (a b : Vec2) : Vec2 := ⟨a.x - b.x, a.y - b.y⟩

/-- Scaling, `Vec2::operator*(float)`. -/
def scale (a : Vec2) (value : ℚ) : Vec2 := ⟨a.x * value, a.y * value⟩

/-- Dot product, `Vec2::Dot`. -/
def Dot (lhs rhs : Vec2) : ℚ := lhs.x * rhs.x + lhs.y * rhs.y

/-- Squared distance, `Vec2::DistanceSq`. -/
def DistanceSq (lhs rhs : Vec2) : ℚ := Dot (sub lhs rhs) (sub lhs rhs)

end Vec2

/-! ## Clipper.hpp: enumerations and the vertex record -/

/-- Vertex tags, `enum class ClipVertexClassification`. -/
inductive ClipVertexClassification where
  | None
  | OutToIn
  | InToOut
  | Inside
  | Outside
deriving DecidableEq

/-- Walk direction, `enum class ClipVertexSearchDirection`. -/
inductive ClipVertexSearchDirection where
  | Backward
  | Forwards
deriving DecidableEq

/-- A pointer to a vertex: an index into the heap, or `nullptr`. -/
abbrev Ptr := Option Nat

/-- The vertex record `struct ClipVertex` with its default member initialisers. -/
structure ClipVertex where
  mPoint : Vec2
  mClassification : ClipVertexClassification := ClipVertexClassification.None
  mVisited : Bool := false
  mTwin : Ptr := none
  mPrev : Ptr := none
  mNext : Ptr := none
deriving DecidableEq

/-- The heap of allocated vertices. -/
abbrev Heap := List ClipVertex

/-- Read through a pointer; fails on `nullptr` (and on a dangling index). -/
def deref (h : Heap) : Ptr → Option ClipVertex
  | none => none
  | some i => h[i]?

/-- Write through a pointer; fails on `nullptr` (and on a dangling index). -/
def store (h : Heap) (p : Ptr) (f : ClipVertex → ClipVertex) : Option Heap :=
  match p with
  | none => none
  | some i =>
    match h[i]? with
    | none => none
    | some v => some (h.set i (f v))

/-- Allocation `new ClipVertex()`: the new cell goes to the end of the heap. -/
def alloc (h : Heap) (v : ClipVertex) : Heap × Ptr := (h ++ [v], some h.length)

/-- The list handle `struct ClipVertexList`. -/
structure ClipVertexList where
  mHead : Ptr := none
deriving DecidableEq

/-- A contour, `struct PointContour`. -/
abbrev PointContour := List Vec2

/-- A list of contours, `struct PointContourList`. -/
abbrev PointContourList := List PointContour

/-! ## Clipper.cpp: geometry predicates -/

/-- The 2D cross product `Cross2d`. -/
def Cross2d (lhs rhs : Vec2) : ℚ := lhs.x * rhs.y - lhs.y * rhs.x

/-- The signed triangle area `SignedArea`. -/
def SignedArea (a b c : Vec2) : ℚ := Cross2d (a.sub c) (b.sub c)

/-- The result of `ComputeIntersectionPoint`: the returned value and the two tags
written through the reference parameters. -/
structure Intersection where
  time : ℚ
  line0Flags : ClipVertexClassification
  line1Flags : ClipVertexClassification
deriving DecidableEq

/-- The segment intersection test `ComputeIntersectionPoint`. -/
def ComputeIntersectionPoint (start0 end0 start1 end1 : Vec2) : Intersection :=
  let a1 := SignedArea start0 end0 end1
  let a2 := SignedArea start0 end0 start1
  let a3 := SignedArea start1 end1 start0
  let a4 := a3 + a2 - a1
  if a1 * a2 > 0 then
    ⟨-1, ClipVertexClassification.None, ClipVertexClassification.None⟩
  else if a3 * a4 < 0 then
    ⟨a3 / (a3 - a4),
      if a3 < 0 then ClipVertexClassification.InToOut else ClipVertexClassification.OutToIn,
      if a2 < 0 then ClipVertexClassification.InToOut else ClipVertexClassification.OutToIn⟩
  else
    ⟨-1, ClipVertexClassification.None, ClipVertexClassification.None⟩

/-- The direction flip `FlipSearchDirection`. -/
def FlipSearchDirection : ClipVertexSearchDirection → ClipVertexSearchDirection
  | ClipVertexSearchDirection.Forwards => ClipVertexSearchDirection.Backward
  | ClipVertexSearchDirection.Backward => ClipVertexSearchDirection.Forwards

/-! ## Clipper.hpp / Clipper.cpp: ring traversal -/

/-- The template `ClipVertex::Traverse`. The callback receives the vertex, the cached
next pointer and the captured state (heap and locals); it returns whether to go on, the
possibly changed next pointer, and the new state. The first pointer argument is `begin`. -/
def Traverse {σ : Type} (callback : Ptr → Ptr → Heap × σ → Option (Bool × Ptr × (Heap × σ))) :
    Nat → Ptr → Ptr → Heap × σ → Option (Heap × σ)
  | 0, _, _, _ => none
  | fuel + 1, start, v, st =>
    match deref st.1 v with
    | none => none
    | some vert =>
      match callback v vert.mNext st with
      | none => none
      | some (goOn, nextVert, st') =>
        if goOn = false then some st'
        else if nextVert ≠ start then Traverse callback fuel start nextVert st'
        else some st'

/-- The callback of `ClipVertex::FindFirstOf`. -/
def FindFirstOfCallback (classification : ClipVertexClassification) (vertex nextVertex : Ptr)
    (st : Heap × Ptr) : Option (Bool × Ptr × (Heap × Ptr)) :=
  match deref st.1 vertex with
  | none => none
  | some v =>
    if v.mClassification = classification then some (false, nextVertex, (st.1, vertex))
    else some (true, nextVertex, st)

/-- The search `ClipVertex::FindFirstOf`. -/
def FindFirstOf (fuel : Nat) (h : Heap) (vertexList : Ptr)
    (classification : ClipVertexClassification) : Option Ptr :=
  (Traverse (FindFirstOfCallback classification) fuel vertexList vertexList (h, none)).map
    Prod.snd

/-- The neighbour selection `ClipVertex::GetNext`. -/
def GetNext (v : ClipVertex) : ClipVertexSearchDirection → Ptr
  | ClipVertexSearchDirection.Forwards => v.mNext
  | ClipVertexSearchDirection.Backward => v.mPrev

/-- The loop of `ClipVertex::WalkTwinList` specialised by `WalkTwinListForwards`
(the predicate is `v->mNext`), with the callback of `Clipper::Union` (append the point). -/
def WalkTwinLoop : Nat → Heap → Ptr → PointContour → Option (Ptr × PointContour)
  | 0, _, _, _ => none
  | fuel + 1, h, twin, results =>
    match deref h twin with
    | none => none
    | some t =>
      match deref h t.mNext with
      | none => none
      | some t' =>
        if t'.mTwin = none then WalkTwinLoop fuel h t.mNext (results ++ [t'.mPoint])
        else some (t'.mTwin, results ++ [t'.mPoint])

/-- The walk `ClipVertex::WalkTwinListForwards` as used by `Clipper::Union`. -/
def WalkTwinListForwards (fuel : Nat) (h : Heap) (vertex : Ptr) (results : PointContour) :
    Option (Ptr × PointContour) :=
  match deref h vertex with
  | none => none
  | some v =>
    if v.mTwin = none then some (vertex, results)
    else WalkTwinLoop fuel h v.mTwin results

/-- The destructor loop of `ClipVertexList`: one walk along `mNext` back to the head. -/
def destroyLoop : Nat → Heap → Ptr → Ptr → Option Unit
  | 0, _, _, _ => none
  | fuel + 1, h, head, node =>
    match deref h node with
    | none => none
    | some v => if v.mNext ≠ head then destroyLoop fuel h head v.mNext else some ()

/-- The destructor `ClipVertexList::~ClipVertexList`. -/
def ClipVertexList.destroy (fuel : Nat) (h : Heap) (l : ClipVertexList) : Option Unit :=
  destroyLoop fuel h l.mHead l.mHead

/-! ## Clipper.cpp: building, enriching and classifying the rings -/

/-- The second loop of `Clipper::BuildVertexList`: `vertices[i]` is the cell `base + i`;
the loop sets `mNext` and `mPrev` of `vertices[i]` for the given indices `i`. -/
def BuildVertexListLink (base count : Nat) : List Nat → Heap → Option Heap
  | [], h => some h
  | i :: rest, h =>
    match store h (some (base + i)) (fun v => { v with mNext := some (base + (i + 1) % count) }) with
    | none => none
    | some h1 =>
      match store h1 (some (base + i))
          (fun v => { v with mPrev := some (base + (i + count - 1) % count) }) with
      | none => none
      | some h2 => BuildVertexListLink base count rest h2

/-- The ring construction `Clipper::BuildVertexList`: returns the new heap and the list
handle. The first loop allocates one cell per point, in order. -/
def BuildVertexList (points : PointContour) (h : Heap) : Option (Heap × ClipVertexList) :=
  if points = [] then some (h, { mHead := none })
  else
    let count := points.length
    let h1 := h ++ points.map (fun p => ({ mPoint := p } : ClipVertex))
    match BuildVertexListLink h.length count (List.range count) h1 with
    | none => none
    | some h2 => some (h2, { mHead := some h.length })

/-- The callback of the first traversal in `Clipper::ClassifyVertices`; the captured
local is `flags`. -/
def ClassifyCallback (v nextVertex : Ptr) (st : Heap × ClipVertexClassification) :
    Option (Bool × Ptr × (Heap × ClipVertexClassification)) :=
  match deref st.1 v with
  | none => none
  | some vert =>
    if vert.mClassification = ClipVertexClassification.None then
      match store st.1 v (fun c => { c with mClassification := st.2 }) with
      | none => none
      | some h => some (true, nextVertex, (h, st.2))
    else if vert.mClassification = ClipVertexClassification.InToOut then
      some (true, nextVertex, (st.1, ClipVertexClassification.Outside))
    else if vert.mClassification = ClipVertexClassification.OutToIn then
      some (true, nextVertex, (st.1, ClipVertexClassification.Inside))
    else some (true, nextVertex, st)

/-- The callback of the second traversal in `Clipper::ClassifyVertices`. -/
def ClassifyInsideCallback (v nextVertex : Ptr) (st : Heap × Unit) :
    Option (Bool × Ptr × (Heap × Unit)) :=
  match deref st.1 v with
  | none => none
  | some vert =>
    if vert.mClassification = ClipVertexClassification.None then
      match store st.1 v (fun c => { c with mClassification := ClipVertexClassification.Inside }) with
      | none => none
      | some h => some (true, nextVertex, (h, ()))
    else some (true, nextVertex, st)

/-- The classifier `Clipper::ClassifyVertices`. As in the source, the starting vertex
is `FindFirstOf(mHead, None)`. -/
def ClassifyVertices (fuel : Nat) (h : Heap) (vertices : ClipVertexList) : Option Heap :=
  match FindFirstOf fuel h vertices.mHead ClipVertexClassification.None with
  | none => none
  | some firstIntersection =>
    if firstIntersection ≠ none then
      match deref h firstIntersection with
      | none => none
      | some f =>
        let flags :=
          if f.mClassification = ClipVertexClassification.InToOut then
            ClipVertexClassification.Outside
          else ClipVertexClassification.Inside
        (Traverse ClassifyCallback fuel firstIntersection firstIntersection (h, flags)).map
          Prod.fst
    else
      (Traverse ClassifyInsideCallback fuel firstIntersection firstIntersection (h, ())).map
        Prod.fst

/-- The local record `IntersectionVerts` of `Clipper::ClipEdges`. -/
structure IntersectionVerts where
  mVertex : Ptr
  mTime : ℚ
deriving DecidableEq

/-- The body of the `if(0 <= time && time <= 1)` block of `Clipper::ClipEdges`: creates
the clip-side vertex, splices it between `clipStart` and `clipNext`, creates the
subject-side vertex, twins the two and remembers the subject-side vertex. -/
def ClipEdgesInsert (h : Heap) (startPoint endPoint : Vec2) (clipStart clipNext : Ptr)
    (r : Intersection) (newVerts : List IntersectionVerts) :
    Option (Heap × List IntersectionVerts) :=
  let point := startPoint.add ((endPoint.sub startPoint).scale r.time)
  let (h1, clipVert) := alloc h { mPoint := point, mClassification := r.line1Flags }
  match store h1 clipStart (fun v => { v with mNext := clipVert }) with
  | none => none
  | some h2 =>
  match store h2 clipVert (fun v => { v with mPrev := clipStart, mNext := clipNext }) with
  | none => none
  | some h3 =>
  match store h3 clipNext (fun v => { v with mPrev := clipVert }) with
  | none => none
  | some h4 =>
  match deref h4 clipVert with
  | none => none
  | some cv =>
  let (h5, edgeVert) := alloc h4 { mPoint := cv.mPoint, mClassification := r.line0Flags }
  match store h5 clipVert (fun v => { v with mTwin := edgeVert }) with
  | none => none
  | some h6 =>
  match store h6 edgeVert (fun v => { v with mTwin := clipVert }) with
  | none => none
  | some h7 => some (h7, newVerts ++ [{ mVertex := edgeVert, mTime := r.time }])

/-- The `do ... while(clipStart != clipRegion.mHead)` loop of `Clipper::ClipEdges`. -/
def ClipEdgesLoop (start end_ head : Ptr) :
    Nat → Ptr → Heap → List IntersectionVerts → Option (Heap × List IntersectionVerts)
  | 0, _, _, _ => none
  | fuel + 1, clipStart, h, newVerts =>
    match deref h clipStart with
    | none => none
    | some cs =>
    let clipNext := cs.mNext
    match deref h start, deref h end_, deref h clipNext with
    | some s, some e, some cn =>
      let r := ComputeIntersectionPoint s.mPoint e.mPoint cs.mPoint cn.mPoint
      match (if 0 ≤ r.time ∧ r.time ≤ 1 then
              ClipEdgesInsert h s.mPoint e.mPoint clipStart clipNext r newVerts
             else some (h, newVerts)) with
      | none => none
      | some (h', newVerts') =>
        if clipNext ≠ head then ClipEdgesLoop start end_ head fuel clipNext h' newVerts'
        else some (h', newVerts')
    | _, _, _ => none

/-- The insertion loop at the end of `Clipper::ClipEdges`; returns the heap and the
final `prevVertex`. -/
def ClipEdgesThread : List IntersectionVerts → Ptr → Heap → Option (Heap × Ptr)
  | [], prevVertex, h => some (h, prevVertex)
  | nv :: rest, prevVertex, h =>
    match store h nv.mVertex (fun v => { v with mPrev := prevVertex }) with
    | none => none
    | some h1 =>
      match store h1 prevVertex (fun v => { v with mNext := nv.mVertex }) with
      | none => none
      | some h2 => ClipEdgesThread rest nv.mVertex h2

/-- The edge clipper `Clipper::ClipEdges`. `std::sort` by `mTime` is modelled by a
stable insertion sort. -/
def ClipEdges (fuel : Nat) (h : Heap) (start end_ : Ptr) (clipRegion : ClipVertexList) :
    Option Heap :=
  match ClipEdgesLoop start end_ clipRegion.mHead fuel clipRegion.mHead h [] with
  | none => none
  | some (h1, newVerts) =>
    let sorted := List.insertionSort (fun a b => a.mTime ≤ b.mTime) newVerts
    match ClipEdgesThread sorted start h1 with
    | none => none
    | some (h2, lastNewVertex) =>
      if sorted.length ≠ 0 then
        match store h2 lastNewVertex (fun v => { v with mNext := end_ }) with
        | none => none
        | some h3 => store h3 end_ (fun v => { v with mPrev := lastNewVertex })
      else some h2

/-- The callback of `Clipper::ClipPolygon`. -/
def ClipPolygonCallback (fuel : Nat) (clipRegion : ClipVertexList) (vertex nextVertex : Ptr)
    (st : Heap × Unit) : Option (Bool × Ptr × (Heap × Unit)) :=
  match deref st.1 vertex with
  | none => none
  | some v =>
    match ClipEdges fuel st.1 vertex v.mNext clipRegion with
    | none => none
    | some h => some (true, nextVertex, (h, ()))

/-- The enricher `Clipper::ClipPolygon`. -/
def ClipPolygon (fuel : Nat) (h : Heap) (polygonToClip clipRegion : ClipVertexList) :
    Option Heap :=
  (Traverse (ClipPolygonCallback fuel clipRegion) fuel polygonToClip.mHead polygonToClip.mHead
    (h, ())).map Prod.fst

/-- The ring-pair builder `Clipper::BuildClipList`; returns the heap, `polyList` and
`clipRegionList`. -/
def BuildClipList (fuel : Nat) (polygonPoints clipRegionPoints : PointContour) (h : Heap) :
    Option (Heap × ClipVertexList × ClipVertexList) :=
  match BuildVertexList clipRegionPoints h with
  | none => none
  | some (h1, clipRegionList) =>
  match BuildVertexList polygonPoints h1 with
  | none => none
  | some (h2, polyList) =>
  match ClipPolygon fuel h2 polyList clipRegionList with
  | none => none
  | some h3 =>
  match ClassifyVertices fuel h3 polyList with
  | none => none
  | some h4 =>
  match ClassifyVertices fuel h4 clipRegionList with
  | none => none
  | some h5 => some (h5, polyList, clipRegionList)

/-! ## Clipper.cpp: the boolean traversers -/

/-- The callback of the traversal in `Clipper::Union`; the captured local is `results`. -/
def UnionCallback (fuel : Nat) (vertex nextVertex : Ptr) (st : Heap × PointContour) :
    Option (Bool × Ptr × (Heap × PointContour)) :=
  match deref st.1 vertex with
  | none => none
  | some v =>
    let results := st.2 ++ [v.mPoint]
    if v.mTwin ≠ none then
      match WalkTwinListForwards fuel st.1 vertex results with
      | none => none
      | some (next, results') =>
        match deref st.1 next with
        | none => none
        | some n => some (true, n.mNext, (st.1, results'))
    else some (true, nextVertex, (st.1, results))

/-- The ring-level `Clipper::Union(ClipVertexList&, PointContour&)`. -/
def UnionList (fuel : Nat) (h : Heap) (polygon : ClipVertexList) (results : PointContour) :
    Option PointContour :=
  match FindFirstOf fuel h polygon.mHead ClipVertexClassification.OutToIn with
  | none => none
  | some firstIntersection =>
    if firstIntersection = none then some results
    else
      (Traverse (UnionCallback fuel) fuel firstIntersection firstIntersection (h, results)).map
        Prod.snd

/-- The inner `do ... while` loop of `Clipper::Subtract`, tracing one contour. The
worklist `verticesToVisit` is a stack whose top (`back()`) is the head of the list. -/
def SubtractTrace (contourStart : Ptr) :
    Nat → Heap → Ptr → ClipVertexSearchDirection → List Ptr → PointContour →
      Option (Heap × List Ptr × PointContour)
  | 0, _, _, _, _, _ => none
  | fuel + 1, h, vertex, direction, verticesToVisit, currentContour =>
    match deref h vertex with
    | none => none
    | some v =>
    let currentContour := currentContour ++ [v.mPoint]
    match store h vertex (fun c => { c with mVisited := true }) with
    | none => none
    | some h1 =>
    let vertex1 := GetNext v direction
    match deref h1 vertex1 with
    | none => none
    | some v1 =>
    let pushed : Option (List Ptr) :=
      if v1.mTwin ≠ none ∧ v1.mVisited = false ∧
          direction = ClipVertexSearchDirection.Forwards ∧
          v1.mClassification = ClipVertexClassification.OutToIn then
        (FindFirstOf fuel h1 vertex1 ClipVertexClassification.InToOut).map
          (fun nextVertToLeaveClipRegion => nextVertToLeaveClipRegion :: verticesToVisit)
      else some verticesToVisit
    match pushed with
    | none => none
    | some verticesToVisit1 =>
    let direction1 := if v1.mTwin ≠ none then FlipSearchDirection direction else direction
    let vertex2 := if v1.mTwin ≠ none then v1.mTwin else vertex1
    if vertex2 = contourStart then some (h1, verticesToVisit1, currentContour)
    else
      match deref h1 vertex2 with
      | none => none
      | some v2 =>
        if v2.mTwin = contourStart then some (h1, verticesToVisit1, currentContour)
        else SubtractTrace contourStart fuel h1 vertex2 direction1 verticesToVisit1 currentContour

/-- The worklist loop `while(!verticesToVisit.empty())` of `Clipper::Subtract`. -/
def SubtractLoop : Nat → Heap → List Ptr → PointContourList → Option PointContourList
  | 0, _, _, _ => none
  | _ + 1, _, [], contours => some contours
  | fuel + 1, h, contourStart :: verticesToVisit, contours =>
    match deref h contourStart with
    | none => none
    | some cs =>
      if cs.mVisited = true then SubtractLoop fuel h verticesToVisit contours
      else
        match SubtractTrace contourStart fuel h contourStart ClipVertexSearchDirection.Forwards
            verticesToVisit [] with
        | none => none
        | some (h1, verticesToVisit1, currentContour) =>
          SubtractLoop fuel h1 verticesToVisit1 (contours ++ [currentContour])

/-- The ring-level `Clipper::Subtract(ClipVertexList&, PointContourList&)`. -/
def SubtractList (fuel : Nat) (h : Heap) (polygon : ClipVertexList)
    (contours : PointContourList) : Option PointContourList :=
  match FindFirstOf fuel h polygon.mHead ClipVertexClassification.InToOut with
  | none => none
  | some head =>
    if head = none then some contours
    else SubtractLoop fuel h [head] contours

/-- The inner `do ... while` loop of `Clipper::Intersect`, tracing one contour. -/
def IntersectTrace (contourStart : Ptr) :
    Nat → Heap → Ptr → List Ptr → PointContour → Option (Heap × List Ptr × PointContour)
  | 0, _, _, _, _ => none
  | fuel + 1, h, vertex, verticesToVisit, currentContour =>
    match deref h vertex with
    | none => none
    | some v =>
    let currentContour := currentContour ++ [v.mPoint]
    match store h vertex (fun c => { c with mVisited := true }) with
    | none => none
    | some h1 =>
    let vertex1 := v.mNext
    match deref h1 vertex1 with
    | none => none
    | some v1 =>
    let pushed : Option (List Ptr) :=
      if v1.mClassification = ClipVertexClassification.InToOut ∧ v1.mVisited = false then
        (FindFirstOf fuel h1 vertex1 ClipVertexClassification.OutToIn).map
          (fun nextVertToLeaveClipRegion => nextVertToLeaveClipRegion :: verticesToVisit)
      else some verticesToVisit
    match pushed with
    | none => none
    | some verticesToVisit1 =>
    let vertex2 :=
      if v1.mClassification = ClipVertexClassification.InToOut then v1.mTwin else vertex1
    if vertex2 = contourStart then some (h1, verticesToVisit1, currentContour)
    else
      match deref h1 vertex2 with
      | none => none
      | some v2 =>
        if v2.mTwin = contourStart then some (h1, verticesToVisit1, currentContour)
        else IntersectTrace contourStart fuel h1 vertex2 verticesToVisit1 currentContour

/-- The worklist loop `while(!verticesToVisit.empty())` of `Clipper::Intersect`. -/
def IntersectLoop : Nat → Heap → List Ptr → PointContourList → Option PointContourList
  | 0, _, _, _ => none
  | _ + 1, _, [], contours => some contours
  | fuel + 1, h, contourStart :: verticesToVisit, contours =>
    match deref h contourStart with
    | none => none
    | some cs =>
      if cs.mVisited = true then IntersectLoop fuel h verticesToVisit contours
      else
        match IntersectTrace contourStart fuel h contourStart verticesToVisit [] with
        | none => none
        | some (h1, verticesToVisit1, currentContour) =>
          IntersectLoop fuel h1 verticesToVisit1 (contours ++ [currentContour])

/-- The ring-level `Clipper::Intersect(ClipVertexList&, PointContourList&)`. -/
def IntersectList (fuel : Nat) (h : Heap) (polygon : ClipVertexList)
    (contours : PointContourList) : Option PointContourList :=
  match FindFirstOf fuel h polygon.mHead ClipVertexClassification.OutToIn with
  | none => none
  | some head =>
    if head = none then some contours
    else IntersectLoop fuel h [head] contours

/-- The end of scope of the public overloads: `polyList` is destroyed, then `clipList`. -/
def destroyLists (fuel : Nat) (h : Heap) (polyList clipList : ClipVertexList) : Option Unit :=
  match polyList.destroy fuel h with
  | none => none
  | some _ => clipList.destroy fuel h

/-- The public `Clipper::Union(polygonPoints, clipRegion, results)`; the value is the
final content of `results`. -/
def Union (fuel : Nat) (polygonPoints clipRegion : PointContour) : Option PointContour :=
  match BuildClipList fuel polygonPoints clipRegion [] with
  | none => none
  | some (h, polyList, clipList) =>
    match UnionList fuel h polyList [] with
    | none => none
    | some results => (destroyLists fuel h polyList clipList).map (fun _ => results)

/-- The public `Clipper::Subtract(polygonPoints, clipRegion, contours)`; the value is
the final content of `contours`. -/
def Subtract (fuel : Nat) (polygonPoints clipRegion : PointContour) :
    Option PointContourList :=
  match BuildClipList fuel polygonPoints clipRegion [] with
  | none => none
  | some (h, polyList, clipList) =>
    match SubtractList fuel h polyList [] with
    | none => none
    | some contours => (destroyLists fuel h polyList clipList).map (fun _ => contours)

/-- The public `Clipper::Intersect(polygonPoints, clipRegion, contours)`; the value is
the final content of `contours`. -/
def Intersect (fuel : Nat) (polygonPoints clipRegion : PointContour) :
    Option PointContourList :=
  match BuildClipList fuel polygonPoints clipRegion [] with
  | none => none
  | some (h, polyList, clipList) =>
    match IntersectList fuel h polyList [] with
    | none => none
    | some contours => (destroyLists fuel h polyList clipList).map (fun _ => contours)

/-! ## Observers used to state the properties -/

/-- The code returns `r`: from some fuel on, every run of `f` yields `r`. -/
def Returns {α : Type} (f : Nat → Option α) (r : α) : Prop :=
  ∃ n, ∀ fuel, n ≤ fuel → f fuel = some r

/-- The point of the first segment at parameter `t`, computed as in `Clipper::ClipEdges`:
`start + (end - start) * t`. -/
def pointAt (p0 p1 : Vec2) (t : ℚ) : Vec2 := p0.add ((p1.sub p0).scale t)

/-- The call `ComputeIntersectionPoint` reports an intersection: its value is not the
sentinel `-1`. -/
def ReportsIntersection (r : Intersection) : Prop := r.time ≠ -1

/-- The point `X` lies on the closed segment from `q0` to `q1`. -/
def OnSegment (q0 q1 X : Vec2) : Prop :=
  ∃ s : ℚ, 0 ≤ s ∧ s ≤ 1 ∧ X = q0.add ((q1.sub q0).scale s)

/-- Shoelace signed area of a contour (half the sum of the cross products of
consecutive points, cyclically). -/
def shoelaceArea (c : PointContour) : ℚ :=
  ((c.zip (c.rotate 1)).map (fun e => Cross2d e.1 e.2)).sum / 2

/-! ## The contours of the concrete scenarios -/

/-- The unit square `[(0,0),(1,0),(1,1),(0,1)]`. -/
def unitSquare : PointContour := [⟨0, 0⟩, ⟨1, 0⟩, ⟨1, 1⟩, ⟨0, 1⟩]

/-- The unit square offset by `(0.5, 0.5)`. -/
def offsetSquare : PointContour := [⟨1/2, 1/2⟩, ⟨3/2, 1/2⟩, ⟨3/2, 3/2⟩, ⟨1/2, 3/2⟩]

/-- The disjoint square `(2,2)..(3,3)`. -/
def disjointSquare : PointContour := [⟨2, 2⟩, ⟨3, 2⟩, ⟨3, 3⟩, ⟨2, 3⟩]

/-- The square `[(0,0),(4,0),(4,4),(0,4)]`. -/
def bigSquare : PointContour := [⟨0, 0⟩, ⟨4, 0⟩, ⟨4, 4⟩, ⟨0, 4⟩]

/-- The thin rectangle `[(1,-1),(2,-1),(2,5),(1,5)]` piercing `bigSquare`. -/
def thinRect : PointContour := [⟨1, -1⟩, ⟨2, -1⟩, ⟨2, 5⟩, ⟨1, 5⟩]

/-- A U-shaped octagon of area 13, counter-clockwise. -/
def uShape : PointContour :=
  [⟨0, 0⟩, ⟨5, 0⟩, ⟨5, 5⟩, ⟨4, 5⟩, ⟨4, 1⟩, ⟨1, 1⟩, ⟨1, 5⟩, ⟨0, 5⟩]

/-- A bar of area 7 across the two arms of `uShape`, counter-clockwise. -/
def bar : PointContour := [⟨-1, 2⟩, ⟨6, 2⟩, ⟨6, 3⟩, ⟨-1, 3⟩]

/-- The links written by the second loop of `BuildVertexList` into cell `i`. -/
def linkCell (base count i : Nat) (v : ClipVertex) : ClipVertex :=
  { v with mNext := some (base + (i + 1) % count), mPrev := some (base + (i + count - 1) % count) }

/-- The visitor of the read-back traversal: append `mPoint` of the visited vertex. -/
def ReadPointsCallback (vertex nextVertex : Ptr) (st : Heap × PointContour) :
    Option (Bool × Ptr × (Heap × PointContour)) :=
  match deref st.1 vertex with
  | none => none
  | some v => some (true, nextVertex, (st.1, st.2 ++ [v.mPoint]))

/-- Forward traversal from `mHead` with `ClipVertex::Traverse`, reading `mPoint` of each
vertex once around the ring. -/
def ReadPoints (fuel : Nat) (h : Heap) (l : ClipVertexList) : Option PointContour :=
  (Traverse ReadPointsCallback fuel l.mHead l.mHead (h, [])).map Prod.snd

/-- The edges of a contour: each point paired with its cyclic successor. -/
def edges (c : PointContour) : List (Vec2 × Vec2) := c.zip (c.rotate 1)

/-- `ComputeIntersectionPoint` reports no intersection for any (subject edge, clip edge)
pair. -/
def NoCrossing (subject clip : PointContour) : Prop :=
  ∀ e ∈ edges subject, ∀ f ∈ edges clip,
    ¬ ReportsIntersection (ComputeIntersectionPoint e.1 e.2 f.1 f.2)

/-- The cells listed in `r` form a ring of the heap: they are distinct and `mNext` of each
is the next cell of the list, cyclically. -/
def IsRing (h : Heap) (r : List Nat) : Prop :=
  r.Nodup ∧ ∀ k a, r[k]? = some a → ∃ v, h[a]? = some v ∧ v.mNext = r[(k + 1) % r.length]?

/-- The cells `base, base+1, ...` of the heap hold the ring of the contour `pts` as
`BuildVertexList` links it, every cell carrying the tag `tag`. -/
def BuiltRing (h : Heap) (base : Nat) (pts : PointContour) (tag : ClipVertexClassification) :
    Prop :=
  ∀ i p, pts[i]? = some p → ∃ v, h[base + i]? = some v ∧ v.mPoint = p ∧
    v.mNext = some (base + (i + 1) % pts.length) ∧ v.mClassification = tag

/-- A simple contour: two distinct edges meet only at the shared endpoint of adjacent
edges. -/
def Simple (P : PointContour) : Prop :=
  ∀ (i j : Nat) (p0 p1 q0 q1 X : Vec2), i ≠ j →
    P[i]? = some p0 → P[(i + 1) % P.length]? = some p1 →
    P[j]? = some q0 → P[(j + 1) % P.length]? = some q1 →
    OnSegment p0 p1 X → OnSegment q0 q1 X →
    (j = (i + 1) % P.length ∧ X = p1) ∨ (i = (j + 1) % P.length ∧ X = p0)

/-- No three consecutive points of the contour are collinear (in particular no two
consecutive points coincide). -/
def NonDegenerate (P : PointContour) : Prop :=
  ∀ t ∈ P.zip ((P.rotate 1).zip (P.rotate 2)), SignedArea t.1 t.2.1 t.2.2 ≠ 0

/-- No vertex of one contour lies on the supporting line of an edge of the other. -/
def GeneralPosition (A B : PointContour) : Prop :=
  ∀ e ∈ edges A, ∀ f ∈ edges B,
    SignedArea e.1 e.2 f.1 ≠ 0 ∧ SignedArea e.1 e.2 f.2 ≠ 0 ∧
    SignedArea f.1 f.2 e.1 ≠ 0 ∧ SignedArea f.1 f.2 e.2 ≠ 0

/-- The area of a list of contours: the sum of the shoelace areas. -/
def totalArea (cs : PointContourList) : ℚ := (cs.map shoelaceArea).sum

/-- A crossing tag: `OutToIn` or `InToOut`. -/
def IsCrossing (c : ClipVertexClassification) : Prop :=
  c = ClipVertexClassification.OutToIn ∨ c = ClipVertexClassification.InToOut

/-- Two tags are complementary: one is `OutToIn` and the other `InToOut`. -/
def Complementary (a b : ClipVertexClassification) : Prop :=
  (a = ClipVertexClassification.OutToIn ∧ b = ClipVertexClassification.InToOut) ∨
  (a = ClipVertexClassification.InToOut ∧ b = ClipVertexClassification.OutToIn)

/-- The heap that the `if(0 <= time && time <= 1)` block of `ClipEdges` leaves behind,
cell by cell: the clip-side vertex is cell `h.length`, the subject-side vertex is cell
`h.length + 1`, and of the old cells only `mNext` of `clipStart` and `mPrev` of `clipNext`
change. -/
def insertedHeapCell (h : Heap) (point : Vec2) (r : Intersection) (cs cn a : Nat) :
    Option ClipVertex :=
  if a = h.length then
    some { mPoint := point, mClassification := r.line1Flags, mVisited := false,
           mTwin := some (h.length + 1), mPrev := some cs, mNext := some cn }
  else if a = h.length + 1 then
    some { mPoint := point, mClassification := r.line0Flags, mVisited := false,
           mTwin := some h.length, mPrev := none, mNext := none }
  else
    (h[a]?).map (fun v =>
      { v with mNext := if a = cs then some h.length else v.mNext,
               mPrev := if a = cn then some h.length else v.mPrev })

/-- The visitor of the vertex read-back: append the visited cell. -/
def ReadVerticesCallback (vertex nextVertex : Ptr) (st : Heap × List ClipVertex) :
    Option (Bool × Ptr × (Heap × List ClipVertex)) :=
  match deref st.1 vertex with
  | none => none
  | some v => some (true, nextVertex, (st.1, st.2 ++ [v]))

/-- Forward traversal from `mHead` with `ClipVertex::Traverse`, reading every vertex once
around the ring. -/
def ReadVertices (fuel : Nat) (h : Heap) (l : ClipVertexList) : Option (List ClipVertex) :=
  (Traverse ReadVerticesCallback fuel l.mHead l.mHead (h, [])).map Prod.snd

/-- The points and tags met when walking the subject ring and the clip ring forward from
their heads after `BuildClipList`. -/
def ringTags (fuel : Nat) (subject clip : PointContour) :
    Option (List (Vec2 × ClipVertexClassification) × List (Vec2 × ClipVertexClassification)) :=
  match BuildClipList fuel subject clip [] with
  | none => none
  | some (h, polyList, clipList) =>
    match ReadVertices fuel h polyList, ReadVertices fuel h clipList with
    | some a, some b =>
      some (a.map (fun v => (v.mPoint, v.mClassification)),
            b.map (fun v => (v.mPoint, v.mClassification)))
    | _, _ => none

/-- The side that follows a crossing: `Outside` after `InToOut`, `Inside` after
`OutToIn`. -/
def sideAfter (c : ClipVertexClassification) : ClipVertexClassification :=
  if c = ClipVertexClassification.InToOut then ClipVertexClassification.Outside
  else ClipVertexClassification.Inside

/-- Walk a list of tags forward, giving every non-crossing position the current side and
updating the side at every crossing. -/
def sideScan (side : ClipVertexClassification) :
    List ClipVertexClassification → List ClipVertexClassification
  | [] => []
  | t :: ts =>
    if t = ClipVertexClassification.OutToIn ∨ t = ClipVertexClassification.InToOut then
      t :: sideScan (sideAfter t) ts
    else side :: sideScan side ts

/-- The tags a ring should carry when every original vertex is tagged by the nearest
crossing that precedes it cyclically: the scan starts with the side implied by the last
crossing of the ring. -/
def sidesByPrecedingCrossing (tags : List ClipVertexClassification) :
    List ClipVertexClassification :=
  match (tags.filter (fun t =>
      t = ClipVertexClassification.OutToIn ∨ t = ClipVertexClassification.InToOut)).getLast? with
  | none => tags
  | some c => sideScan (sideAfter c) tags

/-- A four-cell heap holding one ring without crossings, all tags `None`. -/
def plainRingHeap : Heap :=
  [{ mPoint := ⟨0, 0⟩, mPrev := some 3, mNext := some 1 },
   { mPoint := ⟨1, 0⟩, mPrev := some 0, mNext := some 2 },
   { mPoint := ⟨1, 1⟩, mPrev := some 1, mNext := some 3 },
   { mPoint := ⟨0, 1⟩, mPrev := some 2, mNext := some 0 }]

/-! ## IEEE-754 binary32 arithmetic

The definitions of the namespace `Binary32` repeat the arithmetic of the source with every
operation rounded to the nearest binary32 number (ties to even, 24-bit significand,
gradual underflow below `2^-126`). The exponent range is not bounded above: a result
beyond the largest finite number, which the machine turns into an infinity, is kept as a
rational number of that size, so that it still compares as larger than every finite
number. The functions without arithmetic (`BuildVertexList`, `ClassifyVertices`, the
traversers on rings) are shared with the exact model. -/

namespace Binary32

/-- The power `2 ^ z` for an integer exponent. -/
def pow2 (z : ℤ) : ℚ := if 0 ≤ z then ((2 ^ z.toNat : ℕ) : ℚ) else 1 / ((2 ^ (-z).toNat : ℕ) : ℚ)

/-- The position of the leading binary digit of `n`, found by halving: `⌊log₂ n⌋` when
the fuel is at least `n`. -/
def leadingBit : Nat → Nat → Nat
  | 0, _ => 0
  | fuel + 1, n => if 2 ≤ n then leadingBit fuel (n / 2) + 1 else 0

/-- The exponent `e` of a non-zero number: `2 ^ e ≤ |x| < 2 ^ (e + 1)`. -/
def exponent (x : ℚ) : ℤ :=
  let k : ℤ := (leadingBit x.num.natAbs x.num.natAbs : ℤ) - (leadingBit x.den x.den : ℤ)
  if pow2 k ≤ |x| then k else k - 1

/-- Rounding to the nearest integer, ties to even. -/
def roundEven (r : ℚ) : ℤ :=
  let f := Rat.floor r
  if r - f < 1 / 2 then f
  else if 1 / 2 < r - f then f + 1
  else if f % 2 = 0 then f else f + 1

/-- Rounding of an exact result to binary32: the spacing of the numbers around `x` is
`2 ^ (e - 23)` with `e` the exponent of `x`, and `2 ^ -149` for subnormal `x`. -/
def round (x : ℚ) : ℚ :=
  if x = 0 then 0
  else
    let ulp := pow2 (max (exponent x) (-126) - 23)
    (roundEven (x / ulp) : ℚ) * ulp

/-- Float addition. -/
def fadd (a b : ℚ) : ℚ := round (a + b)

/-- Float subtraction. -/
def fsub (a b : ℚ) : ℚ := round (a - b)

/-- Float multiplication. -/
def fmul (a b : ℚ) : ℚ := round (a * b)

/-- Float division. -/
def fdiv (a b : ℚ) : ℚ := round (a / b)

/-- Component sum, `Vec2::operator+`. -/
def Vec2.add (a b : Vec2) : Vec2 := ⟨fadd a.x b.x, fadd a.y b.y⟩

/-- Component difference, `Vec2::operator-`. -/
def Vec2.sub (a b : Vec2) : Vec2 := ⟨fsub a.x b.x, fsub a.y b.y⟩

/-- Scaling, `Vec2::operator*(float)`. -/
def Vec2.scale (a : Vec2) (value : ℚ) : Vec2 := ⟨fmul a.x value, fmul a.y value⟩

/-- Dot product, `Vec2::Dot`. -/
def Vec2.Dot (lhs rhs : Vec2) : ℚ := fadd (fmul lhs.x rhs.x) (fmul lhs.y rhs.y)

/-- Squared distance, `Vec2::DistanceSq`. -/
def Vec2.DistanceSq (lhs rhs : Vec2) : ℚ := Vec2.Dot (Vec2.sub lhs rhs) (Vec2.sub lhs rhs)

/-- The 2D cross product `Cross2d`. -/
def Cross2d (lhs rhs : Vec2) : ℚ := fsub (fmul lhs.x rhs.y) (fmul lhs.y rhs.x)

/-- The signed triangle area `SignedArea`. -/
def SignedArea (a b c : Vec2) : ℚ := Cross2d (Vec2.sub a c) (Vec2.sub b c)

/-- The segment intersection test `ComputeIntersectionPoint`. -/
def ComputeIntersectionPoint (start0 end0 start1 end1 : Vec2) : Intersection :=
  let a1 := SignedArea start0 end0 end1
  let a2 := SignedArea start0 end0 start1
  let a3 := SignedArea start1 end1 start0
  let a4 := fsub (fadd a3 a2) a1
  if fmul a1 a2 > 0 then
    ⟨-1, ClipVertexClassification.None, ClipVertexClassification.None⟩
  else if fmul a3 a4 < 0 then
    ⟨fdiv a3 (fsub a3 a4),
      if a3 < 0 then ClipVertexClassification.InToOut else ClipVertexClassification.OutToIn,
      if a2 < 0 then ClipVertexClassification.InToOut else ClipVertexClassification.OutToIn⟩
  else
    ⟨-1, ClipVertexClassification.None, ClipVertexClassification.None⟩

/-- The body of the `if(0 <= time && time <= 1)` block of `Clipper::ClipEdges`. -/
def ClipEdgesInsert (h : Heap) (startPoint endPoint : Vec2) (clipStart clipNext : Ptr)
    (r : Intersection) (newVerts : List IntersectionVerts) :
    Option (Heap × List IntersectionVerts) :=
  let point := Vec2.add startPoint (Vec2.scale (Vec2.sub endPoint startPoint) r.time)
  let (h1, clipVert) := alloc h { mPoint := point, mClassification := r.line1Flags }
  match store h1 clipStart (fun v => { v with mNext := clipVert }) with
  | none => none
  | some h2 =>
  match store h2 clipVert (fun v => { v with mPrev := clipStart, mNext := clipNext }) with
  | none => none
  | some h3 =>
  match store h3 clipNext (fun v => { v with mPrev := clipVert }) with
  | none => none
  | some h4 =>
  match deref h4 clipVert with
  | none => none
  | some cv =>
  let (h5, edgeVert) := alloc h4 { mPoint := cv.mPoint, mClassification := r.line0Flags }
  match store h5 clipVert (fun v => { v with mTwin := edgeVert }) with
  | none => none
  | some h6 =>
  match store h6 edgeVert (fun v => { v with mTwin := clipVert }) with
  | none => none
  | some h7 => some (h7, newVerts ++ [{ mVertex := edgeVert, mTime := r.time }])

/-- The `do ... while(clipStart != clipRegion.mHead)` loop of `Clipper::ClipEdges`. -/
def ClipEdgesLoop (start end_ head : Ptr) :
    Nat → Ptr → Heap → List IntersectionVerts → Option (Heap × List IntersectionVerts)
  | 0, _, _, _ => none
  | fuel + 1, clipStart, h, newVerts =>
    match deref h clipStart with
    | none => none
    | some cs =>
    let clipNext := cs.mNext
    match deref h start, deref h end_, deref h clipNext with
    | some s, some e, some cn =>
      let r := ComputeIntersectionPoint s.mPoint e.mPoint cs.mPoint cn.mPoint
      match (if 0 ≤ r.time ∧ r.time ≤ 1 then
              ClipEdgesInsert h s.mPoint e.mPoint clipStart clipNext r newVerts
             else some (h, newVerts)) with
      | none => none
      | some (h', newVerts') =>
        if clipNext ≠ head then ClipEdgesLoop start end_ head fuel clipNext h' newVerts'
        else some (h', newVerts')
    | _, _, _ => none

/-- The edge clipper `Clipper::ClipEdges`. -/
def ClipEdges (fuel : Nat) (h : Heap) (start end_ : Ptr) (clipRegion : ClipVertexList) :
    Option Heap :=
  match ClipEdgesLoop start end_ clipRegion.mHead fuel clipRegion.mHead h [] with
  | none => none
  | some (h1, newVerts) =>
    let sorted := List.insertionSort (fun a b => a.mTime ≤ b.mTime) newVerts
    match ClipEdgesThread sorted start h1 with
    | none => none
    | some (h2, lastNewVertex) =>
      if sorted.length ≠ 0 then
        match store h2 lastNewVertex (fun v => { v with mNext := end_ }) with
        | none => none
        | some h3 => store h3 end_ (fun v => { v with mPrev := lastNewVertex })
      else some h2

/-- The callback of `Clipper::ClipPolygon`. -/
def ClipPolygonCallback (fuel : Nat) (clipRegion : ClipVertexList) (vertex nextVertex : Ptr)
    (st : Heap × Unit) : Option (Bool × Ptr × (Heap × Unit)) :=
  match deref st.1 vertex with
  | none => none
  | some v =>
    match ClipEdges fuel st.1 vertex v.mNext clipRegion with
    | none => none
    | some h => some (true, nextVertex, (h, ()))

/-- The enricher `Clipper::ClipPolygon`. -/
def ClipPolygon (fuel : Nat) (h : Heap) (polygonToClip clipRegion : ClipVertexList) :
    Option Heap :=
  (Traverse (ClipPolygonCallback fuel clipRegion) fuel polygonToClip.mHead polygonToClip.mHead
    (h, ())).map Prod.fst

/-- The ring-pair builder `Clipper::BuildClipList`. -/
def BuildClipList (fuel : Nat) (polygonPoints clipRegionPoints : PointContour) (h : Heap) :
    Option (Heap × ClipVertexList × ClipVertexList) :=
  match BuildVertexList clipRegionPoints h with
  | none => none
  | some (h1, clipRegionList) =>
  match BuildVertexList polygonPoints h1 with
  | none => none
  | some (h2, polyList) =>
  match ClipPolygon fuel h2 polyList clipRegionList with
  | none => none
  | some h3 =>
  match ClassifyVertices fuel h3 polyList with
  | none => none
  | some h4 =>
  match ClassifyVertices fuel h4 clipRegionList with
  | none => none
  | some h5 => some (h5, polyList, clipRegionList)

/-- The public `Clipper::Union(polygonPoints, clipRegion, results)`. -/
def Union (fuel : Nat) (polygonPoints clipRegion : PointContour) : Option PointContour :=
  match BuildClipList fuel polygonPoints clipRegion [] with
  | none => none
  | some (h, polyList, clipList) =>
    match UnionList fuel h polyList [] with
    | none => none
    | some results => (destroyLists fuel h polyList clipList).map (fun _ => results)

/-- The public `Clipper::Subtract(polygonPoints, clipRegion, contours)`. -/
def Subtract (fuel : Nat) (polygonPoints clipRegion : PointContour) :
    Option PointContourList :=
  match BuildClipList fuel polygonPoints clipRegion [] with
  | none => none
  | some (h, polyList, clipList) =>
    match SubtractList fuel h polyList [] with
    | none => none
    | some contours => (destroyLists fuel h polyList clipList).map (fun _ => contours)

/-- The public `Clipper::Intersect(polygonPoints, clipRegion, contours)`. -/
def Intersect (fuel : Nat) (polygonPoints clipRegion : PointContour) :
    Option PointContourList :=
  match BuildClipList fuel polygonPoints clipRegion [] with
  | none => none
  | some (h, polyList, clipList) =>
    match IntersectList fuel h polyList [] with
    | none => none
    | some contours => (destroyLists fuel h polyList clipList).map (fun _ => contours)

/-- The literal `0.01f`, the default tolerance of `FindPointIn` and `TestContour`. -/
def defaultEpsilon : ℚ := round (1 / 100)

/-- The literal `0.1f`. -/
def tenth : ℚ := round (1 / 10)

/-- A simple triangle with float coordinates: `[(0,0),(0.1f,0),(0.5,0.5)]`. -/
def thinTriangle : PointContour := [⟨0, 0⟩, ⟨tenth, 0⟩, ⟨1/2, 1/2⟩]

end Binary32

/-! ## Tests/main.cpp: contour comparison

The squared distances are computed in binary32, as in the source, and compared with the
tolerance. -/

/-- The search `FindPointIn`: the index of the first point of `pointList` within squared
distance `epsilon` of `point`, or `pointList.size()` when there is none. -/
def FindPointIn (point : Vec2) : PointContour → ℚ → Nat
  | [], _ => 0
  | p :: rest, epsilon =>
    if Binary32.Vec2.DistanceSq point p ≤ epsilon then 0
    else FindPointIn point rest epsilon + 1

/-- The cell behind the pointer `p` exists and its point differs from the point of `v`. -/
def neighbourDistinct (h : Heap) (v : ClipVertex) (p : Ptr) : Bool :=
  match deref h p with
  | none => false
  | some w => decide (w.mPoint ≠ v.mPoint)

/-- If the cell `v` at index `a` has a twin, the twin points back at `a` and has the same
point. -/
def twinBack (h : Heap) (a : Nat) (v : ClipVertex) : Bool :=
  match v.mTwin with
  | none => true
  | some t =>
    match h[t]? with
    | none => false
    | some w => decide (w.mTwin = some a ∧ w.mPoint = v.mPoint)

/-- A twin-linked ring pair whose ring-adjacent vertices have distinct points: every cell
has a forward and a backward neighbour with a different point, and twins point at each
other and share their point. -/
def TwinLinked (h : Heap) : Prop :=
  ∀ p ∈ h.enum, neighbourDistinct h p.2 p.2.mNext = true ∧
    neighbourDistinct h p.2 p.2.mPrev = true ∧ twinBack h p.1 p.2 = true

/-- The contour has at least two points and its first and last points are distinct. -/
def OpenEnded (c : PointContour) : Prop :=
  2 ≤ c.length ∧ c.head? ≠ c.getLast?

/-- The heap that `BuildClipList` leaves for the scenario of the two squares. -/
def scenarioHeap : Heap :=
  match BuildClipList 20 unitSquare offsetSquare [] with
  | some (h, _, _) => h
  | none => []

/-- In the heap `h` the cell `y` follows the cell `x`: `x.mNext == y` and `y.mPrev == x`. -/
def Link (h : Heap) (x y : Nat) : Prop :=
  (∃ v, h[x]? = some v ∧ v.mNext = some y) ∧ (∃ w, h[y]? = some w ∧ w.mPrev = some x)

/-- A ring list closed by a copy of its first cell. -/
def closed (r : List Nat) : List Nat := r ++ r.take 1

/-- The cells listed in `r`, in this order, form a doubly linked ring of the heap. -/
def Ring (h : Heap) (r : List Nat) : Prop :=
  r ≠ [] ∧ r.Nodup ∧ List.Chain' (Link h) (closed r)

/-- The heap `h'` keeps the point, tag, twin and visited flag of every cell of `h`. -/
def SameData (h h' : Heap) : Prop :=
  ∀ (a : Nat) (v : ClipVertex), h[a]? = some v → ∃ v' : ClipVertex, h'[a]? = some v' ∧
    v'.mPoint = v.mPoint ∧
    v'.mClassification = v.mClassification ∧ v'.mTwin = v.mTwin ∧ v'.mVisited = v.mVisited

/-- The twin discipline of one cell `v` at index `a`: either it has no twin and its tag
satisfies `plain`, or its twin is a cell of `other` that points back at `a` and has the
same point, and the tag of `v` is a crossing tag. -/
def TwinOK (plain : ClipVertexClassification → Prop) (h : Heap) (other : List Nat) (a : Nat)
    (v : ClipVertex) : Prop :=
  (v.mTwin = none ∧ plain v.mClassification) ∨
  (∃ (b : Nat) (w : ClipVertex), v.mTwin = some b ∧ b ∈ other ∧ h[b]? = some w ∧ w.mTwin = some a ∧
    w.mPoint = v.mPoint ∧ IsCrossing v.mClassification)

/-- The heap `h'` keeps the data of every cell of `h`, its `mNext` outside `X` and its
`mPrev` outside `Y`. -/
def Relink (X Y : List Nat) (h h' : Heap) : Prop :=
  ∀ (a : Nat) (v : ClipVertex), h[a]? = some v → ∃ v' : ClipVertex, h'[a]? = some v' ∧
    v'.mPoint = v.mPoint ∧ v'.mClassification = v.mClassification ∧ v'.mTwin = v.mTwin ∧
    v'.mVisited = v.mVisited ∧ (a ∉ X → v'.mNext = v.mNext) ∧ (a ∉ Y → v'.mPrev = v.mPrev)

/-- The tag of a vertex that is not a crossing, once classified. -/
def IsSide (c : ClipVertexClassification) : Prop :=
  c = ClipVertexClassification.Inside ∨ c = ClipVertexClassification.Outside

/-- The tag of a vertex that is not a crossing, before classification. -/
def IsUntagged (c : ClipVertexClassification) : Prop := c = ClipVertexClassification.None

/-- The state of the heap during enrichment: `rs` is the subject ring, `rc` the clip
ring, `pend` the subject-side crossing vertices created but not yet threaded into the
subject ring. The cells below `N0` are the original vertices, `oS` and `oC` list the
original subject and clip cells in contour order; `plainS` and `plainC` are the tags
allowed on the vertices without a twin. -/
structure Enr (plainS plainC : ClipVertexClassification → Prop) (N0 : Nat) (oS oC : List Nat)
    (h : Heap) (rs rc pend : List Nat) : Prop where
  ringS : Ring h rs
  ringC : Ring h rc
  nodupP : pend.Nodup
  disjSC : ∀ a ∈ rs, a ∉ rc
  disjSP : ∀ a ∈ pend, a ∉ rs
  disjCP : ∀ a ∈ pend, a ∉ rc
  cover : ∀ a, a < h.length → a ∈ rs ∨ a ∈ rc ∨ a ∈ pend
  pendIn : ∀ a ∈ pend, a < h.length
  pendNew : ∀ a ∈ pend, N0 ≤ a
  twinS : ∀ a ∈ rs ++ pend, ∀ v : ClipVertex, h[a]? = some v → TwinOK plainS h rc a v
  twinC : ∀ a ∈ rc, ∀ v : ClipVertex, h[a]? = some v → TwinOK plainC h (rs ++ pend) a v
  origTw : ∀ (a : Nat) (v : ClipVertex), h[a]? = some v → (v.mTwin = none ↔ a < N0)
  bound : N0 ≤ h.length
  filtS : rs.filter (fun a => decide (a < N0)) = oS
  filtC : rc.filter (fun a => decide (a < N0)) = oC
  headS : rs.head? = oS.head?
  headC : rc.head? = oC.head?
  unvisited : ∀ (a : Nat) (v : ClipVertex), h[a]? = some v → v.mVisited = false

/-- The parameter of the crossing that `ClipEdges` finds between the subject edge
`sp → ep` and the `i`-th edge of the clip ring `rc0` of the heap `h0`, if the test
`0 <= time && time <= 1` passes. -/
def edgeTime (h0 : Heap) (rc0 : List Nat) (sp ep : Vec2) (i : Nat) : Option ℚ :=
  match rc0[i]?, rc0[(i + 1) % rc0.length]? with
  | some a, some b =>
    match h0[a]?, h0[b]? with
    | some va, some vb =>
      let r := ComputeIntersectionPoint sp ep va.mPoint vb.mPoint
      if 0 ≤ r.time ∧ r.time ≤ 1 then some r.time else none
    | _, _ => none
  | _, _ => none

/-- The state of the `do ... while` loop of `ClipEdges` before it tests the `j`-th edge of
the clip ring `rc0` found at entry (heap `h0`): the current clip ring contains `rc0`, the
entry edges from `j` on are still adjacent, and the remembered subject-side vertices are
the crossings of the first `j` entry edges, in ring order. -/
def LoopInv (pS pC : ClipVertexClassification → Prop) (N0 : Nat) (oS oC : List Nat)
    (h0 : Heap) (rs rc0 : List Nat) (sp ep : Vec2) (j : Nat) (h : Heap)
    (nv : List IntersectionVerts) : Prop :=
  ∃ rc pend : List Nat, Enr pS pC N0 oS oC h rs rc pend ∧
    nv.map (fun x => x.mVertex) = pend.map some ∧
    (∀ a ∈ rc0, a ∈ rc) ∧
    (∀ a ∈ pend, h0.length ≤ a) ∧
    Relink rc0 rc0 h0 h ∧
    (∀ (i a : Nat), j ≤ i → rc0[i]? = some a →
      ∃ v : ClipVertex, h[a]? = some v ∧ v.mNext = rc0[(i + 1) % rc0.length]?) ∧
    nv.map (fun x => x.mTime) = (List.range j).filterMap (edgeTime h0 rc0 sp ep) ∧
    (∀ x ∈ nv, ∃ (p : Nat) (v : ClipVertex), x.mVertex = some p ∧ h[p]? = some v ∧
      v.mPoint = pointAt sp ep x.mTime)

/-- The heap `h'` is `h` with the untagged vertices of the ring `r` tagged `Inside` or
`Outside`; nothing else changes. -/
def Retag (r : List Nat) (h h' : Heap) : Prop :=
  h'.length = h.length ∧
  ∀ (a : Nat) (v : ClipVertex), h[a]? = some v → ∃ v' : ClipVertex, h'[a]? = some v' ∧
    v'.mPoint = v.mPoint ∧ v'.mTwin = v.mTwin ∧ v'.mVisited = v.mVisited ∧
    v'.mNext = v.mNext ∧ v'.mPrev = v.mPrev ∧
    ((a ∈ r ∧ v.mClassification = ClipVertexClassification.None) →
      IsSide v'.mClassification) ∧
    (¬ (a ∈ r ∧ v.mClassification = ClipVertexClassification.None) →
      v'.mClassification = v.mClassification)

/-- The link fields and flags of a cell, without its point. -/
def cellLinks (v : ClipVertex) : ClipVertexClassification × Bool × Ptr × Ptr × Ptr :=
  (v.mClassification, v.mVisited, v.mTwin, v.mPrev, v.mNext)

/-- The link fields and flags of a freshly built cell with the given neighbours. -/
def builtLinks (prev next : Nat) : ClipVertexClassification × Bool × Ptr × Ptr × Ptr :=
  (ClipVertexClassification.None, false, none, some prev, some next)

/-- The heap right after the two `BuildVertexList` calls of `BuildClipList`: the clip ring
is the cells `0 .. m-1`, the subject ring the cells `m .. m+n-1`, each cell linked to its
cyclic neighbours, untagged, unvisited and without twin. -/
def BuiltPair (m n : Nat) (h : Heap) : Prop :=
  h.length = m + n ∧
  (∀ i, i < m → (h[i]?).map cellLinks = some (builtLinks ((i + m - 1) % m) ((i + 1) % m))) ∧
  (∀ i, i < n → (h[m + i]?).map cellLinks =
    some (builtLinks (m + (i + n - 1) % n) (m + (i + 1) % n)))

instance (m n : Nat) (h : Heap) : Decidable (BuiltPair m n h) :=
  @instDecidableAnd _ _ inferInstance
    (@instDecidableAnd _ _ (@Nat.decidableBallLT m _ (fun _ _ => inferInstance))
      (@Nat.decidableBallLT n _ (fun _ _ => inferInstance)))

/-- The visitor of the pointer read-back: append the visited pointer. -/
def ReadPointersCallback (vertex nextVertex : Ptr) (st : Heap × List Ptr) :
    Option (Bool × Ptr × (Heap × List Ptr)) :=
  some (true, nextVertex, (st.1, st.2 ++ [vertex]))

/-- One turn of `ClipVertex::Traverse` from `mHead` that records every visited pointer:
the forward walk around a ring. -/
def ReadPointers (fuel : Nat) (h : Heap) (l : ClipVertexList) : Option (List Ptr) :=
  (Traverse ReadPointersCallback fuel l.mHead l.mHead (h, [])).map Prod.snd

/-- `BuildClipList` on the subject `P` and the clip contour `Q` returns the heap `h` with
`polyList.mHead` the cell `Q.length` and `clipRegionList.mHead` the cell `0`; `rs` and `rc`
list the cells of the subject ring and of the clip ring from their heads; the two rings
are disjoint and contain every cell of the heap. -/
def ClipListRings (P Q : PointContour) (h : Heap) (rs rc : List Nat) : Prop :=
  Returns (fun fuel => BuildClipList fuel P Q [])
    (h, { mHead := some Q.length }, { mHead := some 0 }) ∧
  Ring h rs ∧ rs.head? = some Q.length ∧ Ring h rc ∧ rc.head? = some 0 ∧
  (∀ a ∈ rs, a ∉ rc) ∧ (∀ a, a < h.length → a ∈ rs ∨ a ∈ rc)

/-- The heap after the two `BuildVertexList` calls of `BuildClipList` for the unit square
as subject and the offset square as clip contour. -/
def builtSquares : Heap :=
  match BuildVertexList offsetSquare [] with
  | none => []
  | some (h1, _) =>
    match BuildVertexList unitSquare h1 with
    | none => []
    | some (h2, _) => h2

/-- The cell of the subject vertex `(1,0)` in `builtSquares`. -/
def builtSquaresStart : ClipVertex := { mPoint := ⟨1, 0⟩, mPrev := some 4, mNext := some 6 }

/-- The cell of the subject vertex `(1,1)` in `builtSquares`. -/
def builtSquaresEnd : ClipVertex := { mPoint := ⟨1, 1⟩, mPrev := some 5, mNext := some 7 }

/-- The pointer `p` is a non-null `InToOut` vertex of the ring `rs`. -/
def LeavingVertex (h : Heap) (rs : List Nat) (p : Ptr) : Prop :=
  ∃ (a : Nat) (v : ClipVertex), p = some a ∧ a ∈ rs ∧ h[a]? = some v ∧
    v.mClassification = ClipVertexClassification.InToOut

/-- The ring pair as the traversers rely on it: two disjoint doubly linked rings, and
every twin lies on the other ring and points back. -/
structure Walk (h : Heap) (rs rc : List Nat) : Prop where
  ringS : Ring h rs
  ringC : Ring h rc
  disj : ∀ a ∈ rs, a ∉ rc
  twinS : ∀ a ∈ rs, ∀ (v : ClipVertex) (b : Nat), h[a]? = some v → v.mTwin = some b →
    b ∈ rc ∧ ∃ w : ClipVertex, h[b]? = some w ∧ w.mTwin = some a
  twinC : ∀ a ∈ rc, ∀ (v : ClipVertex) (b : Nat), h[a]? = some v → v.mTwin = some b →
    b ∈ rs ∧ ∃ w : ClipVertex, h[b]? = some w ∧ w.mTwin = some a

/-- The walk of `Subtract` is at the cell `x` with the direction `d`: forwards on the
subject ring, backwards on the clip ring. -/
def WalkOn (rs rc : List Nat) (x : Nat) (d : ClipVertexSearchDirection) : Prop :=
  (d = ClipVertexSearchDirection.Forwards ∧ x ∈ rs) ∨
  (d = ClipVertexSearchDirection.Backward ∧ x ∈ rc)

/-- The state of the inner loop of `Subtract`: the rings are intact, the direction is
`Forwards` on the subject ring and `Backward` on the clip ring, and every vertex on the
worklist is a non-null `InToOut` vertex of the subject ring. -/
def SubtractState (h : Heap) (rs rc : List Nat) (x : Nat) (d : ClipVertexSearchDirection)
    (verticesToVisit : List Ptr) : Prop :=
  Walk h rs rc ∧ WalkOn rs rc x d ∧ ∀ p ∈ verticesToVisit, LeavingVertex h rs p

/-- The heap `h'` is `h` with some more vertices marked visited. -/
def SameButVisited (h h' : Heap) : Prop :=
  h'.length = h.length ∧
  ∀ (a : Nat) (v : ClipVertex), h[a]? = some v → ∃ v' : ClipVertex, h'[a]? = some v' ∧
    v'.mPoint = v.mPoint ∧ v'.mClassification = v.mClassification ∧ v'.mTwin = v.mTwin ∧
    v'.mPrev = v.mPrev ∧ v'.mNext = v.mNext ∧ (v.mVisited = true → v'.mVisited = true)

/-- The direction in which `Subtract` walks at the cell `x`. -/
def walkDir (rs : List Nat) (x : Nat) : ClipVertexSearchDirection :=
  if x ∈ rs then ClipVertexSearchDirection.Forwards else ClipVertexSearchDirection.Backward

/-- One pass through the body of the inner loop of `Subtract`, on the vertex alone:
`vertex = vertex->GetNext(direction)`, then the hop to the twin if there is one. -/
def walkNext (h : Heap) (rs : List Nat) (x : Nat) : Nat :=
  match h[x]? with
  | none => x
  | some v =>
    match GetNext v (walkDir rs x) with
    | none => x
    | some y =>
      match h[y]? with
      | none => x
      | some v1 =>
        match v1.mTwin with
        | none => y
        | some t => t

/-- The sum of the cross products of consecutive points along an open path. -/
def pathCross : List Vec2 → ℚ
  | a :: b :: t => Cross2d a b + pathCross (b :: t)
  | _ => 0

/-- The cross product of the point of the cell `a` with the point of its `mNext` cell:
twice the signed area that the edge leaving `a` contributes to its ring. -/
def areaAt (h : Heap) (a : Nat) : ℚ :=
  match h[a]? with
  | none => 0
  | some v =>
    match deref h v.mNext with
    | none => 0
    | some w => Cross2d v.mPoint w.mPoint

/-- The sum of `areaAt` over the first `n` cells. -/
def areaBelow (h : Heap) (n : Nat) : ℚ := ((List.range n).map (areaAt h)).sum

/-- The sum of `areaAt` over all cells: twice the signed area of all rings of the heap. -/
def heapArea (h : Heap) : ℚ := areaBelow h h.length

/-- The loop invariant of `ClipEdges` together with the area of the heap: the cross sum
over all cells is the one found at entry, and the remembered subject-side vertices are
not linked yet. -/
def LoopInvArea (pS pC : ClipVertexClassification → Prop) (N0 : Nat) (oS oC : List Nat)
    (h0 : Heap) (rs rc0 : List Nat) (sp ep : Vec2) (j : Nat) (h : Heap)
    (nv : List IntersectionVerts) : Prop :=
  LoopInv pS pC N0 oS oC h0 rs rc0 sp ep j h nv ∧ heapArea h = heapArea h0 ∧
  ∀ x ∈ nv, ∃ (p : Nat) (v : ClipVertex), x.mVertex = some p ∧ h[p]? = some v ∧
    v.mNext = none

/-- The cross product of the `i`-th point of a contour with its cyclic successor. -/
def edgeCross (pts : PointContour) (i : Nat) : ℚ :=
  match pts[i]?, pts[(i + 1) % pts.length]? with
  | some a, some b => Cross2d a b
  | _, _ => 0

/-- The point of the cell `a`. -/
def pointOf (h : Heap) (a : Nat) : Vec2 :=
  match h[a]? with
  | some v => v.mPoint
  | none => ⟨0, 0⟩

/-- The cell `a` is a vertex without a twin, tagged `Inside` or `Outside`. -/
def Plain (h : Heap) (a : Nat) : Prop :=
  ∃ v : ClipVertex, h[a]? = some v ∧ v.mTwin = none ∧ IsSide v.mClassification

/-- The heap `h'` is `h` with exactly the cells of `X` marked visited. -/
def MarkVisited (X : List Nat) (h h' : Heap) : Prop :=
  h'.length = h.length ∧ ∀ (a : Nat) (v : ClipVertex), h[a]? = some v →
    h'[a]? = some (if a ∈ X then { v with mVisited := true } else v)

/-- The tag of the cell `a`. -/
def tagOf (h : Heap) (a : Nat) : ClipVertexClassification :=
  match h[a]? with
  | some v => v.mClassification
  | none => ClipVertexClassification.None

/-- The test for a crossing tag. -/
def isCrossingTag (c : ClipVertexClassification) : Bool :=
  decide (c = ClipVertexClassification.OutToIn) || decide (c = ClipVertexClassification.InToOut)

/-- The crossing tags of a read-back of a ring, in ring order. -/
def crossingTags (l : List (Vec2 × ClipVertexClassification)) : List ClipVertexClassification :=
  (l.map Prod.snd).filter isCrossingTag

/-- The ring `r` consists of the two cells `p` and `q`, the arc `A` of vertices without a
twin from `p` to `q` and the arc `B` of vertices without a twin from `q` back to `p`. -/
def TwoArcs (h : Heap) (r : List Nat) (p q : Nat) (A B : List Nat) : Prop :=
  r.Perm (p :: A ++ q :: B) ∧ List.Chain' (Link h) (p :: A ++ [q]) ∧
    List.Chain' (Link h) (q :: B ++ [p]) ∧ (∀ a ∈ A, Plain h a) ∧ (∀ a ∈ B, Plain h a)

/-- The subject ring `rs` and the clip ring `rc` meet in exactly two crossings: the subject
ring has the `OutToIn` vertex `xo` and the `InToOut` vertex `xi`, their twins on the clip
ring are `yo` and `yi`, and all other vertices have no twin. -/
structure TwoCrossings (h : Heap) (rs rc : List Nat) (xo xi yo yi : Nat)
    (A1 A2 D1 D2 : List Nat) : Prop where
  ringS : Ring h rs
  ringC : Ring h rc
  disj : ∀ a ∈ rs, a ∉ rc
  arcsS : TwoArcs h rs xo xi A1 A2
  arcsC : TwoArcs h rc yo yi D1 D2
  cellXo : ∃ v : ClipVertex, h[xo]? = some v ∧ v.mTwin = some yo ∧
    v.mClassification = ClipVertexClassification.OutToIn
  cellXi : ∃ v : ClipVertex, h[xi]? = some v ∧ v.mTwin = some yi ∧
    v.mClassification = ClipVertexClassification.InToOut
  cellYo : ∃ w : ClipVertex, h[yo]? = some w ∧ w.mTwin = some xo ∧ w.mPoint = pointOf h xo
  cellYi : ∃ w : ClipVertex, h[yi]? = some w ∧ w.mTwin = some xi ∧ w.mPoint = pointOf h xi
  tagsC : tagOf h yo = ClipVertexClassification.InToOut →
    tagOf h yi = ClipVertexClassification.OutToIn
  unvisited : ∀ (a : Nat) (v : ClipVertex), h[a]? = some v → v.mVisited = false

/-- In the heap `h` the walk in the direction `d` goes from the cell `x` to the cell `y`. -/
def Step (h : Heap) (d : ClipVertexSearchDirection) (x y : Nat) : Prop :=
  ∃ v : ClipVertex, h[x]? = some v ∧ GetNext v d = some y

/-- The ring `r` consists of the four cells `x1, x2, x3, x4`, met in this order, and the
four arcs of vertices without a twin between them. -/
def FourArcs (h : Heap) (r : List Nat) (x1 x2 x3 x4 : Nat) (A1 A2 A3 A4 : List Nat) : Prop :=
  r.Perm (x1 :: A1 ++ (x2 :: A2 ++ (x3 :: A3 ++ x4 :: A4))) ∧
    List.Chain' (Link h) (x1 :: A1 ++ [x2]) ∧ List.Chain' (Link h) (x2 :: A2 ++ [x3]) ∧
    List.Chain' (Link h) (x3 :: A3 ++ [x4]) ∧ List.Chain' (Link h) (x4 :: A4 ++ [x1]) ∧
    (∀ a ∈ A1, Plain h a) ∧ (∀ a ∈ A2, Plain h a) ∧ (∀ a ∈ A3, Plain h a) ∧
    (∀ a ∈ A4, Plain h a)

/-- The subject ring `rs` and the clip ring `rc` meet in four crossings that lie in the
same cyclic order on both rings: the subject ring has the `InToOut` vertices `xa`, `xc`
and the `OutToIn` vertices `xb`, `xd`, and their twins are `ya, yb, yc, yd`. -/
structure FourCrossings (h : Heap) (rs rc : List Nat) (xa xb xc xd ya yb yc yd : Nat)
    (A1 A2 A3 A4 D1 D2 D3 D4 : List Nat) : Prop where
  ringS : Ring h rs
  ringC : Ring h rc
  disj : ∀ a ∈ rs, a ∉ rc
  arcsS : FourArcs h rs xa xb xc xd A1 A2 A3 A4
  arcsC : FourArcs h rc ya yb yc yd D1 D2 D3 D4
  cellXa : ∃ v : ClipVertex, h[xa]? = some v ∧ v.mTwin = some ya ∧
    v.mClassification = ClipVertexClassification.InToOut
  cellXb : ∃ v : ClipVertex, h[xb]? = some v ∧ v.mTwin = some yb ∧
    v.mClassification = ClipVertexClassification.OutToIn
  cellXc : ∃ v : ClipVertex, h[xc]? = some v ∧ v.mTwin = some yc ∧
    v.mClassification = ClipVertexClassification.InToOut
  cellXd : ∃ v : ClipVertex, h[xd]? = some v ∧ v.mTwin = some yd ∧
    v.mClassification = ClipVertexClassification.OutToIn
  cellYa : ∃ w : ClipVertex, h[ya]? = some w ∧ w.mTwin = some xa
  cellYb : ∃ w : ClipVertex, h[yb]? = some w ∧ w.mTwin = some xb
  cellYc : ∃ w : ClipVertex, h[yc]? = some w ∧ w.mTwin = some xc
  cellYd : ∃ w : ClipVertex, h[yd]? = some w ∧ w.mTwin = some xd
  unvisited : ∀ (a : Nat) (v : ClipVertex), h[a]? = some v → v.mVisited = false

/-- The crossing vertices of a read-back of a ring, in ring order. -/
def crossingVertices (l : List (Vec2 × ClipVertexClassification)) :
    List (Vec2 × ClipVertexClassification) :=
  l.filter (fun x => isCrossingTag x.2)

/-! ## Theorems -/

/-! ### Geometry predicates -/

theorem Vec2.ext_iff' (a b : Vec2) : a = b ↔ a.x = b.x ∧ a.y = b.y := by
  cases a; cases b; simp

/-- The value `a4 = a3 + a2 - a1` of `ComputeIntersectionPoint` is the signed area of
the end of the first segment against the second segment. -/
theorem SignedArea_a4 (p0 p1 q0 q1 : Vec2) :
    SignedArea q0 q1 p0 + SignedArea p0 p1 q0 - SignedArea p0 p1 q1 = SignedArea q0 q1 p1 := by
  simp only [SignedArea, Cross2d, Vec2.sub]
  ring

/-- The signed area against a fixed segment is affine along the first segment. -/
theorem SignedArea_pointAt (p0 p1 q0 q1 : Vec2) (t : ℚ) :
    SignedArea q0 q1 (pointAt p0 p1 t)
      = (1 - t) * SignedArea q0 q1 p0 + t * SignedArea q0 q1 p1 := by
  simp only [SignedArea, Cross2d, Vec2.sub, Vec2.add, Vec2.scale, pointAt]
  ring

theorem div_sub_mem_Icc {x y : ℚ} (h : x * y ≤ 0) (hne : x ≠ y) :
    0 ≤ x / (x - y) ∧ x / (x - y) ≤ 1 := by
  have hd : x - y ≠ 0 := sub_ne_zero.mpr hne
  have hpos : 0 < (x - y) ^ 2 := by positivity
  have e : x / (x - y) = (x * (x - y)) / ((x - y) ^ 2) := by
    field_simp
    ring
  rw [e]
  constructor
  · apply div_nonneg _ hpos.le
    nlinarith [sq_nonneg x]
  · rw [div_le_one hpos]
    nlinarith [sq_nonneg y]

theorem div_sub_mem_Ioo {x y : ℚ} (h : x * y < 0) :
    0 < x / (x - y) ∧ x / (x - y) < 1 := by
  have hne : x ≠ y := by
    rintro rfl
    nlinarith [mul_self_nonneg x]
  have hd : x - y ≠ 0 := sub_ne_zero.mpr hne
  have hpos : 0 < (x - y) ^ 2 := by positivity
  have e : x / (x - y) = (x * (x - y)) / ((x - y) ^ 2) := by
    field_simp
    ring
  rw [e]
  constructor
  · apply div_pos _ hpos
    nlinarith [sq_nonneg x]
  · rw [div_lt_one hpos]
    nlinarith [sq_nonneg y]

/-- The three outcomes of `ComputeIntersectionPoint`, in terms of the signed areas. -/
theorem ComputeIntersectionPoint_cases (p0 p1 q0 q1 : Vec2) :
    (ComputeIntersectionPoint p0 p1 q0 q1
        = ⟨-1, ClipVertexClassification.None, ClipVertexClassification.None⟩) ∨
    (¬ (SignedArea p0 p1 q1 * SignedArea p0 p1 q0 > 0) ∧
      SignedArea q0 q1 p0 * SignedArea q0 q1 p1 < 0 ∧
      ComputeIntersectionPoint p0 p1 q0 q1 =
        ⟨SignedArea q0 q1 p0 / (SignedArea q0 q1 p0 - SignedArea q0 q1 p1),
          if SignedArea q0 q1 p0 < 0 then ClipVertexClassification.InToOut
          else ClipVertexClassification.OutToIn,
          if SignedArea p0 p1 q0 < 0 then ClipVertexClassification.InToOut
          else ClipVertexClassification.OutToIn⟩) := by
  have h4 := SignedArea_a4 p0 p1 q0 q1
  unfold ComputeIntersectionPoint
  simp only [h4]
  by_cases h1 : SignedArea p0 p1 q1 * SignedArea p0 p1 q0 > 0
  · left
    simp [h1]
  · by_cases h2 : SignedArea q0 q1 p0 * SignedArea q0 q1 p1 < 0
    · right
      refine ⟨h1, h2, ?_⟩
      simp [h1, h2]
    · left
      simp [h1, h2]

/-- A reported intersection is a genuine one: shared lemma behind the claims on
`ComputeIntersectionPoint`. -/
theorem reported_is_genuine (p0 p1 q0 q1 : Vec2)
    (h : ReportsIntersection (ComputeIntersectionPoint p0 p1 q0 q1)) :
    SignedArea q0 q1 (pointAt p0 p1 (ComputeIntersectionPoint p0 p1 q0 q1).time) = 0 ∧
    OnSegment q0 q1 (pointAt p0 p1 (ComputeIntersectionPoint p0 p1 q0 q1).time) ∧
    OnSegment p0 p1 (pointAt p0 p1 (ComputeIntersectionPoint p0 p1 q0 q1).time) := by
  rcases ComputeIntersectionPoint_cases p0 p1 q0 q1 with hc | ⟨h12, h34, hc⟩
  · exact absurd (by rw [hc]) h
  · rw [hc]
    simp only
    have h4 := SignedArea_a4 p0 p1 q0 q1
    set a1 := SignedArea p0 p1 q1 with ha1
    set a2 := SignedArea p0 p1 q0 with ha2
    set a3 := SignedArea q0 q1 p0 with ha3
    set a4 := SignedArea q0 q1 p1 with ha4
    have ht := div_sub_mem_Ioo h34
    have hne34 : a3 - a4 ≠ 0 := by
      intro h0
      have : a3 = a4 := by linarith
      rw [this] at h34
      nlinarith [mul_self_nonneg a4]
    have hne21 : a2 ≠ a1 := by
      intro h0
      apply hne34
      linarith
    have h21 : a2 * a1 ≤ 0 := by
      have := not_lt.mp h12
      linarith
    have hs := div_sub_mem_Icc h21 hne21
    refine ⟨?_, ⟨a2 / (a2 - a1), hs.1, hs.2, ?_⟩, ⟨a3 / (a3 - a4), ht.1.le, ht.2.le, rfl⟩⟩
    · rw [SignedArea_pointAt, ← ha3, ← ha4]
      field_simp
      ring
    · have hd : a2 - a1 ≠ 0 := sub_ne_zero.mpr hne21
      have e34 : a3 - a4 = a1 - a2 := by linarith
      rw [e34]
      have hd' : a1 - a2 ≠ 0 := by
        intro h0
        apply hd
        linarith
      rw [Vec2.ext_iff']
      simp only [pointAt, Vec2.add, Vec2.sub, Vec2.scale]
      constructor
      · field_simp
        simp only [ha1, ha2, ha3, SignedArea, Cross2d, Vec2.sub]
        ring
      · field_simp
        simp only [ha1, ha2, ha3, SignedArea, Cross2d, Vec2.sub]
        ring

/-! ### More fuel never changes a result -/

theorem Traverse_mono {σ : Type}
    (cb cb' : Ptr → Ptr → Heap × σ → Option (Bool × Ptr × (Heap × σ)))
    (hcb : ∀ v nx st r, cb v nx st = some r → cb' v nx st = some r) :
    ∀ (n m : Nat) (start v : Ptr) (st r : Heap × σ), n ≤ m →
      Traverse cb n start v st = some r → Traverse cb' m start v st = some r := by
  intro n
  induction n with
  | zero => intro m start v st r _ h; simp [Traverse] at h
  | succ n ih =>
    intro m start v st r hnm h
    obtain ⟨m, rfl⟩ : ∃ k, m = k + 1 := ⟨m - 1, by omega⟩
    simp only [Traverse] at h ⊢
    cases hd : deref st.1 v with
    | none => simp [hd] at h
    | some vert =>
      simp only [hd] at h ⊢
      cases hc : cb v vert.mNext st with
      | none => simp [hc] at h
      | some res =>
        obtain ⟨goOn, nextVert, st'⟩ := res
        rw [hcb _ _ _ _ hc]
        simp only [hc] at h ⊢
        by_cases hg : goOn = false
        · simpa [hg] using h
        · simp only [hg, if_false] at h ⊢
          by_cases hn : nextVert ≠ start
          · rw [if_pos hn] at h ⊢
            exact ih m start nextVert st' r (by omega) h
          · simpa [hn] using h

theorem FindFirstOf_mono (n m : Nat) (h : Heap) (p : Ptr) (c : ClipVertexClassification) (r : Ptr)
    (hnm : n ≤ m) (hr : FindFirstOf n h p c = some r) : FindFirstOf m h p c = some r := by
  unfold FindFirstOf at hr ⊢
  cases ht : Traverse (FindFirstOfCallback c) n p p (h, none) with
  | none => simp [ht] at hr
  | some st =>
    rw [Traverse_mono _ _ (fun _ _ _ _ x => x) n m p p _ st hnm ht]
    simpa [ht] using hr

theorem WalkTwinLoop_mono : ∀ (n m : Nat) (h : Heap) (p : Ptr) (res : PointContour) r, n ≤ m →
    WalkTwinLoop n h p res = some r → WalkTwinLoop m h p res = some r := by
  intro n
  induction n with
  | zero => intro m h p res r _ hr; simp [WalkTwinLoop] at hr
  | succ n ih =>
    intro m h p res r hnm hr
    obtain ⟨m, rfl⟩ : ∃ k, m = k + 1 := ⟨m - 1, by omega⟩
    simp only [WalkTwinLoop] at hr ⊢
    cases hd : deref h p with
    | none => simp [hd] at hr
    | some t =>
      simp only [hd] at hr ⊢
      cases hd2 : deref h t.mNext with
      | none => simp [hd2] at hr
      | some t2 =>
        simp only [hd2] at hr ⊢
        by_cases htw : t2.mTwin = none
        · rw [if_pos htw] at hr ⊢
          exact ih m _ _ _ _ (by omega) hr
        · rw [if_neg htw] at hr ⊢
          exact hr

theorem destroyLoop_mono : ∀ (n m : Nat) (h : Heap) (hd p : Ptr) r, n ≤ m →
    destroyLoop n h hd p = some r → destroyLoop m h hd p = some r := by
  intro n
  induction n with
  | zero => intro m h hd p r _ hr; simp [destroyLoop] at hr
  | succ n ih =>
    intro m h hd p r hnm hr
    obtain ⟨m, rfl⟩ : ∃ k, m = k + 1 := ⟨m - 1, by omega⟩
    simp only [destroyLoop] at hr ⊢
    cases hv : deref h p with
    | none => simp [hv] at hr
    | some t =>
      simp only [hv] at hr ⊢
      by_cases hx : t.mNext ≠ hd
      · rw [if_pos hx] at hr ⊢
        exact ih m _ _ _ _ (by omega) hr
      · rw [if_neg hx] at hr ⊢

theorem ClipEdgesLoop_mono (start end_ head : Ptr) : ∀ (n m : Nat) (p : Ptr) (h : Heap)
    (nv : List IntersectionVerts) r, n ≤ m →
    ClipEdgesLoop start end_ head n p h nv = some r →
    ClipEdgesLoop start end_ head m p h nv = some r := by
  intro n
  induction n with
  | zero => intro m p h nv r _ hr; simp [ClipEdgesLoop] at hr
  | succ n ih =>
    intro m p h nv r hnm hr
    obtain ⟨m, rfl⟩ : ∃ k, m = k + 1 := ⟨m - 1, by omega⟩
    simp only [ClipEdgesLoop] at hr ⊢
    cases hv : deref h p with
    | none => simp [hv] at hr
    | some cs =>
      simp only [hv] at hr ⊢
      cases hs : deref h start with
      | none => simp [hs] at hr
      | some s =>
        cases he : deref h end_ with
        | none => simp [hs, he] at hr
        | some e =>
          cases hn : deref h cs.mNext with
          | none => simp [hs, he, hn] at hr
          | some cn =>
            simp only [hs, he, hn] at hr ⊢
            revert hr
            generalize (if 0 ≤ (ComputeIntersectionPoint s.mPoint e.mPoint cs.mPoint cn.mPoint).time ∧
              (ComputeIntersectionPoint s.mPoint e.mPoint cs.mPoint cn.mPoint).time ≤ 1 then
              ClipEdgesInsert h s.mPoint e.mPoint p cs.mNext
                (ComputeIntersectionPoint s.mPoint e.mPoint cs.mPoint cn.mPoint) nv
              else some (h, nv)) = X
            intro hr
            cases X with
            | none => simp at hr
            | some res =>
              obtain ⟨h', nv'⟩ := res
              simp only at hr ⊢
              by_cases hx : cs.mNext ≠ head
              · rw [if_pos hx] at hr ⊢
                exact ih m _ _ _ _ (by omega) hr
              · rw [if_neg hx] at hr ⊢
                exact hr

theorem ClipEdges_mono (n m : Nat) (h : Heap) (start end_ : Ptr) (clip : ClipVertexList) (r : Heap)
    (hnm : n ≤ m) (hr : ClipEdges n h start end_ clip = some r) :
    ClipEdges m h start end_ clip = some r := by
  unfold ClipEdges at hr ⊢
  cases hl : ClipEdgesLoop start end_ clip.mHead n clip.mHead h [] with
  | none => simp [hl] at hr
  | some res =>
    rw [ClipEdgesLoop_mono _ _ _ n m _ _ _ _ hnm hl]
    rw [hl] at hr
    exact hr

theorem ClipPolygonCallback_mono (n m : Nat) (clip : ClipVertexList) (hnm : n ≤ m)
    (v nx : Ptr) (st : Heap × Unit) (r : Bool × Ptr × (Heap × Unit))
    (hr : ClipPolygonCallback n clip v nx st = some r) :
    ClipPolygonCallback m clip v nx st = some r := by
  unfold ClipPolygonCallback at hr ⊢
  cases hv : deref st.1 v with
  | none => simp [hv] at hr
  | some vert =>
    simp only [hv] at hr ⊢
    cases hc : ClipEdges n st.1 v vert.mNext clip with
    | none => simp [hc] at hr
    | some h' =>
      rw [ClipEdges_mono n m _ _ _ _ _ hnm hc]
      rw [hc] at hr
      exact hr

theorem map_Traverse_mono {σ β : Type}
    (cb cb' : Ptr → Ptr → Heap × σ → Option (Bool × Ptr × (Heap × σ)))
    (hcb : ∀ v nx st r, cb v nx st = some r → cb' v nx st = some r) (f : Heap × σ → β)
    (n m : Nat) (start v : Ptr) (st : Heap × σ) (r : β) (hnm : n ≤ m)
    (hr : (Traverse cb n start v st).map f = some r) :
    (Traverse cb' m start v st).map f = some r := by
  cases ht : Traverse cb n start v st with
  | none => simp [ht] at hr
  | some st' =>
    rw [Traverse_mono cb cb' hcb n m start v st st' hnm ht]
    rw [ht] at hr
    exact hr

theorem ClipPolygon_mono (n m : Nat) (h : Heap) (poly clip : ClipVertexList) (r : Heap)
    (hnm : n ≤ m) (hr : ClipPolygon n h poly clip = some r) :
    ClipPolygon m h poly clip = some r :=
  map_Traverse_mono _ _ (ClipPolygonCallback_mono n m clip hnm) _ n m _ _ _ r hnm hr

theorem ClassifyVertices_mono (n m : Nat) (h : Heap) (l : ClipVertexList) (r : Heap)
    (hnm : n ≤ m) (hr : ClassifyVertices n h l = some r) :
    ClassifyVertices m h l = some r := by
  unfold ClassifyVertices at hr ⊢
  cases hf : FindFirstOf n h l.mHead ClipVertexClassification.None with
  | none => simp [hf] at hr
  | some first =>
    rw [FindFirstOf_mono n m _ _ _ _ hnm hf]
    simp only [hf] at hr ⊢
    by_cases hx : first ≠ none
    · rw [if_pos hx] at hr ⊢
      cases hd : deref h first with
      | none => simp [hd] at hr
      | some f =>
        simp only [hd] at hr ⊢
        exact map_Traverse_mono _ _ (fun _ _ _ _ x => x) _ n m _ _ _ r hnm hr
    · rw [if_neg hx] at hr ⊢
      exact map_Traverse_mono _ _ (fun _ _ _ _ x => x) _ n m _ _ _ r hnm hr

theorem BuildClipList_mono (n m : Nat) (poly clip : PointContour) (h : Heap)
    (r : Heap × ClipVertexList × ClipVertexList)
    (hnm : n ≤ m) (hr : BuildClipList n poly clip h = some r) :
    BuildClipList m poly clip h = some r := by
  unfold BuildClipList at hr ⊢
  cases h1 : BuildVertexList clip h with
  | none => simp [h1] at hr
  | some r1 =>
    obtain ⟨h1', cl⟩ := r1
    simp only [h1] at hr ⊢
    cases h2 : BuildVertexList poly h1' with
    | none => simp [h2] at hr
    | some r2 =>
      obtain ⟨h2', pl⟩ := r2
      simp only [h2] at hr ⊢
      cases h3 : ClipPolygon n h2' pl cl with
      | none => simp [h3] at hr
      | some h3' =>
        rw [ClipPolygon_mono n m _ _ _ _ hnm h3]
        simp only [h3] at hr ⊢
        cases h4 : ClassifyVertices n h3' pl with
        | none => simp [h4] at hr
        | some h4' =>
          rw [ClassifyVertices_mono n m _ _ _ hnm h4]
          simp only [h4] at hr ⊢
          cases h5 : ClassifyVertices n h4' cl with
          | none => simp [h5] at hr
          | some h5' =>
            rw [ClassifyVertices_mono n m _ _ _ hnm h5]
            simp only [h5] at hr ⊢
            exact hr

theorem WalkTwinListForwards_mono (n m : Nat) (h : Heap) (p : Ptr) (res : PointContour)
    (r : Ptr × PointContour) (hnm : n ≤ m) (hr : WalkTwinListForwards n h p res = some r) :
    WalkTwinListForwards m h p res = some r := by
  unfold WalkTwinListForwards at hr ⊢
  cases hv : deref h p with
  | none => simp [hv] at hr
  | some v =>
    simp only [hv] at hr ⊢
    by_cases hx : v.mTwin = none
    · rw [if_pos hx] at hr ⊢
      exact hr
    · rw [if_neg hx] at hr ⊢
      exact WalkTwinLoop_mono n m _ _ _ _ hnm hr

theorem UnionCallback_mono (n m : Nat) (hnm : n ≤ m)
    (v nx : Ptr) (st : Heap × PointContour) (r : Bool × Ptr × (Heap × PointContour))
    (hr : UnionCallback n v nx st = some r) : UnionCallback m v nx st = some r := by
  unfold UnionCallback at hr ⊢
  cases hv : deref st.1 v with
  | none => simp [hv] at hr
  | some vert =>
    simp only [hv] at hr ⊢
    by_cases hx : vert.mTwin ≠ none
    · rw [if_pos hx] at hr ⊢
      cases hw : WalkTwinListForwards n st.1 v (st.2 ++ [vert.mPoint]) with
      | none => simp [hw] at hr
      | some res =>
        rw [WalkTwinListForwards_mono n m _ _ _ _ hnm hw]
        rw [hw] at hr
        exact hr
    · rw [if_neg hx] at hr ⊢
      exact hr

theorem UnionList_mono (n m : Nat) (h : Heap) (l : ClipVertexList) (res r : PointContour)
    (hnm : n ≤ m) (hr : UnionList n h l res = some r) : UnionList m h l res = some r := by
  unfold UnionList at hr ⊢
  cases hf : FindFirstOf n h l.mHead ClipVertexClassification.OutToIn with
  | none => simp [hf] at hr
  | some first =>
    rw [FindFirstOf_mono n m _ _ _ _ hnm hf]
    simp only [hf] at hr ⊢
    by_cases hx : first = none
    · rw [if_pos hx] at hr ⊢
      exact hr
    · rw [if_neg hx] at hr ⊢
      exact map_Traverse_mono _ _ (UnionCallback_mono n m hnm) _ n m _ _ _ r hnm hr

theorem SubtractTrace_mono (cs : Ptr) : ∀ (n m : Nat) (h : Heap) (v : Ptr)
    (d : ClipVertexSearchDirection) (tv : List Ptr) (cur : PointContour) r, n ≤ m →
    SubtractTrace cs n h v d tv cur = some r → SubtractTrace cs m h v d tv cur = some r := by
  intro n
  induction n with
  | zero => intro m h v d tv cur r _ hr; simp [SubtractTrace] at hr
  | succ n ih =>
    intro m h v d tv cur r hnm hr
    obtain ⟨m, rfl⟩ : ∃ k, m = k + 1 := ⟨m - 1, by omega⟩
    simp only [SubtractTrace] at hr ⊢
    cases hv : deref h v with
    | none => simp [hv] at hr
    | some vert =>
      simp only [hv] at hr ⊢
      cases hs : store h v (fun c => { c with mVisited := true }) with
      | none => simp [hs] at hr
      | some h1 =>
        simp only [hs] at hr ⊢
        cases hv1 : deref h1 (GetNext vert d) with
        | none => simp [hv1] at hr
        | some v1 =>
          simp only [hv1] at hr ⊢
          revert hr
          generalize hd1 : (if v1.mTwin ≠ none then FlipSearchDirection d else d) = d1
          generalize hx2 : (if v1.mTwin ≠ none then v1.mTwin else GetNext vert d) = x2
          have key : ∀ tv1 : List Ptr,
              (if x2 = cs then some (h1, tv1, cur ++ [vert.mPoint])
                else match deref h1 x2 with
                  | none => none
                  | some v2 =>
                    if v2.mTwin = cs then some (h1, tv1, cur ++ [vert.mPoint])
                    else SubtractTrace cs n h1 x2 d1 tv1 (cur ++ [vert.mPoint])) = some r →
              (if x2 = cs then some (h1, tv1, cur ++ [vert.mPoint])
                else match deref h1 x2 with
                  | none => none
                  | some v2 =>
                    if v2.mTwin = cs then some (h1, tv1, cur ++ [vert.mPoint])
                    else SubtractTrace cs m h1 x2 d1 tv1 (cur ++ [vert.mPoint])) = some r := by
            intro tv1 hr
            by_cases h2 : x2 = cs
            · rw [if_pos h2] at hr ⊢
              exact hr
            · rw [if_neg h2] at hr ⊢
              cases hv2 : deref h1 x2 with
              | none => simp [hv2] at hr
              | some v2 =>
                simp only [hv2] at hr ⊢
                by_cases h3 : v2.mTwin = cs
                · rw [if_pos h3] at hr ⊢
                  exact hr
                · rw [if_neg h3] at hr ⊢
                  exact ih m _ _ _ _ _ _ (by omega) hr
          by_cases hc : v1.mTwin ≠ none ∧ v1.mVisited = false ∧
              d = ClipVertexSearchDirection.Forwards ∧
              v1.mClassification = ClipVertexClassification.OutToIn
          · rw [if_pos hc, if_pos hc]
            cases hf : FindFirstOf n h1 (GetNext vert d) ClipVertexClassification.InToOut with
            | none => simp
            | some p =>
              rw [FindFirstOf_mono n m _ _ _ _ (by omega) hf]
              exact key _
          · rw [if_neg hc, if_neg hc]
            exact key _

theorem SubtractLoop_mono : ∀ (n m : Nat) (h : Heap) (tv : List Ptr) (cs r : PointContourList),
    n ≤ m → SubtractLoop n h tv cs = some r → SubtractLoop m h tv cs = some r := by
  intro n
  induction n with
  | zero => intro m h tv cs r _ hr; simp [SubtractLoop] at hr
  | succ n ih =>
    intro m h tv cs r hnm hr
    obtain ⟨m, rfl⟩ : ∃ k, m = k + 1 := ⟨m - 1, by omega⟩
    cases tv with
    | nil =>
      simp only [SubtractLoop] at hr ⊢
      exact hr
    | cons start rest =>
      simp only [SubtractLoop] at hr ⊢
      cases hv : deref h start with
      | none => simp [hv] at hr
      | some c =>
        simp only [hv] at hr ⊢
        by_cases hx : c.mVisited = true
        · rw [if_pos hx] at hr ⊢
          exact ih m _ _ _ _ (by omega) hr
        · rw [if_neg hx] at hr ⊢
          cases ht : SubtractTrace start n h start ClipVertexSearchDirection.Forwards rest [] with
          | none => simp [ht] at hr
          | some res =>
            rw [SubtractTrace_mono start n m _ _ _ _ _ _ (by omega) ht]
            simp only [ht] at hr ⊢
            exact ih m _ _ _ _ (by omega) hr

theorem SubtractList_mono (n m : Nat) (h : Heap) (l : ClipVertexList) (cs r : PointContourList)
    (hnm : n ≤ m) (hr : SubtractList n h l cs = some r) : SubtractList m h l cs = some r := by
  unfold SubtractList at hr ⊢
  cases hf : FindFirstOf n h l.mHead ClipVertexClassification.InToOut with
  | none => simp [hf] at hr
  | some first =>
    rw [FindFirstOf_mono n m _ _ _ _ hnm hf]
    simp only [hf] at hr ⊢
    by_cases hx : first = none
    · rw [if_pos hx] at hr ⊢
      exact hr
    · rw [if_neg hx] at hr ⊢
      exact SubtractLoop_mono n m _ _ _ _ hnm hr

theorem IntersectTrace_mono (cs : Ptr) : ∀ (n m : Nat) (h : Heap) (v : Ptr)
    (tv : List Ptr) (cur : PointContour) r, n ≤ m →
    IntersectTrace cs n h v tv cur = some r → IntersectTrace cs m h v tv cur = some r := by
  intro n
  induction n with
  | zero => intro m h v tv cur r _ hr; simp [IntersectTrace] at hr
  | succ n ih =>
    intro m h v tv cur r hnm hr
    obtain ⟨m, rfl⟩ : ∃ k, m = k + 1 := ⟨m - 1, by omega⟩
    simp only [IntersectTrace] at hr ⊢
    cases hv : deref h v with
    | none => simp [hv] at hr
    | some vert =>
      simp only [hv] at hr ⊢
      cases hs : store h v (fun c => { c with mVisited := true }) with
      | none => simp [hs] at hr
      | some h1 =>
        simp only [hs] at hr ⊢
        cases hv1 : deref h1 vert.mNext with
        | none => simp [hv1] at hr
        | some v1 =>
          simp only [hv1] at hr ⊢
          revert hr
          generalize hx2 : (if v1.mClassification = ClipVertexClassification.InToOut then v1.mTwin
            else vert.mNext) = x2
          have key : ∀ tv1 : List Ptr,
              (if x2 = cs then some (h1, tv1, cur ++ [vert.mPoint])
                else match deref h1 x2 with
                  | none => none
                  | some v2 =>
                    if v2.mTwin = cs then some (h1, tv1, cur ++ [vert.mPoint])
                    else IntersectTrace cs n h1 x2 tv1 (cur ++ [vert.mPoint])) = some r →
              (if x2 = cs then some (h1, tv1, cur ++ [vert.mPoint])
                else match deref h1 x2 with
                  | none => none
                  | some v2 =>
                    if v2.mTwin = cs then some (h1, tv1, cur ++ [vert.mPoint])
                    else IntersectTrace cs m h1 x2 tv1 (cur ++ [vert.mPoint])) = some r := by
            intro tv1 hr
            by_cases h2 : x2 = cs
            · rw [if_pos h2] at hr ⊢
              exact hr
            · rw [if_neg h2] at hr ⊢
              cases hv2 : deref h1 x2 with
              | none => simp [hv2] at hr
              | some v2 =>
                simp only [hv2] at hr ⊢
                by_cases h3 : v2.mTwin = cs
                · rw [if_pos h3] at hr ⊢
                  exact hr
                · rw [if_neg h3] at hr ⊢
                  exact ih m _ _ _ _ _ (by omega) hr
          by_cases hc : v1.mClassification = ClipVertexClassification.InToOut ∧ v1.mVisited = false
          · rw [if_pos hc, if_pos hc]
            cases hf : FindFirstOf n h1 vert.mNext ClipVertexClassification.OutToIn with
            | none => simp
            | some p =>
              rw [FindFirstOf_mono n m _ _ _ _ (by omega) hf]
              exact key _
          · rw [if_neg hc, if_neg hc]
            exact key _

theorem IntersectLoop_mono : ∀ (n m : Nat) (h : Heap) (tv : List Ptr) (cs r : PointContourList),
    n ≤ m → IntersectLoop n h tv cs = some r → IntersectLoop m h tv cs = some r := by
  intro n
  induction n with
  | zero => intro m h tv cs r _ hr; simp [IntersectLoop] at hr
  | succ n ih =>
    intro m h tv cs r hnm hr
    obtain ⟨m, rfl⟩ : ∃ k, m = k + 1 := ⟨m - 1, by omega⟩
    cases tv with
    | nil =>
      simp only [IntersectLoop] at hr ⊢
      exact hr
    | cons start rest =>
      simp only [IntersectLoop] at hr ⊢
      cases hv : deref h start with
      | none => simp [hv] at hr
      | some c =>
        simp only [hv] at hr ⊢
        by_cases hx : c.mVisited = true
        · rw [if_pos hx] at hr ⊢
          exact ih m _ _ _ _ (by omega) hr
        · rw [if_neg hx] at hr ⊢
          cases ht : IntersectTrace start n h start rest [] with
          | none => simp [ht] at hr
          | some res =>
            rw [IntersectTrace_mono start n m _ _ _ _ _ (by omega) ht]
            simp only [ht] at hr ⊢
            exact ih m _ _ _ _ (by omega) hr

theorem IntersectList_mono (n m : Nat) (h : Heap) (l : ClipVertexList) (cs r : PointContourList)
    (hnm : n ≤ m) (hr : IntersectList n h l cs = some r) : IntersectList m h l cs = some r := by
  unfold IntersectList at hr ⊢
  cases hf : FindFirstOf n h l.mHead ClipVertexClassification.OutToIn with
  | none => simp [hf] at hr
  | some first =>
    rw [FindFirstOf_mono n m _ _ _ _ hnm hf]
    simp only [hf] at hr ⊢
    by_cases hx : first = none
    · rw [if_pos hx] at hr ⊢
      exact hr
    · rw [if_neg hx] at hr ⊢
      exact IntersectLoop_mono n m _ _ _ _ hnm hr

theorem destroyLists_mono (n m : Nat) (h : Heap) (pl cl : ClipVertexList) (r : Unit)
    (hnm : n ≤ m) (hr : destroyLists n h pl cl = some r) : destroyLists m h pl cl = some r := by
  unfold destroyLists ClipVertexList.destroy at hr ⊢
  cases h1 : destroyLoop n h pl.mHead pl.mHead with
  | none => simp [h1] at hr
  | some u =>
    rw [destroyLoop_mono n m _ _ _ _ hnm h1]
    simp only [h1] at hr ⊢
    exact destroyLoop_mono n m _ _ _ _ hnm hr

/-- More fuel never changes what `Clipper::Union` returns. -/
theorem Union_mono (n m : Nat) (poly clip : PointContour) (r : PointContour)
    (hnm : n ≤ m) (hr : Union n poly clip = some r) : Union m poly clip = some r := by
  unfold Union at hr ⊢
  cases hb : BuildClipList n poly clip [] with
  | none => simp [hb] at hr
  | some b =>
    obtain ⟨h, pl, cl⟩ := b
    rw [BuildClipList_mono n m _ _ _ _ hnm hb]
    simp only [hb] at hr ⊢
    cases hu : UnionList n h pl [] with
    | none => simp [hu] at hr
    | some res =>
      rw [UnionList_mono n m _ _ _ _ hnm hu]
      simp only [hu] at hr ⊢
      cases hd : destroyLists n h pl cl with
      | none => simp [hd] at hr
      | some u =>
        rw [destroyLists_mono n m _ _ _ _ hnm hd]
        simpa [hd] using hr

/-- More fuel never changes what `Clipper::Subtract` returns. -/
theorem Subtract_mono (n m : Nat) (poly clip : PointContour) (r : PointContourList)
    (hnm : n ≤ m) (hr : Subtract n poly clip = some r) : Subtract m poly clip = some r := by
  unfold Subtract at hr ⊢
  cases hb : BuildClipList n poly clip [] with
  | none => simp [hb] at hr
  | some b =>
    obtain ⟨h, pl, cl⟩ := b
    rw [BuildClipList_mono n m _ _ _ _ hnm hb]
    simp only [hb] at hr ⊢
    cases hu : SubtractList n h pl [] with
    | none => simp [hu] at hr
    | some res =>
      rw [SubtractList_mono n m _ _ _ _ hnm hu]
      simp only [hu] at hr ⊢
      cases hd : destroyLists n h pl cl with
      | none => simp [hd] at hr
      | some u =>
        rw [destroyLists_mono n m _ _ _ _ hnm hd]
        simpa [hd] using hr

/-- More fuel never changes what `Clipper::Intersect` returns. -/
theorem Intersect_mono (n m : Nat) (poly clip : PointContour) (r : PointContourList)
    (hnm : n ≤ m) (hr : Intersect n poly clip = some r) : Intersect m poly clip = some r := by
  unfold Intersect at hr ⊢
  cases hb : BuildClipList n poly clip [] with
  | none => simp [hb] at hr
  | some b =>
    obtain ⟨h, pl, cl⟩ := b
    rw [BuildClipList_mono n m _ _ _ _ hnm hb]
    simp only [hb] at hr ⊢
    cases hu : IntersectList n h pl [] with
    | none => simp [hu] at hr
    | some res =>
      rw [IntersectList_mono n m _ _ _ _ hnm hu]
      simp only [hu] at hr ⊢
      cases hd : destroyLists n h pl cl with
      | none => simp [hd] at hr
      | some u =>
        rw [destroyLists_mono n m _ _ _ _ hnm hd]
        simpa [hd] using hr

theorem Returns_of_eq {α : Type} (f : Nat → Option α) (r : α) (n : Nat)
    (hmono : ∀ a b x, a ≤ b → f a = some x → f b = some x) (h : f n = some r) :
    Returns f r :=
  ⟨n, fun fuel hf => hmono n fuel r hf h⟩

theorem Returns_unique {α : Type} (f : Nat → Option α) (r r' : α)
    (h : Returns f r) (h' : Returns f r') : r = r' := by
  obtain ⟨n, hn⟩ := h
  obtain ⟨m, hm⟩ := h'
  have h1 := hn (max n m) (le_max_left n m)
  have h2 := hm (max n m) (le_max_right n m)
  rw [h1] at h2
  exact Option.some.inj h2

/-! ### The binary32 model: more fuel never changes a result -/

theorem ClipEdgesLoop_mono32 (start end_ head : Ptr) : ∀ (n m : Nat) (p : Ptr) (h : Heap)
    (nv : List IntersectionVerts) r, n ≤ m →
    Binary32.ClipEdgesLoop start end_ head n p h nv = some r →
    Binary32.ClipEdgesLoop start end_ head m p h nv = some r := by
  intro n
  induction n with
  | zero => intro m p h nv r _ hr; simp [Binary32.ClipEdgesLoop] at hr
  | succ n ih =>
    intro m p h nv r hnm hr
    obtain ⟨m, rfl⟩ : ∃ k, m = k + 1 := ⟨m - 1, by omega⟩
    simp only [Binary32.ClipEdgesLoop] at hr ⊢
    cases hv : deref h p with
    | none => simp [hv] at hr
    | some cs =>
      simp only [hv] at hr ⊢
      cases hs : deref h start with
      | none => simp [hs] at hr
      | some s =>
        cases he : deref h end_ with
        | none => simp [hs, he] at hr
        | some e =>
          cases hn : deref h cs.mNext with
          | none => simp [hs, he, hn] at hr
          | some cn =>
            simp only [hs, he, hn] at hr ⊢
            revert hr
            generalize (if 0 ≤ (Binary32.ComputeIntersectionPoint s.mPoint e.mPoint cs.mPoint
                cn.mPoint).time ∧
              (Binary32.ComputeIntersectionPoint s.mPoint e.mPoint cs.mPoint cn.mPoint).time ≤ 1 then
              Binary32.ClipEdgesInsert h s.mPoint e.mPoint p cs.mNext
                (Binary32.ComputeIntersectionPoint s.mPoint e.mPoint cs.mPoint cn.mPoint) nv
              else some (h, nv)) = X
            intro hr
            cases X with
            | none => simp at hr
            | some res =>
              obtain ⟨h', nv'⟩ := res
              simp only at hr ⊢
              by_cases hx : cs.mNext ≠ head
              · rw [if_pos hx] at hr ⊢
                exact ih m _ _ _ _ (by omega) hr
              · rw [if_neg hx] at hr ⊢
                exact hr

theorem ClipEdges_mono32 (n m : Nat) (h : Heap) (start end_ : Ptr) (clip : ClipVertexList)
    (r : Heap) (hnm : n ≤ m) (hr : Binary32.ClipEdges n h start end_ clip = some r) :
    Binary32.ClipEdges m h start end_ clip = some r := by
  unfold Binary32.ClipEdges at hr ⊢
  cases hl : Binary32.ClipEdgesLoop start end_ clip.mHead n clip.mHead h [] with
  | none => simp [hl] at hr
  | some res =>
    rw [ClipEdgesLoop_mono32 _ _ _ n m _ _ _ _ hnm hl]
    rw [hl] at hr
    exact hr

theorem ClipPolygonCallback_mono32 (n m : Nat) (clip : ClipVertexList) (hnm : n ≤ m)
    (v nx : Ptr) (st : Heap × Unit) (r : Bool × Ptr × (Heap × Unit))
    (hr : Binary32.ClipPolygonCallback n clip v nx st = some r) :
    Binary32.ClipPolygonCallback m clip v nx st = some r := by
  unfold Binary32.ClipPolygonCallback at hr ⊢
  cases hv : deref st.1 v with
  | none => simp [hv] at hr
  | some vert =>
    simp only [hv] at hr ⊢
    cases hc : Binary32.ClipEdges n st.1 v vert.mNext clip with
    | none => simp [hc] at hr
    | some h' =>
      rw [ClipEdges_mono32 n m _ _ _ _ _ hnm hc]
      rw [hc] at hr
      exact hr

theorem ClipPolygon_mono32 (n m : Nat) (h : Heap) (poly clip : ClipVertexList) (r : Heap)
    (hnm : n ≤ m) (hr : Binary32.ClipPolygon n h poly clip = some r) :
    Binary32.ClipPolygon m h poly clip = some r :=
  map_Traverse_mono _ _ (ClipPolygonCallback_mono32 n m clip hnm) _ n m _ _ _ r hnm hr

theorem BuildClipList_mono32 (n m : Nat) (poly clip : PointContour) (h : Heap)
    (r : Heap × ClipVertexList × ClipVertexList)
    (hnm : n ≤ m) (hr : Binary32.BuildClipList n poly clip h = some r) :
    Binary32.BuildClipList m poly clip h = some r := by
  unfold Binary32.BuildClipList at hr ⊢
  cases h1 : BuildVertexList clip h with
  | none => simp [h1] at hr
  | some r1 =>
    obtain ⟨h1', cl⟩ := r1
    simp only [h1] at hr ⊢
    cases h2 : BuildVertexList poly h1' with
    | none => simp [h2] at hr
    | some r2 =>
      obtain ⟨h2', pl⟩ := r2
      simp only [h2] at hr ⊢
      cases h3 : Binary32.ClipPolygon n h2' pl cl with
      | none => simp [h3] at hr
      | some h3' =>
        rw [ClipPolygon_mono32 n m _ _ _ _ hnm h3]
        simp only [h3] at hr ⊢
        cases h4 : ClassifyVertices n h3' pl with
        | none => simp [h4] at hr
        | some h4' =>
          rw [ClassifyVertices_mono n m _ _ _ hnm h4]
          simp only [h4] at hr ⊢
          cases h5 : ClassifyVertices n h4' cl with
          | none => simp [h5] at hr
          | some h5' =>
            rw [ClassifyVertices_mono n m _ _ _ hnm h5]
            simp only [h5] at hr ⊢
            exact hr

/-- More fuel never changes what `Clipper::Union` returns in binary32. -/
theorem Union_mono32 (n m : Nat) (poly clip : PointContour) (r : PointContour)
    (hnm : n ≤ m) (hr : Binary32.Union n poly clip = some r) :
    Binary32.Union m poly clip = some r := by
  unfold Binary32.Union at hr ⊢
  cases hb : Binary32.BuildClipList n poly clip [] with
  | none => simp [hb] at hr
  | some b =>
    obtain ⟨h, pl, cl⟩ := b
    rw [BuildClipList_mono32 n m _ _ _ _ hnm hb]
    simp only [hb] at hr ⊢
    cases hu : UnionList n h pl [] with
    | none => simp [hu] at hr
    | some res =>
      rw [UnionList_mono n m _ _ _ _ hnm hu]
      simp only [hu] at hr ⊢
      cases hd : destroyLists n h pl cl with
      | none => simp [hd] at hr
      | some u =>
        rw [destroyLists_mono n m _ _ _ _ hnm hd]
        simpa [hd] using hr

/-- More fuel never changes what `Clipper::Subtract` returns in binary32. -/
theorem Subtract_mono32 (n m : Nat) (poly clip : PointContour) (r : PointContourList)
    (hnm : n ≤ m) (hr : Binary32.Subtract n poly clip = some r) :
    Binary32.Subtract m poly clip = some r := by
  unfold Binary32.Subtract at hr ⊢
  cases hb : Binary32.BuildClipList n poly clip [] with
  | none => simp [hb] at hr
  | some b =>
    obtain ⟨h, pl, cl⟩ := b
    rw [BuildClipList_mono32 n m _ _ _ _ hnm hb]
    simp only [hb] at hr ⊢
    cases hu : SubtractList n h pl [] with
    | none => simp [hu] at hr
    | some res =>
      rw [SubtractList_mono n m _ _ _ _ hnm hu]
      simp only [hu] at hr ⊢
      cases hd : destroyLists n h pl cl with
      | none => simp [hd] at hr
      | some u =>
        rw [destroyLists_mono n m _ _ _ _ hnm hd]
        simpa [hd] using hr

/-- More fuel never changes what `Clipper::Intersect` returns in binary32. -/
theorem Intersect_mono32 (n m : Nat) (poly clip : PointContour) (r : PointContourList)
    (hnm : n ≤ m) (hr : Binary32.Intersect n poly clip = some r) :
    Binary32.Intersect m poly clip = some r := by
  unfold Binary32.Intersect at hr ⊢
  cases hb : Binary32.BuildClipList n poly clip [] with
  | none => simp [hb] at hr
  | some b =>
    obtain ⟨h, pl, cl⟩ := b
    rw [BuildClipList_mono32 n m _ _ _ _ hnm hb]
    simp only [hb] at hr ⊢
    cases hu : IntersectList n h pl [] with
    | none => simp [hu] at hr
    | some res =>
      rw [IntersectList_mono n m _ _ _ _ hnm hu]
      simp only [hu] at hr ⊢
      cases hd : destroyLists n h pl cl with
      | none => simp [hd] at hr
      | some u =>
        rw [destroyLists_mono n m _ _ _ _ hnm hd]
        simpa [hd] using hr

/-! ### The concrete scenarios -/

set_option maxRecDepth 100000 in
theorem Intersect_unit_offset_eval :
    Intersect 20 unitSquare offsetSquare =
      some [[⟨1/2, 1⟩, ⟨0, 1⟩, ⟨0, 0⟩, ⟨1, 0⟩, ⟨1, 1/2⟩, ⟨3/2, 1/2⟩, ⟨3/2, 3/2⟩, ⟨1/2, 3/2⟩]] := by
  decide!

set_option maxRecDepth 100000 in
theorem Intersect_unit_offset_reverse_eval :
    Intersect 20 unitSquare.reverse offsetSquare.reverse =
      some [[⟨1/2, 1⟩, ⟨1, 1⟩, ⟨1, 1/2⟩, ⟨1/2, 1/2⟩]] := by
  decide!

set_option maxRecDepth 100000 in
theorem Union_unit_offset_eval :
    Union 20 unitSquare offsetSquare = some [⟨1/2, 1⟩, ⟨1/2, 1/2⟩, ⟨1, 1/2⟩, ⟨1, 1⟩] := by
  decide!

set_option maxRecDepth 100000 in
theorem Union_unit_offset_reverse_eval :
    Union 20 unitSquare.reverse offsetSquare.reverse =
      some [⟨1/2, 1⟩, ⟨1/2, 3/2⟩, ⟨3/2, 3/2⟩, ⟨3/2, 1/2⟩, ⟨1, 1/2⟩, ⟨1, 0⟩, ⟨0, 0⟩, ⟨0, 1⟩] := by
  decide!

set_option maxRecDepth 100000 in
theorem Subtract_unit_offset_eval :
    Subtract 20 unitSquare offsetSquare =
      some [[⟨1, 1/2⟩, ⟨1, 1⟩, ⟨1/2, 1⟩, ⟨1/2, 3/2⟩, ⟨3/2, 3/2⟩, ⟨3/2, 1/2⟩]] := by
  decide!

set_option maxRecDepth 100000 in
theorem Subtract_unit_offset_reverse_eval :
    Subtract 20 unitSquare.reverse offsetSquare.reverse =
      some [[⟨1, 1/2⟩, ⟨1, 0⟩, ⟨0, 0⟩, ⟨0, 1⟩, ⟨1/2, 1⟩, ⟨1/2, 1/2⟩]] := by
  decide!

set_option maxRecDepth 100000 in
theorem Subtract_big_thin_eval :
    Subtract 30 bigSquare thinRect =
      some [[⟨1, 0⟩, ⟨2, 0⟩, ⟨2, -1⟩, ⟨1, -1⟩], [⟨2, 4⟩, ⟨1, 4⟩, ⟨1, 5⟩, ⟨2, 5⟩]] := by
  decide!

set_option maxRecDepth 100000 in
theorem Subtract_big_thin_reverse_eval :
    Subtract 30 bigSquare.reverse thinRect.reverse =
      some [[⟨2, 4⟩, ⟨4, 4⟩, ⟨4, 0⟩, ⟨2, 0⟩], [⟨1, 0⟩, ⟨0, 0⟩, ⟨0, 4⟩, ⟨1, 4⟩]] := by
  decide!

set_option maxRecDepth 100000 in
theorem Subtract_big_thinReverse_eval :
    Subtract 30 bigSquare thinRect.reverse =
      some [[⟨2, 0⟩, ⟨4, 0⟩, ⟨4, 4⟩, ⟨2, 4⟩, ⟨2, 5⟩, ⟨1, 5⟩, ⟨1, 4⟩, ⟨0, 4⟩, ⟨0, 0⟩, ⟨1, 0⟩,
        ⟨1, -1⟩, ⟨2, -1⟩]] := by
  decide!

set_option maxRecDepth 100000 in
theorem Subtract_bigReverse_thin_eval :
    Subtract 30 bigSquare.reverse thinRect = some [[⟨1, 4⟩, ⟨2, 4⟩, ⟨2, 0⟩, ⟨1, 0⟩]] := by
  decide!

/-- C1 as stated fails: on the two squares of the scenario `Clipper::Intersect` does not
return a single contour that is a rotation of `[(1,0.5),(1,1),(0.5,1),(0.5,0.5)]`. -/
theorem C1_Intersect_scenario_counterexample :
    ¬ ∃ c : PointContour,
      Returns (fun fuel => Intersect fuel unitSquare offsetSquare) [c] ∧
      c ~r [⟨1, 1/2⟩, ⟨1, 1⟩, ⟨1/2, 1⟩, ⟨1/2, 1/2⟩] := by
  rintro ⟨c, hc, hrot⟩
  have h := Returns_unique _ _ _ hc
    (Returns_of_eq _ _ 20 (fun a b x hab hx => Intersect_mono a b _ _ x hab hx)
      Intersect_unit_offset_eval)
  have hlen := hrot.perm.length_eq
  simp only [List.cons.injEq, and_true] at h
  rw [h] at hlen
  simp at hlen

/-- C1 (amended): on the two squares of the scenario, in the stated point order,
`Clipper::Intersect` returns exactly one contour, the 8-point outline
`[(0.5,1),(0,1),(0,0),(1,0),(1,0.5),(1.5,0.5),(1.5,1.5),(0.5,1.5)]`; with both contours
listed in the reverse order it returns exactly one contour, the overlap square
`[(0.5,1),(1,1),(1,0.5),(0.5,0.5)]`. -/
theorem C1_Intersect_scenario :
    Returns (fun fuel => Intersect fuel unitSquare offsetSquare)
      [[⟨1/2, 1⟩, ⟨0, 1⟩, ⟨0, 0⟩, ⟨1, 0⟩, ⟨1, 1/2⟩, ⟨3/2, 1/2⟩, ⟨3/2, 3/2⟩, ⟨1/2, 3/2⟩]] ∧
    Returns (fun fuel => Intersect fuel unitSquare.reverse offsetSquare.reverse)
      [[⟨1/2, 1⟩, ⟨1, 1⟩, ⟨1, 1/2⟩, ⟨1/2, 1/2⟩]] :=
  ⟨Returns_of_eq _ _ 20 (fun a b x hab hx => Intersect_mono a b _ _ x hab hx)
      Intersect_unit_offset_eval,
    Returns_of_eq _ _ 20 (fun a b x hab hx => Intersect_mono a b _ _ x hab hx)
      Intersect_unit_offset_reverse_eval⟩

/-- C2 as stated fails: on the two squares of the scenario `Clipper::Union` does not
return a contour of 8 points. -/
theorem C2_Union_scenario_counterexample :
    ¬ ∃ c : PointContour,
      Returns (fun fuel => Union fuel unitSquare offsetSquare) c ∧ c.length = 8 ∧
      (⟨0, 1⟩ : Vec2) ∈ c ∧ (⟨0, 0⟩ : Vec2) ∈ c ∧ (⟨1, 0⟩ : Vec2) ∈ c ∧
      (⟨3/2, 1/2⟩ : Vec2) ∈ c ∧ (⟨3/2, 3/2⟩ : Vec2) ∈ c ∧ (⟨1/2, 3/2⟩ : Vec2) ∈ c := by
  rintro ⟨c, hc, hlen, -⟩
  have h := Returns_unique _ _ _ hc
    (Returns_of_eq _ _ 20 (fun a b x hab hx => Union_mono a b _ _ x hab hx)
      Union_unit_offset_eval)
  rw [h] at hlen
  simp at hlen

/-- C2 (amended): on the two squares of the scenario, in the stated point order,
`Clipper::Union` returns the 4-point contour `[(0.5,1),(0.5,0.5),(1,0.5),(1,1)]`; with
both contours listed in the reverse order it returns a single contour of exactly 8
points, which contains the subject corners `(0,1),(0,0),(1,0)` and the clip corners
`(1.5,0.5),(1.5,1.5),(0.5,1.5)`. -/
theorem C2_Union_scenario :
    Returns (fun fuel => Union fuel unitSquare offsetSquare)
      [⟨1/2, 1⟩, ⟨1/2, 1/2⟩, ⟨1, 1/2⟩, ⟨1, 1⟩] ∧
    ∃ c : PointContour,
      Returns (fun fuel => Union fuel unitSquare.reverse offsetSquare.reverse) c ∧
      c.length = 8 ∧
      (⟨0, 1⟩ : Vec2) ∈ c ∧ (⟨0, 0⟩ : Vec2) ∈ c ∧ (⟨1, 0⟩ : Vec2) ∈ c ∧
      (⟨3/2, 1/2⟩ : Vec2) ∈ c ∧ (⟨3/2, 3/2⟩ : Vec2) ∈ c ∧ (⟨1/2, 3/2⟩ : Vec2) ∈ c :=
  ⟨Returns_of_eq _ _ 20 (fun a b x hab hx => Union_mono a b _ _ x hab hx)
      Union_unit_offset_eval,
    _, Returns_of_eq _ _ 20 (fun a b x hab hx => Union_mono a b _ _ x hab hx)
      Union_unit_offset_reverse_eval, by decide!⟩

/-- C3 as stated fails: on the two squares of the scenario `Clipper::Subtract` does not
return a single contour that is a rotation of
`[(1,0.5),(0.5,0.5),(0.5,1),(0,1),(0,0),(1,0)]`. -/
theorem C3_Subtract_scenario_counterexample :
    ¬ ∃ c : PointContour,
      Returns (fun fuel => Subtract fuel unitSquare offsetSquare) [c] ∧
      c ~r [⟨1, 1/2⟩, ⟨1/2, 1/2⟩, ⟨1/2, 1⟩, ⟨0, 1⟩, ⟨0, 0⟩, ⟨1, 0⟩] := by
  rintro ⟨c, hc, hrot⟩
  have h := Returns_unique _ _ _ hc
    (Returns_of_eq _ _ 20 (fun a b x hab hx => Subtract_mono a b _ _ x hab hx)
      Subtract_unit_offset_eval)
  simp only [List.cons.injEq, and_true] at h
  rw [h] at hrot
  have hmem : (⟨3/2, 3/2⟩ : Vec2) ∈
      ([⟨1, 1/2⟩, ⟨1/2, 1/2⟩, ⟨1/2, 1⟩, ⟨0, 1⟩, ⟨0, 0⟩, ⟨1, 0⟩] : List Vec2) :=
    hrot.perm.subset (by decide!)
  revert hmem
  decide!

/-- C3 (amended): on the two squares of the scenario, in the stated point order,
`Clipper::Subtract` returns exactly one contour,
`[(1,0.5),(1,1),(0.5,1),(0.5,1.5),(1.5,1.5),(1.5,0.5)]`; with both contours listed in the
reverse order it returns exactly one contour,
`[(1,0.5),(1,0),(0,0),(0,1),(0.5,1),(0.5,0.5)]`. -/
theorem C3_Subtract_scenario :
    Returns (fun fuel => Subtract fuel unitSquare offsetSquare)
      [[⟨1, 1/2⟩, ⟨1, 1⟩, ⟨1/2, 1⟩, ⟨1/2, 3/2⟩, ⟨3/2, 3/2⟩, ⟨3/2, 1/2⟩]] ∧
    Returns (fun fuel => Subtract fuel unitSquare.reverse offsetSquare.reverse)
      [[⟨1, 1/2⟩, ⟨1, 0⟩, ⟨0, 0⟩, ⟨0, 1⟩, ⟨1/2, 1⟩, ⟨1/2, 1/2⟩]] :=
  ⟨Returns_of_eq _ _ 20 (fun a b x hab hx => Subtract_mono a b _ _ x hab hx)
      Subtract_unit_offset_eval,
    Returns_of_eq _ _ 20 (fun a b x hab hx => Subtract_mono a b _ _ x hab hx)
      Subtract_unit_offset_reverse_eval⟩

/-- C7 as stated fails: the square `[(0,0),(4,0),(4,4),(0,4)]` is convex and the thin
rectangle with the corners `(1,-1),(2,-1),(2,5),(1,5)` pierces it through its bottom and
top edges, but when the rectangle is given clockwise, `[(1,5),(2,5),(2,-1),(1,-1)]`,
`Clipper::Subtract` returns one contour of twelve points; so it does for the clockwise
square against the counter-clockwise rectangle. -/
theorem C7_Subtract_pierced_counterexample :
    thinRect.reverse = [⟨1, 5⟩, ⟨2, 5⟩, ⟨2, -1⟩, ⟨1, -1⟩] ∧
    Returns (fun fuel => Subtract fuel bigSquare thinRect.reverse)
      [[⟨2, 0⟩, ⟨4, 0⟩, ⟨4, 4⟩, ⟨2, 4⟩, ⟨2, 5⟩, ⟨1, 5⟩, ⟨1, 4⟩, ⟨0, 4⟩, ⟨0, 0⟩, ⟨1, 0⟩,
        ⟨1, -1⟩, ⟨2, -1⟩]] ∧
    Returns (fun fuel => Subtract fuel bigSquare.reverse thinRect)
      [[⟨1, 4⟩, ⟨2, 4⟩, ⟨2, 0⟩, ⟨1, 0⟩]] :=
  ⟨by decide,
    Returns_of_eq _ _ 30 (fun a b x hab hx => Subtract_mono a b _ _ x hab hx)
      Subtract_big_thinReverse_eval,
    Returns_of_eq _ _ 30 (fun a b x hab hx => Subtract_mono a b _ _ x hab hx)
      Subtract_bigReverse_thin_eval⟩

/-- The pierced square evaluated: for the square `[(0,0),(4,0),(4,4),(0,4)]` pierced
through its bottom and top edges by the thin rectangle `[(1,-1),(2,-1),(2,5),(1,5)]`, both
wound the same way (counter-clockwise as listed, or both reversed), `Clipper::Subtract`
returns a list of exactly two contours: the two ends of the rectangle outside the square
for the counter-clockwise pair, the two parts of the square beside the rectangle for the
clockwise pair. -/
theorem Subtract_pierced_contours :
    Returns (fun fuel => Subtract fuel bigSquare thinRect)
      [[⟨1, 0⟩, ⟨2, 0⟩, ⟨2, -1⟩, ⟨1, -1⟩], [⟨2, 4⟩, ⟨1, 4⟩, ⟨1, 5⟩, ⟨2, 5⟩]] ∧
    Returns (fun fuel => Subtract fuel bigSquare.reverse thinRect.reverse)
      [[⟨2, 4⟩, ⟨4, 4⟩, ⟨4, 0⟩, ⟨2, 0⟩], [⟨1, 0⟩, ⟨0, 0⟩, ⟨0, 4⟩, ⟨1, 4⟩]] :=
  ⟨Returns_of_eq _ _ 30 (fun a b x hab hx => Subtract_mono a b _ _ x hab hx)
      Subtract_big_thin_eval,
    Returns_of_eq _ _ 30 (fun a b x hab hx => Subtract_mono a b _ _ x hab hx)
      Subtract_big_thin_reverse_eval⟩

/-! ### Claims on `ComputeIntersectionPoint` -/

/-- The sides of the first segment's endpoints at a reported intersection, by tag. -/
theorem tag0_sides (p0 p1 q0 q1 : Vec2)
    (h : ReportsIntersection (ComputeIntersectionPoint p0 p1 q0 q1)) :
    ((ComputeIntersectionPoint p0 p1 q0 q1).line0Flags = ClipVertexClassification.OutToIn →
      SignedArea q0 q1 p0 > 0 ∧ SignedArea q0 q1 p1 < 0) ∧
    ((ComputeIntersectionPoint p0 p1 q0 q1).line0Flags = ClipVertexClassification.InToOut →
      SignedArea q0 q1 p0 < 0 ∧ SignedArea q0 q1 p1 > 0) := by
  rcases ComputeIntersectionPoint_cases p0 p1 q0 q1 with hc | ⟨-, h34, hc⟩
  · exact absurd (by rw [hc]) h
  · rw [hc]
    simp only
    by_cases h3 : SignedArea q0 q1 p0 < 0
    · rw [if_pos h3]
      refine ⟨fun hx => (by cases hx), fun _ => ⟨h3, ?_⟩⟩
      by_contra h4
      have h4' := not_lt.mp h4
      nlinarith [mul_nonneg_of_nonpos_of_nonpos h3.le h4']
    · rw [if_neg h3]
      have h3' := not_lt.mp h3
      refine ⟨fun _ => ⟨?_, ?_⟩, fun hx => (by cases hx)⟩
      · rcases h3'.lt_or_eq with hlt | heq
        · exact hlt
        · rw [← heq] at h34
          simp at h34
      · by_contra h4
        have h4' := not_lt.mp h4
        nlinarith [mul_nonneg h3' h4']

/-- C8: if `ComputeIntersectionPoint(p0,p1,q0,q1)` reports an intersection with parameter
`t`, the point `X = p0 + t*(p1-p0)` satisfies `SignedArea(q0,q1,X) = 0`, lies on the
closed segment from `q0` to `q1` and on the closed segment from `p0` to `p1`. -/
theorem C8_reported_intersection_is_genuine (p0 p1 q0 q1 : Vec2)
    (h : ReportsIntersection (ComputeIntersectionPoint p0 p1 q0 q1)) :
    SignedArea q0 q1 (pointAt p0 p1 (ComputeIntersectionPoint p0 p1 q0 q1).time) = 0 ∧
    OnSegment q0 q1 (pointAt p0 p1 (ComputeIntersectionPoint p0 p1 q0 q1).time) ∧
    OnSegment p0 p1 (pointAt p0 p1 (ComputeIntersectionPoint p0 p1 q0 q1).time) :=
  reported_is_genuine p0 p1 q0 q1 h

/-- C8 at the crossing of the edge `(1,0)-(1,1)` with the edge `(0.5,0.5)-(1.5,0.5)`. -/
theorem C8_reported_intersection_is_genuine_witness :
    ReportsIntersection (ComputeIntersectionPoint ⟨1, 0⟩ ⟨1, 1⟩ ⟨1/2, 1/2⟩ ⟨3/2, 1/2⟩) ∧
    (SignedArea ⟨1/2, 1/2⟩ ⟨3/2, 1/2⟩ (pointAt ⟨1, 0⟩ ⟨1, 1⟩
        (ComputeIntersectionPoint ⟨1, 0⟩ ⟨1, 1⟩ ⟨1/2, 1/2⟩ ⟨3/2, 1/2⟩).time) = 0 ∧
      OnSegment ⟨1/2, 1/2⟩ ⟨3/2, 1/2⟩ (pointAt ⟨1, 0⟩ ⟨1, 1⟩
        (ComputeIntersectionPoint ⟨1, 0⟩ ⟨1, 1⟩ ⟨1/2, 1/2⟩ ⟨3/2, 1/2⟩).time) ∧
      OnSegment ⟨1, 0⟩ ⟨1, 1⟩ (pointAt ⟨1, 0⟩ ⟨1, 1⟩
        (ComputeIntersectionPoint ⟨1, 0⟩ ⟨1, 1⟩ ⟨1/2, 1/2⟩ ⟨3/2, 1/2⟩).time)) :=
  ⟨by unfold ReportsIntersection; decide!,
    C8_reported_intersection_is_genuine _ _ _ _ (by unfold ReportsIntersection; decide!)⟩

set_option maxRecDepth 100000 in
/-- In binary32 the sides stated for `tag0` can fail: the edge `(0.5,0.5)-(0,0)` against
the edge `(0,0)-(0.1f,0)` is reported with `tag0 = OutToIn`, although the end `p1` of the
first edge is the start `q0` of the second, so that `SignedArea(q0,q1,p1)` is `0` (exactly
and as computed) and not negative. -/
theorem tag0_sides_binary32 :
    ReportsIntersection
      (Binary32.ComputeIntersectionPoint ⟨1/2, 1/2⟩ ⟨0, 0⟩ ⟨0, 0⟩ ⟨Binary32.tenth, 0⟩) ∧
    (Binary32.ComputeIntersectionPoint ⟨1/2, 1/2⟩ ⟨0, 0⟩ ⟨0, 0⟩ ⟨Binary32.tenth, 0⟩).line0Flags
      = ClipVertexClassification.OutToIn ∧
    SignedArea ⟨0, 0⟩ ⟨Binary32.tenth, 0⟩ ⟨0, 0⟩ = 0 ∧
    Binary32.SignedArea ⟨0, 0⟩ ⟨Binary32.tenth, 0⟩ ⟨0, 0⟩ = 0 :=
  ⟨by unfold ReportsIntersection; decide!, by decide!, by decide!, by decide!⟩

/-- C9 as stated fails: the edge `(1,1)-(0,1)` against the edge `(0.5,1.5)-(0.5,0.5)` is
reported with `tag0 = OutToIn` although `SignedArea(q0,q1,p0)` is positive. -/
theorem C9_tag0_counterexample :
    (ComputeIntersectionPoint ⟨1, 1⟩ ⟨0, 1⟩ ⟨1/2, 3/2⟩ ⟨1/2, 1/2⟩).line0Flags
        = ClipVertexClassification.OutToIn ∧
    ReportsIntersection (ComputeIntersectionPoint ⟨1, 1⟩ ⟨0, 1⟩ ⟨1/2, 3/2⟩ ⟨1/2, 1/2⟩) ∧
    ¬ (SignedArea ⟨1/2, 3/2⟩ ⟨1/2, 1/2⟩ ⟨1, 1⟩ < 0 ∧
        SignedArea ⟨1/2, 3/2⟩ ⟨1/2, 1/2⟩ ⟨0, 1⟩ > 0) := by
  unfold ReportsIntersection
  decide!

/-- C9 (amended): in exact arithmetic, whenever `ComputeIntersectionPoint(p0,p1,q0,q1)`
reports an intersection with `tag0 = OutToIn`, `SignedArea(q0,q1,p0) > 0` and
`SignedArea(q0,q1,p1) < 0`; and when `tag0 = InToOut`, `SignedArea(q0,q1,p0) < 0` and
`SignedArea(q0,q1,p1) > 0`: the inside is the side of negative signed area. (With the
rounding of binary32 the side of `p1` is not guaranteed, see `tag0_sides_binary32`.) -/
theorem C9_tag0_sides (p0 p1 q0 q1 : Vec2)
    (h : ReportsIntersection (ComputeIntersectionPoint p0 p1 q0 q1)) :
    ((ComputeIntersectionPoint p0 p1 q0 q1).line0Flags = ClipVertexClassification.OutToIn →
      SignedArea q0 q1 p0 > 0 ∧ SignedArea q0 q1 p1 < 0) ∧
    ((ComputeIntersectionPoint p0 p1 q0 q1).line0Flags = ClipVertexClassification.InToOut →
      SignedArea q0 q1 p0 < 0 ∧ SignedArea q0 q1 p1 > 0) :=
  tag0_sides p0 p1 q0 q1 h

/-- C9 (amended) at the edge `(1,1)-(0,1)` against the edge `(0.5,1.5)-(0.5,0.5)`, an
`OutToIn` crossing. -/
theorem C9_tag0_sides_witness :
    ReportsIntersection (ComputeIntersectionPoint ⟨1, 1⟩ ⟨0, 1⟩ ⟨1/2, 3/2⟩ ⟨1/2, 1/2⟩) ∧
    (ComputeIntersectionPoint ⟨1, 1⟩ ⟨0, 1⟩ ⟨1/2, 3/2⟩ ⟨1/2, 1/2⟩).line0Flags
        = ClipVertexClassification.OutToIn ∧
    (SignedArea ⟨1/2, 3/2⟩ ⟨1/2, 1/2⟩ ⟨1, 1⟩ > 0 ∧
      SignedArea ⟨1/2, 3/2⟩ ⟨1/2, 1/2⟩ ⟨0, 1⟩ < 0) :=
  ⟨by unfold ReportsIntersection; decide!, by decide!,
    (C9_tag0_sides ⟨1, 1⟩ ⟨0, 1⟩ ⟨1/2, 3/2⟩ ⟨1/2, 1/2⟩
      (by unfold ReportsIntersection; decide!)).1 (by decide!)⟩

/-! ### Heap access -/

theorem deref_some (h : Heap) (i : Nat) : deref h (some i) = h[i]? := rfl

theorem store_some {h : Heap} {i : Nat} {v : ClipVertex} (hv : h[i]? = some v)
    (f : ClipVertex → ClipVertex) : store h (some i) f = some (h.set i (f v)) := by
  simp [store, hv]

theorem getElem?_set_heap (h : Heap) (i k : Nat) (c : ClipVertex) :
    (h.set i c)[k]? = if k = i then (h[k]?).map (fun _ => c) else h[k]? := by
  by_cases hk : k = i
  · subst hk
    rw [if_pos rfl]
    by_cases hlt : k < h.length
    · rw [List.getElem?_set_self hlt, List.getElem?_eq_getElem hlt]
      rfl
    · have h1 : (h.set k c)[k]? = none := by
        apply List.getElem?_eq_none
        simp
        omega
      have h2 : h[k]? = none := List.getElem?_eq_none (by omega)
      rw [h1, h2]
      rfl
  · rw [if_neg hk, List.getElem?_set_ne (Ne.symm hk)]

theorem BuildVertexListLink_spec (base count : Nat) : ∀ (is : List Nat) (h : Heap),
    (∀ i ∈ is, base + i < h.length) →
    ∃ h', BuildVertexListLink base count is h = some h' ∧ h'.length = h.length ∧
      ∀ k, h'[k]? = (h[k]?).map
        (fun v => if base ≤ k ∧ k - base ∈ is then linkCell base count (k - base) v else v) := by
  intro is
  induction is with
  | nil =>
    intro h _
    refine ⟨h, rfl, rfl, fun k => ?_⟩
    simp
  | cons i rest ih =>
    intro h hin
    have hi : base + i < h.length := hin i (List.mem_cons_self _ _)
    have hv : h[base + i]? = some h[base + i] := List.getElem?_eq_getElem hi
    simp only [BuildVertexListLink]
    rw [store_some hv]
    simp only
    have hv1 : (h.set (base + i) { h[base + i] with mNext := some (base + (i + 1) % count) })[base + i]?
        = some { h[base + i] with mNext := some (base + (i + 1) % count) } := by
      rw [List.getElem?_set_self hi]
    rw [store_some hv1]
    simp only [List.set_set]
    obtain ⟨h', he, hl, hk⟩ := ih (h.set (base + i) (linkCell base count i h[base + i])) (by
      intro j hj
      rw [List.length_set]
      exact hin j (List.mem_cons_of_mem _ hj))
    refine ⟨h', he, by rw [hl, List.length_set], fun k => ?_⟩
    rw [hk k, getElem?_set_heap]
    by_cases hki : k = base + i
    · subst hki
      rw [if_pos rfl, hv]
      simp [linkCell]
    · rw [if_neg hki]
      cases hc : h[k]? with
      | none => rfl
      | some c =>
        simp only [Option.map_some', List.mem_cons]
        have hiff : (base ≤ k ∧ (k - base = i ∨ k - base ∈ rest)) ↔
            (base ≤ k ∧ k - base ∈ rest) := by
          constructor
          · rintro ⟨hb, h1 | h1⟩
            · exact absurd (by omega) hki
            · exact ⟨hb, h1⟩
          · rintro ⟨hb, h1⟩
            exact ⟨hb, Or.inr h1⟩
        simp only [hiff]

/-- The cell that `BuildVertexList` produces for the point `p` at position `i` of a
contour of `count` points whose cells start at `base`. -/
theorem BuildVertexList_spec (points : PointContour) (h : Heap) (hne : points ≠ []) :
    ∃ h', BuildVertexList points h = some (h', { mHead := some h.length }) ∧
      h'.length = h.length + points.length ∧
      (∀ k, k < h.length → h'[k]? = h[k]?) ∧
      (∀ i p, points[i]? = some p →
        h'[h.length + i]? = some (linkCell h.length points.length i { mPoint := p })) := by
  obtain ⟨h', he, hl, hk⟩ := BuildVertexListLink_spec h.length points.length
    (List.range points.length) (h ++ points.map (fun p => ({ mPoint := p } : ClipVertex))) (by
      intro i hi
      rw [List.mem_range] at hi
      simp
      omega)
  refine ⟨h', ?_, ?_, ?_, ?_⟩
  · simp only [BuildVertexList, if_neg hne, he]
  · rw [hl]
    simp
  · intro k hlt
    rw [hk k, List.getElem?_append_left hlt]
    cases hc : h[k]? with
    | none => rfl
    | some c =>
      have : ¬ (h.length ≤ k) := by omega
      simp [this]
  · intro i p hp
    have hi : i < points.length := by
      by_contra hcon
      rw [List.getElem?_eq_none (by omega)] at hp
      cases hp
    rw [hk, List.getElem?_append_right (by omega)]
    simp only [Nat.add_sub_cancel_left, List.getElem?_map, hp, Option.map_some',
      List.mem_range, hi, Nat.le_add_right, and_self, if_true]

/-! ### Walking a ring with `Traverse` -/

/-- One full turn of `ClipVertex::Traverse` around a ring whose cells are listed in `r`,
for a callback that always continues and keeps the cached next pointer: the invariant
`Inv` is carried from position `k` to the end of the ring. -/
theorem Traverse_ring {σ : Type}
    (cb : Ptr → Ptr → Heap × σ → Option (Bool × Ptr × (Heap × σ)))
    (r : List Nat) (hnd : r.Nodup) (Inv : Nat → Heap × σ → Prop)
    (hstep : ∀ k a st, r[k]? = some a → Inv k st →
      ∃ v st', deref st.1 (some a) = some v ∧ v.mNext = r[(k + 1) % r.length]? ∧
        cb (some a) v.mNext st = some (true, v.mNext, st') ∧ Inv (k + 1) st') :
    ∀ (j k a : Nat) (st : Heap × σ) (fuel : Nat), r[k]? = some a → k + j = r.length →
      j ≤ fuel → Inv k st →
      ∃ st', Traverse cb fuel r[0]? (some a) st = some st' ∧ Inv r.length st' := by
  intro j
  induction j with
  | zero =>
    intro k a st fuel hk hlen _ _
    rw [List.getElem?_eq_none (by omega)] at hk
    cases hk
  | succ j ih =>
    intro k a st fuel hk hlen hfuel hinv
    obtain ⟨fuel, rfl⟩ : ∃ f, fuel = f + 1 := ⟨fuel - 1, by omega⟩
    obtain ⟨v, st', hd, hnext, hcb, hinv'⟩ := hstep k a st hk hinv
    simp only [Traverse, hd, hcb]
    by_cases hlast : k + 1 = r.length
    · have h0 : (k + 1) % r.length = 0 := by rw [hlast]; exact Nat.mod_self _
      rw [h0] at hnext
      simp only [hnext, ne_eq, not_true_eq_false, if_false]
      refine ⟨st', by simp, ?_⟩
      rw [← hlast]
      exact hinv'
    · have hlt : k + 1 < r.length := by omega
      have hmod : (k + 1) % r.length = k + 1 := Nat.mod_eq_of_lt hlt
      rw [hmod] at hnext
      have hb : r[k + 1]? = some r[k + 1] := List.getElem?_eq_getElem hlt
      have hne : r[k + 1]? ≠ r[0]? := by
        intro heq
        have := List.getElem?_inj hlt hnd heq
        omega
      rw [hnext]
      simp only [Bool.true_eq_false, if_false, ne_eq, hne, not_false_eq_true, if_true]
      rw [hb]
      exact ih (k + 1) r[k + 1] st' fuel hb (by omega) (by omega) hinv'

/-- The ring built by `BuildVertexList`, read back with `ReadPoints`. -/
theorem ReadPoints_BuildVertexList (points : PointContour) (h : Heap) (hne : points ≠ [])
    (fuel : Nat) (hfuel : points.length ≤ fuel) :
    ∃ h' l, BuildVertexList points h = some (h', l) ∧ ReadPoints fuel h' l = some points := by
  obtain ⟨h', hb, hl, hold, hnew⟩ := BuildVertexList_spec points h hne
  refine ⟨h', _, hb, ?_⟩
  have hpos : 0 < points.length := List.length_pos.mpr hne
  have hr0 : (List.range' h.length points.length)[0]? = some h.length := by
    rw [List.getElem?_range' _ _ hpos]
    simp
  have key := Traverse_ring ReadPointsCallback (List.range' h.length points.length)
    (List.nodup_range' _ _) (fun k st => st.1 = h' ∧ st.2 = points.take k)
    (by
      intro k a st hk hinv
      have hklt : k < points.length := by
        by_contra hcon
        rw [List.getElem?_eq_none (by simp; omega)] at hk
        cases hk
      rw [List.getElem?_range' _ _ hklt] at hk
      simp only [one_mul, Option.some.injEq] at hk
      subst hk
      have hp : points[k]? = some points[k] := List.getElem?_eq_getElem hklt
      have hcell := hnew k _ hp
      refine ⟨linkCell h.length points.length k { mPoint := points[k] },
        (h', points.take (k + 1)), ?_, ?_, ?_, rfl, rfl⟩
      · rw [deref_some, hinv.1, hcell]
      · simp only [linkCell, List.length_range']
        rw [List.getElem?_range' _ _ (Nat.mod_lt _ hpos)]
        simp
      · simp only [ReadPointsCallback, deref_some, hinv.1, hcell, linkCell]
        rw [hinv.2, List.take_succ, hp]
        simp [hinv.1])
    points.length 0 h.length (h', []) fuel hr0 (by simp) hfuel ⟨rfl, by simp⟩
  obtain ⟨st', ht, hs1, hs2⟩ := key
  simp only [ReadPoints]
  rw [hr0] at ht
  rw [ht]
  simp only [Option.map_some', List.length_range'] at hs2 ⊢
  rw [hs2, List.take_length]

/-- C10: for every non-empty contour, `BuildVertexList` succeeds and a forward traversal
from `mHead` reading `mPoint` of each vertex once around the ring returns exactly the
input point sequence (for every fuel of at least the number of points). -/
theorem C10_BuildVertexList_read_back (points : PointContour) (h : Heap) (hne : points ≠ []) :
    ∃ h' l, BuildVertexList points h = some (h', l) ∧
      ∀ fuel, points.length ≤ fuel → ReadPoints fuel h' l = some points := by
  obtain ⟨h', hb, -⟩ := BuildVertexList_spec points h hne
  refine ⟨h', _, hb, fun fuel hfuel => ?_⟩
  obtain ⟨h'', l, hb', hr⟩ := ReadPoints_BuildVertexList points h hne fuel hfuel
  rw [hb] at hb'
  cases hb'
  exact hr

/-- C10 on the unit square, built in the empty heap. -/
theorem C10_BuildVertexList_read_back_witness :
    unitSquare ≠ [] ∧
    ∃ h' l, BuildVertexList unitSquare [] = some (h', l) ∧
      ∀ fuel, unitSquare.length ≤ fuel → ReadPoints fuel h' l = some unitSquare :=
  ⟨by simp [unitSquare], C10_BuildVertexList_read_back unitSquare [] (by simp [unitSquare])⟩

/-! ### Loops over a ring without crossings -/

theorem getElem?_lt_of_some {α : Type} {l : List α} {k : Nat} {a : α} (h : l[k]? = some a) :
    k < l.length := by
  by_contra hcon
  rw [List.getElem?_eq_none (by omega)] at h
  cases h

theorem FindFirstOf_head (fuel : Nat) (h : Heap) (p : Ptr) (v : ClipVertex)
    (c : ClipVertexClassification) (hp : deref h p = some v) (hc : v.mClassification = c) :
    FindFirstOf (fuel + 1) h p c = some p := by
  simp [FindFirstOf, Traverse, FindFirstOfCallback, hp, hc]

theorem FindFirstOf_ring_none (h : Heap) (r : List Nat) (hr : IsRing h r) (hne : r ≠ [])
    (c : ClipVertexClassification)
    (hc : ∀ a ∈ r, ∀ v, h[a]? = some v → v.mClassification ≠ c)
    (fuel : Nat) (hfuel : r.length ≤ fuel) :
    FindFirstOf fuel h r[0]? c = some none := by
  have hpos : 0 < r.length := List.length_pos.mpr hne
  have h0 : r[0]? = some r[0] := List.getElem?_eq_getElem hpos
  have key := Traverse_ring (FindFirstOfCallback c) r hr.1 (fun _ st => st = (h, none))
    (by
      intro k a st hk hinv
      obtain ⟨v, hv, hnext⟩ := hr.2 k a hk
      subst hinv
      refine ⟨v, (h, none), ?_, hnext, ?_, rfl⟩
      · rw [deref_some, hv]
      · simp [FindFirstOfCallback, deref_some, hv, hc a (List.getElem?_mem hk) v hv])
    r.length 0 r[0] (h, none) fuel h0 (by simp) hfuel rfl
  obtain ⟨st', ht, hs⟩ := key
  simp only [FindFirstOf]
  rw [h0] at ht ⊢
  rw [ht, hs]
  rfl

theorem destroyLoop_ring (h : Heap) (r : List Nat) (hr : IsRing h r) :
    ∀ (j k a fuel : Nat), r[k]? = some a → k + j = r.length → j ≤ fuel →
      destroyLoop fuel h r[0]? (some a) = some () := by
  intro j
  induction j with
  | zero =>
    intro k a fuel hk hlen _
    have := getElem?_lt_of_some hk
    omega
  | succ j ih =>
    intro k a fuel hk hlen hfuel
    obtain ⟨fuel, rfl⟩ : ∃ f, fuel = f + 1 := ⟨fuel - 1, by omega⟩
    obtain ⟨v, hv, hnext⟩ := hr.2 k a hk
    simp only [destroyLoop, deref_some, hv]
    by_cases hlast : k + 1 = r.length
    · have h0 : (k + 1) % r.length = 0 := by rw [hlast]; exact Nat.mod_self _
      rw [h0] at hnext
      simp [hnext]
    · have hlt : k + 1 < r.length := by omega
      rw [Nat.mod_eq_of_lt hlt] at hnext
      have hb : r[k + 1]? = some r[k + 1] := List.getElem?_eq_getElem hlt
      have hne : r[k + 1]? ≠ r[0]? := by
        intro heq
        have := List.getElem?_inj hlt hr.1 heq
        omega
      rw [hnext, if_pos hne, hb]
      exact ih (k + 1) r[k + 1] fuel hb (by omega) (by omega)

theorem destroy_ring (h : Heap) (r : List Nat) (hr : IsRing h r) (hne : r ≠ [])
    (fuel : Nat) (hfuel : r.length ≤ fuel) :
    ClipVertexList.destroy fuel h { mHead := r[0]? } = some () := by
  have hpos : 0 < r.length := List.length_pos.mpr hne
  have h0 : r[0]? = some r[0] := List.getElem?_eq_getElem hpos
  simp only [ClipVertexList.destroy]
  nth_rewrite 2 [h0]
  exact destroyLoop_ring h r hr r.length 0 r[0] fuel h0 (by simp) hfuel

theorem ClipEdgesLoop_ring_none (h : Heap) (r : List Nat) (hr : IsRing h r)
    (start end_ : Ptr) (s e : ClipVertex) (hs : deref h start = some s)
    (he : deref h end_ = some e)
    (hno : ∀ (k a : Nat) (v v' : ClipVertex), r[k]? = some a → h[a]? = some v → deref h v.mNext = some v' →
      ¬ (0 ≤ (ComputeIntersectionPoint s.mPoint e.mPoint v.mPoint v'.mPoint).time ∧
          (ComputeIntersectionPoint s.mPoint e.mPoint v.mPoint v'.mPoint).time ≤ 1))
    (nv : List IntersectionVerts) :
    ∀ (j k a fuel : Nat), r[k]? = some a → k + j = r.length → j ≤ fuel →
      ClipEdgesLoop start end_ r[0]? fuel (some a) h nv = some (h, nv) := by
  intro j
  induction j with
  | zero =>
    intro k a fuel hk hlen _
    have := getElem?_lt_of_some hk
    omega
  | succ j ih =>
    intro k a fuel hk hlen hfuel
    obtain ⟨fuel, rfl⟩ : ∃ f, fuel = f + 1 := ⟨fuel - 1, by omega⟩
    obtain ⟨v, hv, hnext⟩ := hr.2 k a hk
    have hklt := getElem?_lt_of_some hk
    have hmlt : (k + 1) % r.length < r.length := Nat.mod_lt _ (by omega)
    have hb : r[(k + 1) % r.length]? = some r[(k + 1) % r.length] :=
      List.getElem?_eq_getElem hmlt
    obtain ⟨v', hv', -⟩ := hr.2 _ _ hb
    have hdn : deref h v.mNext = some v' := by rw [hnext, hb, deref_some, hv']
    have hno' := hno k a v v' hk hv hdn
    simp only [ClipEdgesLoop, deref_some, hv]
    rw [hs, he, hdn]
    simp only [if_neg hno']
    by_cases hlast : k + 1 = r.length
    · have h0 : (k + 1) % r.length = 0 := by rw [hlast]; exact Nat.mod_self _
      rw [h0] at hnext
      simp [hnext]
    · have hlt : k + 1 < r.length := by omega
      rw [Nat.mod_eq_of_lt hlt] at hnext
      have hb1 : r[k + 1]? = some r[k + 1] := List.getElem?_eq_getElem hlt
      have hne : r[k + 1]? ≠ r[0]? := by
        intro heq
        have := List.getElem?_inj hlt hr.1 heq
        omega
      rw [hnext, if_pos hne, hb1]
      exact ih (k + 1) r[k + 1] fuel hb1 (by omega) (by omega)

theorem ClipEdges_ring_none (h : Heap) (r : List Nat) (hr : IsRing h r) (hne : r ≠ [])
    (start end_ : Ptr) (s e : ClipVertex) (hs : deref h start = some s)
    (he : deref h end_ = some e)
    (hno : ∀ (k a : Nat) (v v' : ClipVertex), r[k]? = some a → h[a]? = some v → deref h v.mNext = some v' →
      ¬ (0 ≤ (ComputeIntersectionPoint s.mPoint e.mPoint v.mPoint v'.mPoint).time ∧
          (ComputeIntersectionPoint s.mPoint e.mPoint v.mPoint v'.mPoint).time ≤ 1))
    (fuel : Nat) (hfuel : r.length ≤ fuel) :
    ClipEdges fuel h start end_ { mHead := r[0]? } = some h := by
  have hpos : 0 < r.length := List.length_pos.mpr hne
  have h0 : r[0]? = some r[0] := List.getElem?_eq_getElem hpos
  have hl := ClipEdgesLoop_ring_none h r hr start end_ s e hs he hno [] r.length 0 r[0] fuel h0
    (by simp) hfuel
  simp only [ClipEdges]
  nth_rewrite 2 [h0]
  rw [hl]
  simp [ClipEdgesThread]

theorem ClipPolygon_ring_none (h : Heap) (rp rc : List Nat) (hrp : IsRing h rp)
    (hrc : IsRing h rc) (hnp : rp ≠ []) (hnc : rc ≠ [])
    (hno : ∀ (a b : Nat) (s e c c' : ClipVertex), a ∈ rp → h[a]? = some s →
      deref h s.mNext = some e → b ∈ rc → h[b]? = some c → deref h c.mNext = some c' →
      ¬ (0 ≤ (ComputeIntersectionPoint s.mPoint e.mPoint c.mPoint c'.mPoint).time ∧
          (ComputeIntersectionPoint s.mPoint e.mPoint c.mPoint c'.mPoint).time ≤ 1))
    (fuel : Nat) (hfp : rp.length ≤ fuel) (hfc : rc.length ≤ fuel) :
    ClipPolygon fuel h { mHead := rp[0]? } { mHead := rc[0]? } = some h := by
  have hpos : 0 < rp.length := List.length_pos.mpr hnp
  have h0 : rp[0]? = some rp[0] := List.getElem?_eq_getElem hpos
  have key := Traverse_ring (ClipPolygonCallback fuel { mHead := rc[0]? }) rp hrp.1
    (fun _ st => st = (h, ()))
    (by
      intro k a st hk hinv
      obtain ⟨v, hv, hnext⟩ := hrp.2 k a hk
      subst hinv
      have hmlt : (k + 1) % rp.length < rp.length := Nat.mod_lt _ hpos
      have hb : rp[(k + 1) % rp.length]? = some rp[(k + 1) % rp.length] :=
        List.getElem?_eq_getElem hmlt
      obtain ⟨e, hev, -⟩ := hrp.2 _ _ hb
      have hde : deref h v.mNext = some e := by rw [hnext, hb, deref_some, hev]
      refine ⟨v, (h, ()), ?_, hnext, ?_, rfl⟩
      · rw [deref_some, hv]
      · have hce := ClipEdges_ring_none h rc hrc hnc (some a) v.mNext v e
          (by rw [deref_some, hv]) hde
          (fun k' b c c' hk' hc hc' =>
            hno a b v e c c' (List.getElem?_mem hk) hv hde (List.getElem?_mem hk') hc hc')
          fuel hfc
        simp only [ClipPolygonCallback, deref_some, hv, hce])
    rp.length 0 rp[0] (h, ()) fuel h0 (by simp) hfp rfl
  obtain ⟨st', ht, hs⟩ := key
  simp only [ClipPolygon]
  rw [h0] at ht ⊢
  rw [ht, hs]
  rfl

theorem not_mem_take_of_nodup {r : List Nat} (hnd : r.Nodup) {k a : Nat}
    (hk : r[k]? = some a) : a ∉ r.take k := by
  intro hmem
  obtain ⟨i, hi⟩ := List.getElem?_of_mem hmem
  have hik : i < k := by
    have := getElem?_lt_of_some hi
    simp at this
    omega
  rw [List.getElem?_take_of_lt hik] at hi
  have hlt : i < r.length := getElem?_lt_of_some hi
  have := List.getElem?_inj hlt hnd (hi.trans hk.symm)
  omega

/-- The classifier on a ring without crossing vertices: every cell of the ring gets the
tag `Inside`, nothing else changes. -/
theorem ClassifyVertices_ring (h : Heap) (r : List Nat) (hr : IsRing h r) (hne : r ≠ [])
    (hnone : ∀ a ∈ r, ∀ v, h[a]? = some v →
      v.mClassification = ClipVertexClassification.None)
    (fuel : Nat) (hfuel : r.length ≤ fuel) :
    ∃ h', ClassifyVertices fuel h { mHead := r[0]? } = some h' ∧
      ∀ idx, h'[idx]? = (h[idx]?).map (fun v =>
        if idx ∈ r then { v with mClassification := ClipVertexClassification.Inside } else v) := by
  have hpos : 0 < r.length := List.length_pos.mpr hne
  have h0 : r[0]? = some r[0] := List.getElem?_eq_getElem hpos
  obtain ⟨v0, hv0, -⟩ := hr.2 0 r[0] h0
  have hc0 := hnone r[0] (List.getElem?_mem h0) v0 hv0
  obtain ⟨fuel', hfuel'⟩ : ∃ f, fuel = f + 1 := ⟨fuel - 1, by omega⟩
  have hfind : FindFirstOf fuel h r[0]? ClipVertexClassification.None = some r[0]? := by
    rw [hfuel']
    exact FindFirstOf_head fuel' h _ v0 _ (by rw [h0, deref_some, hv0]) hc0
  have key := Traverse_ring ClassifyCallback r hr.1
    (fun k st => st.2 = ClipVertexClassification.Inside ∧
      ∀ idx, st.1[idx]? = (h[idx]?).map (fun v =>
        if idx ∈ r.take k then { v with mClassification := ClipVertexClassification.Inside }
        else v))
    (by
      intro k a st hk hinv
      obtain ⟨v, hv, hnext⟩ := hr.2 k a hk
      obtain ⟨hflag, hheap⟩ := hinv
      have hnot := not_mem_take_of_nodup hr.1 hk
      have hsa : st.1[a]? = some v := by
        rw [hheap a, hv]
        simp [hnot]
      have hcl := hnone a (List.getElem?_mem hk) v hv
      refine ⟨v, (st.1.set a { v with mClassification := ClipVertexClassification.Inside },
        ClipVertexClassification.Inside), ?_, hnext, ?_, rfl, ?_⟩
      · rw [deref_some, hsa]
      · simp only [ClassifyCallback, deref_some, hsa, hcl, if_true, store_some hsa, hflag]
      · intro idx
        simp only
        rw [getElem?_set_heap, List.take_succ, hk]
        by_cases hia : idx = a
        · subst hia
          rw [if_pos rfl, hsa, hv]
          simp
        · rw [if_neg hia, hheap idx]
          simp [hia])
    r.length 0 r[0] (h, ClipVertexClassification.Inside) fuel h0 (by simp) hfuel
    ⟨rfl, fun idx => by simp⟩
  obtain ⟨st', ht, -, hs⟩ := key
  refine ⟨st'.1, ?_, ?_⟩
  · simp only [ClassifyVertices, hfind]
    rw [h0] at ht ⊢
    simp only [ne_eq, reduceCtorEq, not_false_eq_true, if_true, deref_some, hv0, hc0, if_false]
    rw [ht]
    rfl
  · intro idx
    rw [hs idx, List.take_length]

/-! ### Rings as built by `BuildVertexList` -/

theorem range'_getElem?_some {base n k a : Nat} (h : (List.range' base n)[k]? = some a) :
    k < n ∧ a = base + k := by
  have hk : k < n := by
    have := getElem?_lt_of_some h
    simpa using this
  rw [List.getElem?_range' _ _ hk] at h
  simp only [one_mul, Option.some.injEq] at h
  exact ⟨hk, h.symm⟩

theorem mem_range'_base {base n a : Nat} (h : a ∈ List.range' base n) :
    ∃ i, i < n ∧ a = base + i := by
  obtain ⟨k, hk⟩ := List.getElem?_of_mem h
  exact ⟨k, range'_getElem?_some hk⟩

theorem BuiltRing.isRing {h : Heap} {base : Nat} {pts : PointContour}
    {tag : ClipVertexClassification} (hb : BuiltRing h base pts tag) :
    IsRing h (List.range' base pts.length) := by
  refine ⟨List.nodup_range' _ _, fun k a hk => ?_⟩
  obtain ⟨hlt, rfl⟩ := range'_getElem?_some hk
  obtain ⟨v, hv, -, hnext, -⟩ := hb k pts[k] (List.getElem?_eq_getElem hlt)
  refine ⟨v, hv, ?_⟩
  rw [hnext, List.length_range', List.getElem?_range' _ _ (Nat.mod_lt _ (by omega))]
  simp

theorem BuiltRing.tag_eq {h : Heap} {base : Nat} {pts : PointContour}
    {tag : ClipVertexClassification} (hb : BuiltRing h base pts tag) {a : Nat}
    (ha : a ∈ List.range' base pts.length) {v : ClipVertex} (hv : h[a]? = some v) :
    v.mClassification = tag := by
  obtain ⟨i, hi, rfl⟩ := mem_range'_base ha
  obtain ⟨v', hv', -, -, htag⟩ := hb i pts[i] (List.getElem?_eq_getElem hi)
  rw [hv] at hv'
  cases hv'
  exact htag

theorem mem_edges {pts : PointContour} {i : Nat} {p q : Vec2} (hp : pts[i]? = some p)
    (hq : pts[(i + 1) % pts.length]? = some q) : (p, q) ∈ edges pts := by
  have hi := getElem?_lt_of_some hp
  apply List.getElem?_mem (n := i)
  rw [edges, List.getElem?_zip_eq_some]
  exact ⟨hp, by rw [List.getElem?_rotate hi]; exact hq⟩

theorem BuiltRing.edge {h : Heap} {base : Nat} {pts : PointContour}
    {tag : ClipVertexClassification} (hb : BuiltRing h base pts tag) {a : Nat}
    (ha : a ∈ List.range' base pts.length) {s e : ClipVertex} (hs : h[a]? = some s)
    (he : deref h s.mNext = some e) : (s.mPoint, e.mPoint) ∈ edges pts := by
  obtain ⟨i, hi, rfl⟩ := mem_range'_base ha
  obtain ⟨v, hv, hpt, hnext, -⟩ := hb i pts[i] (List.getElem?_eq_getElem hi)
  rw [hs] at hv
  cases hv
  have hm : (i + 1) % pts.length < pts.length := Nat.mod_lt _ (by omega)
  obtain ⟨w, hw, hwpt, -, -⟩ := hb _ pts[(i + 1) % pts.length] (List.getElem?_eq_getElem hm)
  rw [hnext, deref_some, hw] at he
  cases he
  rw [hpt, hwpt]
  exact mem_edges (List.getElem?_eq_getElem hi) (List.getElem?_eq_getElem hm)

theorem range'_head {base : Nat} {pts : PointContour} (hne : pts ≠ []) :
    (List.range' base pts.length)[0]? = some base := by
  rw [List.getElem?_range' _ _ (List.length_pos.mpr hne)]
  simp

theorem not_filter_of_not_reports {r : Intersection} (h : ¬ ReportsIntersection r) :
    ¬ (0 ≤ r.time ∧ r.time ≤ 1) := by
  unfold ReportsIntersection at h
  have : r.time = -1 := not_not.mp h
  rw [this]
  norm_num

theorem NoCrossing.not_filter {P C : PointContour} (hno : NoCrossing P C) {p q p' q' : Vec2}
    (h1 : (p, q) ∈ edges P) (h2 : (p', q') ∈ edges C) :
    ¬ (0 ≤ (ComputeIntersectionPoint p q p' q').time ∧
        (ComputeIntersectionPoint p q p' q').time ≤ 1) :=
  not_filter_of_not_reports (hno (p, q) h1 (p', q') h2)

/-- Without reported crossings `BuildClipList` leaves the two rings as built, every
vertex tagged `Inside`. -/
theorem BuildClipList_noCrossing (P C : PointContour) (hP : P ≠ []) (hC : C ≠ [])
    (hno : NoCrossing P C) (fuel : Nat) (hfP : P.length ≤ fuel) (hfC : C.length ≤ fuel) :
    ∃ h, BuildClipList fuel P C [] = some (h, { mHead := some C.length }, { mHead := some 0 }) ∧
      BuiltRing h 0 C ClipVertexClassification.Inside ∧
      BuiltRing h C.length P ClipVertexClassification.Inside := by
  obtain ⟨h1, hb1, hl1, -, hc1⟩ := BuildVertexList_spec C [] hC
  obtain ⟨h2, hb2, hl2, hold2, hc2⟩ := BuildVertexList_spec P h1 hP
  simp only [List.length_nil, Nat.zero_add] at hb1 hl1 hc1
  rw [hl1] at hb2 hl2 hc2
  have hC2 : BuiltRing h2 0 C ClipVertexClassification.None := by
    intro i p hp
    have hi := getElem?_lt_of_some hp
    refine ⟨linkCell 0 C.length i { mPoint := p }, ?_, rfl, rfl, rfl⟩
    rw [Nat.zero_add, hold2 i (by omega), hc1 i p hp]
  have hP2 : BuiltRing h2 C.length P ClipVertexClassification.None := by
    intro i p hp
    exact ⟨linkCell C.length P.length i { mPoint := p }, hc2 i p hp, rfl, rfl, rfl⟩
  have hpoly := ClipPolygon_ring_none h2 _ _ hP2.isRing hC2.isRing (by simp [hP]) (by simp [hC])
    (fun a b s e c c' ha hs he hb hc hc' =>
      hno.not_filter (hP2.edge ha hs he) (hC2.edge hb hc hc'))
    fuel (by simpa using hfP) (by simpa using hfC)
  rw [range'_head hP, range'_head hC] at hpoly
  obtain ⟨h4, hcl4, hh4⟩ := ClassifyVertices_ring h2 _ hP2.isRing (by simp [hP])
    (fun a ha v hv => hP2.tag_eq ha hv) fuel (by simpa using hfP)
  rw [range'_head hP] at hcl4
  have hC4 : BuiltRing h4 0 C ClipVertexClassification.None := by
    intro i p hp
    obtain ⟨v, hv, h1, h2, h3⟩ := hC2 i p hp
    have hi := getElem?_lt_of_some hp
    refine ⟨v, ?_, h1, h2, h3⟩
    rw [hh4, hv]
    have : ¬ (0 + i ∈ List.range' C.length P.length) := by
      intro hmem
      obtain ⟨j, -, hj⟩ := mem_range'_base hmem
      omega
    simp only [Option.map_some', if_neg this]
  have hP4 : BuiltRing h4 C.length P ClipVertexClassification.Inside := by
    intro i p hp
    obtain ⟨v, hv, h1, h2, -⟩ := hP2 i p hp
    have hi := getElem?_lt_of_some hp
    refine ⟨{ v with mClassification := ClipVertexClassification.Inside }, ?_, h1, h2, rfl⟩
    rw [hh4, hv]
    have : C.length + i ∈ List.range' C.length P.length := by
      rw [List.mem_range']
      exact ⟨i, hi, by simp⟩
    simp only [Option.map_some', if_pos this]
  obtain ⟨h5, hcl5, hh5⟩ := ClassifyVertices_ring h4 _ hC4.isRing (by simp [hC])
    (fun a ha v hv => hC4.tag_eq ha hv) fuel (by simpa using hfC)
  rw [range'_head hC] at hcl5
  have hC5 : BuiltRing h5 0 C ClipVertexClassification.Inside := by
    intro i p hp
    obtain ⟨v, hv, h1, h2, -⟩ := hC4 i p hp
    have hi := getElem?_lt_of_some hp
    refine ⟨{ v with mClassification := ClipVertexClassification.Inside }, ?_, h1, h2, rfl⟩
    rw [hh5, hv]
    have : 0 + i ∈ List.range' 0 C.length := by
      rw [List.mem_range']
      exact ⟨i, hi, by simp⟩
    simp only [Option.map_some', if_pos this]
  have hP5 : BuiltRing h5 C.length P ClipVertexClassification.Inside := by
    intro i p hp
    obtain ⟨v, hv, h1, h2, h3⟩ := hP4 i p hp
    refine ⟨v, ?_, h1, h2, h3⟩
    rw [hh5, hv]
    have : ¬ (C.length + i ∈ List.range' 0 C.length) := by
      intro hmem
      obtain ⟨j, hj1, hj⟩ := mem_range'_base hmem
      omega
    simp only [Option.map_some', if_neg this]
  refine ⟨h5, ?_, hC5, hP5⟩
  simp only [BuildClipList, hb1, hb2, hpoly, hcl4, hcl5]

/-- Without reported crossings the three public operations return empty results. -/
theorem noCrossing_results (P C : PointContour) (hP : P ≠ []) (hC : C ≠ [])
    (hno : NoCrossing P C) (fuel : Nat) (hfP : P.length ≤ fuel) (hfC : C.length ≤ fuel) :
    Union fuel P C = some [] ∧ Subtract fuel P C = some [] ∧ Intersect fuel P C = some [] := by
  obtain ⟨h, hb, hCr, hPr⟩ := BuildClipList_noCrossing P C hP hC hno fuel hfP hfC
  have hf1 := FindFirstOf_ring_none h _ hPr.isRing (by simp [hP])
    ClipVertexClassification.OutToIn
    (fun a ha v hv => by rw [hPr.tag_eq ha hv]; decide) fuel (by simpa using hfP)
  have hf2 := FindFirstOf_ring_none h _ hPr.isRing (by simp [hP])
    ClipVertexClassification.InToOut
    (fun a ha v hv => by rw [hPr.tag_eq ha hv]; decide) fuel (by simpa using hfP)
  have hd1 := destroy_ring h _ hPr.isRing (by simp [hP]) fuel (by simpa using hfP)
  have hd2 := destroy_ring h _ hCr.isRing (by simp [hC]) fuel (by simpa using hfC)
  rw [range'_head hP] at hf1 hf2 hd1
  rw [range'_head hC] at hd2
  have hd : destroyLists fuel h { mHead := some C.length } { mHead := some 0 } = some () := by
    simp only [destroyLists, hd1, hd2]
  refine ⟨?_, ?_, ?_⟩
  · simp only [Union, hb, UnionList, hf1, if_true, hd, Option.map_some']
  · simp only [Subtract, hb, SubtractList, hf2, if_true, hd, Option.map_some']
  · simp only [Intersect, hb, IntersectList, hf1, if_true, hd, Option.map_some']

/-! ### Contours without crossings -/

theorem SignedArea_self_left (a b : Vec2) : SignedArea a b a = 0 := by
  simp only [SignedArea, Cross2d, Vec2.sub]
  ring

theorem SignedArea_self_right (a b : Vec2) : SignedArea a b b = 0 := by
  simp only [SignedArea, Cross2d, Vec2.sub]
  ring

theorem reports_sides {p0 p1 q0 q1 : Vec2}
    (h : ReportsIntersection (ComputeIntersectionPoint p0 p1 q0 q1)) :
    SignedArea q0 q1 p0 * SignedArea q0 q1 p1 < 0 := by
  rcases ComputeIntersectionPoint_cases p0 p1 q0 q1 with hc | ⟨-, h34, -⟩
  · exact absurd (by rw [hc]) h
  · exact h34

theorem exists_index_of_mem_edges {P : PointContour} {e : Vec2 × Vec2} (h : e ∈ edges P) :
    ∃ i, P[i]? = some e.1 ∧ P[(i + 1) % P.length]? = some e.2 := by
  obtain ⟨i, hi⟩ := List.getElem?_of_mem h
  rw [edges, List.getElem?_zip_eq_some] at hi
  have hlt := getElem?_lt_of_some hi.1
  refine ⟨i, hi.1, ?_⟩
  rw [← List.getElem?_rotate hlt]
  exact hi.2

/-- A simple contour clipped against itself has no reported crossing. -/
theorem Simple.noCrossing {P : PointContour} (hP : Simple P) : NoCrossing P P := by
  rintro ⟨p0, p1⟩ he ⟨q0, q1⟩ hf hrep
  obtain ⟨i, hi0, hi1⟩ := exists_index_of_mem_edges he
  obtain ⟨j, hj0, hj1⟩ := exists_index_of_mem_edges hf
  simp only at hi0 hi1 hj0 hj1 hrep
  have hsides := reports_sides hrep
  by_cases hij : i = j
  · subst hij
    rw [hi0] at hj0
    have hq : p0 = q0 := Option.some.inj hj0
    subst hq
    rw [SignedArea_self_left] at hsides
    simp at hsides
  · obtain ⟨-, hq, hp⟩ := reported_is_genuine _ _ _ _ hrep
    rcases hP i j _ _ _ _ _ hij hi0 hi1 hj0 hj1 hp hq with ⟨hj, -⟩ | ⟨hi, -⟩
    · rw [← hj, hj0] at hi1
      have hq : q0 = p1 := Option.some.inj hi1
      subst hq
      rw [SignedArea_self_left] at hsides
      simp at hsides
    · rw [← hi, hi0] at hj1
      have hq : p0 = q1 := Option.some.inj hj1
      subst hq
      rw [SignedArea_self_right] at hsides
      simp at hsides

/-- C4: for every non-empty subject contour and non-empty clip contour such that
`ComputeIntersectionPoint` reports no intersection for any (subject edge, clip edge) pair,
`Union` returns an empty contour and `Subtract` and `Intersect` each return an empty
contour list. -/
theorem C4_no_crossing_empty (subject clip : PointContour) (hs : subject ≠ [])
    (hc : clip ≠ []) (hno : NoCrossing subject clip) :
    Returns (fun fuel => Union fuel subject clip) [] ∧
    Returns (fun fuel => Subtract fuel subject clip) [] ∧
    Returns (fun fuel => Intersect fuel subject clip) [] :=
  ⟨⟨max subject.length clip.length, fun fuel hf =>
      (noCrossing_results subject clip hs hc hno fuel
        (le_trans (le_max_left _ _) hf) (le_trans (le_max_right _ _) hf)).1⟩,
    ⟨max subject.length clip.length, fun fuel hf =>
      (noCrossing_results subject clip hs hc hno fuel
        (le_trans (le_max_left _ _) hf) (le_trans (le_max_right _ _) hf)).2.1⟩,
    ⟨max subject.length clip.length, fun fuel hf =>
      (noCrossing_results subject clip hs hc hno fuel
        (le_trans (le_max_left _ _) hf) (le_trans (le_max_right _ _) hf)).2.2⟩⟩

theorem NoCrossing_unit_disjoint : NoCrossing unitSquare disjointSquare := by
  unfold NoCrossing ReportsIntersection
  decide!

/-- C4 on the unit square against the disjoint square `(2,2)..(3,3)`. -/
theorem C4_no_crossing_empty_witness :
    unitSquare ≠ [] ∧ disjointSquare ≠ [] ∧ NoCrossing unitSquare disjointSquare ∧
    (Returns (fun fuel => Union fuel unitSquare disjointSquare) [] ∧
      Returns (fun fuel => Subtract fuel unitSquare disjointSquare) [] ∧
      Returns (fun fuel => Intersect fuel unitSquare disjointSquare) []) :=
  ⟨by simp [unitSquare], by simp [disjointSquare], NoCrossing_unit_disjoint,
    C4_no_crossing_empty unitSquare disjointSquare (by simp [unitSquare])
      (by simp [disjointSquare]) NoCrossing_unit_disjoint⟩

/-- The literal `0.1f` is the binary32 number `13421773 * 2^-27`, slightly above `1/10`. -/
theorem tenth_eq : Binary32.tenth = 13421773 / 134217728 := by
  decide!

theorem Simple_thinTriangle : Simple Binary32.thinTriangle := by
  intro i j p0 p1 q0 q1 X hij h1 h2 h3 h4 hp hq
  obtain ⟨s, hs0, hs1, hX⟩ := hp
  obtain ⟨t, ht0, ht1, hX'⟩ := hq
  have hi : i < 3 := getElem?_lt_of_some h1
  have hj : j < 3 := getElem?_lt_of_some h3
  rw [hX] at hX' ⊢
  interval_cases i <;> interval_cases j <;>
    simp [Binary32.thinTriangle, tenth_eq] at h1 h2 h3 h4 hij ⊢ <;>
    subst h1 h2 h3 h4 <;>
    norm_num [Vec2.add, Vec2.sub, Vec2.scale] at hX' ⊢ <;>
    first
    | linarith [hX'.1, hX'.2]
    | (constructor <;> linarith [hX'.1, hX'.2])

set_option maxRecDepth 100000 in
theorem Union_thinTriangle_eval :
    Binary32.Union 20 Binary32.thinTriangle Binary32.thinTriangle =
      some [⟨1/33554432, 1/33554432⟩, ⟨13421773/134217728, 0⟩, ⟨1/2, 1/2⟩, ⟨0, 0⟩,
        ⟨1/33554432, 1/33554432⟩, ⟨0, 0⟩, ⟨13421773/134217728, 0⟩, ⟨1/2, 1/2⟩] := by
  decide!

set_option maxRecDepth 100000 in
theorem Intersect_thinTriangle_eval :
    Binary32.Intersect 20 Binary32.thinTriangle Binary32.thinTriangle =
      some [[⟨1/33554432, 1/33554432⟩, ⟨0, 0⟩, ⟨13421773/134217728, 0⟩, ⟨1/2, 1/2⟩]] := by
  decide!

set_option maxRecDepth 100000 in
/-- C5 as stated fails on the binary32 arithmetic of the code. The triangle
`[(0,0),(0.1f,0),(0.5,0.5)]` is simple, but for its edges `(0.5,0.5)-(0,0)` and
`(0,0)-(0.1f,0)`, which share the endpoint `(0,0)`, the code computes `a4 = -2^-28` where
the exact value is `SignedArea(q0,q1,p1) = 0`; a crossing is reported, and `Union` and
`Intersect` with subject = clip = this triangle return non-empty results. -/
theorem C5_identical_contours_counterexample :
    3 ≤ Binary32.thinTriangle.length ∧ Simple Binary32.thinTriangle ∧
    ((⟨1/2, 1/2⟩, ⟨0, 0⟩) : Vec2 × Vec2) ∈ edges Binary32.thinTriangle ∧
    ((⟨0, 0⟩, ⟨Binary32.tenth, 0⟩) : Vec2 × Vec2) ∈ edges Binary32.thinTriangle ∧
    SignedArea ⟨0, 0⟩ ⟨Binary32.tenth, 0⟩ ⟨0, 0⟩ = 0 ∧
    Binary32.fsub
      (Binary32.fadd (Binary32.SignedArea ⟨0, 0⟩ ⟨Binary32.tenth, 0⟩ ⟨1/2, 1/2⟩)
        (Binary32.SignedArea ⟨1/2, 1/2⟩ ⟨0, 0⟩ ⟨0, 0⟩))
      (Binary32.SignedArea ⟨1/2, 1/2⟩ ⟨0, 0⟩ ⟨Binary32.tenth, 0⟩) = -1 / 268435456 ∧
    ReportsIntersection
      (Binary32.ComputeIntersectionPoint ⟨1/2, 1/2⟩ ⟨0, 0⟩ ⟨0, 0⟩ ⟨Binary32.tenth, 0⟩) ∧
    Returns (fun fuel => Binary32.Union fuel Binary32.thinTriangle Binary32.thinTriangle)
      [⟨1/33554432, 1/33554432⟩, ⟨13421773/134217728, 0⟩, ⟨1/2, 1/2⟩, ⟨0, 0⟩,
        ⟨1/33554432, 1/33554432⟩, ⟨0, 0⟩, ⟨13421773/134217728, 0⟩, ⟨1/2, 1/2⟩] ∧
    Returns (fun fuel => Binary32.Intersect fuel Binary32.thinTriangle Binary32.thinTriangle)
      [[⟨1/33554432, 1/33554432⟩, ⟨0, 0⟩, ⟨13421773/134217728, 0⟩, ⟨1/2, 1/2⟩]] :=
  ⟨by decide, Simple_thinTriangle, by decide!, by decide!, by decide!, by decide!,
    by unfold ReportsIntersection; decide!,
    Returns_of_eq _ _ 20 (fun a b x hab hx => Union_mono32 a b _ _ x hab hx)
      Union_thinTriangle_eval,
    Returns_of_eq _ _ 20 (fun a b x hab hx => Intersect_mono32 a b _ _ x hab hx)
      Intersect_thinTriangle_eval⟩

/-- C5 (amended): in exact arithmetic, for every simple contour `P` of at least 3 points,
`Union`, `Subtract` and `Intersect` with subject = clip = `P` return an empty contour and
two empty lists, and no crossing is reported for any pair of edges of `P` (coincident and
endpoint-sharing edges included). -/
theorem C5_identical_contours_empty (P : PointContour) (hlen : 3 ≤ P.length)
    (hP : Simple P) :
    NoCrossing P P ∧
    Returns (fun fuel => Union fuel P P) [] ∧
    Returns (fun fuel => Subtract fuel P P) [] ∧
    Returns (fun fuel => Intersect fuel P P) [] := by
  have hne : P ≠ [] := by
    intro h
    rw [h] at hlen
    simp at hlen
  refine ⟨hP.noCrossing, ⟨P.length, fun fuel hf => ?_⟩, ⟨P.length, fun fuel hf => ?_⟩,
    ⟨P.length, fun fuel hf => ?_⟩⟩
  · exact (noCrossing_results P P hne hne hP.noCrossing fuel hf hf).1
  · exact (noCrossing_results P P hne hne hP.noCrossing fuel hf hf).2.1
  · exact (noCrossing_results P P hne hne hP.noCrossing fuel hf hf).2.2

theorem Simple_unitSquare : Simple unitSquare := by
  intro i j p0 p1 q0 q1 X hij h1 h2 h3 h4 hp hq
  obtain ⟨s, hs0, hs1, hX⟩ := hp
  obtain ⟨t, ht0, ht1, hX'⟩ := hq
  have hi : i < 4 := getElem?_lt_of_some h1
  have hj : j < 4 := getElem?_lt_of_some h3
  rw [hX] at hX' ⊢
  interval_cases i <;> interval_cases j <;>
    simp [unitSquare] at h1 h2 h3 h4 hij ⊢ <;>
    subst h1 h2 h3 h4 <;>
    simp [Vec2.add, Vec2.sub, Vec2.scale] at hX' ⊢ <;>
    linarith [hX'.1, hX'.2]

/-- C5 (amended) on the unit square. -/
theorem C5_identical_contours_empty_witness :
    3 ≤ unitSquare.length ∧ Simple unitSquare ∧
    (NoCrossing unitSquare unitSquare ∧
      Returns (fun fuel => Union fuel unitSquare unitSquare) [] ∧
      Returns (fun fuel => Subtract fuel unitSquare unitSquare) [] ∧
      Returns (fun fuel => Intersect fuel unitSquare unitSquare) []) :=
  ⟨by simp [unitSquare], Simple_unitSquare,
    C5_identical_contours_empty unitSquare (by simp [unitSquare]) Simple_unitSquare⟩

/-! ### The area identity -/

theorem Simple_disjointSquare : Simple disjointSquare := by
  intro i j p0 p1 q0 q1 X hij h1 h2 h3 h4 hp hq
  obtain ⟨s, hs0, hs1, hX⟩ := hp
  obtain ⟨t, ht0, ht1, hX'⟩ := hq
  have hi : i < 4 := getElem?_lt_of_some h1
  have hj : j < 4 := getElem?_lt_of_some h3
  rw [hX] at hX' ⊢
  interval_cases i <;> interval_cases j <;>
    simp [disjointSquare] at h1 h2 h3 h4 hij ⊢ <;>
    subst h1 h2 h3 h4 <;>
    norm_num [Vec2.add, Vec2.sub, Vec2.scale] at hX' ⊢ <;>
    linarith [hX'.1, hX'.2]

set_option maxRecDepth 100000 in
theorem Union_big_thin_eval :
    Union 30 bigSquare thinRect = some [⟨2, 0⟩, ⟨2, 4⟩, ⟨1, 4⟩, ⟨1, 0⟩] := by
  decide!

set_option maxRecDepth 100000 in
theorem Intersect_big_thin_eval :
    Intersect 30 bigSquare thinRect =
      some [[⟨2, 0⟩, ⟨4, 0⟩, ⟨4, 4⟩, ⟨2, 4⟩, ⟨2, 5⟩, ⟨1, 5⟩, ⟨1, 4⟩, ⟨0, 4⟩, ⟨0, 0⟩, ⟨1, 0⟩,
        ⟨1, -1⟩, ⟨2, -1⟩]] := by
  decide!

set_option maxRecDepth 100000 in
theorem Union_uShape_bar_eval :
    Union 60 uShape bar = some [⟨5, 3⟩, ⟨4, 3⟩, ⟨4, 2⟩, ⟨5, 2⟩] := by
  decide!

set_option maxRecDepth 100000 in
theorem Intersect_uShape_bar_eval :
    Intersect 60 uShape bar =
      some [[⟨5, 3⟩, ⟨5, 5⟩, ⟨4, 5⟩, ⟨4, 3⟩, ⟨1, 3⟩, ⟨1, 5⟩, ⟨0, 5⟩, ⟨0, 3⟩, ⟨-1, 3⟩, ⟨-1, 2⟩,
        ⟨0, 2⟩, ⟨0, 0⟩, ⟨5, 0⟩, ⟨5, 2⟩, ⟨6, 2⟩, ⟨6, 3⟩], [⟨1, 2⟩, ⟨4, 2⟩, ⟨4, 1⟩, ⟨1, 1⟩]] := by
  decide!

theorem Simple_bar : Simple bar := by
  intro i j p0 p1 q0 q1 X hij h1 h2 h3 h4 hp hq
  obtain ⟨s, hs0, hs1, hX⟩ := hp
  obtain ⟨t, ht0, ht1, hX'⟩ := hq
  have hi : i < 4 := getElem?_lt_of_some h1
  have hj : j < 4 := getElem?_lt_of_some h3
  rw [hX] at hX' ⊢
  interval_cases i <;> interval_cases j <;>
    simp [bar] at h1 h2 h3 h4 hij ⊢ <;>
    subst h1 h2 h3 h4 <;>
    norm_num [Vec2.add, Vec2.sub, Vec2.scale] at hX' ⊢ <;>
    linarith [hX'.1, hX'.2]

theorem Simple_uShape : Simple uShape := by
  intro i j p0 p1 q0 q1 X hij h1 h2 h3 h4 hp hq
  obtain ⟨s, hs0, hs1, hX⟩ := hp
  obtain ⟨t, ht0, ht1, hX'⟩ := hq
  have hi : i < 8 := getElem?_lt_of_some h1
  have hj : j < 8 := getElem?_lt_of_some h3
  rw [hX] at hX' ⊢
  interval_cases i <;> interval_cases j <;>
    simp [uShape] at h1 h2 h3 h4 hij ⊢ <;>
    subst h1 h2 h3 h4 <;>
    norm_num [Vec2.add, Vec2.sub, Vec2.scale] at hX' ⊢ <;>
    first
    | linarith [hX'.1, hX'.2]
    | linarith [hX']

set_option maxRecDepth 100000 in
/-- C6 as stated fails, without and with crossings. The unit square and the disjoint
square `(2,2)..(3,3)` are simple, non-degenerate, counter-clockwise and in general
position, `Union` and `Intersect` both return empty results, and `0 + 0` is not
`area(A) + area(B) = 2`. The U-shaped octagon `uShape` (area 13) and the bar `bar`
(area 7) across its two arms are simple, non-degenerate, counter-clockwise and in general
position and cross eight times; `Union` returns one square of area 1, `Intersect` returns
two contours of total area 18, and `1 + 18` is not `13 + 7`. -/
theorem C6_area_identity_counterexample :
    (Simple unitSquare ∧ Simple disjointSquare ∧
      NonDegenerate unitSquare ∧ NonDegenerate disjointSquare ∧
      GeneralPosition unitSquare disjointSquare ∧
      0 < shoelaceArea unitSquare ∧ 0 < shoelaceArea disjointSquare ∧
      Returns (fun fuel => Union fuel unitSquare disjointSquare) [] ∧
      Returns (fun fuel => Intersect fuel unitSquare disjointSquare) [] ∧
      shoelaceArea [] + totalArea [] ≠ shoelaceArea unitSquare + shoelaceArea disjointSquare) ∧
    (Simple uShape ∧ Simple bar ∧ NonDegenerate uShape ∧ NonDegenerate bar ∧
      GeneralPosition uShape bar ∧
      shoelaceArea uShape = 13 ∧ shoelaceArea bar = 7 ∧
      Returns (fun fuel => Union fuel uShape bar) [⟨5, 3⟩, ⟨4, 3⟩, ⟨4, 2⟩, ⟨5, 2⟩] ∧
      Returns (fun fuel => Intersect fuel uShape bar)
        [[⟨5, 3⟩, ⟨5, 5⟩, ⟨4, 5⟩, ⟨4, 3⟩, ⟨1, 3⟩, ⟨1, 5⟩, ⟨0, 5⟩, ⟨0, 3⟩, ⟨-1, 3⟩, ⟨-1, 2⟩,
          ⟨0, 2⟩, ⟨0, 0⟩, ⟨5, 0⟩, ⟨5, 2⟩, ⟨6, 2⟩, ⟨6, 3⟩], [⟨1, 2⟩, ⟨4, 2⟩, ⟨4, 1⟩, ⟨1, 1⟩]] ∧
      shoelaceArea [⟨5, 3⟩, ⟨4, 3⟩, ⟨4, 2⟩, ⟨5, 2⟩] = 1 ∧
      totalArea
        [[⟨5, 3⟩, ⟨5, 5⟩, ⟨4, 5⟩, ⟨4, 3⟩, ⟨1, 3⟩, ⟨1, 5⟩, ⟨0, 5⟩, ⟨0, 3⟩, ⟨-1, 3⟩, ⟨-1, 2⟩,
          ⟨0, 2⟩, ⟨0, 0⟩, ⟨5, 0⟩, ⟨5, 2⟩, ⟨6, 2⟩, ⟨6, 3⟩], [⟨1, 2⟩, ⟨4, 2⟩, ⟨4, 1⟩, ⟨1, 1⟩]]
        = 18) := by
  have h := noCrossing_results unitSquare disjointSquare (by simp [unitSquare])
    (by simp [disjointSquare]) NoCrossing_unit_disjoint
  refine ⟨⟨Simple_unitSquare, Simple_disjointSquare, ?_, ?_, ?_, by decide!, by decide!,
    ⟨4, fun fuel hf => (h fuel hf hf).1⟩, ⟨4, fun fuel hf => (h fuel hf hf).2.2⟩,
    by decide!⟩,
    Simple_uShape, Simple_bar, ?_, ?_, ?_, by decide!, by decide!,
    Returns_of_eq _ _ 60 (fun a b x hab hx => Union_mono a b _ _ x hab hx)
      Union_uShape_bar_eval,
    Returns_of_eq _ _ 60 (fun a b x hab hx => Intersect_mono a b _ _ x hab hx)
      Intersect_uShape_bar_eval, by decide!, by decide!⟩
  · unfold NonDegenerate
    decide!
  · unfold NonDegenerate
    decide!
  · unfold GeneralPosition
    decide!
  · unfold NonDegenerate
    decide!
  · unfold NonDegenerate
    decide!
  · unfold GeneralPosition
    decide!

/-- The area identity on the scenarios. For every pair of non-empty contours without a
reported crossing `Union` returns the empty contour and `Intersect` the empty list, so the
left-hand side is `0`. On the two overlapping squares and on the square pierced by the
thin rectangle, both counter-clockwise, `Union` and `Intersect` return the contours listed
and the identity `area(Union(A,B)) + sum of area(C) over Intersect(A,B) = area(A) + area(B)`
holds. -/
theorem area_identity_scenarios :
    (∀ A B : PointContour, A ≠ [] → B ≠ [] → NoCrossing A B →
      Returns (fun fuel => Union fuel A B) [] ∧ Returns (fun fuel => Intersect fuel A B) [] ∧
      shoelaceArea [] + totalArea [] = 0) ∧
    (Returns (fun fuel => Union fuel unitSquare offsetSquare)
        [⟨1/2, 1⟩, ⟨1/2, 1/2⟩, ⟨1, 1/2⟩, ⟨1, 1⟩] ∧
      Returns (fun fuel => Intersect fuel unitSquare offsetSquare)
        [[⟨1/2, 1⟩, ⟨0, 1⟩, ⟨0, 0⟩, ⟨1, 0⟩, ⟨1, 1/2⟩, ⟨3/2, 1/2⟩, ⟨3/2, 3/2⟩, ⟨1/2, 3/2⟩]] ∧
      shoelaceArea [⟨1/2, 1⟩, ⟨1/2, 1/2⟩, ⟨1, 1/2⟩, ⟨1, 1⟩] +
          totalArea [[⟨1/2, 1⟩, ⟨0, 1⟩, ⟨0, 0⟩, ⟨1, 0⟩, ⟨1, 1/2⟩, ⟨3/2, 1/2⟩, ⟨3/2, 3/2⟩,
            ⟨1/2, 3/2⟩]]
        = shoelaceArea unitSquare + shoelaceArea offsetSquare) ∧
    (Returns (fun fuel => Union fuel bigSquare thinRect) [⟨2, 0⟩, ⟨2, 4⟩, ⟨1, 4⟩, ⟨1, 0⟩] ∧
      Returns (fun fuel => Intersect fuel bigSquare thinRect)
        [[⟨2, 0⟩, ⟨4, 0⟩, ⟨4, 4⟩, ⟨2, 4⟩, ⟨2, 5⟩, ⟨1, 5⟩, ⟨1, 4⟩, ⟨0, 4⟩, ⟨0, 0⟩, ⟨1, 0⟩,
          ⟨1, -1⟩, ⟨2, -1⟩]] ∧
      shoelaceArea [⟨2, 0⟩, ⟨2, 4⟩, ⟨1, 4⟩, ⟨1, 0⟩] +
          totalArea [[⟨2, 0⟩, ⟨4, 0⟩, ⟨4, 4⟩, ⟨2, 4⟩, ⟨2, 5⟩, ⟨1, 5⟩, ⟨1, 4⟩, ⟨0, 4⟩, ⟨0, 0⟩,
            ⟨1, 0⟩, ⟨1, -1⟩, ⟨2, -1⟩]]
        = shoelaceArea bigSquare + shoelaceArea thinRect) := by
  refine ⟨fun A B hA hB hno => ⟨⟨max A.length B.length, fun fuel hf => ?_⟩,
    ⟨max A.length B.length, fun fuel hf => ?_⟩, by decide!⟩, ?_, ?_⟩
  · exact (noCrossing_results A B hA hB hno fuel
      (le_trans (le_max_left _ _) hf) (le_trans (le_max_right _ _) hf)).1
  · exact (noCrossing_results A B hA hB hno fuel
      (le_trans (le_max_left _ _) hf) (le_trans (le_max_right _ _) hf)).2.2
  · exact ⟨Returns_of_eq _ _ 20 (fun a b x hab hx => Union_mono a b _ _ x hab hx)
        Union_unit_offset_eval,
      Returns_of_eq _ _ 20 (fun a b x hab hx => Intersect_mono a b _ _ x hab hx)
        Intersect_unit_offset_eval, by decide!⟩
  · exact ⟨Returns_of_eq _ _ 30 (fun a b x hab hx => Union_mono a b _ _ x hab hx)
        Union_big_thin_eval,
      Returns_of_eq _ _ 30 (fun a b x hab hx => Intersect_mono a b _ _ x hab hx)
        Intersect_big_thin_eval, by decide!⟩

/-! ### The insertion block of `ClipEdges` -/

theorem getElem?_append_one (h : Heap) (c : ClipVertex) (a : Nat) :
    (h ++ [c])[a]? = if a = h.length then some c else h[a]? := by
  by_cases ha : a = h.length
  · subst ha
    simp
  · rw [if_neg ha]
    by_cases hlt : a < h.length
    · rw [List.getElem?_append_left hlt]
    · rw [List.getElem?_eq_none (by simp; omega), List.getElem?_eq_none (by omega)]

theorem store_spec (h : Heap) (i : Nat) (f : ClipVertex → ClipVertex) (hi : i < h.length) :
    ∃ h', store h (some i) f = some h' ∧ h'.length = h.length ∧
      ∀ a, h'[a]? = if a = i then (h[a]?).map f else h[a]? := by
  have hv : h[i]? = some h[i] := List.getElem?_eq_getElem hi
  refine ⟨h.set i (f h[i]), store_some hv f, by simp, fun a => ?_⟩
  rw [getElem?_set_heap]
  by_cases ha : a = i
  · subst ha
    simp [hv]
  · simp [ha]

theorem ClipEdgesInsert_spec (h : Heap) (sp ep : Vec2) (cs cn : Nat) (r : Intersection)
    (nv : List IntersectionVerts) (hcs : cs < h.length) (hcn : cn < h.length) :
    ∃ h', ClipEdgesInsert h sp ep (some cs) (some cn) r nv =
        some (h', nv ++ [{ mVertex := some (h.length + 1), mTime := r.time }]) ∧
      h'.length = h.length + 2 ∧
      ∀ a, h'[a]? = insertedHeapCell h (pointAt sp ep r.time) r cs cn a := by
  obtain ⟨h2, e2, l2, g2⟩ := store_spec
    (h ++ [({ mPoint := pointAt sp ep r.time, mClassification := r.line1Flags } : ClipVertex)])
    cs (fun v => { v with mNext := some h.length }) (by simp; omega)
  obtain ⟨h3, e3, l3, g3⟩ := store_spec h2 h.length
    (fun v => { v with mPrev := some cs, mNext := some cn }) (by rw [l2]; simp)
  obtain ⟨h4, e4, l4, g4⟩ := store_spec h3 cn
    (fun v => { v with mPrev := some h.length }) (by rw [l3, l2]; simp; omega)
  have hc4 : h4[h.length]? = some (({ mPoint := pointAt sp ep r.time,
                                      mClassification := r.line1Flags,
                                      mPrev := some cs, mNext := some cn }) : ClipVertex) := by
    rw [g4, if_neg (by omega), g3, if_pos rfl, g2, if_neg (by omega), getElem?_append_one,
      if_pos rfl]
    rfl
  have hl4 : h4.length = h.length + 1 := by rw [l4, l3, l2]; simp
  obtain ⟨h6, e6, l6, g6⟩ := store_spec
    (h4 ++ [({ mPoint := pointAt sp ep r.time, mClassification := r.line0Flags } : ClipVertex)])
    h.length (fun v => { v with mTwin := some h4.length }) (by simp; omega)
  obtain ⟨h7, e7, l7, g7⟩ := store_spec h6 h4.length
    (fun v => { v with mTwin := some h.length }) (by rw [l6]; simp)
  refine ⟨h7, ?_, ?_, fun a => ?_⟩
  · simp only [ClipEdgesInsert, alloc]
    simp only [pointAt] at e2 hc4 e6
    rw [e2]
    simp only
    rw [e3]
    simp only
    rw [e4]
    simp only [deref_some, hc4]
    rw [e6]
    simp only
    rw [e7, hl4]
  · rw [l7, l6]
    simp [hl4]
  · rw [g7, g6, getElem?_append_one, g4, g3, g2, getElem?_append_one, hl4]
    unfold insertedHeapCell
    by_cases ha1 : a = h.length
    · subst ha1
      have h1 : ¬ (h.length = h.length + 1) := by omega
      have h2 : ¬ (h.length = cn) := by omega
      have h3 : ¬ (h.length = cs) := by omega
      simp [h1, h2, h3]
    · by_cases ha2 : a = h.length + 1
      · subst ha2
        simp
      · simp only [if_neg ha1, if_neg ha2]
        cases hv : h[a]? with
        | none => simp
        | some v =>
          by_cases h1 : a = cn
          · subst h1
            by_cases h2 : a = cs
            · subst h2
              simp
            · simp [h2]
          · by_cases h2 : a = cs
            · subst h2
              simp [h1]
            · simp [h1, h2]

/-! ### Tags of a crossing -/

theorem tags_complementary (p0 p1 q0 q1 : Vec2)
    (hrep : ReportsIntersection (ComputeIntersectionPoint p0 p1 q0 q1))
    (hne : SignedArea p0 p1 q0 ≠ 0) :
    Complementary (ComputeIntersectionPoint p0 p1 q0 q1).line0Flags
      (ComputeIntersectionPoint p0 p1 q0 q1).line1Flags := by
  rcases ComputeIntersectionPoint_cases p0 p1 q0 q1 with hc | ⟨h12, h34, hc⟩
  · exact absurd (by rw [hc]) hrep
  · rw [hc]
    simp only
    have h4 := SignedArea_a4 p0 p1 q0 q1
    have h12' := not_lt.mp h12
    by_cases h3 : SignedArea q0 q1 p0 < 0
    · rw [if_pos h3]
      have h4pos : 0 < SignedArea q0 q1 p1 := by
        by_contra hcon
        nlinarith [mul_nonneg_of_nonpos_of_nonpos h3.le (not_lt.mp hcon)]
      have h2 : ¬ SignedArea p0 p1 q0 < 0 := by
        intro hcon
        have h1 : SignedArea p0 p1 q1 < 0 := by linarith
        nlinarith [mul_pos_of_neg_of_neg h1 hcon]
      rw [if_neg h2]
      exact Or.inr ⟨rfl, rfl⟩
    · rw [if_neg h3]
      have h3pos : 0 < SignedArea q0 q1 p0 := by
        rcases (not_lt.mp h3).lt_or_eq with hlt | heq
        · exact hlt
        · rw [← heq] at h34
          simp at h34
      have h4neg : SignedArea q0 q1 p1 < 0 := by
        by_contra hcon
        nlinarith [mul_nonneg h3pos.le (not_lt.mp hcon)]
      have h2 : SignedArea p0 p1 q0 < 0 := by
        rcases lt_or_gt_of_ne hne with hlt | hgt
        · exact hlt
        · have h1 : 0 < SignedArea p0 p1 q1 := by linarith
          nlinarith [mul_pos h1 hgt]
      rw [if_pos h2]
      exact Or.inl ⟨rfl, rfl⟩

set_option maxRecDepth 100000 in
/-- In binary32 the tags can fail to be complementary although the clip start is off the
subject line: for the subject segment `(0,0)-(2^-50,0)` and the clip segment
`(2^-51,2^-40)-(0,2^-20)` the areas `a1 = 2^-70` and `a2 = 2^-90` are both positive, their
product `2^-160` underflows to `0`, the first test `a1 * a2 > 0` fails, an intersection is
reported and both tags are `OutToIn`. In exact arithmetic no intersection is reported. -/
theorem tags_binary32_underflow :
    ReportsIntersection
      (Binary32.ComputeIntersectionPoint ⟨0, 0⟩ ⟨Binary32.pow2 (-50), 0⟩
        ⟨Binary32.pow2 (-51), Binary32.pow2 (-40)⟩ ⟨0, Binary32.pow2 (-20)⟩) ∧
    Binary32.SignedArea ⟨0, 0⟩ ⟨Binary32.pow2 (-50), 0⟩
        ⟨Binary32.pow2 (-51), Binary32.pow2 (-40)⟩ = Binary32.pow2 (-90) ∧
    SignedArea ⟨0, 0⟩ ⟨Binary32.pow2 (-50), 0⟩
        ⟨Binary32.pow2 (-51), Binary32.pow2 (-40)⟩ = Binary32.pow2 (-90) ∧
    Binary32.SignedArea ⟨0, 0⟩ ⟨Binary32.pow2 (-50), 0⟩ ⟨0, Binary32.pow2 (-20)⟩
      = Binary32.pow2 (-70) ∧
    Binary32.fmul (Binary32.pow2 (-70)) (Binary32.pow2 (-90)) = 0 ∧
    (Binary32.ComputeIntersectionPoint ⟨0, 0⟩ ⟨Binary32.pow2 (-50), 0⟩
        ⟨Binary32.pow2 (-51), Binary32.pow2 (-40)⟩ ⟨0, Binary32.pow2 (-20)⟩).line0Flags
      = ClipVertexClassification.OutToIn ∧
    (Binary32.ComputeIntersectionPoint ⟨0, 0⟩ ⟨Binary32.pow2 (-50), 0⟩
        ⟨Binary32.pow2 (-51), Binary32.pow2 (-40)⟩ ⟨0, Binary32.pow2 (-20)⟩).line1Flags
      = ClipVertexClassification.OutToIn ∧
    ¬ ReportsIntersection
      (ComputeIntersectionPoint ⟨0, 0⟩ ⟨Binary32.pow2 (-50), 0⟩
        ⟨Binary32.pow2 (-51), Binary32.pow2 (-40)⟩ ⟨0, Binary32.pow2 (-20)⟩) :=
  ⟨by unfold ReportsIntersection; decide!, by decide!, by decide!, by decide!, by decide!,
    by decide!, by decide!, by unfold ReportsIntersection; decide!⟩

/-- C13 as stated fails: the segment `(0,0)-(2,0)` against the segment `(1,0)-(1,1)`,
whose start lies on the first segment, is reported as an intersection and both tags are
`OutToIn`. -/
theorem C13_tags_counterexample :
    ReportsIntersection (ComputeIntersectionPoint ⟨0, 0⟩ ⟨2, 0⟩ ⟨1, 0⟩ ⟨1, 1⟩) ∧
    ¬ Complementary (ComputeIntersectionPoint ⟨0, 0⟩ ⟨2, 0⟩ ⟨1, 0⟩ ⟨1, 1⟩).line0Flags
        (ComputeIntersectionPoint ⟨0, 0⟩ ⟨2, 0⟩ ⟨1, 0⟩ ⟨1, 1⟩).line1Flags := by
  unfold ReportsIntersection Complementary
  decide!

/-- C13 (amended): in exact arithmetic, for every subject segment `(p0,p1)` and clip
segment `(q0,q1)` for which `ComputeIntersectionPoint` reports an intersection and whose
clip start `q0` is not on the line through the subject segment
(`SignedArea(p0,p1,q0) ≠ 0`), the two tags are
complementary; hence the twin pair that the insertion block of `ClipEdges` creates for
such a pair (clip-side cell `h.length`, subject-side cell `h.length + 1`, each the twin
of the other) carries complementary crossing tags. (With the rounding of binary32 the
product `a1 * a2` can underflow and the tags can be equal, see
`tags_binary32_underflow`.) -/
theorem C13_tags_complementary (p0 p1 q0 q1 : Vec2)
    (hrep : ReportsIntersection (ComputeIntersectionPoint p0 p1 q0 q1))
    (hne : SignedArea p0 p1 q0 ≠ 0) :
    Complementary (ComputeIntersectionPoint p0 p1 q0 q1).line0Flags
      (ComputeIntersectionPoint p0 p1 q0 q1).line1Flags ∧
    ∀ (h : Heap) (cs cn : Nat) (nv : List IntersectionVerts), cs < h.length → cn < h.length →
      ∃ h' nv' cv ev,
        ClipEdgesInsert h p0 p1 (some cs) (some cn) (ComputeIntersectionPoint p0 p1 q0 q1) nv
          = some (h', nv') ∧
        h'[h.length]? = some cv ∧ h'[h.length + 1]? = some ev ∧
        cv.mTwin = some (h.length + 1) ∧ ev.mTwin = some h.length ∧
        Complementary ev.mClassification cv.mClassification := by
  have hcomp := tags_complementary p0 p1 q0 q1 hrep hne
  refine ⟨hcomp, fun h cs cn nv hcs hcn => ?_⟩
  obtain ⟨h', he, -, hg⟩ := ClipEdgesInsert_spec h p0 p1 cs cn
    (ComputeIntersectionPoint p0 p1 q0 q1) nv hcs hcn
  have hcv := hg h.length
  have hev := hg (h.length + 1)
  rw [insertedHeapCell, if_pos rfl] at hcv
  rw [insertedHeapCell, if_neg (by omega), if_pos rfl] at hev
  exact ⟨h', _, _, _, he, hcv, hev, rfl, rfl, hcomp⟩

/-- C13 (amended) at the crossing of the edge `(1,0)-(1,1)` with the edge
`(0.5,0.5)-(1.5,0.5)`. -/
theorem C13_tags_complementary_witness :
    ReportsIntersection (ComputeIntersectionPoint ⟨1, 0⟩ ⟨1, 1⟩ ⟨1/2, 1/2⟩ ⟨3/2, 1/2⟩) ∧
    SignedArea ⟨1, 0⟩ ⟨1, 1⟩ ⟨1/2, 1/2⟩ ≠ 0 ∧
    Complementary (ComputeIntersectionPoint ⟨1, 0⟩ ⟨1, 1⟩ ⟨1/2, 1/2⟩ ⟨3/2, 1/2⟩).line0Flags
      (ComputeIntersectionPoint ⟨1, 0⟩ ⟨1, 1⟩ ⟨1/2, 1/2⟩ ⟨3/2, 1/2⟩).line1Flags :=
  ⟨by unfold ReportsIntersection; decide!, by decide!,
    (C13_tags_complementary ⟨1, 0⟩ ⟨1, 1⟩ ⟨1/2, 1/2⟩ ⟨3/2, 1/2⟩
      (by unfold ReportsIntersection; decide!) (by decide!)).1⟩

/-! ### The classifier -/

set_option maxRecDepth 100000 in
/-- C15, the code evaluated on the scenario of the two squares: walking the clip ring
from its head, the head `(0.5,0.5)` is tagged `Inside` although the nearest crossing that
precedes it cyclically, `(0.5,1)`, is `InToOut`; tagging by the preceding crossing would
give `Outside` there. -/
theorem C15_classifier_head_eval :
    (ringTags 20 unitSquare offsetSquare).map Prod.snd =
      some [(⟨1/2, 1/2⟩, ClipVertexClassification.Inside),
            (⟨1, 1/2⟩, ClipVertexClassification.OutToIn),
            (⟨3/2, 1/2⟩, ClipVertexClassification.Inside),
            (⟨3/2, 3/2⟩, ClipVertexClassification.Inside),
            (⟨1/2, 3/2⟩, ClipVertexClassification.Inside),
            (⟨1/2, 1⟩, ClipVertexClassification.InToOut)] ∧
    sidesByPrecedingCrossing
        [ClipVertexClassification.Inside, ClipVertexClassification.OutToIn,
         ClipVertexClassification.Inside, ClipVertexClassification.Inside,
         ClipVertexClassification.Inside, ClipVertexClassification.InToOut] =
      [ClipVertexClassification.Outside, ClipVertexClassification.OutToIn,
       ClipVertexClassification.Inside, ClipVertexClassification.Inside,
       ClipVertexClassification.Inside, ClipVertexClassification.InToOut] := by
  decide!

theorem isRing_plainRingHeap : IsRing plainRingHeap [0, 1, 2, 3] := by
  refine ⟨by decide, fun k a hk => ?_⟩
  have hlt : k < 4 := getElem?_lt_of_some hk
  interval_cases k <;> simp at hk <;> subst hk <;> simp [plainRingHeap]

theorem plainRingHeap_none : ∀ a ∈ [0, 1, 2, 3], ∀ v, plainRingHeap[a]? = some v →
    v.mClassification = ClipVertexClassification.None := by
  intro a ha v hv
  simp only [List.mem_cons, List.mem_singleton, List.not_mem_nil, or_false] at ha
  rcases ha with rfl | rfl | rfl | rfl <;> simp [plainRingHeap] at hv <;> subst hv <;> rfl

/-- C16: after `ClassifyVertices` on a non-empty ring that contains no crossing vertex
(every vertex still carries the tag `None`), every vertex of the ring is tagged `Inside`;
the call returns for every fuel of at least the length of the ring. -/
theorem C16_classify_without_crossing (h : Heap) (r : List Nat) (hr : IsRing h r)
    (hne : r ≠ [])
    (hnone : ∀ a ∈ r, ∀ v, h[a]? = some v →
      v.mClassification = ClipVertexClassification.None) :
    ∃ h', (∀ fuel, r.length ≤ fuel → ClassifyVertices fuel h { mHead := r[0]? } = some h') ∧
      ∀ a ∈ r, ∃ v, h'[a]? = some v ∧ v.mClassification = ClipVertexClassification.Inside := by
  obtain ⟨h', hc, hg⟩ := ClassifyVertices_ring h r hr hne hnone r.length (le_refl _)
  refine ⟨h', fun fuel hf => ClassifyVertices_mono _ _ _ _ _ hf hc, fun a ha => ?_⟩
  obtain ⟨k, hk⟩ := List.getElem?_of_mem ha
  obtain ⟨v, hv, -⟩ := hr.2 k a hk
  refine ⟨{ v with mClassification := ClipVertexClassification.Inside }, ?_, rfl⟩
  rw [hg, hv]
  simp [ha]

/-- C16 on a ring of four untagged vertices. -/
theorem C16_classify_without_crossing_witness :
    IsRing plainRingHeap [0, 1, 2, 3] ∧ ([0, 1, 2, 3] : List Nat) ≠ [] ∧
    (∀ a ∈ [0, 1, 2, 3], ∀ v, plainRingHeap[a]? = some v →
      v.mClassification = ClipVertexClassification.None) ∧
    ∃ h', (∀ fuel, ([0, 1, 2, 3] : List Nat).length ≤ fuel →
        ClassifyVertices fuel plainRingHeap { mHead := ([0, 1, 2, 3] : List Nat)[0]? } = some h') ∧
      ∀ a ∈ [0, 1, 2, 3], ∃ v, h'[a]? = some v ∧
        v.mClassification = ClipVertexClassification.Inside :=
  ⟨isRing_plainRingHeap, by simp, plainRingHeap_none,
    C16_classify_without_crossing plainRingHeap [0, 1, 2, 3] isRing_plainRingHeap (by simp)
      plainRingHeap_none⟩

/-! ### The contour comparison of the tests -/

theorem FindPointIn_le (point : Vec2) (l : PointContour) (eps : ℚ) :
    FindPointIn point l eps ≤ l.length := by
  induction l with
  | nil => simp [FindPointIn]
  | cons p rest ih =>
    simp only [FindPointIn]
    split
    · simp
    · simp
      exact ih

theorem FindPointIn_match (point : Vec2) (l : PointContour) (eps : ℚ)
    (h : FindPointIn point l eps < l.length) :
    ∃ p, l[FindPointIn point l eps]? = some p ∧ Binary32.Vec2.DistanceSq point p ≤ eps := by
  induction l with
  | nil => simp [FindPointIn] at h
  | cons q rest ih =>
    simp only [FindPointIn] at h ⊢
    by_cases hq : Binary32.Vec2.DistanceSq point q ≤ eps
    · rw [if_pos hq]
      exact ⟨q, by simp, hq⟩
    · rw [if_neg hq] at h ⊢
      simp only [List.length_cons, Nat.add_lt_add_iff_right] at h
      obtain ⟨p, hp, hd⟩ := ih h
      exact ⟨p, by simpa using hp, hd⟩

/-- The literal `0.01f` is the binary32 number `10737418 * 2^-30`, slightly below
`1/100`. -/
theorem defaultEpsilon_eq : Binary32.defaultEpsilon = 10737418 / 1073741824 := by
  decide!

theorem TwinLinked.cell {h : Heap} (hl : TwinLinked h) {a : Nat} {v : ClipVertex}
    (hv : h[a]? = some v) :
    (∀ d, ∃ (n : Nat) (w : ClipVertex), GetNext v d = some n ∧ h[n]? = some w ∧
      w.mPoint ≠ v.mPoint) ∧
    (∀ t, v.mTwin = some t →
      ∃ w : ClipVertex, h[t]? = some w ∧ w.mTwin = some a ∧ w.mPoint = v.mPoint) := by
  obtain ⟨h1, h2, h3⟩ := hl (a, v) (List.mk_mem_enum_iff_getElem?.mpr hv)
  simp only at h1 h2 h3
  have key : ∀ p : Ptr, neighbourDistinct h v p = true →
      ∃ (n : Nat) (w : ClipVertex), p = some n ∧ h[n]? = some w ∧ w.mPoint ≠ v.mPoint := by
    intro p hp
    unfold neighbourDistinct at hp
    cases p with
    | none => simp [deref] at hp
    | some n =>
      cases hw : h[n]? with
      | none => simp [deref, hw] at hp
      | some w =>
        simp only [deref, hw, decide_eq_true_eq] at hp
        exact ⟨n, w, rfl, hw, hp⟩
  refine ⟨fun d => ?_, fun t ht => ?_⟩
  · cases d with
    | Forwards => exact key _ h1
    | Backward => exact key _ h2
  · unfold twinBack at h3
    rw [ht] at h3
    cases hw : h[t]? with
    | none => simp [hw] at h3
    | some w =>
      simp only [hw, decide_eq_true_eq] at h3
      exact ⟨w, rfl, h3.1, h3.2⟩

theorem TwinLinked.of_cells {h : Heap}
    (hc : ∀ (a : Nat) (v : ClipVertex), h[a]? = some v →
      (∃ (n : Nat) (w : ClipVertex), v.mNext = some n ∧ h[n]? = some w ∧ w.mPoint ≠ v.mPoint) ∧
      (∃ (n : Nat) (w : ClipVertex), v.mPrev = some n ∧ h[n]? = some w ∧ w.mPoint ≠ v.mPoint) ∧
      (∀ t, v.mTwin = some t →
        ∃ w : ClipVertex, h[t]? = some w ∧ w.mTwin = some a ∧ w.mPoint = v.mPoint)) :
    TwinLinked h := by
  rintro ⟨a, v⟩ hp
  have hv : h[a]? = some v := List.mk_mem_enum_iff_getElem?.mp hp
  obtain ⟨⟨n, w, hn, hw, hne⟩, ⟨n', w', hn', hw', hne'⟩, ht⟩ := hc a v hv
  refine ⟨?_, ?_, ?_⟩
  · simp [neighbourDistinct, hn, deref, hw, hne]
  · simp [neighbourDistinct, hn', deref, hw', hne']
  · simp only [twinBack]
    cases htw : v.mTwin with
    | none => rfl
    | some t =>
      obtain ⟨w, hw, h1, h2⟩ := ht t htw
      simp [hw, h1, h2]

/-- Marking a vertex visited keeps the pair twin-linked. -/
theorem TwinLinked.visit {h : Heap} (hl : TwinLinked h) {i : Nat} {v : ClipVertex}
    (hv : h[i]? = some v) : TwinLinked (h.set i { v with mVisited := true }) := by
  have hget : ∀ a, (h.set i { v with mVisited := true })[a]? =
      (h[a]?).map (fun c => if a = i then { c with mVisited := true } else c) := by
    intro a
    rw [getElem?_set_heap]
    by_cases ha : a = i
    · subst ha
      simp [hv]
    · simp [ha]
  apply TwinLinked.of_cells
  intro a c hc
  rw [hget] at hc
  cases hca : h[a]? with
  | none => simp [hca] at hc
  | some c0 =>
    simp only [hca, Option.map_some', Option.some.injEq] at hc
    obtain ⟨hnb, htw⟩ := hl.cell hca
    have hfields : c.mNext = c0.mNext ∧ c.mPrev = c0.mPrev ∧ c.mTwin = c0.mTwin ∧
        c.mPoint = c0.mPoint := by
      subst hc
      split <;> simp
    obtain ⟨e1, e2, e3, e4⟩ := hfields
    have lift : ∀ (n : Nat) (w : ClipVertex), h[n]? = some w →
        ∃ w' : ClipVertex, (h.set i { v with mVisited := true })[n]? = some w' ∧
          w'.mPoint = w.mPoint ∧ w'.mTwin = w.mTwin := by
      intro n w hw
      rw [hget, hw]
      refine ⟨_, rfl, ?_, ?_⟩ <;> simp only [Option.map_some'] <;> split <;> rfl
    refine ⟨?_, ?_, ?_⟩
    · obtain ⟨n, w, hn, hw, hne⟩ := hnb ClipVertexSearchDirection.Forwards
      obtain ⟨w', hw', hp, -⟩ := lift n w hw
      exact ⟨n, w', by rw [e1]; exact hn, hw', by rw [hp, e4]; exact hne⟩
    · obtain ⟨n, w, hn, hw, hne⟩ := hnb ClipVertexSearchDirection.Backward
      obtain ⟨w', hw', hp, -⟩ := lift n w hw
      exact ⟨n, w', by rw [e2]; exact hn, hw', by rw [hp, e4]; exact hne⟩
    · intro t ht
      rw [e3] at ht
      obtain ⟨w, hw, h1, h2⟩ := htw t ht
      obtain ⟨w', hw', hp, htw'⟩ := lift t w hw
      exact ⟨w', hw', by rw [htw']; exact h1, by rw [hp, e4]; exact h2⟩

theorem openEnded_snoc {cur : PointContour} {sp p : Vec2} (hhead : cur ≠ [] → cur.head? = some sp)
    (hne : p ≠ sp) (hcur : cur ≠ []) : OpenEnded (cur ++ [p]) := by
  obtain ⟨a, rest, rfl⟩ := List.exists_cons_of_ne_nil hcur
  have ha := hhead hcur
  simp only [List.head?_cons, Option.some.injEq] at ha
  subst ha
  refine ⟨by simp, ?_⟩
  have hlast : ((a :: rest) ++ [p]).getLast? = some p := List.getLast?_concat _
  rw [hlast]
  simp only [List.cons_append, List.head?_cons]
  intro h
  exact hne (Option.some.inj h).symm

/-- One traced contour of `Subtract` on a twin-linked pair: the walk can only stop next
to a vertex that shares the point of the start, so the contour has at least two points
and does not end on the point it started from. -/
theorem SubtractTrace_openEnded (s : Nat) (sp : Vec2) :
    ∀ (fuel : Nat) (h : Heap) (vertex : Ptr) (d : ClipVertexSearchDirection)
      (tv : List Ptr) (cur : PointContour) (r : Heap × List Ptr × PointContour),
      TwinLinked h → (∃ vs : ClipVertex, h[s]? = some vs ∧ vs.mPoint = sp) →
      (cur = [] → vertex = some s) → (cur ≠ [] → cur.head? = some sp) →
      SubtractTrace (some s) fuel h vertex d tv cur = some r →
      TwinLinked r.1 ∧ OpenEnded r.2.2 := by
  intro fuel
  induction fuel with
  | zero =>
    intro h vertex d tv cur r _ _ _ _ hr
    simp [SubtractTrace] at hr
  | succ fuel ih =>
    intro h vertex d tv cur r hl hsp hstart hhead hr
    simp only [SubtractTrace] at hr
    cases vertex with
    | none => simp [deref] at hr
    | some i =>
      cases hv : h[i]? with
      | none => simp [deref, hv] at hr
      | some v =>
        simp only [deref_some, hv, store_some hv] at hr
        have hl1 := hl.visit hv
        have hget : ∀ a, (h.set i { v with mVisited := true })[a]? =
            (h[a]?).map (fun c => if a = i then { c with mVisited := true } else c) := by
          intro a
          rw [getElem?_set_heap]
          by_cases ha : a = i
          · subst ha
            simp [hv]
          · simp [ha]
        have hsp1 : ∃ vs : ClipVertex,
            (h.set i { v with mVisited := true })[s]? = some vs ∧ vs.mPoint = sp := by
          obtain ⟨vs, hvs, hp⟩ := hsp
          rw [hget, hvs]
          refine ⟨_, rfl, ?_⟩
          rw [← hp]
          split <;> rfl
        obtain ⟨n, w, hn, hw, hwne⟩ := (hl.cell hv).1 d
        have hw1 : ∃ v1 : ClipVertex, (h.set i { v with mVisited := true })[n]? = some v1 ∧
            v1.mPoint = w.mPoint := by
          rw [hget, hw]
          refine ⟨_, rfl, ?_⟩
          simp only [Option.map_some']
          split <;> rfl
        obtain ⟨v1, hv1, hv1p⟩ := hw1
        rw [hn] at hr
        simp only [deref_some, hv1] at hr
        -- the vertex the walk stands on after the possible twin hop
        have hx2 : ∃ (t2 : Nat) (w2 : ClipVertex),
            (if v1.mTwin ≠ none then v1.mTwin else some n) = some t2 ∧
            (h.set i { v with mVisited := true })[t2]? = some w2 ∧ w2.mPoint = v1.mPoint := by
          cases htw : v1.mTwin with
          | none => exact ⟨n, v1, by simp, hv1, rfl⟩
          | some t =>
            obtain ⟨w2, hw2, -, hp2⟩ := (hl1.cell hv1).2 t htw
            exact ⟨t, w2, by simp, hw2, hp2⟩
        obtain ⟨t2, w2, hx2e, hw2, hw2p⟩ := hx2
        rw [hx2e] at hr
        have hvne : v.mPoint ≠ sp → OpenEnded (cur ++ [v.mPoint]) := by
          intro hne
          apply openEnded_snoc hhead hne
          intro hcur
          have := hstart hcur
          cases this
          obtain ⟨vs, hvs, hp⟩ := hsp
          rw [hv] at hvs
          cases hvs
          exact hne hp
        revert hr
        generalize (if v1.mTwin ≠ none ∧ v1.mVisited = false ∧
              d = ClipVertexSearchDirection.Forwards ∧
              v1.mClassification = ClipVertexClassification.OutToIn then
            Option.map (fun nextVertToLeaveClipRegion => nextVertToLeaveClipRegion :: tv)
              (FindFirstOf fuel (h.set i { v with mVisited := true }) (some n)
                ClipVertexClassification.InToOut)
          else some tv) = pushed
        intro hr
        cases pushed with
        | none => simp at hr
        | some tv1 =>
          simp only at hr
          by_cases he1 : (some t2 : Ptr) = some s
          · rw [if_pos he1] at hr
            cases hr
            refine ⟨hl1, hvne ?_⟩
            have : t2 = s := Option.some.inj he1
            subst this
            obtain ⟨vs, hvs, hp⟩ := hsp1
            rw [hw2] at hvs
            cases hvs
            intro hcon
            apply hwne
            rw [← hv1p, ← hw2p, hp, hcon]
          · rw [if_neg he1] at hr
            simp only [deref_some, hw2] at hr
            by_cases he2 : w2.mTwin = some s
            · rw [if_pos he2] at hr
              cases hr
              refine ⟨hl1, hvne ?_⟩
              obtain ⟨ws, hws, -, hwsp⟩ := (hl1.cell hw2).2 s he2
              obtain ⟨vs, hvs, hp⟩ := hsp1
              rw [hws] at hvs
              cases hvs
              intro hcon
              apply hwne
              rw [← hv1p, ← hw2p, ← hwsp, hp, hcon]
            · rw [if_neg he2] at hr
              refine ih _ _ _ _ _ r hl1 hsp1 (by simp) ?_ hr
              intro _
              cases cur with
              | nil =>
                have := hstart rfl
                cases this
                obtain ⟨vs, hvs, hp⟩ := hsp
                rw [hv] at hvs
                cases hvs
                simp [hp]
              | cons a rest =>
                have := hhead (by simp)
                simpa using this

/-- Every contour that the worklist loop of `Subtract` adds is open-ended. -/
theorem SubtractLoop_openEnded :
    ∀ (fuel : Nat) (h : Heap) (tv : List Ptr) (cs r : PointContourList),
      TwinLinked h → (∀ c ∈ cs, OpenEnded c) → SubtractLoop fuel h tv cs = some r →
      ∀ c ∈ r, OpenEnded c := by
  intro fuel
  induction fuel with
  | zero =>
    intro h tv cs r _ _ hr
    simp [SubtractLoop] at hr
  | succ fuel ih =>
    intro h tv cs r hl hcs hr
    cases tv with
    | nil =>
      simp only [SubtractLoop] at hr
      cases hr
      exact hcs
    | cons start rest =>
      simp only [SubtractLoop] at hr
      cases start with
      | none => simp [deref] at hr
      | some s =>
        cases hv : h[s]? with
        | none => simp [deref, hv] at hr
        | some vs =>
          simp only [deref_some, hv] at hr
          by_cases hvis : vs.mVisited = true
          · rw [if_pos hvis] at hr
            exact ih _ _ _ _ hl hcs hr
          · rw [if_neg hvis] at hr
            cases ht : SubtractTrace (some s) fuel h (some s) ClipVertexSearchDirection.Forwards
                rest [] with
            | none => simp [ht] at hr
            | some res =>
              obtain ⟨h1, tv1, c1⟩ := res
              simp only [ht] at hr
              obtain ⟨hl1, hopen⟩ := SubtractTrace_openEnded s vs.mPoint fuel h (some s) _ rest []
                (h1, tv1, c1) hl ⟨vs, hv, rfl⟩ (fun _ => rfl) (fun hc => absurd rfl hc) ht
              refine ih _ _ _ _ hl1 ?_ hr
              intro c hc
              rw [List.mem_append] at hc
              rcases hc with hc | hc
              · exact hcs c hc
              · simp only [List.mem_singleton] at hc
                subst hc
                exact hopen

theorem SubtractList_openEnded (fuel : Nat) (h : Heap) (polygon : ClipVertexList)
    (contours : PointContourList) (hl : TwinLinked h)
    (hr : SubtractList fuel h polygon [] = some contours) : ∀ c ∈ contours, OpenEnded c := by
  simp only [SubtractList] at hr
  cases hf : FindFirstOf fuel h polygon.mHead ClipVertexClassification.InToOut with
  | none => simp [hf] at hr
  | some head =>
    simp only [hf] at hr
    by_cases hh : head = none
    · rw [if_pos hh] at hr
      cases hr
      simp
    · rw [if_neg hh] at hr
      exact SubtractLoop_openEnded fuel h [head] [] contours hl (by simp) hr

/-- C11: on a twin-linked ring pair whose ring-adjacent vertices have distinct points,
every contour emitted by `Subtract` has at least two points and its first and last
points are distinct. -/
theorem C11_Subtract_contours_open_ended (fuel : Nat) (h : Heap) (polygon : ClipVertexList)
    (contours : PointContourList) (hl : TwinLinked h)
    (hr : SubtractList fuel h polygon [] = some contours) : ∀ c ∈ contours, OpenEnded c :=
  SubtractList_openEnded fuel h polygon contours hl hr

theorem TwinLinked_scenarioHeap : TwinLinked scenarioHeap := by
  unfold TwinLinked
  decide!

set_option maxRecDepth 100000 in
theorem SubtractList_scenarioHeap_eval :
    SubtractList 20 scenarioHeap { mHead := some 4 } [] =
      some [[⟨1, 1/2⟩, ⟨1, 1⟩, ⟨1/2, 1⟩, ⟨1/2, 3/2⟩, ⟨3/2, 3/2⟩, ⟨3/2, 1/2⟩]] := by
  decide!

/-- C11 on the ring pair that `BuildClipList` builds for the two squares of the scenario:
`Subtract` emits one contour there, and it is open-ended. -/
theorem C11_Subtract_contours_open_ended_witness :
    TwinLinked scenarioHeap ∧
    SubtractList 20 scenarioHeap { mHead := some 4 } [] =
      some [[⟨1, 1/2⟩, ⟨1, 1⟩, ⟨1/2, 1⟩, ⟨1/2, 3/2⟩, ⟨3/2, 3/2⟩, ⟨3/2, 1/2⟩]] ∧
    ∀ c ∈ ([[⟨1, 1/2⟩, ⟨1, 1⟩, ⟨1/2, 1⟩, ⟨1/2, 3/2⟩, ⟨3/2, 3/2⟩, ⟨3/2, 1/2⟩]] :
      PointContourList), OpenEnded c :=
  ⟨TwinLinked_scenarioHeap, SubtractList_scenarioHeap_eval,
    C11_Subtract_contours_open_ended 20 scenarioHeap { mHead := some 4 } _
      TwinLinked_scenarioHeap SubtractList_scenarioHeap_eval⟩

/-! ### Doubly linked rings -/

theorem Link.next_unique {h : Heap} {x y z : Nat} (h1 : Link h x y) (h2 : Link h x z) : y = z := by
  obtain ⟨⟨v, hv, hn⟩, -⟩ := h1
  obtain ⟨⟨v', hv', hn'⟩, -⟩ := h2
  rw [hv] at hv'
  cases hv'
  rw [hn] at hn'
  exact Option.some.inj hn'

theorem Link.prev_unique {h : Heap} {x y z : Nat} (h1 : Link h x z) (h2 : Link h y z) : x = y := by
  obtain ⟨-, ⟨v, hv, hn⟩⟩ := h1
  obtain ⟨-, ⟨v', hv', hn'⟩⟩ := h2
  rw [hv] at hv'
  cases hv'
  rw [hn] at hn'
  exact Option.some.inj hn'

theorem chain_frame_dropLast {R R' : Nat → Nat → Prop} :
    ∀ (l : List Nat), List.Chain' R l → (∀ x ∈ l.dropLast, ∀ y, R x y → R' x y) →
      List.Chain' R' l := by
  intro l
  induction l with
  | nil => intro _ _; exact List.chain'_nil
  | cons a t ih =>
    intro hc hf
    cases t with
    | nil => exact List.chain'_singleton a
    | cons b t' =>
      rw [List.chain'_cons] at hc ⊢
      refine ⟨hf a (by simp [List.dropLast]) b hc.1, ih hc.2 (fun x hx y hxy => hf x ?_ y hxy)⟩
      simp only [List.dropLast_cons₂, List.mem_cons]
      exact Or.inr hx

theorem closed_dropLast (r : List Nat) (hne : r ≠ []) : (closed r).dropLast = r := by
  obtain ⟨a, t, rfl⟩ := List.exists_cons_of_ne_nil hne
  simp only [closed, List.take_succ_cons, List.take_zero]
  rw [List.dropLast_concat]

theorem Ring.mem_heap {h : Heap} {r : List Nat} (hr : Ring h r) {a : Nat} (ha : a ∈ r) :
    ∃ v e, h[a]? = some v ∧ v.mNext = some e ∧ Link h a e := by
  obtain ⟨hne, -, hc⟩ := hr
  obtain ⟨A, B, rfl⟩ := List.append_of_mem ha
  have hcl : closed (A ++ a :: B) = A ++ a :: (B ++ (A ++ a :: B).take 1) := by
    simp [closed]
  rw [hcl] at hc
  have htl : B ++ (A ++ a :: B).take 1 ≠ [] := by
    cases A <;> simp
  obtain ⟨e, T, hT⟩ := List.exists_cons_of_ne_nil htl
  rw [hT] at hc
  have hl : Link h a e := (List.chain'_cons.mp (List.chain'_split.mp hc).2).1
  obtain ⟨v, hv, hn⟩ := hl.1
  exact ⟨v, e, hv, hn, hl⟩

/-- Splicing the fresh cells `P` between `s` and its successor `e`: if the new heap links
`s → P → e` and keeps every other link, the enlarged list is a ring again. -/
theorem Ring.splice {h h' : Heap} {A B P : List Nat} {s e : Nat}
    (hr : Ring h (A ++ s :: B)) (hse : Link h s e) (hP : P.Nodup)
    (hPr : ∀ p ∈ P, p ∉ A ++ s :: B)
    (hnew : List.Chain' (Link h') (s :: P ++ [e]))
    (hframe : ∀ x ∈ A ++ s :: B, ∀ y, Link h x y → x ≠ s → Link h' x y) :
    Ring h' (A ++ s :: (P ++ B)) := by
  obtain ⟨-, hnd, hc⟩ := hr
  have hsA : s ∉ A := by
    intro hmem
    have := List.nodup_append.mp hnd
    exact this.2.2 hmem (List.mem_cons_self _ _)
  have hsB : s ∉ B := by
    have := (List.nodup_append.mp hnd).2.1
    exact (List.nodup_cons.mp this).1
  refine ⟨by simp, ?_, ?_⟩
  · -- no duplicates
    rw [List.nodup_append] at hnd ⊢
    obtain ⟨hA, hsB', hdisj⟩ := hnd
    rw [List.nodup_cons] at hsB'
    refine ⟨hA, ?_, ?_⟩
    · rw [List.nodup_cons]
      refine ⟨?_, ?_⟩
      · intro hmem
        rw [List.mem_append] at hmem
        rcases hmem with hmem | hmem
        · exact hPr s hmem (by simp)
        · exact hsB hmem
      · rw [List.nodup_append]
        refine ⟨hP, hsB'.2, ?_⟩
        intro x hxP hxB
        exact hPr x hxP (by simp [hxB])
    · intro x hxA hx
      rw [List.mem_cons, List.mem_append] at hx
      rcases hx with rfl | hx | hx
      · exact hsA hxA
      · exact hPr x hx (by simp [hxA])
      · exact hdisj hxA (List.mem_cons_of_mem _ hx)
  · have hcl : closed (A ++ s :: B) = A ++ s :: (B ++ (A ++ s :: B).take 1) := by
      simp [closed]
    have hcl' : closed (A ++ s :: (P ++ B)) =
        A ++ s :: (P ++ (B ++ (A ++ s :: B).take 1)) := by
      cases A <;> simp [closed]
    rw [hcl] at hc
    rw [hcl']
    have htl : B ++ (A ++ s :: B).take 1 ≠ [] := by
      cases A <;> simp
    have hdl : (B ++ (A ++ s :: B).take 1).dropLast = B := by
      cases A <;> simp [List.dropLast_concat]
    obtain ⟨e', T, hT⟩ := List.exists_cons_of_ne_nil htl
    rw [hT] at hc hdl ⊢
    obtain ⟨hc1, hc2⟩ := List.chain'_split.mp hc
    rw [List.chain'_cons] at hc2
    have hee : e' = e := Link.next_unique hc2.1 hse
    subst hee
    rw [List.chain'_split]
    refine ⟨chain_frame_dropLast _ hc1 (fun x hx y hxy => ?_), ?_⟩
    · rw [List.dropLast_concat] at hx
      refine hframe x (by simp [hx]) y hxy ?_
      intro hxs
      exact hsA (hxs ▸ hx)
    · have : s :: (P ++ e' :: T) = (s :: P) ++ e' :: T := by simp
      rw [this, List.chain'_split]
      refine ⟨by simpa using hnew, chain_frame_dropLast _ hc2.2 (fun x hx y hxy => ?_)⟩
      rw [hdl] at hx
      refine hframe x (by simp [hx]) y hxy ?_
      intro hxs
      exact hsB (hxs ▸ hx)

theorem closed_getElem? (r : List Nat) (hne : r ≠ []) (k : Nat) (hk : k ≤ r.length) :
    (closed r)[k]? = r[k % r.length]? := by
  have hpos : 0 < r.length := List.length_pos.mpr hne
  by_cases hlt : k < r.length
  · rw [closed, List.getElem?_append_left hlt, Nat.mod_eq_of_lt hlt]
  · have hk' : k = r.length := by omega
    subst hk'
    rw [closed, List.getElem?_append_right (le_refl _), Nat.sub_self, Nat.mod_self,
      List.getElem?_take_of_lt (by omega)]

theorem Ring.link_at {h : Heap} {r : List Nat} (hr : Ring h r) {k a : Nat}
    (hk : r[k]? = some a) : ∃ b, r[(k + 1) % r.length]? = some b ∧ Link h a b := by
  obtain ⟨hne, -, hc⟩ := hr
  have hlt : k < r.length := getElem?_lt_of_some hk
  have hlen : (closed r).length = r.length + 1 := by
    simp only [closed, List.length_append, List.length_take]
    omega
  have hget := List.chain'_iff_get.mp hc k (by omega)
  have h1 : (closed r)[k]? = some a := by
    rw [closed_getElem? r hne k (by omega), Nat.mod_eq_of_lt hlt, hk]
  have hm : (k + 1) % r.length < r.length := Nat.mod_lt _ (by omega)
  have h2 : (closed r)[k + 1]? = some r[(k + 1) % r.length] := by
    rw [closed_getElem? r hne (k + 1) (by omega), List.getElem?_eq_getElem hm]
  refine ⟨r[(k + 1) % r.length], List.getElem?_eq_getElem hm, ?_⟩
  rw [List.get_eq_getElem, List.get_eq_getElem] at hget
  have e1 : (closed r)[k] = a := by
    rw [List.getElem_eq_iff]
    exact h1
  have e2 : (closed r)[k + 1] = r[(k + 1) % r.length] := by
    rw [List.getElem_eq_iff]
    exact h2
  rw [e1, e2] at hget
  exact hget

/-- A doubly linked ring is in particular a forward ring. -/
theorem Ring.toIsRing {h : Heap} {r : List Nat} (hr : Ring h r) : IsRing h r := by
  refine ⟨hr.2.1, fun k a hk => ?_⟩
  obtain ⟨b, hb, hl⟩ := hr.link_at hk
  obtain ⟨v, hv, hn⟩ := hl.1
  exact ⟨v, hv, by rw [hn, hb]⟩

theorem SameData.same (h : Heap) : SameData h h :=
  fun _ v hv => ⟨v, hv, rfl, rfl, rfl, rfl⟩

theorem SameData.comp {h1 h2 h3 : Heap} (h12 : SameData h1 h2) (h23 : SameData h2 h3) :
    SameData h1 h3 := by
  intro a v hv
  obtain ⟨v2, hv2, e1, e2, e3, e4⟩ := h12 a v hv
  obtain ⟨v3, hv3, f1, f2, f3, f4⟩ := h23 a v2 hv2
  exact ⟨v3, hv3, f1.trans e1, f2.trans e2, f3.trans e3, f4.trans e4⟩

theorem Ring.next_mem {h : Heap} {r : List Nat} (hr : Ring h r) {x y : Nat} (hx : x ∈ r)
    (hl : Link h x y) : y ∈ r := by
  obtain ⟨k, hk⟩ := List.mem_iff_getElem?.mp hx
  obtain ⟨b, hb, hlb⟩ := hr.link_at hk
  have := Link.next_unique hl hlb
  subst this
  exact List.mem_iff_getElem?.mpr ⟨_, hb⟩

theorem Ring.lt_length {h : Heap} {r : List Nat} (hr : Ring h r) {a : Nat} (ha : a ∈ r) :
    a < h.length := by
  obtain ⟨v, e, hv, -, -⟩ := hr.mem_heap ha
  exact getElem?_lt_of_some hv

theorem Ring.frame {h h' : Heap} {r : List Nat} (hr : Ring h r)
    (hf : ∀ x ∈ r, ∀ y, Link h x y → Link h' x y) : Ring h' r := by
  obtain ⟨hne, hnd, hc⟩ := hr
  refine ⟨hne, hnd, chain_frame_dropLast _ hc (fun x hx y hxy => hf x ?_ y hxy)⟩
  rwa [closed_dropLast r hne] at hx

theorem Ring.of_link_at {h : Heap} {r : List Nat} (hne : r ≠ []) (hnd : r.Nodup)
    (hl : ∀ k a, r[k]? = some a → ∃ b, r[(k + 1) % r.length]? = some b ∧ Link h a b) :
    Ring h r := by
  refine ⟨hne, hnd, List.chain'_iff_get.mpr ?_⟩
  intro i hi
  have hlen : (closed r).length = r.length + 1 := by
    have hpos : 0 < r.length := List.length_pos.mpr hne
    simp only [closed, List.length_append, List.length_take]
    omega
  have hlt : i < r.length := by omega
  obtain ⟨b, hb, hlb⟩ := hl i r[i] (List.getElem?_eq_getElem hlt)
  rw [List.get_eq_getElem, List.get_eq_getElem]
  have e1 : (closed r)[i] = r[i] := by
    rw [List.getElem_eq_iff, closed_getElem? r hne i (by omega), Nat.mod_eq_of_lt hlt]
    exact List.getElem?_eq_getElem hlt
  have e2 : (closed r)[i + 1] = b := by
    rw [List.getElem_eq_iff, closed_getElem? r hne (i + 1) (by omega)]
    exact hb
  rw [e1, e2]
  exact hlb

theorem Relink.sameData {X Y : List Nat} {h h' : Heap} (hR : Relink X Y h h') :
    SameData h h' := by
  intro a v hv
  obtain ⟨v', hv', e1, e2, e3, e4, -, -⟩ := hR a v hv
  exact ⟨v', hv', e1, e2, e3, e4⟩

theorem SameData.length_le {h h' : Heap} (hS : SameData h h') : h.length ≤ h'.length := by
  by_contra hcon
  have hlt : h'.length < h.length := by omega
  obtain ⟨v', hv', -⟩ := hS h'.length h[h'.length] (List.getElem?_eq_getElem hlt)
  have := getElem?_lt_of_some hv'
  omega

theorem Relink.link {X Y : List Nat} {h h' : Heap} (hR : Relink X Y h h') {x y : Nat}
    (hl : Link h x y) (hx : x ∉ X) (hy : y ∉ Y) : Link h' x y := by
  obtain ⟨⟨v, hv, hn⟩, ⟨w, hw, hp⟩⟩ := hl
  obtain ⟨v', hv', -, -, -, -, en, -⟩ := hR x v hv
  obtain ⟨w', hw', -, -, -, -, -, ep⟩ := hR y w hw
  exact ⟨⟨v', hv', by rw [en hx, hn]⟩, ⟨w', hw', by rw [ep hy, hp]⟩⟩

theorem Relink.andThen {X1 Y1 X2 Y2 : List Nat} {h1 h2 h3 : Heap} (h12 : Relink X1 Y1 h1 h2)
    (h23 : Relink X2 Y2 h2 h3) : Relink (X1 ++ X2) (Y1 ++ Y2) h1 h3 := by
  intro a v hv
  obtain ⟨v2, hv2, e1, e2, e3, e4, en, ep⟩ := h12 a v hv
  obtain ⟨v3, hv3, f1, f2, f3, f4, fn, fp⟩ := h23 a v2 hv2
  refine ⟨v3, hv3, f1.trans e1, f2.trans e2, f3.trans e3, f4.trans e4, ?_, ?_⟩
  · intro ha
    rw [List.mem_append, not_or] at ha
    rw [fn ha.2, en ha.1]
  · intro ha
    rw [List.mem_append, not_or] at ha
    rw [fp ha.2, ep ha.1]

theorem Relink.mono {X Y X' Y' : List Nat} {h h' : Heap} (hR : Relink X Y h h')
    (hX : ∀ a ∈ X, a ∈ X') (hY : ∀ a ∈ Y, a ∈ Y') : Relink X' Y' h h' := by
  intro a v hv
  obtain ⟨v', hv', e1, e2, e3, e4, en, ep⟩ := hR a v hv
  exact ⟨v', hv', e1, e2, e3, e4, fun ha => en (fun hc => ha (hX a hc)),
    fun ha => ep (fun hc => ha (hY a hc))⟩

theorem Relink.unchanged (h : Heap) : Relink [] [] h h :=
  fun _ v hv => ⟨v, hv, rfl, rfl, rfl, rfl, fun _ => rfl, fun _ => rfl⟩

/-- Writing `mNext` of one cell. -/
theorem store_next_relink (h : Heap) (i : Nat) (p : Ptr) (hi : i < h.length) :
    ∃ h', store h (some i) (fun v => { v with mNext := p }) = some h' ∧
      h'.length = h.length ∧ Relink [i] [] h h' ∧
      ∃ v, h'[i]? = some v ∧ v.mNext = p := by
  obtain ⟨h', he, hl, hc⟩ := store_spec h i (fun v => { v with mNext := p }) hi
  refine ⟨h', he, hl, ?_, ?_⟩
  · intro a v hv
    rw [hc a]
    by_cases ha : a = i
    · rw [if_pos ha, hv]
      exact ⟨_, rfl, rfl, rfl, rfl, rfl, fun hn => absurd (by simp [ha]) hn, fun _ => rfl⟩
    · rw [if_neg ha, hv]
      exact ⟨_, rfl, rfl, rfl, rfl, rfl, fun _ => rfl, fun _ => rfl⟩
  · rw [hc i, if_pos rfl, List.getElem?_eq_getElem hi]
    exact ⟨_, rfl, rfl⟩

/-- Writing `mPrev` of one cell. -/
theorem store_prev_relink (h : Heap) (i : Nat) (p : Ptr) (hi : i < h.length) :
    ∃ h', store h (some i) (fun v => { v with mPrev := p }) = some h' ∧
      h'.length = h.length ∧ Relink [] [i] h h' ∧
      ∃ v, h'[i]? = some v ∧ v.mPrev = p := by
  obtain ⟨h', he, hl, hc⟩ := store_spec h i (fun v => { v with mPrev := p }) hi
  refine ⟨h', he, hl, ?_, ?_⟩
  · intro a v hv
    rw [hc a]
    by_cases ha : a = i
    · rw [if_pos ha, hv]
      exact ⟨_, rfl, rfl, rfl, rfl, rfl, fun _ => rfl, fun hn => absurd (by simp [ha]) hn⟩
    · rw [if_neg ha, hv]
      exact ⟨_, rfl, rfl, rfl, rfl, rfl, fun _ => rfl, fun _ => rfl⟩
  · rw [hc i, if_pos rfl, List.getElem?_eq_getElem hi]
    exact ⟨_, rfl, rfl⟩

theorem TwinOK.transport {plain : ClipVertexClassification → Prop} {h h' : Heap}
    {other other' : List Nat} {a : Nat} {v v' : ClipVertex}
    (t : TwinOK plain h other a v) (hS : SameData h h') (hsub : ∀ b ∈ other, b ∈ other')
    (hv : h[a]? = some v) (hv' : h'[a]? = some v') : TwinOK plain h' other' a v' := by
  obtain ⟨v'', hv'', e1, e2, e3, -⟩ := hS a v hv
  rw [hv'] at hv''
  cases hv''
  rcases t with ⟨ht, hp⟩ | ⟨b, w, ht, hb, hw, hwt, hwp, hc⟩
  · exact Or.inl ⟨by rw [e3, ht], by rw [e2]; exact hp⟩
  · obtain ⟨w', hw', f1, -, f3, -⟩ := hS b w hw
    exact Or.inr ⟨b, w', by rw [e3, ht], hsub b hb, hw', by rw [f3, hwt], by rw [f1, e1, hwp],
      by rw [e2]; exact hc⟩

/-- The insert block relinks only `mNext` of `clipStart` and `mPrev` of `clipNext`. -/
theorem insertedHeapCell_relink {h h' : Heap} {pt : Vec2} {r : Intersection} {cs cn : Nat}
    (hcell : ∀ a, h'[a]? = insertedHeapCell h pt r cs cn a) : Relink [cs] [cn] h h' := by
  intro a v hv
  have hlt := getElem?_lt_of_some hv
  rw [hcell a, insertedHeapCell, if_neg (by omega), if_neg (by omega), hv]
  refine ⟨_, rfl, rfl, rfl, rfl, rfl, ?_, ?_⟩
  · intro ha
    have : a ≠ cs := fun hc => ha (by simp [hc])
    simp [this]
  · intro ha
    have : a ≠ cn := fun hc => ha (by simp [hc])
    simp [this]

/-! ### The enrichment invariant through `ClipEdges` and `ClipPolygon` -/

/-- The cells of the heap left by the insert block: an old cell with its data, the new
clip-side cell or the new subject-side cell. -/
theorem insertedHeapCell_cases {h h' : Heap} {pt : Vec2} {r : Intersection} {cs cn : Nat}
    (hlen : h'.length = h.length + 2)
    (hcell : ∀ a, h'[a]? = insertedHeapCell h pt r cs cn a) (a : Nat) (v' : ClipVertex)
    (hv' : h'[a]? = some v') :
    (a < h.length ∧ ∃ v, h[a]? = some v ∧ v'.mPoint = v.mPoint ∧
        v'.mClassification = v.mClassification ∧ v'.mTwin = v.mTwin ∧
        v'.mVisited = v.mVisited) ∨
    (a = h.length ∧ v'.mPoint = pt ∧ v'.mClassification = r.line1Flags ∧
        v'.mTwin = some (h.length + 1) ∧ v'.mVisited = false ∧ v'.mPrev = some cs ∧
        v'.mNext = some cn) ∨
    (a = h.length + 1 ∧ v'.mPoint = pt ∧ v'.mClassification = r.line0Flags ∧
        v'.mTwin = some h.length ∧ v'.mVisited = false) := by
  have hlt := getElem?_lt_of_some hv'
  rw [hcell a, insertedHeapCell] at hv'
  by_cases h1 : a = h.length
  · rw [if_pos h1] at hv'
    cases hv'
    exact Or.inr (Or.inl ⟨h1, rfl, rfl, rfl, rfl, rfl, rfl⟩)
  · rw [if_neg h1] at hv'
    by_cases h2 : a = h.length + 1
    · rw [if_pos h2] at hv'
      cases hv'
      exact Or.inr (Or.inr ⟨h2, rfl, rfl, rfl, rfl⟩)
    · rw [if_neg h2] at hv'
      have hlt' : a < h.length := by omega
      rw [List.getElem?_eq_getElem hlt'] at hv'
      cases hv'
      exact Or.inl ⟨hlt', _, List.getElem?_eq_getElem hlt', rfl, rfl, rfl, rfl⟩

/-- One insert block keeps the enrichment invariant: the clip ring gains the new
clip-side vertex right after `clipStart`, the subject-side vertex becomes pending. -/
theorem Enr.insert {pS pC : ClipVertexClassification → Prop} {N0 : Nat} {oS oC : List Nat}
    {h : Heap} {rs rc pend : List Nat} (E : Enr pS pC N0 oS oC h rs rc pend)
    {cs cn : Nat} (hcs : cs ∈ rc) (hl : Link h cs cn) {pt : Vec2} {r : Intersection}
    (h0 : IsCrossing r.line0Flags) (h1 : IsCrossing r.line1Flags) {h' : Heap}
    (hlen : h'.length = h.length + 2)
    (hcell : ∀ a, h'[a]? = insertedHeapCell h pt r cs cn a) :
    ∃ A B, rc = A ++ cs :: B ∧
      Enr pS pC N0 oS oC h' rs (A ++ cs :: (h.length :: B)) (pend ++ [h.length + 1]) := by
  obtain ⟨A, B, rfl⟩ := List.append_of_mem hcs
  have hR := insertedHeapCell_relink hcell
  have hS := hR.sameData
  have hcn : cn ∈ A ++ cs :: B := E.ringC.next_mem hcs hl
  have hltS : ∀ a ∈ rs, a < h.length := fun a ha => E.ringS.lt_length ha
  have hltC : ∀ a ∈ A ++ cs :: B, a < h.length := fun a ha => E.ringC.lt_length ha
  have hcases := insertedHeapCell_cases hlen hcell
  obtain ⟨vC, hvC⟩ : ∃ v, h'[h.length]? = some v :=
    ⟨_, List.getElem?_eq_getElem (by omega)⟩
  obtain ⟨vE, hvE⟩ : ∃ v, h'[h.length + 1]? = some v :=
    ⟨_, List.getElem?_eq_getElem (by omega)⟩
  have cC : vC.mPoint = pt ∧ vC.mClassification = r.line1Flags ∧
      vC.mTwin = some (h.length + 1) ∧ vC.mVisited = false ∧ vC.mPrev = some cs ∧
      vC.mNext = some cn := by
    rcases hcases _ _ hvC with ⟨hlt, -⟩ | ⟨-, hh⟩ | ⟨he, -⟩
    · omega
    · exact hh
    · omega
  have cE : vE.mPoint = pt ∧ vE.mClassification = r.line0Flags ∧
      vE.mTwin = some h.length ∧ vE.mVisited = false := by
    rcases hcases _ _ hvE with ⟨hlt, -⟩ | ⟨he, -⟩ | ⟨-, hh⟩
    · omega
    · omega
    · exact hh
  have memC' : ∀ a, a ∈ A ++ cs :: (h.length :: B) ↔ a ∈ A ++ cs :: B ∨ a = h.length := by
    intro a
    simp only [List.mem_append, List.mem_cons]
    tauto
  -- the rings
  have fRingC : Ring h' (A ++ cs :: (h.length :: B)) := by
    have hnew : List.Chain' (Link h') (cs :: [h.length] ++ [cn]) := by
      obtain ⟨⟨v, hv, -⟩, ⟨w, hw, -⟩⟩ := hl
      have hcsv : ∃ v', h'[cs]? = some v' ∧ v'.mNext = some h.length := by
        have hlt := getElem?_lt_of_some hv
        rw [hcell cs, insertedHeapCell, if_neg (by omega), if_neg (by omega), hv]
        exact ⟨_, rfl, by simp⟩
      have hcnw : ∃ w', h'[cn]? = some w' ∧ w'.mPrev = some h.length := by
        have hlt := getElem?_lt_of_some hw
        rw [hcell cn, insertedHeapCell, if_neg (by omega), if_neg (by omega), hw]
        exact ⟨_, rfl, by simp⟩
      refine List.chain'_cons.mpr ⟨⟨hcsv, ⟨vC, hvC, cC.2.2.2.2.1⟩⟩, ?_⟩
      refine List.chain'_cons.mpr ⟨⟨⟨vC, hvC, cC.2.2.2.2.2⟩, hcnw⟩, List.chain'_singleton _⟩
    have := Ring.splice E.ringC hl (List.nodup_singleton h.length)
      (fun p hp hmem => by
        rw [List.mem_singleton] at hp
        have := hltC p hmem
        omega) hnew
      (fun x _ y hxy hx => hR.link hxy (by simpa using hx) (by
        intro hy
        rw [List.mem_singleton] at hy
        subst hy
        exact hx (Link.prev_unique hxy hl)))
    simpa using this
  have fRingS : Ring h' rs := E.ringS.frame (fun x hx y hxy => hR.link hxy
    (by
      rw [List.mem_singleton]
      rintro rfl
      exact E.disjSC _ hx hcs)
    (by
      rw [List.mem_singleton]
      rintro rfl
      exact E.disjSC _ (E.ringS.next_mem hx hxy) hcn))
  have fNodupP : (pend ++ [h.length + 1]).Nodup := by
    rw [List.nodup_append]
    refine ⟨E.nodupP, List.nodup_singleton _, ?_⟩
    intro a ha ha'
    rw [List.mem_singleton] at ha'
    have := E.pendIn a ha
    omega
  have fDisjSC : ∀ a ∈ rs, a ∉ A ++ cs :: (h.length :: B) := by
    intro a ha hc
    rcases (memC' a).mp hc with hc | hc
    · exact E.disjSC a ha hc
    · have := hltS a ha
      omega
  have fDisjSP : ∀ a ∈ pend ++ [h.length + 1], a ∉ rs := by
    intro a ha hs
    rw [List.mem_append, List.mem_singleton] at ha
    rcases ha with ha | ha
    · exact E.disjSP a ha hs
    · have := hltS a hs
      omega
  have fDisjCP : ∀ a ∈ pend ++ [h.length + 1], a ∉ A ++ cs :: (h.length :: B) := by
    intro a ha hc
    rw [List.mem_append, List.mem_singleton] at ha
    rcases (memC' a).mp hc with hc | hc
    · rcases ha with ha | ha
      · exact E.disjCP a ha hc
      · have := hltC a hc
        omega
    · rcases ha with ha | ha
      · have := E.pendIn a ha
        omega
      · omega
  have fCover : ∀ a, a < h'.length → a ∈ rs ∨ a ∈ A ++ cs :: (h.length :: B) ∨
      a ∈ pend ++ [h.length + 1] := by
    intro a ha
    by_cases h1 : a < h.length
    · rcases E.cover a h1 with hh | hh | hh
      · exact Or.inl hh
      · exact Or.inr (Or.inl ((memC' a).mpr (Or.inl hh)))
      · exact Or.inr (Or.inr (List.mem_append_left _ hh))
    · by_cases h2 : a = h.length
      · exact Or.inr (Or.inl ((memC' a).mpr (Or.inr h2)))
      · exact Or.inr (Or.inr (List.mem_append_right _ (List.mem_singleton.mpr (by omega))))
  have fPendIn : ∀ a ∈ pend ++ [h.length + 1], a < h'.length := by
    intro a ha
    rw [List.mem_append, List.mem_singleton] at ha
    rcases ha with ha | ha
    · have := E.pendIn a ha
      omega
    · omega
  have fPendNew : ∀ a ∈ pend ++ [h.length + 1], N0 ≤ a := by
    intro a ha
    rw [List.mem_append, List.mem_singleton] at ha
    rcases ha with ha | ha
    · exact E.pendNew a ha
    · have := E.bound
      omega
  have fTwinS : ∀ a ∈ rs ++ (pend ++ [h.length + 1]), ∀ v : ClipVertex, h'[a]? = some v →
      TwinOK pS h' (A ++ cs :: (h.length :: B)) a v := by
    intro a ha v' hv'
    rcases hcases a v' hv' with ⟨hlt, v, hv, -⟩ | ⟨he, -⟩ | ⟨he, -⟩
    · have hmem : a ∈ rs ++ pend := by
        simp only [List.mem_append, List.mem_singleton] at ha ⊢
        rcases ha with ha | ha | ha
        · exact Or.inl ha
        · exact Or.inr ha
        · omega
      exact (E.twinS a hmem v hv).transport hS (fun b hb => (memC' b).mpr (Or.inl hb)) hv hv'
    · exfalso
      simp only [List.mem_append, List.mem_singleton] at ha
      rcases ha with ha | ha | ha
      · have := hltS a ha
        omega
      · have := E.pendIn a ha
        omega
      · omega
    · subst he
      rw [hvE] at hv'
      cases hv'
      exact Or.inr ⟨h.length, vC, cE.2.2.1, (memC' _).mpr (Or.inr rfl), hvC, cC.2.2.1,
        by rw [cC.1, cE.1], by rw [cE.2.1]; exact h0⟩
  have fTwinC : ∀ a ∈ A ++ cs :: (h.length :: B), ∀ v : ClipVertex, h'[a]? = some v →
      TwinOK pC h' (rs ++ (pend ++ [h.length + 1])) a v := by
    intro a ha v' hv'
    rcases (memC' a).mp ha with ha | ha
    · have hlt := hltC a ha
      rcases hcases a v' hv' with ⟨-, v, hv, -⟩ | ⟨he, -⟩ | ⟨he, -⟩
      · exact (E.twinC a ha v hv).transport hS (fun b hb => by
          simp only [List.mem_append, List.mem_singleton] at hb ⊢
          tauto) hv hv'
      · omega
      · omega
    · subst ha
      rw [hvC] at hv'
      cases hv'
      exact Or.inr ⟨h.length + 1, vE, cC.2.2.1, by simp, hvE, cE.2.2.1,
        by rw [cC.1, cE.1], by rw [cC.2.1]; exact h1⟩
  have fOrigTw : ∀ (a : Nat) (v : ClipVertex), h'[a]? = some v → (v.mTwin = none ↔ a < N0) := by
    intro a v' hv'
    have hb := E.bound
    rcases hcases a v' hv' with ⟨-, v, hv, -, -, et, -⟩ | ⟨he, -, -, et, -⟩ | ⟨he, -, -, et, -⟩
    · rw [et]
      exact E.origTw a v hv
    · rw [et]
      constructor
      · intro hc
        cases hc
      · intro hc
        omega
    · rw [et]
      constructor
      · intro hc
        cases hc
      · intro hc
        omega
  have fBound : N0 ≤ h'.length := by
    have := E.bound
    omega
  have fFiltC : (A ++ cs :: (h.length :: B)).filter (fun a => decide (a < N0)) = oC := by
    rw [← E.filtC]
    have hb := E.bound
    have : decide (h.length < N0) = false := by
      rw [decide_eq_false_iff_not]
      omega
    simp only [List.filter_append, List.filter_cons, this]
    simp
  have fHeadC : (A ++ cs :: (h.length :: B)).head? = oC.head? := by
    rw [← E.headC]
    cases A <;> simp
  have fUnv : ∀ (a : Nat) (v : ClipVertex), h'[a]? = some v → v.mVisited = false := by
    intro a v' hv'
    rcases hcases a v' hv' with ⟨-, v, hv, -, -, -, ev⟩ | ⟨-, -, -, -, ev, -⟩ | ⟨-, -, -, -, ev⟩
    · rw [ev]
      exact E.unvisited a v hv
    · exact ev
    · exact ev
  exact ⟨A, B, rfl, ⟨fRingS, fRingC, fNodupP, fDisjSC, fDisjSP, fDisjCP, fCover, fPendIn,
    fPendNew, fTwinS, fTwinC, fOrigTw, fBound, E.filtS, fFiltC, E.headS, fHeadC, fUnv⟩⟩

theorem ComputeIntersectionPoint_flags (p0 p1 q0 q1 : Vec2)
    (ht : 0 ≤ (ComputeIntersectionPoint p0 p1 q0 q1).time) :
    IsCrossing (ComputeIntersectionPoint p0 p1 q0 q1).line0Flags ∧
      IsCrossing (ComputeIntersectionPoint p0 p1 q0 q1).line1Flags := by
  rcases ComputeIntersectionPoint_cases p0 p1 q0 q1 with hc | ⟨-, -, hc⟩
  · rw [hc] at ht
    norm_num at ht
  · rw [hc]
    simp only [IsCrossing]
    constructor
    · by_cases h3 : SignedArea q0 q1 p0 < 0
      · rw [if_pos h3]
        exact Or.inr rfl
      · rw [if_neg h3]
        exact Or.inl rfl
    · by_cases h2 : SignedArea p0 p1 q0 < 0
      · rw [if_pos h2]
        exact Or.inr rfl
      · rw [if_neg h2]
        exact Or.inl rfl

/-- One pass through the body of the loop of `ClipEdges`. -/
theorem ClipEdges_body {pS pC : ClipVertexClassification → Prop} {N0 : Nat}
    {oS oC : List Nat} {h0 : Heap} {rs rc0 : List Nat} (hnd : rc0.Nodup)
    (hin0 : ∀ a ∈ rc0, a < h0.length) {s e : Nat} {sv ev : ClipVertex}
    (hsv : h0[s]? = some sv) (hev : h0[e]? = some ev)
    {j a : Nat} {h : Heap} {nv : List IntersectionVerts} (hj : rc0[j]? = some a)
    (hinv : LoopInv pS pC N0 oS oC h0 rs rc0 sv.mPoint ev.mPoint j h nv) :
    ∃ (b : Nat) (cs s' e' cn : ClipVertex) (h' : Heap) (nv' : List IntersectionVerts),
      rc0[(j + 1) % rc0.length]? = some b ∧
      deref h (some a) = some cs ∧ cs.mNext = some b ∧ deref h (some s) = some s' ∧
      deref h (some e) = some e' ∧ deref h (some b) = some cn ∧
      (if 0 ≤ (ComputeIntersectionPoint s'.mPoint e'.mPoint cs.mPoint cn.mPoint).time ∧
          (ComputeIntersectionPoint s'.mPoint e'.mPoint cs.mPoint cn.mPoint).time ≤ 1 then
        ClipEdgesInsert h s'.mPoint e'.mPoint (some a) (some b)
          (ComputeIntersectionPoint s'.mPoint e'.mPoint cs.mPoint cn.mPoint) nv
       else some (h, nv)) = some (h', nv') ∧
      LoopInv pS pC N0 oS oC h0 rs rc0 sv.mPoint ev.mPoint (j + 1) h' nv' := by
  obtain ⟨rc, pend, E, hnvP, hsub, hpnew, hR0, hadj, htimes, hpts⟩ := hinv
  have hjlt : j < rc0.length := getElem?_lt_of_some hj
  have hmlt : (j + 1) % rc0.length < rc0.length := Nat.mod_lt _ (by omega)
  obtain ⟨cs, hcs, hcsn⟩ := hadj j a (le_refl _) hj
  set b := rc0[(j + 1) % rc0.length] with hbdef
  have hb : rc0[(j + 1) % rc0.length]? = some b := List.getElem?_eq_getElem hmlt
  rw [hb] at hcsn
  have ha0 : a ∈ rc0 := List.mem_iff_getElem?.mpr ⟨_, hj⟩
  have hb0 : b ∈ rc0 := List.mem_iff_getElem?.mpr ⟨_, hb⟩
  have haC : a ∈ rc := hsub a ha0
  have hbC : b ∈ rc := hsub b hb0
  have hS0 := hR0.sameData
  obtain ⟨s', hs', hsp, -⟩ := hS0 s sv hsv
  obtain ⟨e', he', hep, -⟩ := hS0 e ev hev
  obtain ⟨va, hva⟩ : ∃ va, h0[a]? = some va :=
    ⟨_, List.getElem?_eq_getElem (hin0 a ha0)⟩
  obtain ⟨vb, hvb⟩ : ∃ vb, h0[b]? = some vb :=
    ⟨_, List.getElem?_eq_getElem (hin0 b hb0)⟩
  obtain ⟨cs', hcs', hcsp, -⟩ := hS0 a va hva
  rw [hcs] at hcs'
  cases hcs'
  obtain ⟨cn, hcn, hcnp, -⟩ := hS0 b vb hvb
  have hlink : Link h a b := by
    obtain ⟨v, x, hv, hn, hl⟩ := E.ringC.mem_heap haC
    rw [hcs] at hv
    cases hv
    rw [hcsn] at hn
    cases hn
    exact hl
  have hedge : edgeTime h0 rc0 sv.mPoint ev.mPoint j =
      if 0 ≤ (ComputeIntersectionPoint s'.mPoint e'.mPoint cs.mPoint cn.mPoint).time ∧
          (ComputeIntersectionPoint s'.mPoint e'.mPoint cs.mPoint cn.mPoint).time ≤ 1 then
        some (ComputeIntersectionPoint s'.mPoint e'.mPoint cs.mPoint cn.mPoint).time
      else none := by
    rw [hsp, hep, hcsp, hcnp]
    simp only [edgeTime, hj, hb, hva, hvb]
  by_cases hf : 0 ≤ (ComputeIntersectionPoint s'.mPoint e'.mPoint cs.mPoint cn.mPoint).time ∧
          (ComputeIntersectionPoint s'.mPoint e'.mPoint cs.mPoint cn.mPoint).time ≤ 1
  · -- a crossing: the insert block runs
    rw [if_pos hf] at hedge
    obtain ⟨h', hins, hlen, hcell⟩ := ClipEdgesInsert_spec h s'.mPoint e'.mPoint a b
      (ComputeIntersectionPoint s'.mPoint e'.mPoint cs.mPoint cn.mPoint) nv
      (getElem?_lt_of_some hcs) (getElem?_lt_of_some hcn)
    obtain ⟨f0, f1⟩ := ComputeIntersectionPoint_flags _ _ _ _ hf.1
    obtain ⟨A, B, hAB, E'⟩ := E.insert haC hlink f0 f1 hlen hcell
    have hR := insertedHeapCell_relink hcell
    refine ⟨b, cs, s', e', cn, h', nv ++ [{ mVertex := some (h.length + 1), mTime :=
      (ComputeIntersectionPoint s'.mPoint e'.mPoint cs.mPoint cn.mPoint).time }],
      hb, hcs, hcsn, hs', he', hcn, ?_, ?_⟩
    · rw [if_pos hf]
      exact hins
    · refine ⟨_, _, E', ?_, ?_, ?_, ?_, ?_, ?_, ?_⟩
      · simp [hnvP]
      · intro x hx
        have := hsub x hx
        rw [hAB] at this
        simp only [List.mem_append, List.mem_cons] at this ⊢
        tauto
      · intro x hx
        rw [List.mem_append, List.mem_singleton] at hx
        rcases hx with hx | hx
        · exact hpnew x hx
        · have := hS0.length_le
          omega
      · exact (hR0.andThen hR).mono (fun x hx => by
          rw [List.mem_append, List.mem_singleton] at hx
          rcases hx with hx | hx
          · exact hx
          · exact hx ▸ ha0) (fun x hx => by
          rw [List.mem_append, List.mem_singleton] at hx
          rcases hx with hx | hx
          · exact hx
          · exact hx ▸ hb0)
      · intro i x hi hx
        obtain ⟨v, hv, hn⟩ := hadj i x (by omega) hx
        obtain ⟨v', hv', -, -, -, -, en, -⟩ := hR x v hv
        refine ⟨v', hv', ?_⟩
        rw [en, hn]
        rw [List.mem_singleton]
        rintro rfl
        have hilt := getElem?_lt_of_some hx
        have := List.getElem?_inj hilt hnd (hx.trans hj.symm)
        omega
      · rw [List.range_succ, List.filterMap_append, ← htimes]
        simp [hedge]
      · intro x hx
        rw [List.mem_append, List.mem_singleton] at hx
        rcases hx with hx | hx
        · obtain ⟨p, v, hp, hv, hpt⟩ := hpts x hx
          obtain ⟨v', hv', ept, -⟩ := hR.sameData p v hv
          exact ⟨p, v', hp, hv', by rw [ept, hpt]⟩
        · subst hx
          have hE : h'[h.length + 1]? = _ := hcell (h.length + 1)
          rw [insertedHeapCell, if_neg (by omega), if_pos rfl] at hE
          exact ⟨h.length + 1, _, rfl, hE, by rw [hsp, hep]⟩
  · -- no crossing
    rw [if_neg hf] at hedge
    refine ⟨b, cs, s', e', cn, h, nv, hb, hcs, hcsn, hs', he', hcn, by rw [if_neg hf], ?_⟩
    refine ⟨rc, pend, E, hnvP, hsub, hpnew, hR0, fun i x hi hx => hadj i x (by omega) hx, ?_,
      hpts⟩
    rw [List.range_succ, List.filterMap_append, ← htimes]
    simp [hedge]

/-- The loop of `ClipEdges` goes once around the clip ring found at entry. -/
theorem ClipEdgesLoop_inv {pS pC : ClipVertexClassification → Prop} {N0 : Nat}
    {oS oC : List Nat} {h0 : Heap} {rs rc0 : List Nat} (hnd : rc0.Nodup)
    (hin0 : ∀ a ∈ rc0, a < h0.length) {s e : Nat} {sv ev : ClipVertex}
    (hsv : h0[s]? = some sv) (hev : h0[e]? = some ev) :
    ∀ (n j a : Nat) (h : Heap) (nv : List IntersectionVerts) (fuel : Nat),
      rc0[j]? = some a → j + n = rc0.length → n ≤ fuel →
      LoopInv pS pC N0 oS oC h0 rs rc0 sv.mPoint ev.mPoint j h nv →
      ∃ h' nv', ClipEdgesLoop (some s) (some e) rc0[0]? fuel (some a) h nv = some (h', nv') ∧
        LoopInv pS pC N0 oS oC h0 rs rc0 sv.mPoint ev.mPoint rc0.length h' nv' := by
  intro n
  induction n with
  | zero =>
    intro j a h nv fuel hj hlen _ _
    rw [List.getElem?_eq_none (by omega)] at hj
    cases hj
  | succ n ih =>
    intro j a h nv fuel hj hlen hfuel hinv
    obtain ⟨fuel, rfl⟩ : ∃ f, fuel = f + 1 := ⟨fuel - 1, by omega⟩
    obtain ⟨b, cs, s', e', cn, h', nv', hb, hcs, hcsn, hs', he', hcn, hbody, hinv'⟩ :=
      ClipEdges_body hnd hin0 hsv hev hj hinv
    rw [ClipEdgesLoop]
    simp only [hcs, hcsn, hs', he', hcn, hbody]
    by_cases hlast : j + 1 = rc0.length
    · have h0' : (j + 1) % rc0.length = 0 := by rw [hlast]; exact Nat.mod_self _
      rw [h0'] at hb
      simp only [hb, ne_eq, not_true_eq_false, if_false]
      refine ⟨h', nv', rfl, ?_⟩
      rw [← hlast]
      exact hinv'
    · have hlt : j + 1 < rc0.length := by omega
      rw [Nat.mod_eq_of_lt hlt] at hb
      have hne : some b ≠ rc0[0]? := by
        intro hc
        have := List.getElem?_inj hlt hnd (hb.trans hc)
        omega
      simp only [ne_eq, hne, not_false_eq_true, if_true]
      exact ih (j + 1) b h' nv' fuel hb (by omega) (by omega) hinv'

theorem chain_frame2 {R R' : Nat → Nat → Prop} :
    ∀ (l : List Nat), List.Chain' R l →
      (∀ x ∈ l.dropLast, ∀ y ∈ l.tail, R x y → R' x y) → List.Chain' R' l := by
  intro l
  induction l with
  | nil => intro _ _; exact List.chain'_nil
  | cons a t ih =>
    intro hc hf
    cases t with
    | nil => exact List.chain'_singleton a
    | cons b t' =>
      rw [List.chain'_cons] at hc ⊢
      refine ⟨hf a (by simp [List.dropLast]) b (by simp) hc.1,
        ih hc.2 (fun x hx y hy hxy => hf x ?_ y ?_ hxy)⟩
      · simp only [List.dropLast_cons₂, List.mem_cons]
        exact Or.inr hx
      · simp only [List.tail_cons, List.mem_cons] at hy ⊢
        exact Or.inr hy

theorem getLast?_getD_cons (p s : Nat) (P : List Nat) :
    ((p :: P).getLast?).getD s = (P.getLast?).getD p := by
  cases P with
  | nil => simp
  | cons q Q =>
    rw [List.getLast?_cons_cons, List.getLast?_eq_getLast _ (List.cons_ne_nil q Q)]
    rfl

/-- The insertion loop at the end of `ClipEdges` links `s → P` forwards and backwards and
touches no other link. -/
theorem ClipEdgesThread_spec : ∀ (xs : List IntersectionVerts) (P : List Nat) (s : Nat)
    (h : Heap), xs.map (fun x => x.mVertex) = P.map some → (s :: P).Nodup →
    (∀ a ∈ s :: P, a < h.length) →
    ∃ h', ClipEdgesThread xs (some s) h = some (h', some ((P.getLast?).getD s)) ∧
      h'.length = h.length ∧ Relink ((s :: P).dropLast) P h h' ∧
      List.Chain' (Link h') (s :: P) := by
  intro xs
  induction xs with
  | nil =>
    intro P s h hmap _ _
    cases P with
    | nil => exact ⟨h, by simp [ClipEdgesThread], rfl, Relink.unchanged h, List.chain'_singleton s⟩
    | cons p P' => simp at hmap
  | cons x xs ih =>
    intro P s h hmap hnd hlt
    cases P with
    | nil => simp at hmap
    | cons p P' =>
      rw [List.map_cons, List.map_cons, List.cons.injEq] at hmap
      obtain ⟨hx, hmap'⟩ := hmap
      have hps : p < h.length := hlt p (by simp)
      have hss : s < h.length := hlt s (by simp)
      obtain ⟨h1, e1, l1, R1, w1, hw1, hw1p⟩ := store_prev_relink h p (some s) hps
      obtain ⟨h2, e2, l2, R2, v2, hv2, hv2n⟩ := store_next_relink h1 s (some p)
        (by rw [l1]; exact hss)
      have hnd' : (p :: P').Nodup := (List.nodup_cons.mp hnd).2
      have hsp : s ∉ p :: P' := (List.nodup_cons.mp hnd).1
      obtain ⟨h', e', l', R', hch⟩ := ih P' p h2 hmap' hnd' (by
        intro a ha
        rw [l2, l1]
        exact hlt a (List.mem_cons_of_mem _ ha))
      refine ⟨h', ?_, by rw [l', l2, l1], ?_, ?_⟩
      · rw [ClipEdgesThread, hx, e1]
        simp only
        rw [e2]
        simp only
        rw [e', getLast?_getD_cons]
      · refine ((R1.andThen R2).andThen R').mono ?_ ?_
        · intro a ha
          simp only [List.nil_append, List.mem_append, List.mem_singleton] at ha
          rw [List.dropLast_cons₂, List.mem_cons]
          tauto
        · intro a ha
          simp only [List.append_nil, List.mem_append, List.mem_singleton] at ha
          rw [List.mem_cons]
          tauto
      · rw [List.chain'_cons]
        refine ⟨?_, hch⟩
        have hl2 : Link h2 s p := by
          obtain ⟨w2, hw2, -, -, -, -, -, ep⟩ := R2 p w1 hw1
          exact ⟨⟨v2, hv2, hv2n⟩, ⟨w2, hw2, by rw [ep (by simp), hw1p]⟩⟩
        refine R'.link hl2 (fun hc => hsp (List.mem_of_mem_dropLast hc)) ?_
        exact (List.nodup_cons.mp hnd').1

/-- Threading the pending subject-side vertices between `s` and its successor `e` keeps
the enrichment invariant, with nothing pending any more. -/
theorem Enr.thread {pS pC : ClipVertexClassification → Prop} {N0 : Nat} {oS oC : List Nat}
    {h : Heap} {rs rc pend : List Nat} (E : Enr pS pC N0 oS oC h rs rc pend)
    {P : List Nat} (hperm : P.Perm pend) {s e : Nat} (hs : s ∈ rs) (hl : Link h s e)
    {h' : Heap} (hlen : h'.length = h.length) (hR : Relink (s :: P) (e :: P) h h')
    (hch : List.Chain' (Link h') (s :: P ++ [e])) :
    ∃ A B, rs = A ++ s :: B ∧ Enr pS pC N0 oS oC h' (A ++ s :: (P ++ B)) rc [] := by
  obtain ⟨A, B, rfl⟩ := List.append_of_mem hs
  have hS := hR.sameData
  have he : e ∈ A ++ s :: B := E.ringS.next_mem hs hl
  have hPp : ∀ a, a ∈ P ↔ a ∈ pend := fun a => hperm.mem_iff
  have memS' : ∀ a, a ∈ A ++ s :: (P ++ B) ↔ a ∈ A ++ s :: B ∨ a ∈ pend := by
    intro a
    simp only [List.mem_append, List.mem_cons, hPp]
    tauto
  have hold : ∀ (a : Nat) (v' : ClipVertex), h'[a]? = some v' → ∃ v, h[a]? = some v ∧
      v'.mPoint = v.mPoint ∧ v'.mClassification = v.mClassification ∧ v'.mTwin = v.mTwin ∧
      v'.mVisited = v.mVisited := by
    intro a v' hv'
    have hlt : a < h.length := by
      have := getElem?_lt_of_some hv'
      omega
    obtain ⟨v'', hv'', e1, e2, e3, e4⟩ := hS a h[a] (List.getElem?_eq_getElem hlt)
    rw [hv'] at hv''
    cases hv''
    exact ⟨_, List.getElem?_eq_getElem hlt, e1, e2, e3, e4⟩
  have fRingS : Ring h' (A ++ s :: (P ++ B)) := by
    refine Ring.splice E.ringS hl (hperm.nodup_iff.mpr E.nodupP)
      (fun p hp hmem => E.disjSP p ((hPp p).mp hp) hmem) hch ?_
    intro x hx y hxy hxs
    refine hR.link hxy ?_ ?_
    · rw [List.mem_cons, not_or]
      exact ⟨hxs, fun hc => E.disjSP x ((hPp x).mp hc) hx⟩
    · rw [List.mem_cons, not_or]
      refine ⟨fun hc => hxs (Link.prev_unique (hc ▸ hxy) hl), fun hc => ?_⟩
      exact E.disjSP y ((hPp y).mp hc) (E.ringS.next_mem hx hxy)
  have fRingC : Ring h' rc := E.ringC.frame (fun x hx y hxy => hR.link hxy
    (by
      rw [List.mem_cons, not_or]
      exact ⟨fun hc => E.disjSC s hs (hc ▸ hx), fun hc => E.disjCP x ((hPp x).mp hc) hx⟩)
    (by
      have hy := E.ringC.next_mem hx hxy
      rw [List.mem_cons, not_or]
      exact ⟨fun hc => E.disjSC e he (hc ▸ hy), fun hc => E.disjCP y ((hPp y).mp hc) hy⟩))
  have fDisjSC : ∀ a ∈ A ++ s :: (P ++ B), a ∉ rc := by
    intro a ha
    rcases (memS' a).mp ha with ha | ha
    · exact E.disjSC a ha
    · exact E.disjCP a ha
  have fCover : ∀ a, a < h'.length → a ∈ A ++ s :: (P ++ B) ∨ a ∈ rc ∨ a ∈ ([] : List Nat) := by
    intro a ha
    rw [hlen] at ha
    rcases E.cover a ha with hh | hh | hh
    · exact Or.inl ((memS' a).mpr (Or.inl hh))
    · exact Or.inr (Or.inl hh)
    · exact Or.inl ((memS' a).mpr (Or.inr hh))
  have fTwinS : ∀ a ∈ (A ++ s :: (P ++ B)) ++ [], ∀ v : ClipVertex, h'[a]? = some v →
      TwinOK pS h' rc a v := by
    intro a ha v' hv'
    rw [List.append_nil] at ha
    obtain ⟨v, hv, -⟩ := hold a v' hv'
    have hmem : a ∈ (A ++ s :: B) ++ pend := by
      rw [List.mem_append]
      exact (memS' a).mp ha
    exact (E.twinS a hmem v hv).transport hS (fun b hb => hb) hv hv'
  have fTwinC : ∀ a ∈ rc, ∀ v : ClipVertex, h'[a]? = some v →
      TwinOK pC h' ((A ++ s :: (P ++ B)) ++ []) a v := by
    intro a ha v' hv'
    obtain ⟨v, hv, -⟩ := hold a v' hv'
    refine (E.twinC a ha v hv).transport hS (fun b hb => ?_) hv hv'
    rw [List.append_nil]
    rw [List.mem_append] at hb
    exact (memS' b).mpr hb
  have fOrigTw : ∀ (a : Nat) (v : ClipVertex), h'[a]? = some v → (v.mTwin = none ↔ a < N0) := by
    intro a v' hv'
    obtain ⟨v, hv, -, -, et, -⟩ := hold a v' hv'
    rw [et]
    exact E.origTw a v hv
  have fFiltS : (A ++ s :: (P ++ B)).filter (fun a => decide (a < N0)) = oS := by
    rw [← E.filtS]
    have hP : P.filter (fun a => decide (a < N0)) = [] := by
      rw [List.filter_eq_nil_iff]
      intro a ha
      have := E.pendNew a ((hPp a).mp ha)
      simp only [decide_eq_true_eq]
      omega
    simp only [List.filter_append, List.filter_cons, hP, List.nil_append]
  have fHeadS : (A ++ s :: (P ++ B)).head? = oS.head? := by
    rw [← E.headS]
    cases A <;> simp
  have fUnv : ∀ (a : Nat) (v : ClipVertex), h'[a]? = some v → v.mVisited = false := by
    intro a v' hv'
    obtain ⟨v, hv, -, -, -, ev⟩ := hold a v' hv'
    rw [ev]
    exact E.unvisited a v hv
  have fEmpty : ∀ a ∈ ([] : List Nat), a ∉ A ++ s :: (P ++ B) := fun a ha => by cases ha
  have fEmpty2 : ∀ a ∈ ([] : List Nat), a ∉ rc := fun a ha => by cases ha
  have fEmpty3 : ∀ a ∈ ([] : List Nat), a < h'.length := fun a ha => by cases ha
  have fEmpty4 : ∀ a ∈ ([] : List Nat), N0 ≤ a := fun a ha => by cases ha
  have fBound : N0 ≤ h'.length := by
    rw [hlen]
    exact E.bound
  exact ⟨A, B, rfl, ⟨fRingS, fRingC, List.nodup_nil, fDisjSC, fEmpty, fEmpty2, fCover,
    fEmpty3, fEmpty4, fTwinS, fTwinC, fOrigTw, fBound, fFiltS, E.filtC, fHeadS, E.headC,
    fUnv⟩⟩

theorem Relink.restrict {X Y X' Y' : List Nat} {h h' : Heap} (hR : Relink X Y h h')
    (hX : ∀ a ∈ X, a < h.length → a ∈ X') (hY : ∀ a ∈ Y, a < h.length → a ∈ Y') :
    Relink X' Y' h h' := by
  intro a v hv
  have hlt := getElem?_lt_of_some hv
  obtain ⟨v', hv', e1, e2, e3, e4, en, ep⟩ := hR a v hv
  exact ⟨v', hv', e1, e2, e3, e4, fun ha => en (fun hc => ha (hX a hc hlt)),
    fun ha => ep (fun hc => ha (hY a hc hlt))⟩

theorem map_eq_map_some_filterMap {α β : Type} (f : α → Option β) :
    ∀ l : List α, (∀ x ∈ l, ∃ p, f x = some p) → l.map f = (l.filterMap f).map some := by
  intro l
  induction l with
  | nil => intro _; rfl
  | cons a t ih =>
    intro hall
    obtain ⟨p, hp⟩ := hall a (List.mem_cons_self _ _)
    rw [List.map_cons, List.filterMap_cons_some hp, List.map_cons, hp,
      ih (fun x hx => hall x (List.mem_cons_of_mem _ hx))]

theorem filterMap_eq_of_map_eq_map_some {α β : Type} (f : α → Option β) :
    ∀ (l : List α) (P : List β), l.map f = P.map some → l.filterMap f = P := by
  intro l
  induction l with
  | nil =>
    intro P hP
    cases P with
    | nil => rfl
    | cons p P' => simp at hP
  | cons a t ih =>
    intro P hP
    cases P with
    | nil => simp at hP
    | cons p P' =>
      rw [List.map_cons, List.map_cons, List.cons.injEq] at hP
      rw [List.filterMap_cons_some hP.1, ih P' hP.2]

theorem forall₂_filterMap_map {α β γ : Type} (f : α → Option β) (g : α → γ)
    (R : β → γ → Prop) :
    ∀ l : List α, (∀ x ∈ l, ∃ p, f x = some p ∧ R p (g x)) →
      List.Forall₂ R (l.filterMap f) (l.map g) := by
  intro l
  induction l with
  | nil => intro _; exact List.Forall₂.nil
  | cons a t ih =>
    intro hall
    obtain ⟨p, hp, hR⟩ := hall a (List.mem_cons_self _ _)
    rw [List.filterMap_cons_some hp, List.map_cons]
    exact List.Forall₂.cons hR (ih (fun x hx => hall x (List.mem_cons_of_mem _ hx)))

/-- The edge clipper: `ClipEdges` on the subject edge `s → e` returns, keeps the
enrichment invariant, threads the new subject-side vertices `P` between `s` and `e`, and
these carry the crossings of the clip edges found at entry, sorted by parameter. -/
theorem ClipEdges_spec {pS pC : ClipVertexClassification → Prop} {N0 : Nat}
    {oS oC : List Nat} {h0 : Heap} {rs rc0 : List Nat}
    (E0 : Enr pS pC N0 oS oC h0 rs rc0 []) {s e : Nat} (hs : s ∈ rs) (hl : Link h0 s e)
    {sv ev : ClipVertex} (hsv : h0[s]? = some sv) (hev : h0[e]? = some ev)
    (fuel : Nat) (hfuel : rc0.length ≤ fuel) :
    ∃ (h' : Heap) (A B P rc' : List Nat),
      ClipEdges fuel h0 (some s) (some e) { mHead := rc0[0]? } = some h' ∧
      rs = A ++ s :: B ∧
      Enr pS pC N0 oS oC h' (A ++ s :: (P ++ B)) rc' [] ∧
      (∀ p ∈ P, h0.length ≤ p) ∧
      Relink (s :: rc0) (e :: rc0) h0 h' ∧
      List.Chain' (Link h') (s :: P ++ [e]) ∧
      List.Forall₂ (fun p t => ∃ v : ClipVertex, h'[p]? = some v ∧
          v.mPoint = pointAt sv.mPoint ev.mPoint t) P
        (List.insertionSort (fun a b => a ≤ b)
          ((List.range rc0.length).filterMap (edgeTime h0 rc0 sv.mPoint ev.mPoint))) := by
  have hnd := E0.ringC.2.1
  have hne := E0.ringC.1
  have hpos : 0 < rc0.length := List.length_pos.mpr hne
  have hin0 : ∀ a ∈ rc0, a < h0.length := fun a ha => E0.ringC.lt_length ha
  have he : e ∈ rs := E0.ringS.next_mem hs hl
  have hs0 : s ∉ rc0 := E0.disjSC s hs
  have he0 : e ∉ rc0 := E0.disjSC e he
  have hinv0 : LoopInv pS pC N0 oS oC h0 rs rc0 sv.mPoint ev.mPoint 0 h0 [] := by
    have hR00 : Relink rc0 rc0 h0 h0 :=
      (Relink.unchanged h0).mono (fun a ha => (by cases ha)) (fun a ha => (by cases ha))
    refine ⟨rc0, [], E0, rfl, fun a ha => ha, (fun a ha => (by cases ha)), hR00, ?_, (by simp),
      (fun x hx => (by cases hx))⟩
    intro i a _ hi
    obtain ⟨b, hb, hlab⟩ := E0.ringC.link_at hi
    obtain ⟨v, hv, hn⟩ := hlab.1
    exact ⟨v, hv, by rw [hn, hb]⟩
  have h00 : rc0[0]? = some rc0[0] := List.getElem?_eq_getElem hpos
  obtain ⟨h1, nv, hloop, hinv1⟩ := ClipEdgesLoop_inv hnd hin0 hsv hev rc0.length 0 rc0[0]
    h0 [] fuel h00 (by omega) hfuel hinv0
  obtain ⟨rc, pend, E1, hnvP, hsub, hpnew, hR0, -, htimes, hpts⟩ := hinv1
  have hallsome : ∀ x ∈ List.insertionSort (fun a b => a.mTime ≤ b.mTime) nv,
      ∃ p, x.mVertex = some p := by
    intro x hx
    rw [List.mem_insertionSort] at hx
    obtain ⟨p, -, hp, -⟩ := hpts x hx
    exact ⟨p, hp⟩
  obtain ⟨P, hPdef⟩ : ∃ P, P = (List.insertionSort (fun a b => a.mTime ≤ b.mTime) nv).filterMap
      (fun x => x.mVertex) := ⟨_, rfl⟩
  have hmapP : (List.insertionSort (fun a b => a.mTime ≤ b.mTime) nv).map (fun x => x.mVertex)
      = P.map some := by
    rw [hPdef]
    exact map_eq_map_some_filterMap _ _ hallsome
  have hPperm : P.Perm pend := by
    rw [hPdef, ← filterMap_eq_of_map_eq_map_some _ nv pend hnvP]
    exact (List.perm_insertionSort _ nv).filterMap _
  have hPp : ∀ a, a ∈ P ↔ a ∈ pend := fun a => hPperm.mem_iff
  have hndP : (s :: P).Nodup := by
    rw [List.nodup_cons]
    exact ⟨fun hc => E1.disjSP s ((hPp s).mp hc) hs, hPperm.nodup_iff.mpr E1.nodupP⟩
  have hltP : ∀ a ∈ s :: P, a < h1.length := by
    intro a ha
    rw [List.mem_cons] at ha
    rcases ha with rfl | ha
    · exact E1.ringS.lt_length hs
    · exact E1.pendIn a ((hPp a).mp ha)
  have hl1 : Link h1 s e := hR0.link hl hs0 he0
  obtain ⟨h2, ethr, l2, R2, hch2⟩ := ClipEdgesThread_spec _ P s h1 hmapP hndP hltP
  have hlenP : (List.insertionSort (fun a b => a.mTime ≤ b.mTime) nv).length = P.length := by
    have := congrArg List.length hmapP
    simpa using this
  -- the heap after the final two stores
  have hfinal : ∃ h', ClipEdges fuel h0 (some s) (some e) { mHead := rc0[0]? } = some h' ∧
      h'.length = h1.length ∧ Relink (s :: P) (e :: P) h1 h' ∧
      List.Chain' (Link h') (s :: P ++ [e]) := by
    unfold ClipEdges
    simp only
    rw [h00] at hloop ⊢
    rw [hloop]
    simp only
    rw [ethr]
    simp only
    rcases List.eq_nil_or_concat P with hP | ⟨Q, last, hP⟩
    · subst hP
      have hz : (List.insertionSort (fun a b => a.mTime ≤ b.mTime) nv).length = 0 := by
        rw [hlenP]
        rfl
      rw [hz]
      simp only [ne_eq, not_true_eq_false, if_false]
      refine ⟨h2, rfl, l2, R2.mono (fun a ha => (by simp at ha)) (fun a ha => (by cases ha)), ?_⟩
      have : Link h2 s e := R2.link hl1 (by simp) (by simp)
      exact List.chain'_cons.mpr ⟨this, List.chain'_singleton _⟩
    · rw [List.concat_eq_append] at hP
      subst hP
      have hz : (List.insertionSort (fun a b => a.mTime ≤ b.mTime) nv).length ≠ 0 := by
        rw [hlenP]
        simp
      rw [if_pos hz]
      have hlast : ((Q ++ [last]).getLast?).getD s = last := by simp
      rw [hlast]
      have hdl : (s :: (Q ++ [last])).dropLast = s :: Q := by
        rw [← List.cons_append, List.dropLast_concat]
      rw [hdl] at R2
      have hlastP : last ∈ Q ++ [last] := by simp
      have hlastlt : last < h2.length := by
        rw [l2]
        exact hltP last (List.mem_cons_of_mem _ hlastP)
      obtain ⟨h3, e3, l3, R3, v3, hv3, hv3n⟩ := store_next_relink h2 last (some e) hlastlt
      have helt : e < h3.length := by
        rw [l3, l2]
        exact E1.ringS.lt_length he
      obtain ⟨h4, e4, l4, R4, w4, hw4, hw4p⟩ := store_prev_relink h3 e (some last) helt
      rw [e3]
      simp only
      rw [e4]
      have R34 := R3.andThen R4
      have hePn : ∀ y ∈ Q ++ [last], y ≠ e := by
        intro y hy hye
        exact E1.disjSP y ((hPp y).mp hy) (hye ▸ he)
      refine ⟨h4, rfl, by rw [l4, l3, l2], ?_, ?_⟩
      · refine (R2.andThen R34).restrict ?_ ?_
        · intro a ha _
          simp only [List.mem_append, List.mem_cons, List.mem_singleton, List.not_mem_nil,
            or_false] at ha ⊢
          tauto
        · intro a ha _
          simp only [List.mem_append, List.mem_cons, List.mem_singleton, List.not_mem_nil,
            false_or] at ha ⊢
          tauto
      · have hsplit : s :: (Q ++ [last]) ++ [e] = (s :: Q) ++ last :: [e] := by simp
        rw [hsplit, List.chain'_split]
        constructor
        · have hc2 : List.Chain' (Link h2) (s :: Q ++ [last]) := by
            simpa using hch2
          refine chain_frame2 _ hc2 (fun x hx y hy hxy => R34.link hxy ?_ ?_)
          · rw [List.dropLast_concat] at hx
            simp only [List.append_nil, List.mem_singleton]
            rintro rfl
            have hn : (s :: Q ++ [x]).Nodup := by simpa using hndP
            exact (List.nodup_append.mp hn).2.2 hx (List.mem_singleton_self _)
          · simp only [List.nil_append, List.mem_singleton]
            apply hePn y
            have : (s :: Q ++ [last]).tail = Q ++ [last] := by simp
            rw [this] at hy
            exact hy
        · refine List.chain'_cons.mpr ⟨?_, List.chain'_singleton _⟩
          obtain ⟨v4, hv4, -, -, -, -, en, -⟩ := R4 last v3 hv3
          exact ⟨⟨v4, hv4, by rw [en (by simp), hv3n]⟩, ⟨w4, hw4, hw4p⟩⟩
  obtain ⟨h', hres, hlen', hR', hch'⟩ := hfinal
  obtain ⟨A, B, hAB, E'⟩ := E1.thread hPperm hs hl1 hlen' hR' hch'
  refine ⟨h', A, B, P, rc, hres, hAB, E', fun p hp => hpnew p ((hPp p).mp hp), ?_, hch', ?_⟩
  · refine (hR0.andThen hR').restrict ?_ ?_
    · intro a ha hlt
      simp only [List.mem_append, List.mem_cons] at ha ⊢
      rcases ha with ha | ha | ha
      · exact Or.inr ha
      · exact Or.inl ha
      · have := hpnew a ((hPp a).mp ha)
        omega
    · intro a ha hlt
      simp only [List.mem_append, List.mem_cons] at ha ⊢
      rcases ha with ha | ha | ha
      · exact Or.inr ha
      · exact Or.inl ha
      · have := hpnew a ((hPp a).mp ha)
        omega
  · rw [← htimes, ← List.map_insertionSort (fun a b => a.mTime ≤ b.mTime) (fun a b => a ≤ b)
      (fun x => x.mTime) nv (fun _ _ _ _ => Iff.rfl), hPdef]
    refine forall₂_filterMap_map _ _ _ _ (fun x hx => ?_)
    rw [List.mem_insertionSort] at hx
    obtain ⟨p, v, hp, hv, hpt⟩ := hpts x hx
    obtain ⟨v', hv', ept, -⟩ := hR'.sameData p v hv
    exact ⟨p, hp, v', hv', by rw [ept, hpt]⟩

/-- One turn of `Traverse` around a ring for a callback that itself takes fuel: with
enough fuel for every callback and for the turn, the invariant is carried to the end. -/
theorem Traverse_ring_fuel {σ : Type}
    (cb : Nat → Ptr → Ptr → Heap × σ → Option (Bool × Ptr × (Heap × σ)))
    (r : List Nat) (hnd : r.Nodup) (Inv : Nat → Heap × σ → Prop)
    (hstep : ∀ k a st, r[k]? = some a → Inv k st →
      ∃ v st' F, deref st.1 (some a) = some v ∧ v.mNext = r[(k + 1) % r.length]? ∧
        (∀ fuel, F ≤ fuel → cb fuel (some a) v.mNext st = some (true, v.mNext, st')) ∧
        Inv (k + 1) st') :
    ∀ (j k a : Nat) (st : Heap × σ), r[k]? = some a → k + j = r.length → Inv k st →
      ∃ st' F, (∀ f1 f2, F ≤ f1 → F ≤ f2 →
        Traverse (cb f1) f2 r[0]? (some a) st = some st') ∧ Inv r.length st' := by
  intro j
  induction j with
  | zero =>
    intro k a st hk hlen _
    rw [List.getElem?_eq_none (by omega)] at hk
    cases hk
  | succ j ih =>
    intro k a st hk hlen hinv
    obtain ⟨v, st', F1, hd, hnext, hcb, hinv'⟩ := hstep k a st hk hinv
    by_cases hlast : k + 1 = r.length
    · have h0 : (k + 1) % r.length = 0 := by rw [hlast]; exact Nat.mod_self _
      rw [h0] at hnext
      refine ⟨st', F1 + 1, ?_, ?_⟩
      · intro f1 f2 hf1 hf2
        obtain ⟨f2, rfl⟩ : ∃ f, f2 = f + 1 := ⟨f2 - 1, by omega⟩
        simp only [Traverse, hd, hcb f1 (by omega)]
        simp [hnext]
      · rw [← hlast]
        exact hinv'
    · have hlt : k + 1 < r.length := by omega
      have hmod : (k + 1) % r.length = k + 1 := Nat.mod_eq_of_lt hlt
      rw [hmod] at hnext
      have hb : r[k + 1]? = some r[k + 1] := List.getElem?_eq_getElem hlt
      obtain ⟨st'', F2, htr, hfin⟩ := ih (k + 1) r[k + 1] st' hb (by omega) hinv'
      refine ⟨st'', F1 + F2 + 1, ?_, hfin⟩
      intro f1 f2 hf1 hf2
      obtain ⟨f2, rfl⟩ : ∃ f, f2 = f + 1 := ⟨f2 - 1, by omega⟩
      simp only [Traverse, hd, hcb f1 (by omega)]
      have hne : v.mNext ≠ r[0]? := by
        rw [hnext, hb]
        intro hc
        have := List.getElem?_inj hlt hnd (hb.trans hc)
        omega
      simp only [hne, ne_eq, not_false_eq_true, if_true]
      rw [hnext, hb]
      simpa using htr f1 f2 (by omega) (by omega)

/-- The enricher: `ClipPolygon` returns, keeps the enrichment invariant and keeps the
data of every cell it found. -/
theorem ClipPolygon_spec_data {pS pC : ClipVertexClassification → Prop} {N0 : Nat}
    {oS oC : List Nat} {h0 : Heap} {rs0 rc0 : List Nat}
    (E0 : Enr pS pC N0 oS oC h0 rs0 rc0 []) :
    ∃ (h' : Heap) (rs rc : List Nat) (F : Nat),
      (∀ fuel, F ≤ fuel →
        ClipPolygon fuel h0 { mHead := rs0[0]? } { mHead := rc0[0]? } = some h') ∧
      Enr pS pC N0 oS oC h' rs rc [] ∧ SameData h0 h' := by
  have hnd := E0.ringS.2.1
  have hne := E0.ringS.1
  have hpos : 0 < rs0.length := List.length_pos.mpr hne
  have h00 : rs0[0]? = some rs0[0] := List.getElem?_eq_getElem hpos
  obtain ⟨Inv, hInv⟩ : ∃ Inv : Nat → Heap × Unit → Prop, Inv = fun k st =>
      ∃ rs rc : List Nat, Enr pS pC N0 oS oC st.1 rs rc [] ∧ (∀ a ∈ rs0, a ∈ rs) ∧
        (∀ (i a : Nat), k ≤ i → rs0[i]? = some a →
          ∃ v : ClipVertex, st.1[a]? = some v ∧ v.mNext = rs0[(i + 1) % rs0.length]?) ∧
        SameData h0 st.1 :=
    ⟨_, rfl⟩
  have hstep : ∀ k a st, rs0[k]? = some a → Inv k st →
      ∃ v st' F, deref st.1 (some a) = some v ∧ v.mNext = rs0[(k + 1) % rs0.length]? ∧
        (∀ fuel, F ≤ fuel → ClipPolygonCallback fuel { mHead := rc0[0]? } (some a) v.mNext st
          = some (true, v.mNext, st')) ∧ Inv (k + 1) st' := by
    intro k a st hk hinv
    rw [hInv] at hinv
    obtain ⟨rs, rc, E, hsub, hadj, hSD⟩ := hinv
    obtain ⟨v, hv, hn⟩ := hadj k a (le_refl _) hk
    have haS : a ∈ rs := hsub a (List.mem_iff_getElem?.mpr ⟨_, hk⟩)
    have hklt := getElem?_lt_of_some hk
    have hmlt : (k + 1) % rs0.length < rs0.length := Nat.mod_lt _ hpos
    have hb : rs0[(k + 1) % rs0.length]? = some rs0[(k + 1) % rs0.length] :=
      List.getElem?_eq_getElem hmlt
    rw [hb] at hn
    have hl : Link st.1 a rs0[(k + 1) % rs0.length] := by
      obtain ⟨v1, x, hv1, hn1, hl1⟩ := E.ringS.mem_heap haS
      rw [hv] at hv1
      cases hv1
      rw [hn] at hn1
      cases hn1
      exact hl1
    obtain ⟨ev, hev, -⟩ := hl.2
    have hhead : rc[0]? = rc0[0]? := by
      rw [← List.head?_eq_getElem?, ← List.head?_eq_getElem?, E.headC, E0.headC]
    obtain ⟨h', A, B, P, rc', hres, hAB, E', -, hR, -, -⟩ :=
      ClipEdges_spec E haS hl hv hev rc.length (le_refl _)
    rw [hhead] at hres
    refine ⟨v, (h', ()), rc.length, hv, by rw [hn, hb], ?_, ?_⟩
    · intro fuel hfuel
      have := ClipEdges_mono rc.length fuel _ _ _ _ _ hfuel hres
      simp only [ClipPolygonCallback, deref, hv, hn, this]
    · rw [hInv]
      refine ⟨_, rc', E', ?_, ?_, hSD.comp hR.sameData⟩
      · intro x hx
        have := hsub x hx
        rw [hAB] at this
        simp only [List.mem_append, List.mem_cons] at this ⊢
        tauto
      · intro i x hi hx
        obtain ⟨vx, hvx, hnx⟩ := hadj i x (by omega) hx
        obtain ⟨vx', hvx', -, -, -, -, en, -⟩ := hR x vx hvx
        refine ⟨vx', hvx', ?_⟩
        rw [en, hnx]
        rw [List.mem_cons, not_or]
        constructor
        · rintro rfl
          have := List.getElem?_inj (getElem?_lt_of_some hx) hnd (hx.trans hk.symm)
          omega
        · exact E.disjSC x (hsub x (List.mem_iff_getElem?.mpr ⟨_, hx⟩))
  have hinv0 : Inv 0 (h0, ()) := by
    rw [hInv]
    refine ⟨rs0, rc0, E0, fun a ha => ha, ?_, SameData.same h0⟩
    intro i a _ hi
    obtain ⟨b, hb, hlab⟩ := E0.ringS.link_at hi
    obtain ⟨v, hv, hn⟩ := hlab.1
    exact ⟨v, hv, by rw [hn, hb]⟩
  obtain ⟨st', F, htr, hfin⟩ := Traverse_ring_fuel
    (fun fuel => ClipPolygonCallback fuel { mHead := rc0[0]? }) rs0 hnd Inv hstep
    rs0.length 0 rs0[0] (h0, ()) h00 (by omega) hinv0
  rw [hInv] at hfin
  obtain ⟨rs, rc, E, -, -, hSD⟩ := hfin
  refine ⟨st'.1, rs, rc, F, ?_, E, hSD⟩
  intro fuel hfuel
  unfold ClipPolygon
  simp only
  have := htr fuel fuel hfuel hfuel
  simp only at this
  rw [h00] at this ⊢
  rw [this]
  rfl

/-- The enricher: `ClipPolygon` returns and keeps the enrichment invariant. -/
theorem ClipPolygon_spec {pS pC : ClipVertexClassification → Prop} {N0 : Nat}
    {oS oC : List Nat} {h0 : Heap} {rs0 rc0 : List Nat}
    (E0 : Enr pS pC N0 oS oC h0 rs0 rc0 []) :
    ∃ (h' : Heap) (rs rc : List Nat) (F : Nat),
      (∀ fuel, F ≤ fuel →
        ClipPolygon fuel h0 { mHead := rs0[0]? } { mHead := rc0[0]? } = some h') ∧
      Enr pS pC N0 oS oC h' rs rc [] := by
  obtain ⟨h', rs, rc, F, hret, E, -⟩ := ClipPolygon_spec_data E0
  exact ⟨h', rs, rc, F, hret, E⟩

/-! ### Classification of a ring with crossings -/

theorem mem_take_succ {r : List Nat} {k a : Nat} (hk : r[k]? = some a) (x : Nat) :
    x ∈ r.take (k + 1) ↔ x ∈ r.take k ∨ x = a := by
  rw [List.take_succ, hk]
  simp

theorem Retag.refl_nil (h : Heap) : Retag [] h h :=
  ⟨rfl, fun _ v hv => ⟨v, hv, rfl, rfl, rfl, rfl, rfl, fun hc => (by simp at hc),
    fun _ => rfl⟩⟩

/-- Passing a vertex that already has a tag. -/
theorem Retag.skip {r : List Nat} {k a : Nat} {h h' : Heap} (hk : r[k]? = some a)
    (hR : Retag (r.take k) h h') {v : ClipVertex} (hv : h[a]? = some v)
    (hc : v.mClassification ≠ ClipVertexClassification.None) :
    Retag (r.take (k + 1)) h h' := by
  refine ⟨hR.1, fun x vx hvx => ?_⟩
  obtain ⟨vx', hvx', e1, e2, e3, e4, e5, c1, c2⟩ := hR.2 x vx hvx
  refine ⟨vx', hvx', e1, e2, e3, e4, e5, ?_, ?_⟩
  · rintro ⟨hm, hn⟩
    rw [mem_take_succ hk] at hm
    rcases hm with hm | rfl
    · exact c1 ⟨hm, hn⟩
    · rw [hv] at hvx
      cases hvx
      exact absurd hn hc
  · intro hneg
    apply c2
    rintro ⟨hm, hn⟩
    exact hneg ⟨(mem_take_succ hk x).mpr (Or.inl hm), hn⟩

/-- Tagging an untagged vertex. -/
theorem Retag.tag {r : List Nat} {k a : Nat} {h h' h'' : Heap} (hk : r[k]? = some a)
    (hR : Retag (r.take k) h h') {v : ClipVertex} (hv : h[a]? = some v)
    (hN : v.mClassification = ClipVertexClassification.None)
    {flags : ClipVertexClassification} (hf : IsSide flags)
    (hlen : h''.length = h'.length)
    (hcell : ∀ x, h''[x]? = if x = a then
      (h'[x]?).map (fun c => { c with mClassification := flags }) else h'[x]?) :
    Retag (r.take (k + 1)) h h'' := by
  refine ⟨by rw [hlen, hR.1], fun x vx hvx => ?_⟩
  obtain ⟨vx', hvx', e1, e2, e3, e4, e5, c1, c2⟩ := hR.2 x vx hvx
  by_cases hxa : x = a
  · subst hxa
    refine ⟨{ vx' with mClassification := flags }, ?_, e1, e2, e3, e4, e5, fun _ => hf, ?_⟩
    · rw [hcell x, if_pos rfl, hvx']
      rfl
    · intro hneg
      rw [hv] at hvx
      cases hvx
      exact absurd ⟨(mem_take_succ hk x).mpr (Or.inr rfl), hN⟩ hneg
  · refine ⟨vx', ?_, e1, e2, e3, e4, e5, ?_, ?_⟩
    · rw [hcell x, if_neg hxa, hvx']
    · rintro ⟨hm, hn⟩
      rw [mem_take_succ hk] at hm
      rcases hm with hm | hm
      · exact c1 ⟨hm, hn⟩
      · exact absurd hm hxa
    · intro hneg
      apply c2
      rintro ⟨hm, hn⟩
      exact hneg ⟨(mem_take_succ hk x).mpr (Or.inl hm), hn⟩

/-- The classifier on a ring whose head is untagged: every untagged vertex of the ring
gets `Inside` or `Outside`, nothing else changes. -/
theorem ClassifyVertices_spec (h : Heap) (r : List Nat) (hr : IsRing h r) (hne : r ≠ [])
    (hhead : ∀ (a : Nat) (v : ClipVertex), r[0]? = some a → h[a]? = some v →
      v.mClassification = ClipVertexClassification.None)
    (fuel : Nat) (hfuel : r.length ≤ fuel) :
    ∃ h', ClassifyVertices fuel h { mHead := r[0]? } = some h' ∧ Retag r h h' := by
  have hpos : 0 < r.length := List.length_pos.mpr hne
  have h0 : r[0]? = some r[0] := List.getElem?_eq_getElem hpos
  obtain ⟨v0, hv0, -⟩ := hr.2 0 r[0] h0
  have hc0 := hhead r[0] v0 h0 hv0
  obtain ⟨fuel', hfuel'⟩ : ∃ f, fuel = f + 1 := ⟨fuel - 1, by omega⟩
  have hfind : FindFirstOf fuel h r[0]? ClipVertexClassification.None = some r[0]? := by
    rw [hfuel']
    exact FindFirstOf_head fuel' h _ v0 _ (by rw [h0, deref_some, hv0]) hc0
  have key := Traverse_ring ClassifyCallback r hr.1
    (fun k st => IsSide st.2 ∧ Retag (r.take k) h st.1)
    (by
      intro k a st hk hinv
      obtain ⟨v, hv, hnext⟩ := hr.2 k a hk
      obtain ⟨hflag, hR⟩ := hinv
      have hnot := not_mem_take_of_nodup hr.1 hk
      obtain ⟨v', hv', -, -, -, en, -, -, c2⟩ := hR.2 a v hv
      have hcl : v'.mClassification = v.mClassification := c2 (fun hc => hnot hc.1)
      have hlt : a < st.1.length := getElem?_lt_of_some hv'
      by_cases hN : v.mClassification = ClipVertexClassification.None
      · obtain ⟨h'', es, ls, cs⟩ := store_spec st.1 a
          (fun c => { c with mClassification := st.2 }) hlt
        refine ⟨v', (h'', st.2), by rw [deref_some, hv'], by rw [en, hnext], ?_, hflag,
          hR.tag hk hv hN hflag ls cs⟩
        simp only [ClassifyCallback, deref_some, hv', hcl, hN, if_true, es]
      · by_cases hIO : v.mClassification = ClipVertexClassification.InToOut
        · refine ⟨v', (st.1, ClipVertexClassification.Outside), by rw [deref_some, hv'],
            by rw [en, hnext], ?_, Or.inr rfl, hR.skip hk hv hN⟩
          simp [ClassifyCallback, deref_some, hv', hcl, hIO]
        · by_cases hOI : v.mClassification = ClipVertexClassification.OutToIn
          · refine ⟨v', (st.1, ClipVertexClassification.Inside), by rw [deref_some, hv'],
              by rw [en, hnext], ?_, Or.inl rfl, hR.skip hk hv hN⟩
            simp [ClassifyCallback, deref_some, hv', hcl, hOI]
          · refine ⟨v', st, by rw [deref_some, hv'], by rw [en, hnext], ?_, hflag,
              hR.skip hk hv hN⟩
            simp [ClassifyCallback, deref_some, hv', hcl, hN, hIO, hOI])
    r.length 0 r[0]
    (h, if v0.mClassification = ClipVertexClassification.InToOut then
      ClipVertexClassification.Outside else ClipVertexClassification.Inside)
    fuel h0 (by simp) hfuel
    ⟨by
      simp only [hc0]
      exact Or.inl rfl, by
      rw [List.take_zero]
      exact Retag.refl_nil h⟩
  obtain ⟨st', ht, -, hs⟩ := key
  refine ⟨st'.1, ?_, ?_⟩
  · simp only [ClassifyVertices, hfind]
    rw [h0] at ht ⊢
    simp only [ne_eq, reduceCtorEq, not_false_eq_true, if_true, deref_some, hv0]
    rw [ht]
    rfl
  · rw [List.take_length] at hs
    exact hs

/-! ### The rings that `BuildClipList` returns -/

theorem mod_pred_succ {k n : Nat} (hk : k < n) : ((k + 1) % n + n - 1) % n = k := by
  by_cases hlast : k + 1 = n
  · have h1 : (k + 1) % n = 0 := by
      rw [hlast]
      exact Nat.mod_self n
    have h2 : (k + 1) % n + n - 1 = k := by omega
    rw [h2]
    exact Nat.mod_eq_of_lt hk
  · have h1 : (k + 1) % n = k + 1 := Nat.mod_eq_of_lt (by omega)
    have h2 : (k + 1) % n + n - 1 = k + n := by omega
    rw [h2, Nat.add_mod_right]
    exact Nat.mod_eq_of_lt hk

/-- Cells linked to their cyclic neighbours form a ring. -/
theorem Ring_range' (h : Heap) (base n : Nat) (hn : 0 < n)
    (hcell : ∀ i, i < n → ∃ v, h[base + i]? = some v ∧
      v.mNext = some (base + (i + 1) % n) ∧ v.mPrev = some (base + (i + n - 1) % n)) :
    Ring h (List.range' base n) := by
  have hne : List.range' base n ≠ [] := by
    intro hc
    have := congrArg List.length hc
    simp at this
    omega
  refine Ring.of_link_at hne (List.nodup_range' _ _) (fun k a hk => ?_)
  obtain ⟨hlt, rfl⟩ := range'_getElem?_some hk
  rw [List.length_range']
  have hm : (k + 1) % n < n := Nat.mod_lt _ hn
  refine ⟨base + (k + 1) % n, by rw [List.getElem?_range' _ _ hm]; simp, ?_⟩
  obtain ⟨v, hv, hnx, -⟩ := hcell k hlt
  obtain ⟨w, hw, -, hpv⟩ := hcell ((k + 1) % n) hm
  exact ⟨⟨v, hv, hnx⟩, ⟨w, hw, by rw [hpv, mod_pred_succ hlt]⟩⟩

/-- The heap built by the two `BuildVertexList` calls satisfies the enrichment invariant
with nothing inserted yet. -/
theorem Enr_of_builtPair {m n : Nat} {h : Heap} (hm : 0 < m) (hn : 0 < n)
    (hb : BuiltPair m n h) :
    Enr IsUntagged IsUntagged (m + n) (List.range' m n) (List.range' 0 m) h
      (List.range' m n) (List.range' 0 m) [] := by
  obtain ⟨hlen, hC, hS⟩ := hb
  have hcellC : ∀ i, i < m → ∃ v, h[i]? = some v ∧
      cellLinks v = builtLinks ((i + m - 1) % m) ((i + 1) % m) := by
    intro i hi
    have := hC i hi
    have hlt : i < h.length := by omega
    rw [List.getElem?_eq_getElem hlt] at this ⊢
    exact ⟨_, rfl, Option.some.inj this⟩
  have hcellS : ∀ i, i < n → ∃ v, h[m + i]? = some v ∧
      cellLinks v = builtLinks (m + (i + n - 1) % n) (m + (i + 1) % n) := by
    intro i hi
    have := hS i hi
    have hlt : m + i < h.length := by omega
    rw [List.getElem?_eq_getElem hlt] at this ⊢
    exact ⟨_, rfl, Option.some.inj this⟩
  have hall : ∀ (a : Nat) (v : ClipVertex), h[a]? = some v →
      v.mClassification = ClipVertexClassification.None ∧ v.mVisited = false ∧
        v.mTwin = none := by
    intro a v hv
    have hlt := getElem?_lt_of_some hv
    by_cases ha : a < m
    · obtain ⟨w, hw, hl⟩ := hcellC a ha
      rw [hv] at hw
      cases hw
      simp only [cellLinks, builtLinks, Prod.mk.injEq] at hl
      exact ⟨hl.1, hl.2.1, hl.2.2.1⟩
    · obtain ⟨w, hw, hl⟩ := hcellS (a - m) (by omega)
      have : m + (a - m) = a := by omega
      rw [this, hv] at hw
      cases hw
      simp only [cellLinks, builtLinks, Prod.mk.injEq] at hl
      exact ⟨hl.1, hl.2.1, hl.2.2.1⟩
  have fRingS : Ring h (List.range' m n) := by
    refine Ring_range' h m n hn (fun i hi => ?_)
    obtain ⟨v, hv, hl⟩ := hcellS i hi
    simp only [cellLinks, builtLinks, Prod.mk.injEq] at hl
    exact ⟨v, hv, hl.2.2.2.2, hl.2.2.2.1⟩
  have fRingC : Ring h (List.range' 0 m) := by
    refine Ring_range' h 0 m hm (fun i hi => ?_)
    obtain ⟨v, hv, hl⟩ := hcellC i hi
    simp only [cellLinks, builtLinks, Prod.mk.injEq] at hl
    rw [Nat.zero_add]
    exact ⟨v, hv, by rw [hl.2.2.2.2, Nat.zero_add], by rw [hl.2.2.2.1, Nat.zero_add]⟩
  have fDisj : ∀ a ∈ List.range' m n, a ∉ List.range' 0 m := by
    intro a ha hc
    rw [List.mem_range'_1] at ha hc
    omega
  have fCover : ∀ a, a < h.length → a ∈ List.range' m n ∨ a ∈ List.range' 0 m ∨
      a ∈ ([] : List Nat) := by
    intro a ha
    by_cases h1 : a < m
    · exact Or.inr (Or.inl (List.mem_range'_1.mpr ⟨by omega, by omega⟩))
    · exact Or.inl (List.mem_range'_1.mpr ⟨by omega, by omega⟩)
  have fE1 : ∀ a ∈ ([] : List Nat), a ∉ List.range' m n := fun a ha => (by cases ha)
  have fE2 : ∀ a ∈ ([] : List Nat), a ∉ List.range' 0 m := fun a ha => (by cases ha)
  have fE3 : ∀ a ∈ ([] : List Nat), a < h.length := fun a ha => (by cases ha)
  have fE4 : ∀ a ∈ ([] : List Nat), m + n ≤ a := fun a ha => (by cases ha)
  have fTwinS : ∀ a ∈ List.range' m n ++ [], ∀ v : ClipVertex, h[a]? = some v →
      TwinOK IsUntagged h (List.range' 0 m) a v := by
    intro a _ v hv
    obtain ⟨h1, -, h3⟩ := hall a v hv
    exact Or.inl ⟨h3, h1⟩
  have fTwinC : ∀ a ∈ List.range' 0 m, ∀ v : ClipVertex, h[a]? = some v →
      TwinOK IsUntagged h (List.range' m n ++ []) a v := by
    intro a _ v hv
    obtain ⟨h1, -, h3⟩ := hall a v hv
    exact Or.inl ⟨h3, h1⟩
  have fOrig : ∀ (a : Nat) (v : ClipVertex), h[a]? = some v →
      (v.mTwin = none ↔ a < m + n) := by
    intro a v hv
    have hlt := getElem?_lt_of_some hv
    exact ⟨fun _ => by omega, fun _ => (hall a v hv).2.2⟩
  have fFiltS : (List.range' m n).filter (fun a => decide (a < m + n)) = List.range' m n := by
    rw [List.filter_eq_self]
    intro a ha
    rw [List.mem_range'_1] at ha
    simp only [decide_eq_true_eq]
    omega
  have fFiltC : (List.range' 0 m).filter (fun a => decide (a < m + n)) = List.range' 0 m := by
    rw [List.filter_eq_self]
    intro a ha
    rw [List.mem_range'_1] at ha
    simp only [decide_eq_true_eq]
    omega
  exact ⟨fRingS, fRingC, List.nodup_nil, fDisj, fE1, fE2, fCover, fE3, fE4, fTwinS, fTwinC,
    fOrig, by omega, fFiltS, fFiltC, rfl, rfl, fun a v hv => (hall a v hv).2.1⟩

/-- The two `BuildVertexList` calls of `BuildClipList` on the empty heap, with the points
of the cells: cell `i` holds the `i`-th clip point, cell `Q.length + i` the `i`-th subject
point. -/
theorem BuildVertexList_builtPair_points (P Q : PointContour) (hP : P ≠ []) (hQ : Q ≠ []) :
    ∃ h1 h2, BuildVertexList Q [] = some (h1, { mHead := some 0 }) ∧
      BuildVertexList P h1 = some (h2, { mHead := some Q.length }) ∧
      BuiltPair Q.length P.length h2 ∧
      (∀ (i : Nat) (p : Vec2), Q[i]? = some p →
        ∃ v : ClipVertex, h2[i]? = some v ∧ v.mPoint = p) ∧
      (∀ (i : Nat) (p : Vec2), P[i]? = some p →
        ∃ v : ClipVertex, h2[Q.length + i]? = some v ∧ v.mPoint = p) := by
  obtain ⟨h1, e1, l1, -, c1⟩ := BuildVertexList_spec Q [] hQ
  obtain ⟨h2, e2, l2, k2, c2⟩ := BuildVertexList_spec P h1 hP
  simp only [List.length_nil, Nat.zero_add] at l1 c1 e1
  rw [l1] at l2 c2 e2
  refine ⟨h1, h2, e1, e2, ⟨l2, ?_, ?_⟩, ?_, ?_⟩
  · intro i hi
    rw [k2 i (by omega), c1 i Q[i] (List.getElem?_eq_getElem hi)]
    simp [cellLinks, builtLinks, linkCell]
  · intro i hi
    rw [c2 i P[i] (List.getElem?_eq_getElem hi)]
    simp [cellLinks, builtLinks, linkCell]
  · intro i p hp
    have hi := getElem?_lt_of_some hp
    rw [k2 i (by omega), c1 i p hp]
    exact ⟨_, rfl, rfl⟩
  · intro i p hp
    rw [c2 i p hp]
    exact ⟨_, rfl, rfl⟩

/-- The two `BuildVertexList` calls of `BuildClipList` on the empty heap. -/
theorem BuildVertexList_builtPair (P Q : PointContour) (hP : P ≠ []) (hQ : Q ≠ []) :
    ∃ h1 h2, BuildVertexList Q [] = some (h1, { mHead := some 0 }) ∧
      BuildVertexList P h1 = some (h2, { mHead := some Q.length }) ∧
      BuiltPair Q.length P.length h2 := by
  obtain ⟨h1, h2, e1, e2, hb, -, -⟩ := BuildVertexList_builtPair_points P Q hP hQ
  exact ⟨h1, h2, e1, e2, hb⟩

theorem Retag.keepsLink {r : List Nat} {h h' : Heap} (hR : Retag r h h') {x y : Nat}
    (hl : Link h x y) : Link h' x y := by
  obtain ⟨⟨v, hv, hn⟩, ⟨w, hw, hp⟩⟩ := hl
  obtain ⟨v', hv', -, -, -, en, -, -, -⟩ := hR.2 x v hv
  obtain ⟨w', hw', -, -, -, -, ep, -, -⟩ := hR.2 y w hw
  exact ⟨⟨v', hv', by rw [en, hn]⟩, ⟨w', hw', by rw [ep, hp]⟩⟩

/-- Classification keeps the enrichment invariant and replaces the tag discipline of the
vertices without a twin. -/
theorem Enr.retag {pS pC pS' pC' : ClipVertexClassification → Prop} {N0 : Nat}
    {oS oC : List Nat} {h h' : Heap} {rs rc r : List Nat}
    (E : Enr pS pC N0 oS oC h rs rc []) (hR : Retag r h h')
    (hS : ∀ a ∈ rs, ∀ v v' : ClipVertex, h[a]? = some v → h'[a]? = some v' →
      pS v.mClassification → pS' v'.mClassification)
    (hC : ∀ a ∈ rc, ∀ v v' : ClipVertex, h[a]? = some v → h'[a]? = some v' →
      pC v.mClassification → pC' v'.mClassification) :
    Enr pS' pC' N0 oS oC h' rs rc [] := by
  have hold : ∀ (a : Nat) (v' : ClipVertex), h'[a]? = some v' → ∃ v, h[a]? = some v ∧
      v'.mPoint = v.mPoint ∧ v'.mTwin = v.mTwin ∧ v'.mVisited = v.mVisited ∧
      (IsCrossing v.mClassification → v'.mClassification = v.mClassification) := by
    intro a v' hv'
    have hlt : a < h.length := by
      have := getElem?_lt_of_some hv'
      rw [hR.1] at this
      exact this
    obtain ⟨v'', hv'', e1, e2, e3, -, -, -, c2⟩ := hR.2 a h[a] (List.getElem?_eq_getElem hlt)
    rw [hv'] at hv''
    cases hv''
    refine ⟨_, List.getElem?_eq_getElem hlt, e1, e2, e3, fun hc => c2 ?_⟩
    rintro ⟨-, hn⟩
    rw [hn] at hc
    rcases hc with hc | hc <;> cases hc
  have twin : ∀ (p p' : ClipVertexClassification → Prop) (other : List Nat) (a : Nat)
      (v v' : ClipVertex), h[a]? = some v → h'[a]? = some v' →
      (p v.mClassification → p' v'.mClassification) →
      TwinOK p h other a v → TwinOK p' h' other a v' := by
    intro p p' other a v v' hv hv' hp t
    obtain ⟨v0, hv0, e1, e2, -, ec⟩ := hold a v' hv'
    rw [hv] at hv0
    cases hv0
    rcases t with ⟨ht, hpl⟩ | ⟨b, w, ht, hb, hw, hwt, hwp, hc⟩
    · exact Or.inl ⟨by rw [e2, ht], hp hpl⟩
    · obtain ⟨w', hw', f1, f2, -⟩ := hR.2 b w hw
      exact Or.inr ⟨b, w', by rw [e2, ht], hb, hw', by rw [f2, hwt], by rw [f1, e1, hwp],
        by rw [ec hc]; exact hc⟩
  have fTwinS : ∀ a ∈ rs ++ [], ∀ v : ClipVertex, h'[a]? = some v → TwinOK pS' h' rc a v := by
    intro a ha v' hv'
    obtain ⟨v, hv, -⟩ := hold a v' hv'
    have ha' : a ∈ rs := by simpa using ha
    exact twin pS pS' rc a v v' hv hv' (hS a ha' v v' hv hv') (E.twinS a ha v hv)
  have fTwinC : ∀ a ∈ rc, ∀ v : ClipVertex, h'[a]? = some v →
      TwinOK pC' h' (rs ++ []) a v := by
    intro a ha v' hv'
    obtain ⟨v, hv, -⟩ := hold a v' hv'
    exact twin pC pC' (rs ++ []) a v v' hv hv' (hC a ha v v' hv hv') (E.twinC a ha v hv)
  have fOrig : ∀ (a : Nat) (v : ClipVertex), h'[a]? = some v → (v.mTwin = none ↔ a < N0) := by
    intro a v' hv'
    obtain ⟨v, hv, -, et, -⟩ := hold a v' hv'
    rw [et]
    exact E.origTw a v hv
  have fUnv : ∀ (a : Nat) (v : ClipVertex), h'[a]? = some v → v.mVisited = false := by
    intro a v' hv'
    obtain ⟨v, hv, -, -, ev, -⟩ := hold a v' hv'
    rw [ev]
    exact E.unvisited a v hv
  have fCover : ∀ a, a < h'.length → a ∈ rs ∨ a ∈ rc ∨ a ∈ ([] : List Nat) := by
    intro a ha
    rw [hR.1] at ha
    exact E.cover a ha
  have fE3 : ∀ a ∈ ([] : List Nat), a < h'.length := fun a ha => (by cases ha)
  have fBound : N0 ≤ h'.length := by
    rw [hR.1]
    exact E.bound
  exact ⟨E.ringS.frame (fun x _ y hxy => hR.keepsLink hxy),
    E.ringC.frame (fun x _ y hxy => hR.keepsLink hxy), E.nodupP, E.disjSC, E.disjSP, E.disjCP,
    fCover, fE3, E.pendNew, fTwinS, fTwinC, fOrig, fBound, E.filtS, E.filtC, E.headS,
    E.headC, fUnv⟩

/-- A vertex without a twin is untagged before classification. -/
theorem TwinOK.untagged {h : Heap} {other : List Nat} {a : Nat} {v : ClipVertex}
    (ht : TwinOK IsUntagged h other a v) (horig : v.mTwin = none) :
    v.mClassification = ClipVertexClassification.None := by
  rcases ht with ⟨-, hp⟩ | ⟨b, w, htw, -⟩
  · exact hp
  · rw [horig] at htw
    cases htw

/-- The ring-pair builder: on two non-empty contours `BuildClipList` returns, the final
heap satisfies the enrichment invariant with every vertex classified, and the cells that
`BuildVertexList` created still hold the input points. -/
theorem BuildClipList_spec_points (P Q : PointContour) (hP : P ≠ []) (hQ : Q ≠ []) :
    ∃ (h : Heap) (rs rc : List Nat) (F : Nat),
      (∀ fuel, F ≤ fuel → BuildClipList fuel P Q [] =
        some (h, { mHead := some Q.length }, { mHead := some 0 })) ∧
      Enr IsSide IsSide (Q.length + P.length) (List.range' Q.length P.length)
        (List.range' 0 Q.length) h rs rc [] ∧
      (∀ (i : Nat) (p : Vec2), Q[i]? = some p →
        ∃ v : ClipVertex, h[i]? = some v ∧ v.mPoint = p) ∧
      (∀ (i : Nat) (p : Vec2), P[i]? = some p →
        ∃ v : ClipVertex, h[Q.length + i]? = some v ∧ v.mPoint = p) := by
  have hm : 0 < Q.length := List.length_pos.mpr hQ
  have hn : 0 < P.length := List.length_pos.mpr hP
  obtain ⟨h1, h2, e1, e2, hb, hptQ, hptP⟩ := BuildVertexList_builtPair_points P Q hP hQ
  have E2 := Enr_of_builtPair hm hn hb
  obtain ⟨h3, rs, rc, F3, e3, E3, hSD3⟩ := ClipPolygon_spec_data E2
  have hs0 : (List.range' Q.length P.length)[0]? = some Q.length := range'_head hP
  have hc0 : (List.range' 0 Q.length)[0]? = some 0 := range'_head hQ
  rw [hs0, hc0] at e3
  have hrs0 : rs[0]? = some Q.length := by
    rw [← List.head?_eq_getElem?, E3.headS, List.head?_eq_getElem?, hs0]
  have hrc0 : rc[0]? = some 0 := by
    rw [← List.head?_eq_getElem?, E3.headC, List.head?_eq_getElem?, hc0]
  -- the subject ring is classified
  have hheadS : ∀ (a : Nat) (v : ClipVertex), rs[0]? = some a → h3[a]? = some v →
      v.mClassification = ClipVertexClassification.None := by
    intro a v ha hv
    rw [hrs0] at ha
    cases ha
    have hmem : Q.length ∈ rs := List.mem_iff_getElem?.mpr ⟨0, hrs0⟩
    exact (E3.twinS _ (by simp [hmem]) v hv).untagged ((E3.origTw _ v hv).mpr (by omega))
  obtain ⟨h4, e4, R4⟩ := ClassifyVertices_spec h3 rs E3.ringS.toIsRing E3.ringS.1 hheadS
    rs.length (le_refl _)
  rw [hrs0] at e4
  have E4 : Enr IsSide IsUntagged (Q.length + P.length) (List.range' Q.length P.length)
      (List.range' 0 Q.length) h4 rs rc [] := by
    refine E3.retag R4 ?_ ?_
    · intro a ha v v' hv hv' hp
      obtain ⟨v'', hv'', -, -, -, -, -, c1, -⟩ := R4.2 a v hv
      rw [hv'] at hv''
      cases hv''
      exact c1 ⟨ha, hp⟩
    · intro a ha v v' hv hv' hp
      obtain ⟨v'', hv'', -, -, -, -, -, -, c2⟩ := R4.2 a v hv
      rw [hv'] at hv''
      cases hv''
      have : v'.mClassification = v.mClassification :=
        c2 (fun hc => E3.disjSC a hc.1 ha)
      rw [this]
      exact hp
  -- the clip ring is classified
  have hheadC : ∀ (a : Nat) (v : ClipVertex), rc[0]? = some a → h4[a]? = some v →
      v.mClassification = ClipVertexClassification.None := by
    intro a v ha hv
    rw [hrc0] at ha
    cases ha
    have hmem : 0 ∈ rc := List.mem_iff_getElem?.mpr ⟨0, hrc0⟩
    exact (E4.twinC _ hmem v hv).untagged ((E4.origTw _ v hv).mpr (by omega))
  obtain ⟨h5, e5, R5⟩ := ClassifyVertices_spec h4 rc E4.ringC.toIsRing E4.ringC.1 hheadC
    rc.length (le_refl _)
  rw [hrc0] at e5
  have E5 : Enr IsSide IsSide (Q.length + P.length) (List.range' Q.length P.length)
      (List.range' 0 Q.length) h5 rs rc [] := by
    refine E4.retag R5 ?_ ?_
    · intro a ha v v' hv hv' hp
      obtain ⟨v'', hv'', -, -, -, -, -, -, c2⟩ := R5.2 a v hv
      rw [hv'] at hv''
      cases hv''
      have : v'.mClassification = v.mClassification :=
        c2 (fun hc => E4.disjSC a ha hc.1)
      rw [this]
      exact hp
    · intro a ha v v' hv hv' hp
      obtain ⟨v'', hv'', -, -, -, -, -, c1, -⟩ := R5.2 a v hv
      rw [hv'] at hv''
      cases hv''
      exact c1 ⟨ha, hp⟩
  have hpt : ∀ (a : Nat) (v : ClipVertex), h2[a]? = some v →
      ∃ v' : ClipVertex, h5[a]? = some v' ∧ v'.mPoint = v.mPoint := by
    intro a v hv
    obtain ⟨v3, hv3, p3, -⟩ := hSD3 a v hv
    obtain ⟨v4, hv4, p4, -⟩ := R4.2 a v3 hv3
    obtain ⟨v5, hv5, p5, -⟩ := R5.2 a v4 hv4
    exact ⟨v5, hv5, by rw [p5, p4, p3]⟩
  refine ⟨h5, rs, rc, F3 + rs.length + rc.length, ?_, E5, ?_, ?_⟩
  · intro fuel hfuel
    unfold BuildClipList
    simp only [e1, e2, e3 fuel (by omega),
      ClassifyVertices_mono rs.length fuel _ _ _ (by omega) e4,
      ClassifyVertices_mono rc.length fuel _ _ _ (by omega) e5]
  · intro i p hp
    obtain ⟨v, hv, hvp⟩ := hptQ i p hp
    obtain ⟨v', hv', hp'⟩ := hpt i v hv
    exact ⟨v', hv', by rw [hp', hvp]⟩
  · intro i p hp
    obtain ⟨v, hv, hvp⟩ := hptP i p hp
    obtain ⟨v', hv', hp'⟩ := hpt _ v hv
    exact ⟨v', hv', by rw [hp', hvp]⟩

/-- The ring-pair builder: on two non-empty contours `BuildClipList` returns, and the
final heap satisfies the enrichment invariant with every vertex classified. -/
theorem BuildClipList_spec (P Q : PointContour) (hP : P ≠ []) (hQ : Q ≠ []) :
    ∃ (h : Heap) (rs rc : List Nat) (F : Nat),
      (∀ fuel, F ≤ fuel → BuildClipList fuel P Q [] =
        some (h, { mHead := some Q.length }, { mHead := some 0 })) ∧
      Enr IsSide IsSide (Q.length + P.length) (List.range' Q.length P.length)
        (List.range' 0 Q.length) h rs rc [] := by
  obtain ⟨h, rs, rc, F, hret, E, -, -⟩ := BuildClipList_spec_points P Q hP hQ
  exact ⟨h, rs, rc, F, hret, E⟩

theorem mod_succ_pred {k n : Nat} (hk : k < n) : ((k + n - 1) % n + 1) % n = k := by
  by_cases h0 : k = 0
  · subst h0
    have h1 : (0 + n - 1) % n = 0 + n - 1 := Nat.mod_eq_of_lt (by omega)
    have h2 : (0 + n - 1) % n + 1 = n := by omega
    rw [h2]
    exact Nat.mod_self n
  · have h1 : (k + n - 1) % n = k - 1 := by
      have : k + n - 1 = (k - 1) + n := by omega
      rw [this, Nat.add_mod_right]
      exact Nat.mod_eq_of_lt (by omega)
    have h2 : (k + n - 1) % n + 1 = k := by omega
    rw [h2]
    exact Nat.mod_eq_of_lt hk

/-- Every vertex of a ring has a predecessor on the ring. -/
theorem Ring.prev_link {h : Heap} {r : List Nat} (hr : Ring h r) {a : Nat} (ha : a ∈ r) :
    ∃ p, p ∈ r ∧ Link h p a := by
  obtain ⟨k, hk⟩ := List.mem_iff_getElem?.mp ha
  have hklt := getElem?_lt_of_some hk
  have hj : (k + r.length - 1) % r.length < r.length := Nat.mod_lt _ (by omega)
  obtain ⟨b, hb, hl⟩ := hr.link_at (List.getElem?_eq_getElem hj)
  rw [mod_succ_pred hklt, hk] at hb
  cases hb
  exact ⟨_, List.getElem_mem _, hl⟩

/-- The forward walk around a ring visits its cells in order and comes back to the head. -/
theorem ReadPointers_ring {h : Heap} {r : List Nat} (hr : Ring h r) (fuel : Nat)
    (hfuel : r.length ≤ fuel) :
    ReadPointers fuel h { mHead := r[0]? } = some (r.map some) := by
  have hpos : 0 < r.length := List.length_pos.mpr hr.1
  have h0 : r[0]? = some r[0] := List.getElem?_eq_getElem hpos
  have key := Traverse_ring ReadPointersCallback r hr.2.1
    (fun k st => st = (h, (r.take k).map some))
    (by
      intro k a st hk hinv
      obtain ⟨v, hv, hnext⟩ := hr.toIsRing.2 k a hk
      subst hinv
      refine ⟨v, (h, (r.take (k + 1)).map some), by rw [deref_some, hv], hnext, ?_, rfl⟩
      simp only [ReadPointersCallback]
      rw [List.take_succ, hk]
      simp)
    r.length 0 r[0] (h, []) fuel h0 (by simp) hfuel (by simp)
  obtain ⟨st', ht, hs⟩ := key
  subst hs
  rw [List.take_length] at ht
  unfold ReadPointers
  simp only
  rw [h0] at ht ⊢
  rw [ht]
  rfl

/-- The rings that `BuildClipList` returns, with the enrichment invariant. -/
theorem BuildClipList_rings (P Q : PointContour) (hP : P ≠ []) (hQ : Q ≠ []) :
    ∃ (h : Heap) (rs rc : List Nat), ClipListRings P Q h rs rc ∧
      Enr IsSide IsSide (Q.length + P.length) (List.range' Q.length P.length)
        (List.range' 0 Q.length) h rs rc [] := by
  obtain ⟨h, rs, rc, F, hret, E⟩ := BuildClipList_spec P Q hP hQ
  refine ⟨h, rs, rc, ⟨⟨F, hret⟩, E.ringS, ?_, E.ringC, ?_, E.disjSC, ?_⟩, E⟩
  · rw [E.headS, List.head?_eq_getElem?, range'_head hP]
  · rw [E.headC, List.head?_eq_getElem?, range'_head hQ]
  · intro a ha
    rcases E.cover a ha with hh | hh | hh
    · exact Or.inl hh
    · exact Or.inr hh
    · cases hh

/-- C17: after `BuildClipList` on two non-empty contours, every vertex `v` (cell `a`) of
either ring satisfies `v.next.prev == v` and `v.prev.next == v`, and the forward walk from
each `mHead` comes back to `mHead` after visiting the cells of its ring, each exactly
once; the two rings together contain every vertex of the heap, original and inserted. -/
theorem C17_rings_doubly_linked (P Q : PointContour) (hP : P ≠ []) (hQ : Q ≠ []) :
    ∃ (h : Heap) (rs rc : List Nat), ClipListRings P Q h rs rc ∧
      (∀ (a : Nat) (v : ClipVertex), h[a]? = some v →
        ∃ (n p : Nat) (vn vp : ClipVertex), v.mNext = some n ∧ h[n]? = some vn ∧
          vn.mPrev = some a ∧ v.mPrev = some p ∧ h[p]? = some vp ∧ vp.mNext = some a) ∧
      rs.Nodup ∧ rc.Nodup ∧
      Returns (fun fuel => ReadPointers fuel h { mHead := some Q.length }) (rs.map some) ∧
      Returns (fun fuel => ReadPointers fuel h { mHead := some 0 }) (rc.map some) := by
  obtain ⟨h, rs, rc, hR, E⟩ := BuildClipList_rings P Q hP hQ
  have key : ∀ (r : List Nat), Ring h r → ∀ (a : Nat) (v : ClipVertex), a ∈ r →
      h[a]? = some v →
      ∃ (n p : Nat) (vn vp : ClipVertex), v.mNext = some n ∧ h[n]? = some vn ∧
          vn.mPrev = some a ∧ v.mPrev = some p ∧ h[p]? = some vp ∧ vp.mNext = some a := by
    intro r hr a v ha hv
    obtain ⟨v1, n, hv1, hn, hl⟩ := hr.mem_heap ha
    rw [hv] at hv1
    cases hv1
    obtain ⟨p, -, hlp⟩ := hr.prev_link ha
    obtain ⟨vn, hvn, hvnp⟩ := hl.2
    obtain ⟨vp, hvp, hvpn⟩ := hlp.1
    obtain ⟨v2, hv2, hv2p⟩ := hlp.2
    rw [hv] at hv2
    cases hv2
    exact ⟨n, p, vn, vp, hn, hvn, hvnp, hv2p, hvp, hvpn⟩
  have hs0 : rs[0]? = some Q.length := by
    rw [← List.head?_eq_getElem?]
    exact hR.2.2.1
  have hc0 : rc[0]? = some 0 := by
    rw [← List.head?_eq_getElem?]
    exact hR.2.2.2.2.1
  refine ⟨h, rs, rc, hR, ?_, E.ringS.2.1, E.ringC.2.1, ⟨rs.length, fun fuel hf => ?_⟩,
    ⟨rc.length, fun fuel hf => ?_⟩⟩
  · intro a v hv
    rcases E.cover a (getElem?_lt_of_some hv) with ha | ha | ha
    · exact key rs E.ringS a v ha hv
    · exact key rc E.ringC a v ha hv
    · cases ha
  · have := ReadPointers_ring E.ringS fuel hf
    rw [hs0] at this
    exact this
  · have := ReadPointers_ring E.ringC fuel hf
    rw [hc0] at this
    exact this

/-- C17 on the two squares of the scenario. -/
theorem C17_rings_doubly_linked_witness :
    unitSquare ≠ [] ∧ offsetSquare ≠ [] ∧
    ∃ (h : Heap) (rs rc : List Nat), ClipListRings unitSquare offsetSquare h rs rc ∧
      (∀ (a : Nat) (v : ClipVertex), h[a]? = some v →
        ∃ (n p : Nat) (vn vp : ClipVertex), v.mNext = some n ∧ h[n]? = some vn ∧
          vn.mPrev = some a ∧ v.mPrev = some p ∧ h[p]? = some vp ∧ vp.mNext = some a) ∧
      rs.Nodup ∧ rc.Nodup ∧
      Returns (fun fuel => ReadPointers fuel h { mHead := some offsetSquare.length })
        (rs.map some) ∧
      Returns (fun fuel => ReadPointers fuel h { mHead := some 0 }) (rc.map some) :=
  ⟨by simp [unitSquare], by simp [offsetSquare],
    C17_rings_doubly_linked unitSquare offsetSquare (by simp [unitSquare])
      (by simp [offsetSquare])⟩

/-- C18: after `BuildClipList` on two non-empty contours, every vertex of either ring has
a twin if and only if its tag is `OutToIn` or `InToOut`, has no twin if and only if its
tag is `Inside` or `Outside`, and no vertex is left with the tag `None`. -/
theorem C18_twin_iff_crossing_tag (P Q : PointContour) (hP : P ≠ []) (hQ : Q ≠ []) :
    ∃ (h : Heap) (rs rc : List Nat), ClipListRings P Q h rs rc ∧
      ∀ (a : Nat) (v : ClipVertex), h[a]? = some v →
        (v.mTwin ≠ none ↔ IsCrossing v.mClassification) ∧
        (v.mTwin = none ↔ IsSide v.mClassification) ∧
        v.mClassification ≠ ClipVertexClassification.None := by
  obtain ⟨h, rs, rc, hR, E⟩ := BuildClipList_rings P Q hP hQ
  refine ⟨h, rs, rc, hR, fun a v hv => ?_⟩
  have key : ∀ (other : List Nat), TwinOK IsSide h other a v →
      (v.mTwin ≠ none ↔ IsCrossing v.mClassification) ∧
        (v.mTwin = none ↔ IsSide v.mClassification) ∧
        v.mClassification ≠ ClipVertexClassification.None := by
    intro other t
    rcases t with ⟨hn, hs⟩ | ⟨b, w, ht, -, -, -, -, hc⟩
    · refine ⟨⟨fun hc => absurd hn hc, fun hc => ?_⟩, ⟨fun _ => hs, fun _ => hn⟩, ?_⟩
      · rcases hs with hs | hs <;> rcases hc with hc | hc <;> rw [hs] at hc <;> cases hc
      · rcases hs with hs | hs <;> rw [hs] <;> intro hc <;> cases hc
    · refine ⟨⟨fun _ => hc, fun _ => by rw [ht]; intro hx; cases hx⟩, ⟨fun hn => ?_, fun hs => ?_⟩,
        ?_⟩
      · rw [ht] at hn
        cases hn
      · rcases hs with hs | hs <;> rcases hc with hc | hc <;> rw [hs] at hc <;> cases hc
      · rcases hc with hc | hc <;> rw [hc] <;> intro hx <;> cases hx
  rcases E.cover a (getElem?_lt_of_some hv) with ha | ha | ha
  · exact key _ (E.twinS a (by simp [ha]) v hv)
  · exact key _ (E.twinC a ha v hv)
  · cases ha

/-- C18 on the two squares of the scenario. -/
theorem C18_twin_iff_crossing_tag_witness :
    unitSquare ≠ [] ∧ offsetSquare ≠ [] ∧
    ∃ (h : Heap) (rs rc : List Nat), ClipListRings unitSquare offsetSquare h rs rc ∧
      ∀ (a : Nat) (v : ClipVertex), h[a]? = some v →
        (v.mTwin ≠ none ↔ IsCrossing v.mClassification) ∧
        (v.mTwin = none ↔ IsSide v.mClassification) ∧
        v.mClassification ≠ ClipVertexClassification.None :=
  ⟨by simp [unitSquare], by simp [offsetSquare],
    C18_twin_iff_crossing_tag unitSquare offsetSquare (by simp [unitSquare])
      (by simp [offsetSquare])⟩

theorem forall₂_imp_mem {α β : Type} {R S : α → β → Prop} {l₁ : List α} {l₂ : List β}
    (h : List.Forall₂ R l₁ l₂) (himp : ∀ a ∈ l₁, ∀ b, R a b → S a b) :
    List.Forall₂ S l₁ l₂ := by
  induction h with
  | nil => exact List.Forall₂.nil
  | cons hab _ ih =>
    exact List.Forall₂.cons (himp _ (List.mem_cons_self _ _) _ hab)
      (ih (fun a ha b hR => himp a (List.mem_cons_of_mem _ ha) b hR))

/-- C19: in a state of enrichment with nothing pending, `ClipEdges` on the subject edge
`s → e` returns; the crossing parameters `ts` it uses are those of the clip edges found at
entry, each tested once (a permutation of the list over the entry edges), in
non-decreasing order; and in the final heap the forward links lead from `s` through the
new subject-side crossing vertices `P`, which carry the points at the parameters `ts` in
this order and have twins, to `e`. -/
theorem C19_ClipEdges_threads_sorted_crossings {pS pC : ClipVertexClassification → Prop}
    {N0 : Nat} {oS oC : List Nat} {h0 : Heap} {rs rc0 : List Nat}
    (E0 : Enr pS pC N0 oS oC h0 rs rc0 []) {s e : Nat} {sv ev : ClipVertex} (hs : s ∈ rs)
    (hsv : h0[s]? = some sv) (hn : sv.mNext = some e) (hev : h0[e]? = some ev) :
    ∃ (h' : Heap) (P : List Nat) (ts : List ℚ),
      Returns (fun fuel => ClipEdges fuel h0 (some s) (some e) { mHead := rc0[0]? }) h' ∧
      ts.Perm ((List.range rc0.length).filterMap (edgeTime h0 rc0 sv.mPoint ev.mPoint)) ∧
      ts.Sorted (fun a b => a ≤ b) ∧
      List.Chain' (Link h') (s :: P ++ [e]) ∧
      P.Nodup ∧ (∀ p ∈ P, h0.length ≤ p) ∧
      List.Forall₂ (fun p t => ∃ v : ClipVertex, h'[p]? = some v ∧
        v.mPoint = pointAt sv.mPoint ev.mPoint t ∧ v.mTwin ≠ none) P ts := by
  have hl : Link h0 s e := by
    obtain ⟨v, x, hv, hx, hlx⟩ := E0.ringS.mem_heap hs
    rw [hsv] at hv
    cases hv
    rw [hn] at hx
    cases hx
    exact hlx
  obtain ⟨h', A, B, P, rc', hres, hAB, E', hnew, -, hch, hpts⟩ :=
    ClipEdges_spec E0 hs hl hsv hev rc0.length (le_refl _)
  refine ⟨h', P, _, ⟨rc0.length, fun fuel hf => ClipEdges_mono _ _ _ _ _ _ _ hf hres⟩,
    List.perm_insertionSort _ _, List.sorted_insertionSort _ _, hch, ?_, hnew, ?_⟩
  · have hnd := E'.ringS.2.1
    have h1 := (List.nodup_append.mp hnd).2.1
    have h2 := (List.nodup_cons.mp h1).2
    exact (List.nodup_append.mp h2).1
  · refine forall₂_imp_mem hpts (fun p hp t hR => ?_)
    obtain ⟨v, hv, hpt⟩ := hR
    refine ⟨v, hv, hpt, fun ht => ?_⟩
    have h1 := (E'.origTw p v hv).mp ht
    have h2 := hnew p hp
    have h3 := E0.bound
    omega

theorem builtSquares_builtPair : BuiltPair 4 4 builtSquares := by
  decide!

set_option maxRecDepth 100000 in
theorem builtSquares_cell5 :
    builtSquares[5]? = some builtSquaresStart := by
  decide!

set_option maxRecDepth 100000 in
theorem builtSquares_cell6 :
    builtSquares[6]? = some builtSquaresEnd := by
  decide!

theorem builtSquares_enr : Enr IsUntagged IsUntagged (4 + 4) (List.range' 4 4)
    (List.range' 0 4) builtSquares (List.range' 4 4) (List.range' 0 4) [] :=
  Enr_of_builtPair (by decide) (by decide) builtSquares_builtPair

/-- C19 on the subject edge `(1,0) → (1,1)` of the unit square against the offset square,
right after the rings are built. -/
theorem C19_ClipEdges_threads_sorted_crossings_witness :
    BuiltPair 4 4 builtSquares ∧ 5 ∈ List.range' 4 4 ∧
    builtSquares[5]? = some builtSquaresStart ∧ builtSquaresStart.mNext = some 6 ∧
    builtSquares[6]? = some builtSquaresEnd ∧
    ∃ (h' : Heap) (P : List Nat) (ts : List ℚ),
      Returns (fun fuel => ClipEdges fuel builtSquares (some 5) (some 6)
        { mHead := (List.range' 0 4)[0]? }) h' ∧
      ts.Perm ((List.range (List.range' 0 4).length).filterMap
        (edgeTime builtSquares (List.range' 0 4) builtSquaresStart.mPoint
          builtSquaresEnd.mPoint)) ∧
      ts.Sorted (fun a b => a ≤ b) ∧
      List.Chain' (Link h') (5 :: P ++ [6]) ∧
      P.Nodup ∧ (∀ p ∈ P, builtSquares.length ≤ p) ∧
      List.Forall₂ (fun p t => ∃ v : ClipVertex, h'[p]? = some v ∧
        v.mPoint = pointAt builtSquaresStart.mPoint builtSquaresEnd.mPoint t ∧
        v.mTwin ≠ none) P ts :=
  ⟨builtSquares_builtPair, by decide, builtSquares_cell5, rfl, builtSquares_cell6,
    C19_ClipEdges_threads_sorted_crossings builtSquares_enr (by decide)
      builtSquares_cell5 rfl builtSquares_cell6⟩

/-! ### The intersection test: range of the result -/

/-- C24: the value `a4 = a3 + a2 - a1` computed in `ComputeIntersectionPoint` equals
`SignedArea(q0, q1, p1)`, so the function is the two-sided straddle test on the signed
areas `a3 = SignedArea(q0,q1,p0)` and `a4 = SignedArea(q0,q1,p1)` of the endpoints of
the first segment against the second segment. -/
theorem C24_a4_is_signed_area (p0 p1 q0 q1 : Vec2) :
    SignedArea q0 q1 p0 + SignedArea p0 p1 q0 - SignedArea p0 p1 q1 = SignedArea q0 q1 p1 ∧
    ComputeIntersectionPoint p0 p1 q0 q1 =
      (if SignedArea p0 p1 q1 * SignedArea p0 p1 q0 > 0 then
        ⟨-1, ClipVertexClassification.None, ClipVertexClassification.None⟩
      else if SignedArea q0 q1 p0 * SignedArea q0 q1 p1 < 0 then
        ⟨SignedArea q0 q1 p0 / (SignedArea q0 q1 p0 - SignedArea q0 q1 p1),
          if SignedArea q0 q1 p0 < 0 then ClipVertexClassification.InToOut
          else ClipVertexClassification.OutToIn,
          if SignedArea p0 p1 q0 < 0 then ClipVertexClassification.InToOut
          else ClipVertexClassification.OutToIn⟩
      else ⟨-1, ClipVertexClassification.None, ClipVertexClassification.None⟩) := by
  refine ⟨SignedArea_a4 p0 p1 q0 q1, ?_⟩
  unfold ComputeIntersectionPoint
  simp only [SignedArea_a4 p0 p1 q0 q1]

/-- C21: `ComputeIntersectionPoint` returns either the sentinel `-1` with both tags `None`,
or a value `t` with `0 < t < 1` and both tags in `{OutToIn, InToOut}`; on the branch that
executes the division (`a3 * a4 < 0` with `a4 = a3 + a2 - a1`) the divisor `a3 - a4` is
not zero; and the filter `0 <= t <= 1` of `ClipEdges` accepts exactly the reported
intersections. -/
theorem C21_time_sentinel_or_open_unit (p0 p1 q0 q1 : Vec2) :
    (ComputeIntersectionPoint p0 p1 q0 q1 =
        ⟨-1, ClipVertexClassification.None, ClipVertexClassification.None⟩ ∨
      (0 < (ComputeIntersectionPoint p0 p1 q0 q1).time ∧
        (ComputeIntersectionPoint p0 p1 q0 q1).time < 1 ∧
        IsCrossing (ComputeIntersectionPoint p0 p1 q0 q1).line0Flags ∧
        IsCrossing (ComputeIntersectionPoint p0 p1 q0 q1).line1Flags)) ∧
    (SignedArea q0 q1 p0 * (SignedArea q0 q1 p0 + SignedArea p0 p1 q0 - SignedArea p0 p1 q1) < 0 →
      SignedArea q0 q1 p0 - (SignedArea q0 q1 p0 + SignedArea p0 p1 q0 - SignedArea p0 p1 q1)
        ≠ 0) ∧
    ((0 ≤ (ComputeIntersectionPoint p0 p1 q0 q1).time ∧
        (ComputeIntersectionPoint p0 p1 q0 q1).time ≤ 1) ↔
      ReportsIntersection (ComputeIntersectionPoint p0 p1 q0 q1)) := by
  have hdiv : ∀ x y : ℚ, x * y < 0 → x - y ≠ 0 := by
    intro x y hxy hc
    have : x = y := sub_eq_zero.mp hc
    subst this
    nlinarith [mul_self_nonneg x]
  refine ⟨?_, hdiv _ _, ?_⟩
  · rcases ComputeIntersectionPoint_cases p0 p1 q0 q1 with hc | ⟨-, h34, hc⟩
    · exact Or.inl hc
    · have ht := div_sub_mem_Ioo h34
      have hfl := ComputeIntersectionPoint_flags p0 p1 q0 q1 (by
        rw [hc]
        exact le_of_lt ht.1)
      refine Or.inr ⟨?_, ?_, hfl.1, hfl.2⟩
      · rw [hc]
        exact ht.1
      · rw [hc]
        exact ht.2
  · rcases ComputeIntersectionPoint_cases p0 p1 q0 q1 with hc | ⟨-, h34, hc⟩
    · rw [hc]
      simp only [ReportsIntersection]
      constructor
      · intro h
        norm_num at h
      · intro h
        exact absurd rfl h
    · have ht := div_sub_mem_Ioo h34
      rw [hc]
      simp only [ReportsIntersection]
      constructor
      · intro _ hneg
        rw [hneg] at ht
        norm_num at ht
      · intro _
        exact ⟨le_of_lt ht.1, le_of_lt ht.2⟩

/-! ### The original vertices after enrichment -/

/-- The forward walk around a ring reads its cells in order. -/
theorem ReadVertices_ring {h : Heap} {r : List Nat} (hr : Ring h r) (fuel : Nat)
    (hfuel : r.length ≤ fuel) :
    ReadVertices fuel h { mHead := r[0]? } = some (r.filterMap (fun a => h[a]?)) := by
  have hpos : 0 < r.length := List.length_pos.mpr hr.1
  have h0 : r[0]? = some r[0] := List.getElem?_eq_getElem hpos
  have key := Traverse_ring ReadVerticesCallback r hr.2.1
    (fun k st => st = (h, (r.take k).filterMap (fun a => h[a]?)))
    (by
      intro k a st hk hinv
      obtain ⟨v, hv, hnext⟩ := hr.toIsRing.2 k a hk
      subst hinv
      refine ⟨v, (h, (r.take (k + 1)).filterMap (fun a => h[a]?)), by rw [deref_some, hv],
        hnext, ?_, rfl⟩
      simp only [ReadVerticesCallback, deref_some, hv]
      rw [List.take_succ, hk]
      simp [List.filterMap_append, hv])
    r.length 0 r[0] (h, []) fuel h0 (by simp) hfuel (by simp)
  obtain ⟨st', ht, hs⟩ := key
  subst hs
  rw [List.take_length] at ht
  unfold ReadVertices
  simp only
  rw [h0] at ht ⊢
  rw [ht]
  rfl

theorem filter_filterMap_map {α β γ : Type} (g : α → Option β) (p : β → Bool) (q : α → Bool)
    (f : β → γ) :
    ∀ l : List α, (∀ a ∈ l, ∃ v, g a = some v ∧ p v = q a) →
      ((l.filterMap g).filter p).map f = (l.filter q).filterMap (fun a => (g a).map f) := by
  intro l
  induction l with
  | nil => intro _; rfl
  | cons a t ih =>
    intro hall
    obtain ⟨v, hv, hpq⟩ := hall a (List.mem_cons_self _ _)
    have iht := ih (fun x hx => hall x (List.mem_cons_of_mem _ hx))
    rw [List.filterMap_cons_some hv]
    by_cases hq : q a = true
    · rw [List.filter_cons_of_pos (by rw [hpq]; exact hq), List.filter_cons_of_pos hq,
        List.map_cons, List.filterMap_cons_some (by rw [hv]; rfl), iht]
    · rw [List.filter_cons_of_neg (by rw [hpq]; exact hq), List.filter_cons_of_neg hq, iht]

theorem filterMap_range'_eq {β : Type} : ∀ (P : List β) (m : Nat) (F : Nat → Option β),
    (∀ (i : Nat) (p : β), P[i]? = some p → F (m + i) = some p) →
    (List.range' m P.length).filterMap F = P := by
  intro P
  induction P with
  | nil => intro m F _; rfl
  | cons p0 t ih =>
    intro m F hF
    have h0 : F m = some p0 := by simpa using hF 0 p0 (by simp)
    rw [List.length_cons, List.range'_succ, List.filterMap_cons_some h0,
      ih (m + 1) F (fun i p hp => by
        have := hF (i + 1) p (by simpa using hp)
        rw [← this]
        congr 1
        omega)]

/-- C22: after `BuildClipList` on two non-empty contours, the heads are the cells that
`BuildVertexList` returned for the first input points, and for each ring the forward walk
from `mHead` reads, on the vertices without a twin, exactly the points of the input
contour in order; the head itself has no twin and holds the first input point. -/
theorem C22_originals_kept_in_order (P Q : PointContour) (hP : P ≠ []) (hQ : Q ≠ []) :
    ∃ (h1 h2 h : Heap) (cs cc : List ClipVertex),
      BuildVertexList Q [] = some (h1, { mHead := some 0 }) ∧
      BuildVertexList P h1 = some (h2, { mHead := some Q.length }) ∧
      Returns (fun fuel => BuildClipList fuel P Q [])
        (h, { mHead := some Q.length }, { mHead := some 0 }) ∧
      Returns (fun fuel => ReadVertices fuel h { mHead := some Q.length }) cs ∧
      Returns (fun fuel => ReadVertices fuel h { mHead := some 0 }) cc ∧
      (cs.filter (fun v => v.mTwin.isNone)).map (fun v => v.mPoint) = P ∧
      (cc.filter (fun v => v.mTwin.isNone)).map (fun v => v.mPoint) = Q ∧
      (∃ v : ClipVertex, cs.head? = some v ∧ h[Q.length]? = some v ∧ v.mTwin = none ∧
        P.head? = some v.mPoint) ∧
      (∃ v : ClipVertex, cc.head? = some v ∧ h[0]? = some v ∧ v.mTwin = none ∧
        Q.head? = some v.mPoint) := by
  obtain ⟨h1, h2, e1, e2, -⟩ := BuildVertexList_builtPair P Q hP hQ
  obtain ⟨h, rs, rc, F, hret, E, hptQ, hptP⟩ := BuildClipList_spec_points P Q hP hQ
  have hm : 0 < Q.length := List.length_pos.mpr hQ
  have hn : 0 < P.length := List.length_pos.mpr hP
  have hs0 : rs[0]? = some Q.length := by
    rw [← List.head?_eq_getElem?, E.headS, List.head?_eq_getElem?, range'_head hP]
  have hc0 : rc[0]? = some 0 := by
    rw [← List.head?_eq_getElem?, E.headC, List.head?_eq_getElem?, range'_head hQ]
  -- the sequence of the untwinned points of a ring
  have key : ∀ (r : List Nat), Ring h r → ∀ (m : Nat) (C : PointContour),
      r.filter (fun a => decide (a < Q.length + P.length)) = List.range' m C.length →
      (∀ (i : Nat) (p : Vec2), C[i]? = some p →
        ∃ v : ClipVertex, h[m + i]? = some v ∧ v.mPoint = p) →
      ((r.filterMap (fun a => h[a]?)).filter (fun v => v.mTwin.isNone)).map
        (fun v => v.mPoint) = C := by
    intro r hr m C hfilt hpt
    rw [filter_filterMap_map (fun a => h[a]?) (fun v => v.mTwin.isNone)
      (fun a => decide (a < Q.length + P.length)) (fun v => v.mPoint) r (fun a ha => ?_), hfilt]
    · exact filterMap_range'_eq C m _ (fun i p hp => by
        obtain ⟨v, hv, hvp⟩ := hpt i p hp
        rw [hv]
        simp [hvp])
    · obtain ⟨v, x, hv, -, -⟩ := hr.mem_heap ha
      refine ⟨v, hv, ?_⟩
      have := E.origTw a v hv
      by_cases hlt : a < Q.length + P.length
      · simp [hlt, this.mpr hlt]
      · have hne : v.mTwin ≠ none := fun hc => hlt (this.mp hc)
        obtain ⟨b, hb⟩ := Option.ne_none_iff_exists'.mp hne
        simp [hlt, hb]
  have headfact : ∀ (r : List Nat) (a : Nat), r[0]? = some a → a < Q.length + P.length →
      ∀ p : Vec2, (∃ v : ClipVertex, h[a]? = some v ∧ v.mPoint = p) →
      ∃ v : ClipVertex, (r.filterMap (fun a => h[a]?)).head? = some v ∧ h[a]? = some v ∧
        v.mTwin = none ∧ some p = some v.mPoint := by
    intro r a ha hlt p ⟨v, hv, hvp⟩
    refine ⟨v, ?_, hv, (E.origTw a v hv).mpr hlt, by rw [hvp]⟩
    cases r with
    | nil => simp at ha
    | cons b t =>
      simp only [List.getElem?_cons_zero, Option.some.injEq] at ha
      subst ha
      rw [List.filterMap_cons_some hv]
      rfl
  have hP0 : P.head? = some P[0] := by
    rw [List.head?_eq_getElem?]
    exact List.getElem?_eq_getElem hn
  have hQ0 : Q.head? = some Q[0] := by
    rw [List.head?_eq_getElem?]
    exact List.getElem?_eq_getElem hm
  refine ⟨h1, h2, h, rs.filterMap (fun a => h[a]?), rc.filterMap (fun a => h[a]?), e1, e2,
    ⟨F, hret⟩, ⟨rs.length, fun fuel hf => ?_⟩, ⟨rc.length, fun fuel hf => ?_⟩,
    key rs E.ringS Q.length P E.filtS hptP, ?_, ?_, ?_⟩
  · have := ReadVertices_ring E.ringS fuel hf
    rw [hs0] at this
    exact this
  · have := ReadVertices_ring E.ringC fuel hf
    rw [hc0] at this
    exact this
  · refine key rc E.ringC 0 Q E.filtC (fun i p hp => ?_)
    rw [Nat.zero_add]
    exact hptQ i p hp
  · rw [hP0]
    have := hptP 0 P[0] (List.getElem?_eq_getElem hn)
    exact headfact rs Q.length hs0 (by omega) P[0] this
  · rw [hQ0]
    have := hptQ 0 Q[0] (List.getElem?_eq_getElem hm)
    exact headfact rc 0 hc0 (by omega) Q[0] this

/-- C22 on the two squares of the scenario. -/
theorem C22_originals_kept_in_order_witness :
    unitSquare ≠ [] ∧ offsetSquare ≠ [] ∧
    ∃ (h1 h2 h : Heap) (cs cc : List ClipVertex),
      BuildVertexList offsetSquare [] = some (h1, { mHead := some 0 }) ∧
      BuildVertexList unitSquare h1 = some (h2, { mHead := some offsetSquare.length }) ∧
      Returns (fun fuel => BuildClipList fuel unitSquare offsetSquare [])
        (h, { mHead := some offsetSquare.length }, { mHead := some 0 }) ∧
      Returns (fun fuel => ReadVertices fuel h { mHead := some offsetSquare.length }) cs ∧
      Returns (fun fuel => ReadVertices fuel h { mHead := some 0 }) cc ∧
      (cs.filter (fun v => v.mTwin.isNone)).map (fun v => v.mPoint) = unitSquare ∧
      (cc.filter (fun v => v.mTwin.isNone)).map (fun v => v.mPoint) = offsetSquare ∧
      (∃ v : ClipVertex, cs.head? = some v ∧ h[offsetSquare.length]? = some v ∧
        v.mTwin = none ∧ unitSquare.head? = some v.mPoint) ∧
      (∃ v : ClipVertex, cc.head? = some v ∧ h[0]? = some v ∧ v.mTwin = none ∧
        offsetSquare.head? = some v.mPoint) :=
  ⟨by simp [unitSquare], by simp [offsetSquare],
    C22_originals_kept_in_order unitSquare offsetSquare (by simp [unitSquare])
      (by simp [offsetSquare])⟩

/-! ### The walk of `Subtract` -/

theorem SameButVisited.rfl' (h : Heap) : SameButVisited h h :=
  ⟨rfl, fun _ v hv => ⟨v, hv, rfl, rfl, rfl, rfl, rfl, fun hx => hx⟩⟩

theorem SameButVisited.step {h1 h2 h3 : Heap} (h12 : SameButVisited h1 h2)
    (h23 : SameButVisited h2 h3) : SameButVisited h1 h3 := by
  refine ⟨by rw [h23.1, h12.1], fun a v hv => ?_⟩
  obtain ⟨v2, hv2, e1, e2, e3, e4, e5, e6⟩ := h12.2 a v hv
  obtain ⟨v3, hv3, f1, f2, f3, f4, f5, f6⟩ := h23.2 a v2 hv2
  exact ⟨v3, hv3, f1.trans e1, f2.trans e2, f3.trans e3, f4.trans e4, f5.trans e5,
    fun hx => f6 (e6 hx)⟩

/-- The cell of the new heap comes from a cell of the old one. -/
theorem SameButVisited.back {h h' : Heap} (hS : SameButVisited h h') {a : Nat}
    {v' : ClipVertex} (hv' : h'[a]? = some v') :
    ∃ v : ClipVertex, h[a]? = some v ∧ v'.mPoint = v.mPoint ∧
      v'.mClassification = v.mClassification ∧ v'.mTwin = v.mTwin ∧ v'.mPrev = v.mPrev ∧
      v'.mNext = v.mNext ∧ (v.mVisited = true → v'.mVisited = true) := by
  have hlt : a < h.length := by
    have := getElem?_lt_of_some hv'
    rw [hS.1] at this
    exact this
  obtain ⟨v'', hv'', e⟩ := hS.2 a h[a] (List.getElem?_eq_getElem hlt)
  rw [hv'] at hv''
  cases hv''
  exact ⟨_, List.getElem?_eq_getElem hlt, e⟩

theorem SameButVisited.keepsLinks {h h' : Heap} (hS : SameButVisited h h') {x y : Nat}
    (hl : Link h x y) : Link h' x y := by
  obtain ⟨⟨v, hv, hn⟩, ⟨w, hw, hp⟩⟩ := hl
  obtain ⟨v', hv', -, -, -, -, en, -⟩ := hS.2 x v hv
  obtain ⟨w', hw', -, -, -, ep, -, -⟩ := hS.2 y w hw
  exact ⟨⟨v', hv', by rw [en, hn]⟩, ⟨w', hw', by rw [ep, hp]⟩⟩

/-- Marking one vertex visited. -/
theorem store_visited (h : Heap) (x : Nat) (hx : x < h.length) :
    ∃ h1, store h (some x) (fun c => { c with mVisited := true }) = some h1 ∧
      SameButVisited h h1 ∧ ∃ v1 : ClipVertex, h1[x]? = some v1 ∧ v1.mVisited = true := by
  obtain ⟨h1, e1, l1, c1⟩ := store_spec h x (fun c => { c with mVisited := true }) hx
  refine ⟨h1, e1, ⟨l1, fun a v hv => ?_⟩, ?_⟩
  · rw [c1 a]
    by_cases ha : a = x
    · rw [if_pos ha, hv]
      exact ⟨_, rfl, rfl, rfl, rfl, rfl, rfl, fun _ => rfl⟩
    · rw [if_neg ha, hv]
      exact ⟨_, rfl, rfl, rfl, rfl, rfl, rfl, fun hx => hx⟩
  · rw [c1 x, if_pos rfl, List.getElem?_eq_getElem hx]
    exact ⟨_, rfl, rfl⟩

theorem Walk.visited {h h' : Heap} {rs rc : List Nat} (W : Walk h rs rc)
    (hS : SameButVisited h h') : Walk h' rs rc := by
  refine ⟨W.ringS.frame (fun x _ y hxy => hS.keepsLinks hxy),
    W.ringC.frame (fun x _ y hxy => hS.keepsLinks hxy), W.disj, ?_, ?_⟩
  · intro a ha v' b hv' ht
    obtain ⟨v, hv, -, -, et, -⟩ := hS.back hv'
    obtain ⟨hb, w, hw, hwt⟩ := W.twinS a ha v b hv (by rw [← et, ht])
    obtain ⟨w', hw', -, -, ft, -⟩ := hS.2 b w hw
    exact ⟨hb, w', hw', by rw [ft, hwt]⟩
  · intro a ha v' b hv' ht
    obtain ⟨v, hv, -, -, et, -⟩ := hS.back hv'
    obtain ⟨hb, w, hw, hwt⟩ := W.twinC a ha v b hv (by rw [← et, ht])
    obtain ⟨w', hw', -, -, ft, -⟩ := hS.2 b w hw
    exact ⟨hb, w', hw', by rw [ft, hwt]⟩

theorem LeavingVertex.stays {h h' : Heap} {rs : List Nat} {p : Ptr}
    (hL : LeavingVertex h rs p) (hS : SameButVisited h h') : LeavingVertex h' rs p := by
  obtain ⟨a, v, hp, ha, hv, hc⟩ := hL
  obtain ⟨v', hv', -, ec, -⟩ := hS.2 a v hv
  exact ⟨a, v', hp, ha, hv', by rw [ec, hc]⟩

/-- The rings of a state of enrichment with nothing pending can be walked. -/
theorem Walk.of_enr {pS pC : ClipVertexClassification → Prop} {N0 : Nat} {oS oC : List Nat}
    {h : Heap} {rs rc : List Nat} (E : Enr pS pC N0 oS oC h rs rc []) : Walk h rs rc := by
  refine ⟨E.ringS, E.ringC, E.disjSC, ?_, ?_⟩
  · intro a ha v b hv ht
    rcases E.twinS a (by simp [ha]) v hv with ⟨hn, -⟩ | ⟨b', w, ht', hb', hw, hwt, -, -⟩
    · rw [hn] at ht
      cases ht
    · rw [ht] at ht'
      cases ht'
      exact ⟨hb', w, hw, hwt⟩
  · intro a ha v b hv ht
    rcases E.twinC a ha v hv with ⟨hn, -⟩ | ⟨b', w, ht', hb', hw, hwt, -, -⟩
    · rw [hn] at ht
      cases ht
    · rw [ht] at ht'
      cases ht'
      exact ⟨by simpa using hb', w, hw, hwt⟩

/-- A rotation of a forward ring is a forward ring. -/
theorem IsRing.rotated {h : Heap} {r : List Nat} (hr : IsRing h r) (n : Nat) :
    IsRing h (r.rotate n) := by
  refine ⟨List.nodup_rotate.mpr hr.1, fun k a hk => ?_⟩
  have hklt : k < r.length := by
    have := getElem?_lt_of_some hk
    simpa using this
  rw [List.getElem?_rotate hklt] at hk
  obtain ⟨v, hv, hn⟩ := hr.2 _ a hk
  refine ⟨v, hv, ?_⟩
  rw [hn, List.length_rotate, List.getElem?_rotate (Nat.mod_lt _ (by omega))]
  congr 1
  rw [Nat.add_mod ((k + 1) % r.length), Nat.mod_mod, ← Nat.add_mod,
    Nat.add_mod ((k + n) % r.length), Nat.mod_mod, ← Nat.add_mod]
  congr 1
  omega

/-- The search from a vertex of a forward ring, when some vertex carries the tag: the
walk stops at the first such vertex. -/
theorem Traverse_find {h : Heap} {r : List Nat} (hr : IsRing h r)
    (c : ClipVertexClassification) :
    ∀ (n k a : Nat) (fuel : Nat), r[k]? = some a → k + n = r.length → n ≤ fuel →
      (∃ (i b : Nat) (w : ClipVertex), k ≤ i ∧ r[i]? = some b ∧ h[b]? = some w ∧
        w.mClassification = c) →
      ∃ (b : Nat) (w : ClipVertex),
        Traverse (FindFirstOfCallback c) fuel r[0]? (some a) (h, none) = some (h, some b) ∧
        b ∈ r ∧ h[b]? = some w ∧ w.mClassification = c := by
  intro n
  induction n with
  | zero =>
    intro k a fuel hk hlen _ _
    have := getElem?_lt_of_some hk
    omega
  | succ n ih =>
    intro k a fuel hk hlen hfuel hex
    obtain ⟨fuel, rfl⟩ : ∃ f, fuel = f + 1 := ⟨fuel - 1, by omega⟩
    obtain ⟨v, hv, hnext⟩ := hr.2 k a hk
    by_cases hc : v.mClassification = c
    · refine ⟨a, v, ?_, List.mem_iff_getElem?.mpr ⟨_, hk⟩, hv, hc⟩
      simp [Traverse, FindFirstOfCallback, deref_some, hv, hc]
    · obtain ⟨i, b, w, hki, hi, hw, hwc⟩ := hex
      have hik : i ≠ k := by
        rintro rfl
        rw [hk] at hi
        cases hi
        rw [hv] at hw
        cases hw
        exact hc hwc
      have hilt := getElem?_lt_of_some hi
      have hlt : k + 1 < r.length := by omega
      rw [Nat.mod_eq_of_lt hlt] at hnext
      have hb : r[k + 1]? = some r[k + 1] := List.getElem?_eq_getElem hlt
      have hne : v.mNext ≠ r[0]? := by
        rw [hnext, hb]
        intro hcon
        have := List.getElem?_inj hlt hr.1 (hb.trans hcon)
        omega
      obtain ⟨b', w', htr, hb', hw', hwc'⟩ := ih (k + 1) r[k + 1] fuel hb (by omega) (by omega)
        ⟨i, b, w, by omega, hi, hw, hwc⟩
      refine ⟨b', w', ?_, hb', hw', hwc'⟩
      simp only [Traverse, FindFirstOfCallback, deref_some, hv, hc, if_false]
      simp only [hne, ne_eq, not_false_eq_true, if_true]
      rw [hnext, hb]
      simpa using htr

/-- The search `FindFirstOf` started at any vertex of a ring that has a vertex with the
tag returns such a vertex, never null. -/
theorem FindFirstOf_ring_found {h : Heap} {r : List Nat} (hr : Ring h r)
    (c : ClipVertexClassification) {x : Nat} (hx : x ∈ r)
    (hex : ∃ (b : Nat) (w : ClipVertex), b ∈ r ∧ h[b]? = some w ∧ w.mClassification = c)
    (fuel : Nat) (hfuel : r.length ≤ fuel) :
    ∃ (b : Nat) (w : ClipVertex), FindFirstOf fuel h (some x) c = some (some b) ∧
      b ∈ r ∧ h[b]? = some w ∧ w.mClassification = c := by
  obtain ⟨n, hn⟩ := List.mem_iff_getElem?.mp hx
  have hnlt := getElem?_lt_of_some hn
  have hrot : IsRing h (r.rotate n) := hr.toIsRing.rotated n
  have h0 : (r.rotate n)[0]? = some x := by
    rw [List.getElem?_rotate (by omega), Nat.zero_add, Nat.mod_eq_of_lt hnlt, hn]
  obtain ⟨b, w, hb, hw, hwc⟩ := hex
  obtain ⟨i, hi⟩ := List.mem_iff_getElem?.mp (List.mem_rotate.mpr hb : b ∈ r.rotate n)
  obtain ⟨b', w', htr, hb', hw', hwc'⟩ := Traverse_find hrot c (r.rotate n).length 0 x fuel
    h0 (by simp) (by simpa using hfuel) ⟨i, b, w, by omega, hi, hw, hwc⟩
  refine ⟨b', w', ?_, List.mem_rotate.mp hb', hw', hwc'⟩
  unfold FindFirstOf
  rw [h0] at htr
  rw [htr]
  rfl

theorem WalkOn.dir_eq {rs rc : List Nat} (hdisj : ∀ a ∈ rs, a ∉ rc) {x : Nat}
    {d : ClipVertexSearchDirection} (hon : WalkOn rs rc x d) : walkDir rs x = d := by
  rcases hon with ⟨hd, hx⟩ | ⟨hd, hx⟩
  · rw [walkDir, if_pos hx, hd]
  · rw [walkDir, if_neg (fun hc => hdisj x hc hx), hd]

/-- The neighbour of a vertex in the direction of the walk lies on the same ring. -/
theorem Walk.neighbour {h : Heap} {rs rc : List Nat} (W : Walk h rs rc) {x : Nat}
    {d : ClipVertexSearchDirection} (hon : WalkOn rs rc x d) :
    ∃ (v : ClipVertex) (y : Nat) (vy : ClipVertex), h[x]? = some v ∧ GetNext v d = some y ∧
      WalkOn rs rc y d ∧ h[y]? = some vy ∧
      ((d = ClipVertexSearchDirection.Forwards ∧ Link h x y) ∨
        (d = ClipVertexSearchDirection.Backward ∧ Link h y x)) := by
  rcases hon with ⟨hd, hx⟩ | ⟨hd, hx⟩
  · obtain ⟨v, y, hv, hn, hl⟩ := W.ringS.mem_heap hx
    obtain ⟨vy, hvy, -⟩ := hl.2
    exact ⟨v, y, vy, hv, by rw [hd]; exact hn, Or.inl ⟨hd, W.ringS.next_mem hx hl⟩, hvy,
      Or.inl ⟨hd, hl⟩⟩
  · obtain ⟨y, hy, hl⟩ := W.ringC.prev_link hx
    obtain ⟨v, hv, hp⟩ := hl.2
    obtain ⟨vy, hvy, -⟩ := hl.1
    exact ⟨v, y, vy, hv, by rw [hd]; exact hp, Or.inr ⟨hd, hy⟩, hvy, Or.inr ⟨hd, hl⟩⟩

/-- The twin of a vertex met by the walk lies on the other ring, where the walk goes in
the other direction. -/
theorem Walk.hop {h : Heap} {rs rc : List Nat} (W : Walk h rs rc) {y : Nat}
    {d : ClipVertexSearchDirection} (hon : WalkOn rs rc y d) {vy : ClipVertex} {t : Nat}
    (hvy : h[y]? = some vy) (ht : vy.mTwin = some t) :
    WalkOn rs rc t (FlipSearchDirection d) ∧ ∃ w : ClipVertex, h[t]? = some w ∧
      w.mTwin = some y := by
  rcases hon with ⟨hd, hy⟩ | ⟨hd, hy⟩
  · obtain ⟨htc, w, hw, hwt⟩ := W.twinS y hy vy t hvy ht
    exact ⟨Or.inr ⟨by rw [hd]; rfl, htc⟩, w, hw, hwt⟩
  · obtain ⟨hts, w, hw, hwt⟩ := W.twinC y hy vy t hvy ht
    exact ⟨Or.inl ⟨by rw [hd]; rfl, hts⟩, w, hw, hwt⟩

/-- One pass through the body of the inner loop of `Subtract` from a state of the walk:
no pointer that is dereferenced is null, what is pushed is a non-null `InToOut` vertex of
the subject ring, and the loop either ends or goes on in a state of the walk. -/
theorem SubtractTrace_step {h : Heap} {rs rc : List Nat} (W : Walk h rs rc) {x : Nat}
    {d : ClipVertexSearchDirection} (hon : WalkOn rs rc x d) {work : List Ptr}
    (hwork : ∀ p ∈ work, LeavingVertex h rs p) (hleave : ∃ p, LeavingVertex h rs p)
    (cs : Ptr) (c : PointContour) (fuel : Nat) (hfuel : rs.length ≤ fuel) :
    ∃ (v v2 : ClipVertex) (h1 : Heap) (work1 : List Ptr),
      h[x]? = some v ∧ SameButVisited h h1 ∧
      (∃ v1 : ClipVertex, h1[x]? = some v1 ∧ v1.mVisited = true) ∧
      (work1 = work ∨ ∃ p, work1 = p :: work ∧ LeavingVertex h1 rs p) ∧
      SubtractState h1 rs rc (walkNext h rs x) (walkDir rs (walkNext h rs x)) work1 ∧
      h1[walkNext h rs x]? = some v2 ∧
      SubtractTrace cs (fuel + 1) h (some x) d work c =
        (if some (walkNext h rs x) = cs then some (h1, work1, c ++ [v.mPoint])
         else if v2.mTwin = cs then some (h1, work1, c ++ [v.mPoint])
         else SubtractTrace cs fuel h1 (some (walkNext h rs x))
           (walkDir rs (walkNext h rs x)) work1 (c ++ [v.mPoint])) := by
  have hdir := hon.dir_eq W.disj
  obtain ⟨v, y, vy, hv, hG, hony, hvy, -⟩ := W.neighbour hon
  obtain ⟨h1, est, hS, v1x, hv1x, hvis⟩ := store_visited h x (getElem?_lt_of_some hv)
  have W1 := W.visited hS
  obtain ⟨v1, hv1, -, ec1, et1, -⟩ := hS.2 y vy hvy
  have hwork1 : ∀ p ∈ work, LeavingVertex h1 rs p := fun p hp => (hwork p hp).stays hS
  cases htw : vy.mTwin with
  | none =>
    have hwn : walkNext h rs x = y := by
      simp only [walkNext, hv, hdir, hG, hvy, htw]
    have ht1 : v1.mTwin = none := by rw [et1, htw]
    rw [hwn, hony.dir_eq W.disj]
    refine ⟨v, v1, h1, work, hv, hS, ⟨v1x, hv1x, hvis⟩, Or.inl rfl, ⟨W1, hony, hwork1⟩, hv1, ?_⟩
    rw [SubtractTrace]
    simp only [deref, hv, est, hG, hv1, ht1, ne_eq, not_true_eq_false, false_and, if_false]
  | some t =>
    have hwn : walkNext h rs x = t := by
      simp only [walkNext, hv, hdir, hG, hvy, htw]
    have ht1 : v1.mTwin = some t := by rw [et1, htw]
    obtain ⟨hont, w, hw, -⟩ := W1.hop hony hv1 ht1
    rw [hwn, hont.dir_eq W.disj]
    by_cases hcond : v1.mVisited = false ∧ d = ClipVertexSearchDirection.Forwards ∧
        v1.mClassification = ClipVertexClassification.OutToIn
    · obtain ⟨hunv, hdF, hcl⟩ := hcond
      subst hdF
      have hys : y ∈ rs := by
        rcases hony with ⟨-, hy⟩ | ⟨hd, -⟩
        · exact hy
        · cases hd
      obtain ⟨p0, a0, w0, -, ha0, hw0, hc0⟩ := hleave
      obtain ⟨w0', hw0', -, ec0, -⟩ := hS.2 a0 w0 hw0
      obtain ⟨b, wb, hfind, hb, hwb, hcb⟩ := FindFirstOf_ring_found W1.ringS
        ClipVertexClassification.InToOut hys ⟨a0, w0', ha0, hw0', by rw [ec0, hc0]⟩ fuel hfuel
      have hLb : LeavingVertex h1 rs (some b) := ⟨b, wb, rfl, hb, hwb, hcb⟩
      refine ⟨v, w, h1, some b :: work, hv, hS, ⟨v1x, hv1x, hvis⟩,
        Or.inr ⟨some b, rfl, hLb⟩, ⟨W1, hont, ?_⟩, hw, ?_⟩
      · intro p hp
        rw [List.mem_cons] at hp
        rcases hp with rfl | hp
        · exact hLb
        · exact hwork1 p hp
      · rw [SubtractTrace]
        simp only [deref, hv, est, hG, hv1, ht1, ne_eq, reduceCtorEq, not_false_eq_true,
          hunv, hcl, and_self, if_true, hfind, Option.map_some', hw]
    · refine ⟨v, w, h1, work, hv, hS, ⟨v1x, hv1x, hvis⟩, Or.inl rfl, ⟨W1, hont, hwork1⟩, hw, ?_⟩
      rw [SubtractTrace]
      simp only [deref, hv, est, hG, hv1, ht1, ne_eq, reduceCtorEq, not_false_eq_true,
        true_and, hcond, if_false, if_true, hw]

/-- The step of the walk, case by case. -/
theorem Walk.walkNext_cases {h : Heap} {rs rc : List Nat} (W : Walk h rs rc) {x : Nat}
    {d : ClipVertexSearchDirection} (hon : WalkOn rs rc x d) :
    ∃ (y : Nat) (vy : ClipVertex), WalkOn rs rc y d ∧ h[y]? = some vy ∧
      ((d = ClipVertexSearchDirection.Forwards ∧ Link h x y) ∨
        (d = ClipVertexSearchDirection.Backward ∧ Link h y x)) ∧
      ((vy.mTwin = none ∧ walkNext h rs x = y) ∨
        (∃ (t : Nat) (w : ClipVertex), walkNext h rs x = t ∧
          WalkOn rs rc t (FlipSearchDirection d) ∧ h[t]? = some w ∧ w.mTwin = some y)) := by
  have hdir := hon.dir_eq W.disj
  obtain ⟨v, y, vy, hv, hG, hony, hvy, hl⟩ := W.neighbour hon
  refine ⟨y, vy, hony, hvy, hl, ?_⟩
  cases htw : vy.mTwin with
  | none =>
    refine Or.inl ⟨rfl, ?_⟩
    simp only [walkNext, hv, hdir, hG, hvy, htw]
  | some t =>
    obtain ⟨hont, w, hw, hwt⟩ := W.hop hony hvy htw
    refine Or.inr ⟨t, w, ?_, hont, hw, hwt⟩
    simp only [walkNext, hv, hdir, hG, hvy, htw]

theorem WalkOn.mem {rs rc : List Nat} {x : Nat} {d : ClipVertexSearchDirection}
    (hon : WalkOn rs rc x d) : x ∈ rs ++ rc := by
  rcases hon with ⟨-, hx⟩ | ⟨-, hx⟩
  · exact List.mem_append_left _ hx
  · exact List.mem_append_right _ hx

theorem WalkOn.of_mem {rs rc : List Nat} {x : Nat} (hx : x ∈ rs ++ rc) :
    WalkOn rs rc x (walkDir rs x) := by
  by_cases hs : x ∈ rs
  · exact Or.inl ⟨by rw [walkDir, if_pos hs], hs⟩
  · rw [List.mem_append] at hx
    exact Or.inr ⟨by rw [walkDir, if_neg hs], hx.resolve_left hs⟩

/-- The walk stays on the two rings. -/
theorem Walk.walkNext_mem {h : Heap} {rs rc : List Nat} (W : Walk h rs rc) {x : Nat}
    (hx : x ∈ rs ++ rc) : walkNext h rs x ∈ rs ++ rc := by
  obtain ⟨y, vy, hony, -, -, hc⟩ := W.walkNext_cases (WalkOn.of_mem hx)
  rcases hc with ⟨-, hw⟩ | ⟨t, w, hw, hont, -, -⟩
  · rw [hw]
    exact hony.mem
  · rw [hw]
    exact hont.mem

/-- The step of the walk is injective on the two rings. -/
theorem Walk.walkNext_inj {h : Heap} {rs rc : List Nat} (W : Walk h rs rc) {x1 x2 : Nat}
    (h1 : x1 ∈ rs ++ rc) (h2 : x2 ∈ rs ++ rc)
    (heq : walkNext h rs x1 = walkNext h rs x2) : x1 = x2 := by
  obtain ⟨y1, vy1, hon1, hvy1, hl1, hc1⟩ := W.walkNext_cases (WalkOn.of_mem h1)
  obtain ⟨y2, vy2, hon2, hvy2, hl2, hc2⟩ := W.walkNext_cases (WalkOn.of_mem h2)
  have same : y1 = y2 → x1 = x2 := by
    intro hy
    subst hy
    have hd : walkDir rs x1 = walkDir rs x2 := by
      rw [← hon1.dir_eq W.disj, ← hon2.dir_eq W.disj]
    rw [hd] at hl1
    rcases hl1 with ⟨hf, l1⟩ | ⟨hb, l1⟩
    · rcases hl2 with ⟨-, l2⟩ | ⟨hb, -⟩
      · exact Link.prev_unique l1 l2
      · rw [hf] at hb
        cases hb
    · rcases hl2 with ⟨hf, -⟩ | ⟨-, l2⟩
      · rw [hb] at hf
        cases hf
      · exact Link.next_unique l1 l2
  rcases hc1 with ⟨hn1, hw1⟩ | ⟨t1, w1, hw1, -, hwc1, hwt1⟩
  · rcases hc2 with ⟨hn2, hw2⟩ | ⟨t2, w2, hw2, -, hwc2, hwt2⟩
    · exact same (by rw [← hw1, ← hw2, heq])
    · exfalso
      have : y1 = t2 := by rw [← hw1, ← hw2, heq]
      subst this
      rw [hvy1] at hwc2
      cases hwc2
      rw [hn1] at hwt2
      cases hwt2
  · rcases hc2 with ⟨hn2, hw2⟩ | ⟨t2, w2, hw2, -, hwc2, hwt2⟩
    · exfalso
      have : t1 = y2 := by rw [← hw1, ← hw2, heq]
      subst this
      rw [hvy2] at hwc1
      cases hwc1
      rw [hn2] at hwt1
      cases hwt1
    · have : t1 = t2 := by rw [← hw1, ← hw2, heq]
      subst this
      rw [hwc1] at hwc2
      cases hwc2
      rw [hwt1] at hwt2
      exact same (Option.some.inj hwt2)

/-- The step of the walk does not depend on the visited marks. -/
theorem walkNext_visited {h h' : Heap} (hS : SameButVisited h h') (rs : List Nat) (x : Nat) :
    walkNext h' rs x = walkNext h rs x := by
  have cell : ∀ a : Nat, (h[a]? = none ∧ h'[a]? = none) ∨
      ∃ v v' : ClipVertex, h[a]? = some v ∧ h'[a]? = some v' ∧ v'.mTwin = v.mTwin ∧
        v'.mPrev = v.mPrev ∧ v'.mNext = v.mNext := by
    intro a
    by_cases hlt : a < h.length
    · obtain ⟨v', hv', -, -, e3, e4, e5, -⟩ := hS.2 a h[a] (List.getElem?_eq_getElem hlt)
      exact Or.inr ⟨_, v', List.getElem?_eq_getElem hlt, hv', e3, e4, e5⟩
    · exact Or.inl ⟨List.getElem?_eq_none (by omega),
        List.getElem?_eq_none (by rw [hS.1]; omega)⟩
  rcases cell x with ⟨e1, e2⟩ | ⟨v, v', e1, e2, et, ep, en⟩
  · simp only [walkNext, e1, e2]
  · have hG : GetNext v' (walkDir rs x) = GetNext v (walkDir rs x) := by
      cases walkDir rs x <;> simp [GetNext, ep, en]
    simp only [walkNext, e1, e2, hG]
    cases hy : GetNext v (walkDir rs x) with
    | none => rfl
    | some y =>
      simp only
      rcases cell y with ⟨f1, f2⟩ | ⟨w, w', f1, f2, ft, -, -⟩
      · simp only [f1, f2]
      · simp only [f1, f2, ft]

theorem iterate_inj_on (S : List Nat) (f : Nat → Nat) (maps : ∀ x ∈ S, f x ∈ S)
    (inj : ∀ x ∈ S, ∀ y ∈ S, f x = f y → x = y) :
    ∀ (n : Nat) (x y : Nat), x ∈ S → y ∈ S → f^[n] x = f^[n] y → x = y := by
  intro n
  induction n with
  | zero => intro x y _ _ hxy; exact hxy
  | succ n ih =>
    intro x y hx hy hxy
    rw [Function.iterate_succ_apply, Function.iterate_succ_apply] at hxy
    exact inj x hx y hy (ih (f x) (f y) (maps x hx) (maps y hy) hxy)

theorem iterate_mem_on (S : List Nat) (f : Nat → Nat) (maps : ∀ x ∈ S, f x ∈ S) :
    ∀ (n : Nat) (x : Nat), x ∈ S → f^[n] x ∈ S := by
  intro n
  induction n with
  | zero => intro x hx; exact hx
  | succ n ih =>
    intro x hx
    rw [Function.iterate_succ_apply]
    exact ih (f x) (maps x hx)

/-- An injective map of a finite set into itself brings every point back to itself. -/
theorem periodic_on (S : List Nat) (f : Nat → Nat) (maps : ∀ x ∈ S, f x ∈ S)
    (inj : ∀ x ∈ S, ∀ y ∈ S, f x = f y → x = y) (x : Nat) (hx : x ∈ S) :
    ∃ n, 1 ≤ n ∧ f^[n] x = x := by
  obtain ⟨i, -, j, -, hij, heq⟩ := Finset.exists_ne_map_eq_of_card_lt_of_maps_to
    (s := Finset.range (S.toFinset.card + 1)) (t := S.toFinset) (f := fun k => f^[k] x)
    (by simp) (fun k _ => by
      rw [List.mem_toFinset]
      exact iterate_mem_on S f maps k x hx)
  have key : ∀ a b : Nat, a < b → f^[a] x = f^[b] x → ∃ n, 1 ≤ n ∧ f^[n] x = x := by
    intro a b hab he
    refine ⟨b - a, by omega, ?_⟩
    have hb : b = a + (b - a) := by omega
    rw [hb, Function.iterate_add_apply] at he
    exact (iterate_inj_on S f maps inj a x (f^[b - a] x) hx
      (iterate_mem_on S f maps (b - a) x hx) he).symm
  rcases Nat.lt_or_gt_of_ne hij with hlt | hgt
  · exact key i j hlt heq
  · exact key j i hgt heq.symm

/-- The inner loop of `Subtract` ends: started anywhere on the walk that leads to the
contour start `a`, it returns with enough fuel, having only marked vertices visited. -/
theorem SubtractTrace_run {h0 : Heap} {rs rc : List Nat} (W0 : Walk h0 rs rc) (a : Nat) :
    ∀ (m x : Nat) (h : Heap) (work : List Ptr) (c : PointContour) (fuel : Nat),
      SameButVisited h0 h → x ∈ rs ++ rc → (∀ p ∈ work, LeavingVertex h rs p) →
      (∃ p, LeavingVertex h rs p) →
      (∃ j, 1 ≤ j ∧ j ≤ m ∧ (walkNext h0 rs)^[j] x = a) → m + rs.length ≤ fuel →
      ∃ (h' : Heap) (work' : List Ptr) (c' : PointContour),
        SubtractTrace (some a) fuel h (some x) (walkDir rs x) work c = some (h', work', c') ∧
        SameButVisited h h' ∧ (∀ p ∈ work', LeavingVertex h' rs p) ∧
        ∃ v : ClipVertex, h'[x]? = some v ∧ v.mVisited = true := by
  intro m
  induction m with
  | zero =>
    intro x h work c fuel _ _ _ _ hj _
    obtain ⟨j, h1, h2, -⟩ := hj
    omega
  | succ m ih =>
    intro x h work c fuel hS hx hwork hleave hj hfuel
    obtain ⟨fuel, rfl⟩ : ∃ f, fuel = f + 1 := ⟨fuel - 1, by omega⟩
    have W := W0.visited hS
    obtain ⟨v, v2, h1, work1, hv, hS1, hvis, -, ⟨W1, hon1, hwork1⟩, hv2, heq⟩ :=
      SubtractTrace_step W (WalkOn.of_mem hx) hwork hleave (some a) c fuel (by omega)
    rw [walkNext_visited hS] at hon1 hv2 heq
    rw [hon1.dir_eq W.disj] at heq
    by_cases hstop : some (walkNext h0 rs x) = some a
    · rw [if_pos hstop] at heq
      exact ⟨h1, work1, _, heq, hS1, hwork1, hvis⟩
    · rw [if_neg hstop] at heq
      by_cases hstop2 : v2.mTwin = some a
      · rw [if_pos hstop2] at heq
        exact ⟨h1, work1, _, heq, hS1, hwork1, hvis⟩
      · rw [if_neg hstop2] at heq
        obtain ⟨j, hj1, hj2, hja⟩ := hj
        have hj' : ∃ j', j = j' + 1 := ⟨j - 1, by omega⟩
        obtain ⟨j', rfl⟩ := hj'
        rw [Function.iterate_succ_apply] at hja
        have hj0 : j' ≠ 0 := by
          rintro rfl
          exact hstop (by rw [← hja]; rfl)
        obtain ⟨p0, hp0⟩ := hleave
        obtain ⟨h', work', c', hres, hS', hwork', -⟩ := ih (walkNext h0 rs x) h1 work1
          (c ++ [v.mPoint]) fuel (hS.step hS1) hon1.mem hwork1 ⟨p0, hp0.stays hS1⟩
          ⟨j', by omega, by omega, hja⟩ (by omega)
        rw [hon1.dir_eq W.disj] at hres
        refine ⟨h', work', c', by rw [heq, hres], hS1.step hS', hwork', ?_⟩
        obtain ⟨v1, hv1, hv1v⟩ := hvis
        obtain ⟨v1', hv1', -, -, -, -, -, hm⟩ := hS'.2 x v1 hv1
        exact ⟨v1', hv1', hm hv1v⟩

theorem countP_le_of_pointwise {α : Type} (p : α → Bool) :
    ∀ (l l' : List α), l.length = l'.length →
      (∀ (i : Nat) (x x' : α), l[i]? = some x → l'[i]? = some x' → p x' = true → p x = true) →
      l'.countP p ≤ l.countP p := by
  intro l
  induction l with
  | nil =>
    intro l' hlen _
    cases l' with
    | nil => exact le_refl _
    | cons _ _ => simp at hlen
  | cons x t ih =>
    intro l' hlen hp
    cases l' with
    | nil => simp at hlen
    | cons x' t' =>
      have iht := ih t' (by simpa using hlen) (fun i y y' hy hy' => hp (i + 1) y y'
        (by simpa using hy) (by simpa using hy'))
      have h0 := hp 0 x x' (by simp) (by simp)
      rw [List.countP_cons, List.countP_cons]
      by_cases hx' : p x' = true
      · rw [if_pos hx', if_pos (h0 hx')]
        omega
      · rw [if_neg hx']
        omega

theorem countP_lt_of_pointwise {α : Type} (p : α → Bool) :
    ∀ (l l' : List α), l.length = l'.length →
      (∀ (i : Nat) (x x' : α), l[i]? = some x → l'[i]? = some x' → p x' = true → p x = true) →
      (∃ (i : Nat) (x x' : α), l[i]? = some x ∧ l'[i]? = some x' ∧ p x = true ∧ p x' = false) →
      l'.countP p < l.countP p := by
  intro l
  induction l with
  | nil =>
    intro l' _ _ hex
    obtain ⟨i, x, x', hx, -⟩ := hex
    simp at hx
  | cons x t ih =>
    intro l' hlen hp hex
    cases l' with
    | nil => simp at hlen
    | cons x' t' =>
      have hlen' : t.length = t'.length := by simpa using hlen
      have hp' : ∀ (i : Nat) (y y' : α), t[i]? = some y → t'[i]? = some y' → p y' = true →
          p y = true := fun i y y' hy hy' => hp (i + 1) y y' (by simpa using hy)
            (by simpa using hy')
      have h0 := hp 0 x x' (by simp) (by simp)
      rw [List.countP_cons, List.countP_cons]
      obtain ⟨i, y, y', hy, hy', hpy, hpy'⟩ := hex
      cases i with
      | zero =>
        simp only [List.getElem?_cons_zero, Option.some.injEq] at hy hy'
        subst hy
        subst hy'
        have := countP_le_of_pointwise p t t' hlen' hp'
        rw [if_pos hpy, if_neg (by rw [hpy']; simp)]
        omega
      | succ i =>
        have := ih t' hlen' hp' ⟨i, y, y', by simpa using hy, by simpa using hy', hpy, hpy'⟩
        by_cases hx' : p x' = true
        · rw [if_pos hx', if_pos (h0 hx')]
          omega
        · rw [if_neg hx']
          omega

/-- Marking a vertex visited that was not visited lowers the number of unvisited cells. -/
theorem countP_unvisited_lt {h h' : Heap} (hS : SameButVisited h h') {a : Nat}
    {v v' : ClipVertex} (hv : h[a]? = some v) (hv' : h'[a]? = some v')
    (hu : v.mVisited = false) (hvis : v'.mVisited = true) :
    h'.countP (fun c => !c.mVisited) < h.countP (fun c => !c.mVisited) := by
  refine countP_lt_of_pointwise _ h h' hS.1.symm (fun i x x' hx hx' hp => ?_)
    ⟨a, v, v', hv, hv', by simp [hu], by simp [hvis]⟩
  obtain ⟨x'', hx'', -, -, -, -, -, hm⟩ := hS.2 i x hx
  rw [hx'] at hx''
  cases hx''
  cases hxv : x.mVisited with
  | false => rfl
  | true =>
    rw [hm hxv] at hp
    simp at hp

/-- The worklist loop of `Subtract` returns from every state in which the worklist holds
non-null `InToOut` vertices of the subject ring. -/
theorem SubtractLoop_returns {h0 : Heap} {rs rc : List Nat} (W0 : Walk h0 rs rc) :
    ∀ (u : Nat) (work : List Ptr) (h : Heap) (contours : PointContourList),
      SameButVisited h0 h → (∀ p ∈ work, LeavingVertex h rs p) →
      h.countP (fun c => !c.mVisited) ≤ u →
      ∃ (res : PointContourList) (F : Nat), ∀ fuel, F ≤ fuel →
        SubtractLoop fuel h work contours = some res := by
  intro u
  induction u using Nat.strong_induction_on with
  | _ u ihu =>
    intro work
    induction work with
    | nil =>
      intro h contours _ _ _
      refine ⟨contours, 1, fun fuel hf => ?_⟩
      obtain ⟨fuel, rfl⟩ : ∃ f, fuel = f + 1 := ⟨fuel - 1, by omega⟩
      simp [SubtractLoop]
    | cons p work ihw =>
      intro h contours hS hwork hu
      have hp := hwork p (List.mem_cons_self _ _)
      have hwork' : ∀ q ∈ work, LeavingVertex h rs q :=
        fun q hq => hwork q (List.mem_cons_of_mem _ hq)
      obtain ⟨a, v, rfl, ha, hv, hc⟩ := hp
      cases hvis : v.mVisited with
      | true =>
        obtain ⟨res, F, hF⟩ := ihw h contours hS hwork' hu
        refine ⟨res, F + 1, fun fuel hf => ?_⟩
        obtain ⟨fuel, rfl⟩ : ∃ f, fuel = f + 1 := ⟨fuel - 1, by omega⟩
        rw [SubtractLoop]
        simp only [deref, hv, hvis, if_true]
        exact hF fuel (by omega)
      | false =>
        have hmem : a ∈ rs ++ rc := List.mem_append_left _ ha
        obtain ⟨n, hn1, hn⟩ := periodic_on (rs ++ rc) (walkNext h0 rs)
          (fun x hx => W0.walkNext_mem hx) (fun x hx y hy => W0.walkNext_inj hx hy) a hmem
        obtain ⟨h1, work1, c1, htr, hS1, hwork1, v1, hv1, hv1v⟩ := SubtractTrace_run W0 a n a h
          work [] (n + rs.length) hS hmem hwork' ⟨some a, a, v, rfl, ha, hv, hc⟩
          ⟨n, hn1, le_refl _, hn⟩ (le_refl _)
        have hdir : walkDir rs a = ClipVertexSearchDirection.Forwards := by
          rw [walkDir, if_pos ha]
        rw [hdir] at htr
        have hlt := countP_unvisited_lt hS1 hv hv1 hvis hv1v
        obtain ⟨res, F, hF⟩ := ihu (h1.countP (fun c => !c.mVisited)) (by omega) work1 h1
          (contours ++ [c1]) (hS.step hS1) hwork1 (le_refl _)
        refine ⟨res, F + (n + rs.length) + 1, fun fuel hf => ?_⟩
        obtain ⟨fuel, rfl⟩ : ∃ f, fuel = f + 1 := ⟨fuel - 1, by omega⟩
        rw [SubtractLoop]
        simp only [deref, hv, hvis, Bool.false_eq_true, if_false,
          SubtractTrace_mono (some a) (n + rs.length) fuel _ _ _ _ _ _ (by omega) htr]
        exact hF fuel (by omega)

/-- The ring-level `Subtract` returns on every ring pair that can be walked. -/
theorem SubtractList_returns {h0 : Heap} {rs rc : List Nat} (W0 : Walk h0 rs rc) :
    ∃ (head : Ptr) (res : PointContourList),
      Returns (fun fuel => FindFirstOf fuel h0 rs[0]? ClipVertexClassification.InToOut) head ∧
      (head = none ∨ LeavingVertex h0 rs head) ∧
      Returns (fun fuel => SubtractList fuel h0 { mHead := rs[0]? } []) res := by
  have hpos : 0 < rs.length := List.length_pos.mpr W0.ringS.1
  have h00 : rs[0]? = some rs[0] := List.getElem?_eq_getElem hpos
  by_cases hex : ∃ (b : Nat) (w : ClipVertex), b ∈ rs ∧ h0[b]? = some w ∧
      w.mClassification = ClipVertexClassification.InToOut
  · have hfind : ∃ (b : Nat) (w : ClipVertex), (∀ fuel, rs.length ≤ fuel →
        FindFirstOf fuel h0 (some rs[0]) ClipVertexClassification.InToOut = some (some b)) ∧
        b ∈ rs ∧ h0[b]? = some w ∧ w.mClassification = ClipVertexClassification.InToOut := by
      obtain ⟨b, w, hf, hb, hw, hwc⟩ := FindFirstOf_ring_found W0.ringS
        ClipVertexClassification.InToOut (List.getElem_mem hpos) hex rs.length (le_refl _)
      exact ⟨b, w, fun fuel hfuel => FindFirstOf_mono _ _ _ _ _ _ hfuel hf, hb, hw, hwc⟩
    obtain ⟨b, w, hf, hb, hw, hwc⟩ := hfind
    have hL : LeavingVertex h0 rs (some b) := ⟨b, w, rfl, hb, hw, hwc⟩
    obtain ⟨res, F, hF⟩ := SubtractLoop_returns W0 _ [some b] h0 [] (SameButVisited.rfl' h0)
      (fun p hp => by
        rw [List.mem_singleton] at hp
        rw [hp]
        exact hL) (le_refl _)
    rw [h00]
    refine ⟨some b, res, ⟨rs.length, hf⟩, Or.inr hL, ⟨F + rs.length, fun fuel hfuel => ?_⟩⟩
    simp only [SubtractList, hf fuel (by omega), reduceCtorEq, if_false]
    exact hF fuel (by omega)
  · have hnone : ∀ a ∈ rs, ∀ v, h0[a]? = some v →
        v.mClassification ≠ ClipVertexClassification.InToOut :=
      fun a ha v hv hc => hex ⟨a, v, ha, hv, hc⟩
    have hf := FindFirstOf_ring_none h0 rs W0.ringS.toIsRing W0.ringS.1
      ClipVertexClassification.InToOut hnone
    refine ⟨none, [], ⟨rs.length, hf⟩, Or.inl rfl, ⟨rs.length, fun fuel hfuel => ?_⟩⟩
    simp only [SubtractList, hf fuel hfuel, if_true]

/-- C23: on the rings that `BuildClipList` returns for two non-empty contours, the
ring-level `Subtract` runs without dereferencing a null pointer and returns. The heap is
a state of the walk (`Walk`), in which the direction is `Forwards` exactly on the subject
ring; `FindFirstOf(mHead, InToOut)` returns null or an `InToOut` vertex of the subject
ring; every contour start popped from a worklist of such vertices is non-null and starts
the inner loop in a state of the walk; and each pass through the body of the inner loop
from a state of the walk pushes nothing or a non-null `InToOut` vertex of the subject ring
(`FindFirstOf` does not return null there), and then ends or goes on in a state of the
walk. -/
theorem C23_Subtract_walk_direction (P Q : PointContour) (hP : P ≠ []) (hQ : Q ≠ []) :
    ∃ (h : Heap) (rs rc : List Nat), ClipListRings P Q h rs rc ∧ Walk h rs rc ∧
      (∀ (x : Nat) (d : ClipVertexSearchDirection), WalkOn rs rc x d →
        (d = ClipVertexSearchDirection.Forwards ↔ x ∈ rs)) ∧
      (∃ (head : Ptr) (contours : PointContourList),
        Returns (fun fuel =>
          FindFirstOf fuel h (some Q.length) ClipVertexClassification.InToOut) head ∧
        (head = none ∨ LeavingVertex h rs head) ∧
        Returns (fun fuel => SubtractList fuel h { mHead := some Q.length } []) contours) ∧
      (∀ (h' : Heap) (p : Ptr) (work : List Ptr), Walk h' rs rc →
        (∀ q ∈ p :: work, LeavingVertex h' rs q) →
        ∃ (a : Nat) (v : ClipVertex), p = some a ∧ deref h' p = some v ∧
          SubtractState h' rs rc a ClipVertexSearchDirection.Forwards work) ∧
      (∀ (h' : Heap) (x : Nat) (d : ClipVertexSearchDirection) (work : List Ptr) (cs : Ptr)
          (c : PointContour) (fuel : Nat),
        SubtractState h' rs rc x d work → LeavingVertex h' rs cs → rs.length ≤ fuel →
        ∃ (h'' : Heap) (work' : List Ptr) (c' : PointContour),
          (work' = work ∨ ∃ p, work' = p :: work ∧ LeavingVertex h'' rs p) ∧
          (∀ q ∈ work', LeavingVertex h'' rs q) ∧ Walk h'' rs rc ∧
          (SubtractTrace cs (fuel + 1) h' (some x) d work c = some (h'', work', c') ∨
            ∃ (x' : Nat) (d' : ClipVertexSearchDirection),
              SubtractState h'' rs rc x' d' work' ∧
              SubtractTrace cs (fuel + 1) h' (some x) d work c =
                SubtractTrace cs fuel h'' (some x') d' work' c')) := by
  obtain ⟨h, rs, rc, hR, E⟩ := BuildClipList_rings P Q hP hQ
  have W0 : Walk h rs rc := Walk.of_enr E
  have hs0 : rs[0]? = some Q.length := by
    rw [← List.head?_eq_getElem?]
    exact hR.2.2.1
  refine ⟨h, rs, rc, hR, W0, ?_, ?_, ?_, ?_⟩
  · intro x d hon
    rcases hon with ⟨hd, hx⟩ | ⟨hd, hx⟩
    · exact ⟨fun _ => hx, fun _ => hd⟩
    · constructor
      · intro hf
        rw [hf] at hd
        cases hd
      · intro hxs
        exact absurd hx (W0.disj x hxs)
  · obtain ⟨head, res, hf, hhead, hret⟩ := SubtractList_returns W0
    rw [hs0] at hf hret
    exact ⟨head, res, hf, hhead, hret⟩
  · intro h' p work W hwork
    obtain ⟨a, v, hp, ha, hv, -⟩ := hwork p (List.mem_cons_self _ _)
    subst hp
    exact ⟨a, v, rfl, by rw [deref_some, hv], W, Or.inl ⟨rfl, ha⟩,
      fun q hq => hwork q (List.mem_cons_of_mem _ hq)⟩
  · intro h' x d work cs c fuel hst hcs hfuel
    obtain ⟨W, hon, hwork⟩ := hst
    obtain ⟨v, v2, h1, work1, -, -, -, hpush, hst1, -, heq⟩ :=
      SubtractTrace_step W hon hwork ⟨cs, hcs⟩ cs c fuel hfuel
    refine ⟨h1, work1, c ++ [v.mPoint], hpush, hst1.2.2, hst1.1, ?_⟩
    by_cases hstop : some (walkNext h' rs x) = cs
    · rw [if_pos hstop] at heq
      exact Or.inl heq
    · rw [if_neg hstop] at heq
      by_cases hstop2 : v2.mTwin = cs
      · rw [if_pos hstop2] at heq
        exact Or.inl heq
      · rw [if_neg hstop2] at heq
        exact Or.inr ⟨_, _, hst1, heq⟩

/-- C23 on the two squares of the scenario. -/
theorem C23_Subtract_walk_direction_witness :
    unitSquare ≠ [] ∧ offsetSquare ≠ [] ∧
    ∃ (h : Heap) (rs rc : List Nat), ClipListRings unitSquare offsetSquare h rs rc ∧
      Walk h rs rc ∧
      (∀ (x : Nat) (d : ClipVertexSearchDirection), WalkOn rs rc x d →
        (d = ClipVertexSearchDirection.Forwards ↔ x ∈ rs)) ∧
      (∃ (head : Ptr) (contours : PointContourList),
        Returns (fun fuel =>
          FindFirstOf fuel h (some offsetSquare.length) ClipVertexClassification.InToOut)
          head ∧
        (head = none ∨ LeavingVertex h rs head) ∧
        Returns (fun fuel => SubtractList fuel h { mHead := some offsetSquare.length } [])
          contours) ∧
      (∀ (h' : Heap) (p : Ptr) (work : List Ptr), Walk h' rs rc →
        (∀ q ∈ p :: work, LeavingVertex h' rs q) →
        ∃ (a : Nat) (v : ClipVertex), p = some a ∧ deref h' p = some v ∧
          SubtractState h' rs rc a ClipVertexSearchDirection.Forwards work) ∧
      (∀ (h' : Heap) (x : Nat) (d : ClipVertexSearchDirection) (work : List Ptr) (cs : Ptr)
          (c : PointContour) (fuel : Nat),
        SubtractState h' rs rc x d work → LeavingVertex h' rs cs → rs.length ≤ fuel →
        ∃ (h'' : Heap) (work' : List Ptr) (c' : PointContour),
          (work' = work ∨ ∃ p, work' = p :: work ∧ LeavingVertex h'' rs p) ∧
          (∀ q ∈ work', LeavingVertex h'' rs q) ∧ Walk h'' rs rc ∧
          (SubtractTrace cs (fuel + 1) h' (some x) d work c = some (h'', work', c') ∨
            ∃ (x' : Nat) (d' : ClipVertexSearchDirection),
              SubtractState h'' rs rc x' d' work' ∧
              SubtractTrace cs (fuel + 1) h' (some x) d work c =
                SubtractTrace cs fuel h'' (some x') d' work' c')) :=
  ⟨by simp [unitSquare], by simp [offsetSquare],
    C23_Subtract_walk_direction unitSquare offsetSquare (by simp [unitSquare])
      (by simp [offsetSquare])⟩

/-- With an empty contour `BuildClipList` does not return: a traversal starts at the
null head of the empty ring. -/
theorem BuildClipList_empty (fuel : Nat) (P Q : PointContour) (hPQ : P = [] ∨ Q = []) :
    BuildClipList fuel P Q [] = none := by
  unfold BuildClipList
  by_cases hQ : Q = []
  · subst hQ
    by_cases hP : P = []
    · subst hP
      cases fuel <;> simp [BuildVertexList, ClipPolygon, Traverse, deref]
    · obtain ⟨h2, e2, -, -, c2⟩ := BuildVertexList_spec P [] hP
      have hpos : 0 < P.length := List.length_pos.mpr hP
      have hc := c2 0 P[0] (List.getElem?_eq_getElem hpos)
      simp only [List.length_nil, Nat.zero_add] at hc e2
      have e1 : BuildVertexList ([] : PointContour) [] = some ([], { mHead := none }) := by
        simp [BuildVertexList]
      simp only [e1, e2]
      cases fuel with
      | zero => simp [ClipPolygon, Traverse]
      | succ f =>
        cases f with
        | zero =>
          simp [ClipPolygon, Traverse, deref, hc, ClipPolygonCallback, ClipEdges, ClipEdgesLoop]
        | succ f =>
          simp [ClipPolygon, Traverse, deref, hc, ClipPolygonCallback, ClipEdges, ClipEdgesLoop]
  · have hP : P = [] := hPQ.resolve_right hQ
    subst hP
    obtain ⟨h1, e1, -⟩ := BuildVertexList_spec Q [] hQ
    have e2 : BuildVertexList ([] : PointContour) h1 = some (h1, { mHead := none }) := by
      simp [BuildVertexList]
    simp only [e1, e2]
    cases fuel <;> simp [ClipPolygon, Traverse, deref]

/-! ### Signed areas of paths and rings -/

theorem pathCross_cons_cons (a b : Vec2) (t : List Vec2) :
    pathCross (a :: b :: t) = Cross2d a b + pathCross (b :: t) := rfl

theorem pathCross_append (l : List Vec2) (x : Vec2) (r : List Vec2) :
    pathCross (l ++ x :: r) = pathCross (l ++ [x]) + pathCross (x :: r) := by
  induction l with
  | nil => simp [pathCross]
  | cons a t ih =>
    cases t with
    | nil => simp [pathCross]
    | cons b t' =>
      simp only [List.cons_append, pathCross_cons_cons] at ih ⊢
      rw [ih]
      ring

theorem zip_rotate_sum (x y : Vec2) (t : List Vec2) :
    (((x :: t).zip (t ++ [y])).map (fun e => Cross2d e.1 e.2)).sum = pathCross (x :: t ++ [y]) := by
  induction t generalizing x with
  | nil => simp [pathCross]
  | cons b t ih =>
    simp only [List.cons_append, List.zip_cons_cons, List.map_cons, List.sum_cons,
      pathCross_cons_cons]
    rw [ih]
    rfl

/-- The shoelace area of a contour is half the cross sum along the closed path. -/
theorem shoelaceArea_eq_pathCross (c : PointContour) :
    shoelaceArea c = pathCross (c ++ c.take 1) / 2 := by
  cases c with
  | nil => simp [shoelaceArea, pathCross]
  | cons a t =>
    simp only [shoelaceArea, List.rotate_cons_succ, List.rotate_zero, List.take_succ_cons,
      List.take_zero]
    rw [zip_rotate_sum]

theorem sum_range_succ_map (f : Nat → ℚ) (n : Nat) :
    ((List.range (n + 1)).map f).sum = ((List.range n).map f).sum + f n := by
  rw [List.range_succ, List.map_append, List.sum_append]
  simp

theorem areaBelow_succ (h : Heap) (n : Nat) : areaBelow h (n + 1) = areaBelow h n + areaAt h n :=
  sum_range_succ_map _ n

/-- Changing the cells of a duplicate-free list `X` changes the area sum by the
contributions of these cells. -/
theorem areaBelow_update (h h' : Heap) (n : Nat) :
    ∀ (X : List Nat), X.Nodup → (∀ a ∈ X, a < n) →
      (∀ a, a < n → a ∉ X → areaAt h' a = areaAt h a) →
      areaBelow h' n = areaBelow h n - (X.map (areaAt h)).sum + (X.map (areaAt h')).sum := by
  induction n with
  | zero =>
    intro X _ hX _
    cases X with
    | nil => simp [areaBelow]
    | cons a t => exact absurd (hX a (by simp)) (by omega)
  | succ n ih =>
    intro X hnd hX hsame
    rw [areaBelow_succ, areaBelow_succ]
    by_cases hn : n ∈ X
    · have hperm := List.perm_cons_erase hn
      have hnd' : (X.erase n).Nodup := hnd.erase n
      have hlt : ∀ a ∈ X.erase n, a < n := by
        intro a ha
        have h1 := hX a (List.mem_of_mem_erase ha)
        have h2 : a ≠ n := fun hc => by
          rw [hc] at ha
          exact (List.Nodup.not_mem_erase hnd) ha
        omega
      have hs' : ∀ a, a < n → a ∉ X.erase n → areaAt h' a = areaAt h a := by
        intro a ha hna
        refine hsame a (by omega) (fun hc => hna ?_)
        exact (List.mem_erase_of_ne (by omega)).mpr hc
      rw [ih (X.erase n) hnd' hlt hs']
      have e1 : (X.map (areaAt h)).sum = areaAt h n + ((X.erase n).map (areaAt h)).sum := by
        rw [(hperm.map (areaAt h)).sum_eq]
        simp
      have e2 : (X.map (areaAt h')).sum = areaAt h' n + ((X.erase n).map (areaAt h')).sum := by
        rw [(hperm.map (areaAt h')).sum_eq]
        simp
      rw [e1, e2]
      ring
    · have hlt : ∀ a ∈ X, a < n := by
        intro a ha
        have h1 := hX a ha
        have h2 : a ≠ n := fun hc => hn (hc ▸ ha)
        omega
      rw [ih X hnd hlt (fun a ha hna => hsame a (by omega) hna), hsame n (by omega) hn]
      ring

/-- The contribution of a cell depends only on its point, its `mNext` and the point of
the cell behind `mNext`. -/
theorem areaAt_congr {h h' : Heap} {a : Nat} {v v' : ClipVertex} (hv : h[a]? = some v)
    (hv' : h'[a]? = some v') (hp : v'.mPoint = v.mPoint) (hn : v'.mNext = v.mNext)
    (ht : ∀ k, v.mNext = some k → (h'[k]?).map (fun w => w.mPoint) = (h[k]?).map (fun w => w.mPoint)) :
    areaAt h' a = areaAt h a := by
  simp only [areaAt, hv, hv', hn, hp]
  cases hk : v.mNext with
  | none => simp [deref]
  | some k =>
    have := ht k hk
    simp only [deref]
    cases h1 : h[k]? with
    | none =>
      rw [h1] at this
      simp only [Option.map_none', Option.map_eq_none'] at this
      rw [this]
    | some w =>
      rw [h1] at this
      simp only [Option.map_some', Option.map_eq_some'] at this
      obtain ⟨w', hw', hpw⟩ := this
      rw [hw']
      simp only
      rw [hpw]

theorem areaAt_of_link {h : Heap} {a b : Nat} {v w : ClipVertex} (hv : h[a]? = some v)
    (hn : v.mNext = some b) (hw : h[b]? = some w) :
    areaAt h a = Cross2d v.mPoint w.mPoint := by
  simp [areaAt, hv, hn, deref, hw]

theorem areaAt_of_none {h : Heap} {a : Nat} {v : ClipVertex} (hv : h[a]? = some v)
    (hn : v.mNext = none) : areaAt h a = 0 := by
  simp [areaAt, hv, hn, deref]

/-- The cross sum along collinear points telescopes. -/
theorem pathCross_pointAt (p q : Vec2) (t0 : ℚ) (ts : List ℚ) :
    pathCross ((t0 :: ts).map (pointAt p q)) =
      (((t0 :: ts).getLast (List.cons_ne_nil _ _)) - t0) * Cross2d p q := by
  induction ts generalizing t0 with
  | nil => simp [pathCross]
  | cons t1 ts ih =>
    simp only [List.map_cons, pathCross_cons_cons] at ih ⊢
    rw [ih t1]
    rw [List.getLast_cons (List.cons_ne_nil _ _)]
    simp only [pointAt, Cross2d, Vec2.add, Vec2.sub, Vec2.scale]
    ring

theorem pointAt_zero (p q : Vec2) : pointAt p q 0 = p := by
  simp [pointAt, Vec2.add, Vec2.sub, Vec2.scale]

theorem pointAt_one (p q : Vec2) : pointAt p q 1 = q := by
  simp [pointAt, Vec2.add, Vec2.sub, Vec2.scale]

theorem SignedArea_eq_cross (a b x : Vec2) :
    SignedArea a b x = Cross2d a b - Cross2d a x - Cross2d x b := by
  simp only [SignedArea, Cross2d, Vec2.sub]
  ring

/-! ### The enrichment keeps the area of the heap -/

theorem insertedHeapCell_old {h : Heap} {pt : Vec2} {r : Intersection} {cs cn a : Nat}
    {v : ClipVertex} (hv : h[a]? = some v) :
    insertedHeapCell h pt r cs cn a =
      some { v with mNext := if a = cs then some h.length else v.mNext,
                    mPrev := if a = cn then some h.length else v.mPrev } := by
  have hlt := getElem?_lt_of_some hv
  rw [insertedHeapCell, if_neg (by omega), if_neg (by omega), hv]
  rfl

/-- The insert block of `ClipEdges` keeps the area of the heap when the new point lies
on the line through the two clip vertices it is spliced between. -/
theorem heapArea_insert {h h' : Heap} {pt : Vec2} {r : Intersection} {cs cn : Nat}
    {vcs vcn : ClipVertex} (hlen : h'.length = h.length + 2)
    (hcell : ∀ a, h'[a]? = insertedHeapCell h pt r cs cn a)
    (hvcs : h[cs]? = some vcs) (hnext : vcs.mNext = some cn) (hvcn : h[cn]? = some vcn)
    (hND : ∀ (a : Nat) (v : ClipVertex) (k : Nat), h[a]? = some v → v.mNext = some k →
      k < h.length)
    (hline : SignedArea vcs.mPoint vcn.mPoint pt = 0) :
    heapArea h' = heapArea h := by
  have hcslt := getElem?_lt_of_some hvcs
  have hcnlt := getElem?_lt_of_some hvcn
  obtain ⟨vN, hN, hNp, hNn⟩ : ∃ vN : ClipVertex, h'[h.length]? = some vN ∧ vN.mPoint = pt ∧
      vN.mNext = some cn := by
    rw [hcell, insertedHeapCell, if_pos rfl]
    exact ⟨_, rfl, rfl, rfl⟩
  obtain ⟨vE, hE, hEn⟩ : ∃ vE : ClipVertex, h'[h.length + 1]? = some vE ∧ vE.mNext = none := by
    rw [hcell, insertedHeapCell, if_neg (by omega), if_pos rfl]
    exact ⟨_, rfl, rfl⟩
  have hcs' := hcell cs
  rw [insertedHeapCell_old hvcs] at hcs'
  have hcn' := hcell cn
  rw [insertedHeapCell_old hvcn] at hcn'
  have hsame : ∀ a, a < h.length → a ∉ [cs] → areaAt h' a = areaAt h a := by
    intro a ha hne
    have hne' : a ≠ cs := by simpa using hne
    have hv : h[a]? = some h[a] := List.getElem?_eq_getElem ha
    have hv' := hcell a
    rw [insertedHeapCell_old hv] at hv'
    refine areaAt_congr hv hv' rfl (by simp [hne']) ?_
    intro k hk
    have hklt := hND a _ k hv hk
    have hw : h[k]? = some h[k] := List.getElem?_eq_getElem hklt
    rw [hcell k, insertedHeapCell_old hw, hw]
    rfl
  have h1 := areaBelow_update h h' h.length [cs] (List.nodup_singleton cs)
    (fun a ha => by rw [List.mem_singleton] at ha; omega) hsame
  have e0 : areaAt h cs = Cross2d vcs.mPoint vcn.mPoint := areaAt_of_link hvcs hnext hvcn
  have e1 : areaAt h' cs = Cross2d vcs.mPoint pt := by
    rw [areaAt_of_link hcs' (by simp) hN, hNp]
  have e2 : areaAt h' h.length = Cross2d pt vcn.mPoint := by
    rw [areaAt_of_link hN hNn hcn', hNp]
  have e3 : areaAt h' (h.length + 1) = 0 := areaAt_of_none hE hEn
  have hl := SignedArea_eq_cross vcs.mPoint vcn.mPoint pt
  rw [hline] at hl
  unfold heapArea
  rw [hlen, areaBelow_succ, areaBelow_succ, h1, e3, e2]
  simp only [List.map_cons, List.map_nil, List.sum_cons, List.sum_nil, e0, e1]
  linarith

/-- In a state of the enrichment no `mNext` points outside the heap, provided the
pending vertices are not linked yet. -/
theorem Enr.noDangling {pS pC : ClipVertexClassification → Prop} {N0 : Nat} {oS oC : List Nat}
    {h : Heap} {rs rc pend : List Nat} (E : Enr pS pC N0 oS oC h rs rc pend)
    (hJ : ∀ p ∈ pend, ∀ v : ClipVertex, h[p]? = some v → v.mNext = none) :
    ∀ (a : Nat) (v : ClipVertex) (k : Nat), h[a]? = some v → v.mNext = some k →
      k < h.length := by
  intro a v k hv hk
  have halt := getElem?_lt_of_some hv
  rcases E.cover a halt with ha | ha | ha
  · obtain ⟨v1, e, hv1, hn1, hl⟩ := E.ringS.mem_heap ha
    rw [hv] at hv1
    cases hv1
    rw [hk] at hn1
    cases hn1
    obtain ⟨w, hw, -⟩ := hl.2
    exact getElem?_lt_of_some hw
  · obtain ⟨v1, e, hv1, hn1, hl⟩ := E.ringC.mem_heap ha
    rw [hv] at hv1
    cases hv1
    rw [hk] at hn1
    cases hn1
    obtain ⟨w, hw, -⟩ := hl.2
    exact getElem?_lt_of_some hw
  · rw [hJ a ha v hv] at hk
    cases hk

/-- One pass through the body of the loop of `ClipEdges`, with the area. -/
theorem ClipEdges_body_area {pS pC : ClipVertexClassification → Prop} {N0 : Nat}
    {oS oC : List Nat} {h0 : Heap} {rs rc0 : List Nat} (hnd : rc0.Nodup)
    (hin0 : ∀ a ∈ rc0, a < h0.length) {s e : Nat} {sv ev : ClipVertex}
    (hsv : h0[s]? = some sv) (hev : h0[e]? = some ev)
    {j a : Nat} {h : Heap} {nv : List IntersectionVerts} (hj : rc0[j]? = some a)
    (hinv : LoopInvArea pS pC N0 oS oC h0 rs rc0 sv.mPoint ev.mPoint j h nv) :
    ∃ (b : Nat) (cs s' e' cn : ClipVertex) (h' : Heap) (nv' : List IntersectionVerts),
      rc0[(j + 1) % rc0.length]? = some b ∧
      deref h (some a) = some cs ∧ cs.mNext = some b ∧ deref h (some s) = some s' ∧
      deref h (some e) = some e' ∧ deref h (some b) = some cn ∧
      (if 0 ≤ (ComputeIntersectionPoint s'.mPoint e'.mPoint cs.mPoint cn.mPoint).time ∧
          (ComputeIntersectionPoint s'.mPoint e'.mPoint cs.mPoint cn.mPoint).time ≤ 1 then
        ClipEdgesInsert h s'.mPoint e'.mPoint (some a) (some b)
          (ComputeIntersectionPoint s'.mPoint e'.mPoint cs.mPoint cn.mPoint) nv
       else some (h, nv)) = some (h', nv') ∧
      LoopInvArea pS pC N0 oS oC h0 rs rc0 sv.mPoint ev.mPoint (j + 1) h' nv' := by
  obtain ⟨hL, hA, hJ⟩ := hinv
  obtain ⟨b, cs, s', e', cn, h', nv', hb, hcs, hcsn, hs', he', hcn, hbody, hL'⟩ :=
    ClipEdges_body hnd hin0 hsv hev hj hL
  refine ⟨b, cs, s', e', cn, h', nv', hb, hcs, hcsn, hs', he', hcn, hbody, hL', ?_⟩
  by_cases hf : 0 ≤ (ComputeIntersectionPoint s'.mPoint e'.mPoint cs.mPoint cn.mPoint).time ∧
          (ComputeIntersectionPoint s'.mPoint e'.mPoint cs.mPoint cn.mPoint).time ≤ 1
  · rw [if_pos hf] at hbody
    obtain ⟨h'', hins, hlen, hcell⟩ := ClipEdgesInsert_spec h s'.mPoint e'.mPoint a b
      (ComputeIntersectionPoint s'.mPoint e'.mPoint cs.mPoint cn.mPoint) nv
      (getElem?_lt_of_some hcs) (getElem?_lt_of_some hcn)
    rw [hins] at hbody
    simp only [Option.some.injEq, Prod.mk.injEq] at hbody
    obtain ⟨rfl, rfl⟩ := hbody
    obtain ⟨rc, pend, E, hnvP, -⟩ := hL
    have hJp : ∀ p ∈ pend, ∀ v : ClipVertex, h[p]? = some v → v.mNext = none := by
      intro p hp v hv
      have : some p ∈ nv.map (fun x => x.mVertex) := by
        rw [hnvP]
        exact List.mem_map_of_mem _ hp
      obtain ⟨x, hx, hxp⟩ := List.mem_map.mp this
      obtain ⟨p', v', hp', hv', hn'⟩ := hJ x hx
      rw [hxp] at hp'
      cases hp'
      rw [hv] at hv'
      cases hv'
      exact hn'
    have hrep : ReportsIntersection
        (ComputeIntersectionPoint s'.mPoint e'.mPoint cs.mPoint cn.mPoint) := by
      unfold ReportsIntersection
      intro hc
      rw [hc] at hf
      norm_num at hf
    have hline := (reported_is_genuine _ _ _ _ hrep).1
    refine ⟨?_, ?_⟩
    · rw [← hA]
      exact heapArea_insert hlen hcell hcs hcsn hcn (E.noDangling hJp) hline
    · intro x hx
      rw [List.mem_append, List.mem_singleton] at hx
      rcases hx with hx | hx
      · obtain ⟨p, v, hp, hv, hn⟩ := hJ x hx
        have hpa : p ≠ a := by
          rintro rfl
          rw [deref, hv] at hcs
          cases hcs
          rw [hn] at hcsn
          cases hcsn
        have hv' := hcell p
        rw [insertedHeapCell_old hv] at hv'
        exact ⟨p, _, hp, hv', by simp [hpa, hn]⟩
      · subst hx
        have hv' := hcell (h.length + 1)
        rw [insertedHeapCell, if_neg (by omega), if_pos rfl] at hv'
        exact ⟨h.length + 1, _, rfl, hv', rfl⟩
  · rw [if_neg hf] at hbody
    simp only [Option.some.injEq, Prod.mk.injEq] at hbody
    obtain ⟨rfl, rfl⟩ := hbody
    exact ⟨hA, hJ⟩

/-- The loop of `ClipEdges` goes once around the clip ring found at entry and keeps the
area of the heap. -/
theorem ClipEdgesLoop_inv_area {pS pC : ClipVertexClassification → Prop} {N0 : Nat}
    {oS oC : List Nat} {h0 : Heap} {rs rc0 : List Nat} (hnd : rc0.Nodup)
    (hin0 : ∀ a ∈ rc0, a < h0.length) {s e : Nat} {sv ev : ClipVertex}
    (hsv : h0[s]? = some sv) (hev : h0[e]? = some ev) :
    ∀ (n j a : Nat) (h : Heap) (nv : List IntersectionVerts) (fuel : Nat),
      rc0[j]? = some a → j + n = rc0.length → n ≤ fuel →
      LoopInvArea pS pC N0 oS oC h0 rs rc0 sv.mPoint ev.mPoint j h nv →
      ∃ h' nv', ClipEdgesLoop (some s) (some e) rc0[0]? fuel (some a) h nv = some (h', nv') ∧
        LoopInvArea pS pC N0 oS oC h0 rs rc0 sv.mPoint ev.mPoint rc0.length h' nv' := by
  intro n
  induction n with
  | zero =>
    intro j a h nv fuel hj hlen _ _
    rw [List.getElem?_eq_none (by omega)] at hj
    cases hj
  | succ n ih =>
    intro j a h nv fuel hj hlen hfuel hinv
    obtain ⟨fuel, rfl⟩ : ∃ f, fuel = f + 1 := ⟨fuel - 1, by omega⟩
    obtain ⟨b, cs, s', e', cn, h', nv', hb, hcs, hcsn, hs', he', hcn, hbody, hinv'⟩ :=
      ClipEdges_body_area hnd hin0 hsv hev hj hinv
    rw [ClipEdgesLoop]
    simp only [hcs, hcsn, hs', he', hcn, hbody]
    by_cases hlast : j + 1 = rc0.length
    · have h0' : (j + 1) % rc0.length = 0 := by rw [hlast]; exact Nat.mod_self _
      rw [h0'] at hb
      simp only [hb, ne_eq, not_true_eq_false, if_false]
      refine ⟨h', nv', rfl, ?_⟩
      rw [← hlast]
      exact hinv'
    · have hlt : j + 1 < rc0.length := by omega
      rw [Nat.mod_eq_of_lt hlt] at hb
      have hne : some b ≠ rc0[0]? := by
        intro hc
        have := List.getElem?_inj hlt hnd (hb.trans hc)
        omega
      simp only [ne_eq, hne, not_false_eq_true, if_true]
      exact ih (j + 1) b h' nv' fuel hb (by omega) (by omega) hinv'

/-- The contributions of the cells of a chain add up to the cross sum along the points
of the chain. -/
theorem chain_area {h : Heap} : ∀ (c : List Nat) (pts : List Vec2),
    List.Forall₂ (fun a p => ∃ v : ClipVertex, h[a]? = some v ∧ v.mPoint = p) c pts →
    List.Chain' (Link h) c → (c.dropLast.map (areaAt h)).sum = pathCross pts := by
  intro c pts hF
  induction hF with
  | nil => intro _; simp [pathCross]
  | @cons a p c' pts' hap hrest ih =>
    intro hc
    cases hrest with
    | nil => simp [pathCross]
    | @cons b q c'' pts'' hbq hrest' =>
      rw [List.chain'_cons] at hc
      have ih' := ih hc.2
      rw [List.dropLast_cons₂, List.map_cons, List.sum_cons, ih', pathCross_cons_cons]
      obtain ⟨v, hv, hvp⟩ := hap
      obtain ⟨w, hw, hwp⟩ := hbq
      obtain ⟨⟨v1, hv1, hn1⟩, -⟩ := hc.1
      rw [hv] at hv1
      cases hv1
      rw [areaAt_of_link hv hn1 hw, hvp, hwp]

/-- The edge clipper: `ClipEdges` returns, keeps the enrichment invariant, threads the
crossings of the subject edge in the order of their parameters, and keeps the area of the
heap. -/
theorem ClipEdges_spec_area {pS pC : ClipVertexClassification → Prop} {N0 : Nat}
    {oS oC : List Nat} {h0 : Heap} {rs rc0 : List Nat}
    (E0 : Enr pS pC N0 oS oC h0 rs rc0 []) {s e : Nat} (hs : s ∈ rs) (hl : Link h0 s e)
    {sv ev : ClipVertex} (hsv : h0[s]? = some sv) (hev : h0[e]? = some ev)
    (fuel : Nat) (hfuel : rc0.length ≤ fuel) :
    ∃ (h' : Heap) (A B P rc' : List Nat),
      ClipEdges fuel h0 (some s) (some e) { mHead := rc0[0]? } = some h' ∧
      rs = A ++ s :: B ∧
      Enr pS pC N0 oS oC h' (A ++ s :: (P ++ B)) rc' [] ∧
      (∀ p ∈ P, h0.length ≤ p) ∧
      Relink (s :: rc0) (e :: rc0) h0 h' ∧
      List.Chain' (Link h') (s :: P ++ [e]) ∧
      List.Forall₂ (fun p t => ∃ v : ClipVertex, h'[p]? = some v ∧
          v.mPoint = pointAt sv.mPoint ev.mPoint t) P
        (List.insertionSort (fun a b => a ≤ b)
          ((List.range rc0.length).filterMap (edgeTime h0 rc0 sv.mPoint ev.mPoint))) ∧
      heapArea h' = heapArea h0 := by
  have hnd := E0.ringC.2.1
  have hne := E0.ringC.1
  have hpos : 0 < rc0.length := List.length_pos.mpr hne
  have hin0 : ∀ a ∈ rc0, a < h0.length := fun a ha => E0.ringC.lt_length ha
  have he : e ∈ rs := E0.ringS.next_mem hs hl
  have hs0 : s ∉ rc0 := E0.disjSC s hs
  have he0 : e ∉ rc0 := E0.disjSC e he
  have hinv00 : LoopInv pS pC N0 oS oC h0 rs rc0 sv.mPoint ev.mPoint 0 h0 [] := by
    have hR00 : Relink rc0 rc0 h0 h0 :=
      (Relink.unchanged h0).mono (fun a ha => (by cases ha)) (fun a ha => (by cases ha))
    refine ⟨rc0, [], E0, rfl, fun a ha => ha, (fun a ha => (by cases ha)), hR00, ?_, (by simp),
      (fun x hx => (by cases hx))⟩
    intro i a _ hi
    obtain ⟨b, hb, hlab⟩ := E0.ringC.link_at hi
    obtain ⟨v, hv, hn⟩ := hlab.1
    exact ⟨v, hv, by rw [hn, hb]⟩
  have hinv0 : LoopInvArea pS pC N0 oS oC h0 rs rc0 sv.mPoint ev.mPoint 0 h0 [] :=
    ⟨hinv00, rfl, fun x hx => (by cases hx)⟩
  have h00 : rc0[0]? = some rc0[0] := List.getElem?_eq_getElem hpos
  obtain ⟨h1, nv, hloop, hinv1, hA1, hJ1⟩ := ClipEdgesLoop_inv_area hnd hin0 hsv hev
    rc0.length 0 rc0[0] h0 [] fuel h00 (by omega) hfuel hinv0
  obtain ⟨rc, pend, E1, hnvP, hsub, hpnew, hR0, -, htimes, hpts⟩ := hinv1
  have hallsome : ∀ x ∈ List.insertionSort (fun a b => a.mTime ≤ b.mTime) nv,
      ∃ p, x.mVertex = some p := by
    intro x hx
    rw [List.mem_insertionSort] at hx
    obtain ⟨p, -, hp, -⟩ := hpts x hx
    exact ⟨p, hp⟩
  obtain ⟨P, hPdef⟩ : ∃ P, P = (List.insertionSort (fun a b => a.mTime ≤ b.mTime) nv).filterMap
      (fun x => x.mVertex) := ⟨_, rfl⟩
  have hmapP : (List.insertionSort (fun a b => a.mTime ≤ b.mTime) nv).map (fun x => x.mVertex)
      = P.map some := by
    rw [hPdef]
    exact map_eq_map_some_filterMap _ _ hallsome
  have hPperm : P.Perm pend := by
    rw [hPdef, ← filterMap_eq_of_map_eq_map_some _ nv pend hnvP]
    exact (List.perm_insertionSort _ nv).filterMap _
  have hPp : ∀ a, a ∈ P ↔ a ∈ pend := fun a => hPperm.mem_iff
  have hndP : (s :: P).Nodup := by
    rw [List.nodup_cons]
    exact ⟨fun hc => E1.disjSP s ((hPp s).mp hc) hs, hPperm.nodup_iff.mpr E1.nodupP⟩
  have hltP : ∀ a ∈ s :: P, a < h1.length := by
    intro a ha
    rw [List.mem_cons] at ha
    rcases ha with rfl | ha
    · exact E1.ringS.lt_length hs
    · exact E1.pendIn a ((hPp a).mp ha)
  have hl1 : Link h1 s e := hR0.link hl hs0 he0
  obtain ⟨h2, ethr, l2, R2, hch2⟩ := ClipEdgesThread_spec _ P s h1 hmapP hndP hltP
  have hlenP : (List.insertionSort (fun a b => a.mTime ≤ b.mTime) nv).length = P.length := by
    have := congrArg List.length hmapP
    simpa using this
  -- the heap after the final two stores
  have hfinal : ∃ h', ClipEdges fuel h0 (some s) (some e) { mHead := rc0[0]? } = some h' ∧
      h'.length = h1.length ∧ Relink (s :: P) (e :: P) h1 h' ∧
      List.Chain' (Link h') (s :: P ++ [e]) := by
    unfold ClipEdges
    simp only
    rw [h00] at hloop ⊢
    rw [hloop]
    simp only
    rw [ethr]
    simp only
    rcases List.eq_nil_or_concat P with hP | ⟨Q, last, hP⟩
    · subst hP
      have hz : (List.insertionSort (fun a b => a.mTime ≤ b.mTime) nv).length = 0 := by
        rw [hlenP]
        rfl
      rw [hz]
      simp only [ne_eq, not_true_eq_false, if_false]
      refine ⟨h2, rfl, l2, R2.mono (fun a ha => (by simp at ha)) (fun a ha => (by cases ha)), ?_⟩
      have : Link h2 s e := R2.link hl1 (by simp) (by simp)
      exact List.chain'_cons.mpr ⟨this, List.chain'_singleton _⟩
    · rw [List.concat_eq_append] at hP
      subst hP
      have hz : (List.insertionSort (fun a b => a.mTime ≤ b.mTime) nv).length ≠ 0 := by
        rw [hlenP]
        simp
      rw [if_pos hz]
      have hlast : ((Q ++ [last]).getLast?).getD s = last := by simp
      rw [hlast]
      have hdl : (s :: (Q ++ [last])).dropLast = s :: Q := by
        rw [← List.cons_append, List.dropLast_concat]
      rw [hdl] at R2
      have hlastP : last ∈ Q ++ [last] := by simp
      have hlastlt : last < h2.length := by
        rw [l2]
        exact hltP last (List.mem_cons_of_mem _ hlastP)
      obtain ⟨h3, e3, l3, R3, v3, hv3, hv3n⟩ := store_next_relink h2 last (some e) hlastlt
      have helt : e < h3.length := by
        rw [l3, l2]
        exact E1.ringS.lt_length he
      obtain ⟨h4, e4, l4, R4, w4, hw4, hw4p⟩ := store_prev_relink h3 e (some last) helt
      rw [e3]
      simp only
      rw [e4]
      have R34 := R3.andThen R4
      have hePn : ∀ y ∈ Q ++ [last], y ≠ e := by
        intro y hy hye
        exact E1.disjSP y ((hPp y).mp hy) (hye ▸ he)
      refine ⟨h4, rfl, by rw [l4, l3, l2], ?_, ?_⟩
      · refine (R2.andThen R34).restrict ?_ ?_
        · intro a ha _
          simp only [List.mem_append, List.mem_cons, List.mem_singleton, List.not_mem_nil,
            or_false] at ha ⊢
          tauto
        · intro a ha _
          simp only [List.mem_append, List.mem_cons, List.mem_singleton, List.not_mem_nil,
            false_or] at ha ⊢
          tauto
      · have hsplit : s :: (Q ++ [last]) ++ [e] = (s :: Q) ++ last :: [e] := by simp
        rw [hsplit, List.chain'_split]
        constructor
        · have hc2 : List.Chain' (Link h2) (s :: Q ++ [last]) := by
            simpa using hch2
          refine chain_frame2 _ hc2 (fun x hx y hy hxy => R34.link hxy ?_ ?_)
          · rw [List.dropLast_concat] at hx
            simp only [List.append_nil, List.mem_singleton]
            rintro rfl
            have hn : (s :: Q ++ [x]).Nodup := by simpa using hndP
            exact (List.nodup_append.mp hn).2.2 hx (List.mem_singleton_self _)
          · simp only [List.nil_append, List.mem_singleton]
            apply hePn y
            have : (s :: Q ++ [last]).tail = Q ++ [last] := by simp
            rw [this] at hy
            exact hy
        · refine List.chain'_cons.mpr ⟨?_, List.chain'_singleton _⟩
          obtain ⟨v4, hv4, -, -, -, -, en, -⟩ := R4 last v3 hv3
          exact ⟨⟨v4, hv4, by rw [en (by simp), hv3n]⟩, ⟨w4, hw4, hw4p⟩⟩
  obtain ⟨h', hres, hlen', hR', hch'⟩ := hfinal
  obtain ⟨A, B, hAB, E'⟩ := E1.thread hPperm hs hl1 hlen' hR' hch'
  have hpoints : List.Forall₂ (fun p t => ∃ v : ClipVertex, h'[p]? = some v ∧
      v.mPoint = pointAt sv.mPoint ev.mPoint t) P
        (List.insertionSort (fun a b => a ≤ b)
          ((List.range rc0.length).filterMap (edgeTime h0 rc0 sv.mPoint ev.mPoint))) := by
    rw [← htimes, ← List.map_insertionSort (fun a b => a.mTime ≤ b.mTime) (fun a b => a ≤ b)
      (fun x => x.mTime) nv (fun _ _ _ _ => Iff.rfl), hPdef]
    refine forall₂_filterMap_map _ _ _ _ (fun x hx => ?_)
    rw [List.mem_insertionSort] at hx
    obtain ⟨p, v, hp, hv, hpt⟩ := hpts x hx
    obtain ⟨v', hv', ept, -⟩ := hR'.sameData p v hv
    exact ⟨p, hp, v', hv', by rw [ept, hpt]⟩
  refine ⟨h', A, B, P, rc, hres, hAB, E', fun p hp => hpnew p ((hPp p).mp hp), ?_, hch',
    hpoints, ?_⟩
  · refine (hR0.andThen hR').restrict ?_ ?_
    · intro a ha hlt
      simp only [List.mem_append, List.mem_cons] at ha ⊢
      rcases ha with ha | ha | ha
      · exact Or.inr ha
      · exact Or.inl ha
      · have := hpnew a ((hPp a).mp ha)
        omega
    · intro a ha hlt
      simp only [List.mem_append, List.mem_cons] at ha ⊢
      rcases ha with ha | ha | ha
      · exact Or.inr ha
      · exact Or.inl ha
      · have := hpnew a ((hPp a).mp ha)
        omega
  · -- the area
    rw [← hA1]
    have hJp : ∀ p ∈ P, areaAt h1 p = 0 := by
      intro p hp
      have hpp := (hPp p).mp hp
      have : some p ∈ nv.map (fun x => x.mVertex) := by
        rw [hnvP]
        exact List.mem_map_of_mem _ hpp
      obtain ⟨x, hx, hxp⟩ := List.mem_map.mp this
      obtain ⟨p', v', hp', hv', hn'⟩ := hJ1 x hx
      rw [hxp] at hp'
      cases hp'
      exact areaAt_of_none hv' hn'
    have hsame : ∀ a, a < h1.length → a ∉ s :: P → areaAt h' a = areaAt h1 a := by
      intro a ha hna
      have hv : h1[a]? = some h1[a] := List.getElem?_eq_getElem ha
      obtain ⟨v', hv', ep, -, -, -, en, -⟩ := hR' a _ hv
      refine areaAt_congr hv hv' ep (en hna) ?_
      intro k _
      cases hk : h1[k]? with
      | none =>
        have : h'[k]? = none := by
          rw [List.getElem?_eq_none_iff, hlen', ← List.getElem?_eq_none_iff]
          exact hk
        rw [this]
      | some w =>
        obtain ⟨w', hw', epw, -⟩ := hR' k w hk
        rw [hw']
        simp [epw]
    have hupd := areaBelow_update h1 h' h1.length (s :: P) hndP hltP hsame
    obtain ⟨s1, hs1, hs1p, -⟩ := hR0.sameData s sv hsv
    obtain ⟨e1, he1, he1p, -⟩ := hR0.sameData e ev hev
    obtain ⟨s2, hs2, hs2p, -⟩ := hR'.sameData s s1 hs1
    obtain ⟨e2, he2, he2p, -⟩ := hR'.sameData e e1 he1
    have hs1n : s1.mNext = some e := by
      obtain ⟨v, hv, hn⟩ := hl1.1
      rw [hs1] at hv
      cases hv
      exact hn
    have e0 : ((s :: P).map (areaAt h1)).sum = Cross2d sv.mPoint ev.mPoint := by
      rw [List.map_cons, List.sum_cons, areaAt_of_link hs1 hs1n he1, hs1p, he1p]
      have : (P.map (areaAt h1)).sum = 0 := by
        apply List.sum_eq_zero
        intro x hx
        obtain ⟨p, hp, rfl⟩ := List.mem_map.mp hx
        exact hJp p hp
      rw [this, add_zero]
    have hF : List.Forall₂ (fun a p => ∃ v : ClipVertex, h'[a]? = some v ∧ v.mPoint = p)
        (s :: P ++ [e])
        ((0 :: List.insertionSort (fun a b => a ≤ b)
          ((List.range rc0.length).filterMap (edgeTime h0 rc0 sv.mPoint ev.mPoint)) ++ [1]).map
            (pointAt sv.mPoint ev.mPoint)) := by
      simp only [List.cons_append, List.map_cons, List.map_append, List.map_nil]
      refine List.Forall₂.cons ⟨s2, hs2, by rw [pointAt_zero, hs2p, hs1p]⟩ ?_
      refine List.rel_append ?_ ?_
      · rw [List.forall₂_map_right_iff]
        exact hpoints
      · exact List.Forall₂.cons ⟨e2, he2, by rw [pointAt_one, he2p, he1p]⟩ List.Forall₂.nil
    have e1' := chain_area _ _ hF hch'
    have hdl : (s :: P ++ [e]).dropLast = s :: P := List.dropLast_concat
    rw [hdl, List.cons_append, pathCross_pointAt] at e1'
    have hlast : (0 :: (List.insertionSort (fun a b => a ≤ b)
          ((List.range rc0.length).filterMap (edgeTime h0 rc0 sv.mPoint ev.mPoint)) ++
            [1])).getLast (List.cons_ne_nil _ _) = 1 := by
      simp
    rw [hlast] at e1'
    unfold heapArea
    rw [hlen', hupd, e0, e1']
    ring

/-- The enricher: `ClipPolygon` returns, keeps the enrichment invariant, the data of every
cell it found and the area of the heap. -/
theorem ClipPolygon_spec_area {pS pC : ClipVertexClassification → Prop} {N0 : Nat}
    {oS oC : List Nat} {h0 : Heap} {rs0 rc0 : List Nat}
    (E0 : Enr pS pC N0 oS oC h0 rs0 rc0 []) :
    ∃ (h' : Heap) (rs rc : List Nat) (F : Nat),
      (∀ fuel, F ≤ fuel →
        ClipPolygon fuel h0 { mHead := rs0[0]? } { mHead := rc0[0]? } = some h') ∧
      Enr pS pC N0 oS oC h' rs rc [] ∧ SameData h0 h' ∧ heapArea h' = heapArea h0 := by
  have hnd := E0.ringS.2.1
  have hne := E0.ringS.1
  have hpos : 0 < rs0.length := List.length_pos.mpr hne
  have h00 : rs0[0]? = some rs0[0] := List.getElem?_eq_getElem hpos
  obtain ⟨Inv, hInv⟩ : ∃ Inv : Nat → Heap × Unit → Prop, Inv = fun k st =>
      ∃ rs rc : List Nat, Enr pS pC N0 oS oC st.1 rs rc [] ∧ (∀ a ∈ rs0, a ∈ rs) ∧
        (∀ (i a : Nat), k ≤ i → rs0[i]? = some a →
          ∃ v : ClipVertex, st.1[a]? = some v ∧ v.mNext = rs0[(i + 1) % rs0.length]?) ∧
        SameData h0 st.1 ∧ heapArea st.1 = heapArea h0 :=
    ⟨_, rfl⟩
  have hstep : ∀ k a st, rs0[k]? = some a → Inv k st →
      ∃ v st' F, deref st.1 (some a) = some v ∧ v.mNext = rs0[(k + 1) % rs0.length]? ∧
        (∀ fuel, F ≤ fuel → ClipPolygonCallback fuel { mHead := rc0[0]? } (some a) v.mNext st
          = some (true, v.mNext, st')) ∧ Inv (k + 1) st' := by
    intro k a st hk hinv
    rw [hInv] at hinv
    obtain ⟨rs, rc, E, hsub, hadj, hSD, hAr⟩ := hinv
    obtain ⟨v, hv, hn⟩ := hadj k a (le_refl _) hk
    have haS : a ∈ rs := hsub a (List.mem_iff_getElem?.mpr ⟨_, hk⟩)
    have hklt := getElem?_lt_of_some hk
    have hmlt : (k + 1) % rs0.length < rs0.length := Nat.mod_lt _ hpos
    have hb : rs0[(k + 1) % rs0.length]? = some rs0[(k + 1) % rs0.length] :=
      List.getElem?_eq_getElem hmlt
    rw [hb] at hn
    have hl : Link st.1 a rs0[(k + 1) % rs0.length] := by
      obtain ⟨v1, x, hv1, hn1, hl1⟩ := E.ringS.mem_heap haS
      rw [hv] at hv1
      cases hv1
      rw [hn] at hn1
      cases hn1
      exact hl1
    obtain ⟨ev, hev, -⟩ := hl.2
    have hhead : rc[0]? = rc0[0]? := by
      rw [← List.head?_eq_getElem?, ← List.head?_eq_getElem?, E.headC, E0.headC]
    obtain ⟨h', A, B, P, rc', hres, hAB, E', -, hR, -, -, hAr'⟩ :=
      ClipEdges_spec_area E haS hl hv hev rc.length (le_refl _)
    rw [hhead] at hres
    refine ⟨v, (h', ()), rc.length, hv, by rw [hn, hb], ?_, ?_⟩
    · intro fuel hfuel
      have := ClipEdges_mono rc.length fuel _ _ _ _ _ hfuel hres
      simp only [ClipPolygonCallback, deref, hv, hn, this]
    · rw [hInv]
      refine ⟨_, rc', E', ?_, ?_, hSD.comp hR.sameData, hAr'.trans hAr⟩
      · intro x hx
        have := hsub x hx
        rw [hAB] at this
        simp only [List.mem_append, List.mem_cons] at this ⊢
        tauto
      · intro i x hi hx
        obtain ⟨vx, hvx, hnx⟩ := hadj i x (by omega) hx
        obtain ⟨vx', hvx', -, -, -, -, en, -⟩ := hR x vx hvx
        refine ⟨vx', hvx', ?_⟩
        rw [en, hnx]
        rw [List.mem_cons, not_or]
        constructor
        · rintro rfl
          have := List.getElem?_inj (getElem?_lt_of_some hx) hnd (hx.trans hk.symm)
          omega
        · exact E.disjSC x (hsub x (List.mem_iff_getElem?.mpr ⟨_, hx⟩))
  have hinv0 : Inv 0 (h0, ()) := by
    rw [hInv]
    refine ⟨rs0, rc0, E0, fun a ha => ha, ?_, SameData.same h0, rfl⟩
    intro i a _ hi
    obtain ⟨b, hb, hlab⟩ := E0.ringS.link_at hi
    obtain ⟨v, hv, hn⟩ := hlab.1
    exact ⟨v, hv, by rw [hn, hb]⟩
  obtain ⟨st', F, htr, hfin⟩ := Traverse_ring_fuel
    (fun fuel => ClipPolygonCallback fuel { mHead := rc0[0]? }) rs0 hnd Inv hstep
    rs0.length 0 rs0[0] (h0, ()) h00 (by omega) hinv0
  rw [hInv] at hfin
  obtain ⟨rs, rc, E, -, -, hSD, hAr⟩ := hfin
  refine ⟨st'.1, rs, rc, F, ?_, E, hSD, hAr⟩
  intro fuel hfuel
  unfold ClipPolygon
  simp only
  have := htr fuel fuel hfuel hfuel
  simp only at this
  rw [h00] at this ⊢
  rw [this]
  rfl

/-- Classification does not change the area of the heap. -/
theorem heapArea_retag {r : List Nat} {h h' : Heap} (hR : Retag r h h') :
    heapArea h' = heapArea h := by
  have hsame : ∀ a, a < h.length → a ∉ ([] : List Nat) → areaAt h' a = areaAt h a := by
    intro a ha _
    have hv : h[a]? = some h[a] := List.getElem?_eq_getElem ha
    obtain ⟨v', hv', ep, -, -, en, -⟩ := hR.2 a _ hv
    refine areaAt_congr hv hv' ep en ?_
    intro k _
    cases hk : h[k]? with
    | none =>
      have : h'[k]? = none := by
        rw [List.getElem?_eq_none_iff, hR.1, ← List.getElem?_eq_none_iff]
        exact hk
      rw [this]
    | some w =>
      obtain ⟨w', hw', epw, -⟩ := hR.2 k w hk
      rw [hw']
      simp [epw]
  have := areaBelow_update h h' h.length [] List.nodup_nil (fun a ha => (by cases ha)) hsame
  unfold heapArea
  rw [hR.1, this]
  simp

/-- The cross sum around a contour, edge by edge. -/
theorem zip_rotate_eq_range (pts : PointContour) :
    ((pts.zip (pts.rotate 1)).map (fun e => Cross2d e.1 e.2)).sum =
      ((List.range pts.length).map (edgeCross pts)).sum := by
  congr 1
  apply List.ext_getElem?
  intro i
  by_cases hi : i < pts.length
  · have h1 : pts[i]? = some pts[i] := List.getElem?_eq_getElem hi
    have hm : (i + 1) % pts.length < pts.length := Nat.mod_lt _ (by omega)
    have h2 : pts[(i + 1) % pts.length]? = some pts[(i + 1) % pts.length] := List.getElem?_eq_getElem hm
    have h3 : (pts.rotate 1)[i]? = some pts[(i + 1) % pts.length] := by
      rw [List.getElem?_rotate hi, h2]
    rw [List.getElem?_map, List.getElem?_map, List.getElem?_range hi]
    have hz : (pts.zip (pts.rotate 1))[i]? = some (pts[i], pts[(i + 1) % pts.length]) := by
      rw [List.getElem?_zip_eq_some]
      exact ⟨h1, h3⟩
    rw [hz]
    simp only [Option.map_some', edgeCross, h1, h2]
  · rw [List.getElem?_eq_none (by simp; omega), List.getElem?_eq_none (by simp; omega)]

/-- The area of the heap right after the two `BuildVertexList` calls. -/
theorem heapArea_builtPair {P Q : PointContour} {h : Heap}
    (hb : BuiltPair Q.length P.length h)
    (hptQ : ∀ (i : Nat) (p : Vec2), Q[i]? = some p →
      ∃ v : ClipVertex, h[i]? = some v ∧ v.mPoint = p)
    (hptP : ∀ (i : Nat) (p : Vec2), P[i]? = some p →
      ∃ v : ClipVertex, h[Q.length + i]? = some v ∧ v.mPoint = p) :
    heapArea h = 2 * (shoelaceArea P + shoelaceArea Q) := by
  obtain ⟨hlen, hQ, hP⟩ := hb
  have hnextQ : ∀ i, i < Q.length → ∃ v : ClipVertex, h[i]? = some v ∧
      v.mNext = some ((i + 1) % Q.length) := by
    intro i hi
    have := hQ i hi
    rw [Option.map_eq_some'] at this
    obtain ⟨v, hv, hl⟩ := this
    simp only [cellLinks, builtLinks, Prod.mk.injEq] at hl
    exact ⟨v, hv, hl.2.2.2.2⟩
  have hnextP : ∀ i, i < P.length → ∃ v : ClipVertex, h[Q.length + i]? = some v ∧
      v.mNext = some (Q.length + (i + 1) % P.length) := by
    intro i hi
    have := hP i hi
    rw [Option.map_eq_some'] at this
    obtain ⟨v, hv, hl⟩ := this
    simp only [cellLinks, builtLinks, Prod.mk.injEq] at hl
    exact ⟨v, hv, hl.2.2.2.2⟩
  have eQ : ∀ i ∈ List.range Q.length, areaAt h i =
      edgeCross Q i := by
    intro i hi
    rw [List.mem_range] at hi
    have hm : (i + 1) % Q.length < Q.length := Nat.mod_lt _ (by omega)
    obtain ⟨v, hv, hn⟩ := hnextQ i hi
    obtain ⟨v1, hv1, hp1⟩ := hptQ i Q[i] (List.getElem?_eq_getElem hi)
    obtain ⟨w, hw, hpw⟩ := hptQ _ Q[(i + 1) % Q.length] (List.getElem?_eq_getElem hm)
    rw [hv] at hv1
    cases hv1
    rw [areaAt_of_link hv hn hw, edgeCross, List.getElem?_eq_getElem hi,
      List.getElem?_eq_getElem hm, hp1, hpw]
  have eP : ∀ i ∈ List.range P.length, areaAt h (Q.length + i) =
      edgeCross P i := by
    intro i hi
    rw [List.mem_range] at hi
    have hm : (i + 1) % P.length < P.length := Nat.mod_lt _ (by omega)
    obtain ⟨v, hv, hn⟩ := hnextP i hi
    obtain ⟨v1, hv1, hp1⟩ := hptP i P[i] (List.getElem?_eq_getElem hi)
    obtain ⟨w, hw, hpw⟩ := hptP _ P[(i + 1) % P.length] (List.getElem?_eq_getElem hm)
    rw [hv] at hv1
    cases hv1
    rw [areaAt_of_link hv hn hw, edgeCross, List.getElem?_eq_getElem hi,
      List.getElem?_eq_getElem hm, hp1, hpw]
  unfold heapArea areaBelow
  rw [hlen, List.range_add, List.map_append, List.sum_append, List.map_map,
    List.map_congr_left eQ, ← zip_rotate_eq_range]
  have : (List.map (areaAt h ∘ fun x => Q.length + x) (List.range P.length)) =
      List.map (edgeCross P) (List.range P.length) :=
    List.map_congr_left (fun i hi => eP i hi)
  rw [this, ← zip_rotate_eq_range]
  unfold shoelaceArea
  ring

/-- The ring-pair builder: on two non-empty contours `BuildClipList` returns, the final
heap satisfies the enrichment invariant with every vertex classified, the cells that
`BuildVertexList` created still hold the input points, and the area of the heap is the
sum of the areas of the two contours. -/
theorem BuildClipList_spec_area (P Q : PointContour) (hP : P ≠ []) (hQ : Q ≠ []) :
    ∃ (h : Heap) (rs rc : List Nat) (F : Nat),
      (∀ fuel, F ≤ fuel → BuildClipList fuel P Q [] =
        some (h, { mHead := some Q.length }, { mHead := some 0 })) ∧
      Enr IsSide IsSide (Q.length + P.length) (List.range' Q.length P.length)
        (List.range' 0 Q.length) h rs rc [] ∧
      (∀ (i : Nat) (p : Vec2), Q[i]? = some p →
        ∃ v : ClipVertex, h[i]? = some v ∧ v.mPoint = p) ∧
      (∀ (i : Nat) (p : Vec2), P[i]? = some p →
        ∃ v : ClipVertex, h[Q.length + i]? = some v ∧ v.mPoint = p) ∧
      heapArea h = 2 * (shoelaceArea P + shoelaceArea Q) := by
  have hm : 0 < Q.length := List.length_pos.mpr hQ
  have hn : 0 < P.length := List.length_pos.mpr hP
  obtain ⟨h1, h2, e1, e2, hb, hptQ, hptP⟩ := BuildVertexList_builtPair_points P Q hP hQ
  have E2 := Enr_of_builtPair hm hn hb
  obtain ⟨h3, rs, rc, F3, e3, E3, hSD3, hA3⟩ := ClipPolygon_spec_area E2
  have hs0 : (List.range' Q.length P.length)[0]? = some Q.length := range'_head hP
  have hc0 : (List.range' 0 Q.length)[0]? = some 0 := range'_head hQ
  rw [hs0, hc0] at e3
  have hrs0 : rs[0]? = some Q.length := by
    rw [← List.head?_eq_getElem?, E3.headS, List.head?_eq_getElem?, hs0]
  have hrc0 : rc[0]? = some 0 := by
    rw [← List.head?_eq_getElem?, E3.headC, List.head?_eq_getElem?, hc0]
  -- the subject ring is classified
  have hheadS : ∀ (a : Nat) (v : ClipVertex), rs[0]? = some a → h3[a]? = some v →
      v.mClassification = ClipVertexClassification.None := by
    intro a v ha hv
    rw [hrs0] at ha
    cases ha
    have hmem : Q.length ∈ rs := List.mem_iff_getElem?.mpr ⟨0, hrs0⟩
    exact (E3.twinS _ (by simp [hmem]) v hv).untagged ((E3.origTw _ v hv).mpr (by omega))
  obtain ⟨h4, e4, R4⟩ := ClassifyVertices_spec h3 rs E3.ringS.toIsRing E3.ringS.1 hheadS
    rs.length (le_refl _)
  rw [hrs0] at e4
  have E4 : Enr IsSide IsUntagged (Q.length + P.length) (List.range' Q.length P.length)
      (List.range' 0 Q.length) h4 rs rc [] := by
    refine E3.retag R4 ?_ ?_
    · intro a ha v v' hv hv' hp
      obtain ⟨v'', hv'', -, -, -, -, -, c1, -⟩ := R4.2 a v hv
      rw [hv'] at hv''
      cases hv''
      exact c1 ⟨ha, hp⟩
    · intro a ha v v' hv hv' hp
      obtain ⟨v'', hv'', -, -, -, -, -, -, c2⟩ := R4.2 a v hv
      rw [hv'] at hv''
      cases hv''
      have : v'.mClassification = v.mClassification :=
        c2 (fun hc => E3.disjSC a hc.1 ha)
      rw [this]
      exact hp
  -- the clip ring is classified
  have hheadC : ∀ (a : Nat) (v : ClipVertex), rc[0]? = some a → h4[a]? = some v →
      v.mClassification = ClipVertexClassification.None := by
    intro a v ha hv
    rw [hrc0] at ha
    cases ha
    have hmem : 0 ∈ rc := List.mem_iff_getElem?.mpr ⟨0, hrc0⟩
    exact (E4.twinC _ hmem v hv).untagged ((E4.origTw _ v hv).mpr (by omega))
  obtain ⟨h5, e5, R5⟩ := ClassifyVertices_spec h4 rc E4.ringC.toIsRing E4.ringC.1 hheadC
    rc.length (le_refl _)
  rw [hrc0] at e5
  have E5 : Enr IsSide IsSide (Q.length + P.length) (List.range' Q.length P.length)
      (List.range' 0 Q.length) h5 rs rc [] := by
    refine E4.retag R5 ?_ ?_
    · intro a ha v v' hv hv' hp
      obtain ⟨v'', hv'', -, -, -, -, -, -, c2⟩ := R5.2 a v hv
      rw [hv'] at hv''
      cases hv''
      have : v'.mClassification = v.mClassification :=
        c2 (fun hc => E4.disjSC a ha hc.1)
      rw [this]
      exact hp
    · intro a ha v v' hv hv' hp
      obtain ⟨v'', hv'', -, -, -, -, -, c1, -⟩ := R5.2 a v hv
      rw [hv'] at hv''
      cases hv''
      exact c1 ⟨ha, hp⟩
  have hpt : ∀ (a : Nat) (v : ClipVertex), h2[a]? = some v →
      ∃ v' : ClipVertex, h5[a]? = some v' ∧ v'.mPoint = v.mPoint := by
    intro a v hv
    obtain ⟨v3, hv3, p3, -⟩ := hSD3 a v hv
    obtain ⟨v4, hv4, p4, -⟩ := R4.2 a v3 hv3
    obtain ⟨v5, hv5, p5, -⟩ := R5.2 a v4 hv4
    exact ⟨v5, hv5, by rw [p5, p4, p3]⟩
  refine ⟨h5, rs, rc, F3 + rs.length + rc.length, ?_, E5, ?_, ?_, ?_⟩
  · intro fuel hfuel
    unfold BuildClipList
    simp only [e1, e2, e3 fuel (by omega),
      ClassifyVertices_mono rs.length fuel _ _ _ (by omega) e4,
      ClassifyVertices_mono rc.length fuel _ _ _ (by omega) e5]
  · intro i p hp
    obtain ⟨v, hv, hvp⟩ := hptQ i p hp
    obtain ⟨v', hv', hp'⟩ := hpt i v hv
    exact ⟨v', hv', by rw [hp', hvp]⟩
  · intro i p hp
    obtain ⟨v, hv, hvp⟩ := hptP i p hp
    obtain ⟨v', hv', hp'⟩ := hpt _ v hv
    exact ⟨v', hv', by rw [hp', hvp]⟩
  · rw [heapArea_retag R5, heapArea_retag R4, hA3]
    exact heapArea_builtPair hb hptQ hptP

/-! ### The walk of `Union` along two rings with two crossings -/

theorem pointOf_eq {h : Heap} {a : Nat} {v : ClipVertex} (hv : h[a]? = some v) :
    pointOf h a = v.mPoint := by
  simp [pointOf, hv]

theorem chain_head_link {h : Heap} {y z : Nat} {D : List Nat}
    (hc : List.Chain' (Link h) (y :: D ++ [z])) :
    ∃ (v : ClipVertex) (n : Nat), h[y]? = some v ∧ v.mNext = some n ∧
      (D ++ [z]).head? = some n ∧ List.Chain' (Link h) (D ++ [z]) := by
  cases D with
  | nil =>
    simp only [List.cons_append, List.nil_append, List.chain'_cons] at hc
    obtain ⟨⟨v, hv, hn⟩, -⟩ := hc.1
    exact ⟨v, z, hv, hn, rfl, List.chain'_singleton _⟩
  | cons d D' =>
    simp only [List.cons_append, List.chain'_cons] at hc
    obtain ⟨⟨v, hv, hn⟩, -⟩ := hc.1
    exact ⟨v, d, hv, hn, rfl, by simpa using hc.2⟩

/-- The twin walk of `Union` runs forward over the vertices without a twin and stops at
the first vertex with a twin. -/
theorem WalkTwinLoop_path {h : Heap} : ∀ (D : List Nat) (y z t : Nat) (w : ClipVertex)
    (res : PointContour) (fuel : Nat),
    List.Chain' (Link h) (y :: D ++ [z]) → (∀ d ∈ D, Plain h d) → h[z]? = some w →
    w.mTwin = some t → D.length + 1 ≤ fuel →
    WalkTwinLoop fuel h (some y) res = some (some t, res ++ D.map (pointOf h) ++ [w.mPoint]) := by
  intro D
  induction D with
  | nil =>
    intro y z t w res fuel hc _ hw ht hf
    obtain ⟨fuel, rfl⟩ : ∃ k, fuel = k + 1 := ⟨fuel - 1, by simp at hf; omega⟩
    obtain ⟨v, n, hv, hn, hhead, -⟩ := chain_head_link hc
    simp only [List.nil_append, List.head?_cons, Option.some.injEq] at hhead
    subst hhead
    simp [WalkTwinLoop, deref, hv, hn, hw, ht]
  | cons d D ih =>
    intro y z t w res fuel hc hpl hw ht hf
    obtain ⟨fuel, rfl⟩ : ∃ k, fuel = k + 1 := ⟨fuel - 1, by simp at hf; omega⟩
    obtain ⟨v, n, hv, hn, hhead, hc'⟩ := chain_head_link hc
    simp only [List.cons_append, List.head?_cons, Option.some.injEq] at hhead
    subst hhead
    obtain ⟨vd, hvd, htw, -⟩ := hpl d (by simp)
    have := ih d z t w (res ++ [vd.mPoint]) fuel (by simpa using hc')
      (fun x hx => hpl x (List.mem_cons_of_mem _ hx)) hw ht (by simp at hf ⊢; omega)
    simp only [WalkTwinLoop, deref, hv, hn, hvd, htw, if_true, this, List.map_cons,
      pointOf_eq hvd]
    simp

/-- The traversal of `Union` over vertices without a twin appends their points and stops
before the start vertex. -/
theorem Traverse_union_plain {h : Heap} (f s : Nat) : ∀ (A : List Nat) (a : Nat)
    (res : PointContour) (fuel : Nat),
    List.Chain' (Link h) (a :: A ++ [s]) → (∀ x ∈ a :: A, Plain h x) → s ∉ A →
    A.length + 1 ≤ fuel →
    Traverse (UnionCallback f) fuel (some s) (some a) (h, res) =
      some (h, res ++ (a :: A).map (pointOf h)) := by
  intro A
  induction A with
  | nil =>
    intro a res fuel hc hpl _ hf
    obtain ⟨fuel, rfl⟩ : ∃ k, fuel = k + 1 := ⟨fuel - 1, by simp at hf; omega⟩
    obtain ⟨v, n, hv, hn, hhead, -⟩ := chain_head_link hc
    simp only [List.nil_append, List.head?_cons, Option.some.injEq] at hhead
    subst hhead
    obtain ⟨va, hva, htw, -⟩ := hpl a (by simp)
    rw [hv] at hva
    cases hva
    simp [Traverse, UnionCallback, deref, hv, hn, htw, pointOf_eq hv]
  | cons d A ih =>
    intro a res fuel hc hpl hs hf
    obtain ⟨fuel, rfl⟩ : ∃ k, fuel = k + 1 := ⟨fuel - 1, by simp at hf; omega⟩
    obtain ⟨v, n, hv, hn, hhead, hc'⟩ := chain_head_link hc
    simp only [List.cons_append, List.head?_cons, Option.some.injEq] at hhead
    subst hhead
    obtain ⟨va, hva, htw, -⟩ := hpl a (by simp)
    rw [hv] at hva
    cases hva
    have hds : d ≠ s := fun hcon => hs (by simp [hcon])
    have := ih d (res ++ [v.mPoint]) fuel (by simpa using hc')
      (fun x hx => hpl x (List.mem_cons_of_mem _ hx))
      (fun hcon => hs (List.mem_cons_of_mem _ hcon)) (by simp at hf ⊢; omega)
    simp only [Traverse, UnionCallback, deref, hv, hn, htw, ne_eq, not_true_eq_false, if_false,
      Bool.true_eq_false, Option.some.injEq, hds, not_false_eq_true, if_true, this,
      List.map_cons, pointOf_eq hv]
    simp

/-- The walk of `Union` from an `OutToIn` crossing `xo` of the subject ring when the two
rings meet in the two crossings `xo` and `xi`: the clip ring is followed from the twin of
`xo` to the twin of `xi`, then the subject ring from `xi` back to `xo`. -/
theorem Traverse_union_two {h : Heap} {xo xi yo yi : Nat} {vo vi wi : ClipVertex}
    {D1 A2 : List Nat} (hvo : h[xo]? = some vo) (hto : vo.mTwin = some yo)
    (hvi : h[xi]? = some vi) (hwi : h[yi]? = some wi) (hti : wi.mTwin = some xi)
    (hcD : List.Chain' (Link h) (yo :: D1 ++ [yi])) (hD : ∀ d ∈ D1, Plain h d)
    (hcA : List.Chain' (Link h) (xi :: A2 ++ [xo])) (hA : ∀ a ∈ A2, Plain h a)
    (hxA : xo ∉ A2) (f fuel : Nat) (hf : D1.length + 1 ≤ f) (hfuel : A2.length + 2 ≤ fuel) :
    Traverse (UnionCallback f) fuel (some xo) (some xo) (h, []) =
      some (h, vo.mPoint :: (D1.map (pointOf h) ++ [wi.mPoint] ++ A2.map (pointOf h))) := by
  obtain ⟨fuel, rfl⟩ : ∃ k, fuel = k + 1 := ⟨fuel - 1, by omega⟩
  have hw := WalkTwinLoop_path D1 yo yi xi wi [vo.mPoint] f hcD hD hwi hti hf
  obtain ⟨v, n, hv, hn, hhead, hc'⟩ := chain_head_link hcA
  rw [hvi] at hv
  cases hv
  cases A2 with
  | nil =>
    simp only [List.nil_append, List.head?_cons, Option.some.injEq] at hhead
    subst hhead
    simp [Traverse, UnionCallback, WalkTwinListForwards, deref, hvo, hto, hw, hvi, hn]
  | cons a A =>
    simp only [List.cons_append, List.head?_cons, Option.some.injEq] at hhead
    subst hhead
    have hne : a ≠ xo := fun hcon => hxA (by simp [hcon])
    have := Traverse_union_plain f xo A a ([vo.mPoint] ++ D1.map (pointOf h) ++ [wi.mPoint])
      fuel (by simpa using hc') hA (fun hcon => hxA (List.mem_cons_of_mem _ hcon))
      (by simp at hfuel ⊢; omega)
    simp only [Traverse, UnionCallback, WalkTwinListForwards, deref, hvo, hto, List.nil_append,
      hw, hvi, hn, Bool.true_eq_false, if_false, Option.some.injEq, hne, ne_eq,
      not_false_eq_true, if_true, this]
    simp only [List.singleton_append, List.cons_append, List.append_assoc, List.nil_append,
      List.map_cons] at this ⊢
    simp [hvi, hn, hne, this]

/-! ### The walk of `Intersect` along two rings with two crossings -/

theorem MarkVisited.nothing (h : Heap) : MarkVisited [] h h :=
  ⟨rfl, fun a v hv => by simp [hv]⟩

theorem MarkVisited.of_store_visited {h h1 : Heap} {x : Nat}
    (hs : store h (some x) (fun c => { c with mVisited := true }) = some h1) :
    MarkVisited [x] h h1 := by
  have hx : x < h.length := by
    by_contra hcon
    have hnone : h[x]? = none := List.getElem?_eq_none (Nat.le_of_not_lt hcon)
    simp [store, deref, hnone] at hs
  obtain ⟨h', e, hl, hc⟩ := store_spec h x (fun c => { c with mVisited := true }) hx
  rw [hs] at e
  cases e
  refine ⟨hl, fun a v hv => ?_⟩
  rw [hc a, hv]
  by_cases ha : a = x <;> simp [ha]

theorem MarkVisited.concat {X Y : List Nat} {h h1 h2 : Heap} (h01 : MarkVisited X h h1)
    (h12 : MarkVisited Y h1 h2) : MarkVisited (X ++ Y) h h2 := by
  refine ⟨by rw [h12.1, h01.1], fun a v hv => ?_⟩
  rw [h12.2 a _ (h01.2 a v hv)]
  by_cases hX : a ∈ X <;> by_cases hY : a ∈ Y <;> simp [hX, hY]

theorem MarkVisited.sameButVisited {X : List Nat} {h h' : Heap} (hm : MarkVisited X h h') :
    SameButVisited h h' := by
  refine ⟨hm.1, fun a v hv => ⟨_, hm.2 a v hv, ?_⟩⟩
  by_cases hX : a ∈ X <;> simp [hX]

theorem MarkVisited.keepsChain {X : List Nat} {h h' : Heap} (hm : MarkVisited X h h')
    {l : List Nat} (hc : List.Chain' (Link h) l) : List.Chain' (Link h') l :=
  hc.imp (fun _ _ hl => hm.sameButVisited.keepsLinks hl)

theorem MarkVisited.keepsRing {X : List Nat} {h h' : Heap} (hm : MarkVisited X h h')
    {r : List Nat} (hr : Ring h r) : Ring h' r :=
  ⟨hr.1, hr.2.1, hm.keepsChain hr.2.2⟩

theorem MarkVisited.keepsPlain {X : List Nat} {h h' : Heap} (hm : MarkVisited X h h')
    {a : Nat} (hp : Plain h a) : Plain h' a := by
  obtain ⟨v, hv, ht, hc⟩ := hp
  refine ⟨_, hm.2 a v hv, ?_, ?_⟩ <;> by_cases hX : a ∈ X <;> simp [hX, ht, hc]

theorem MarkVisited.keepsPoint {X : List Nat} {h h' : Heap} (hm : MarkVisited X h h')
    {a : Nat} (ha : a < h.length) : pointOf h' a = pointOf h a := by
  have hv : h[a]? = some h[a] := List.getElem?_eq_getElem ha
  rw [pointOf_eq hv, pointOf_eq (hm.2 a _ hv)]
  by_cases hX : a ∈ X <;> simp [hX]

/-- One pass of the inner loop of `Intersect` when the next vertex is not an `InToOut`
vertex and neither it nor its twin is the start of the contour. -/
theorem IntersectTrace_step_plain {h : Heap} (cs : Ptr) {x y : Nat} {v w : ClipVertex}
    (hv : h[x]? = some v) (hn : v.mNext = some y) (hw : h[y]? = some w)
    (hc : w.mClassification ≠ ClipVertexClassification.InToOut) (hy : some y ≠ cs)
    (htw : w.mTwin ≠ cs) :
    ∃ h1, MarkVisited [x] h h1 ∧ ∀ (fuel : Nat) (wl : List Ptr) (cur : PointContour),
      IntersectTrace cs (fuel + 1) h (some x) wl cur =
        IntersectTrace cs fuel h1 (some y) wl (cur ++ [v.mPoint]) := by
  have hx : x < h.length := getElem?_lt_of_some hv
  obtain ⟨h1, e, hl, hcell⟩ := store_spec h x (fun c => { c with mVisited := true }) hx
  have hm := MarkVisited.of_store_visited e
  refine ⟨h1, hm, fun fuel wl cur => ?_⟩
  have hw1 := hm.2 y w hw
  by_cases hyx : y ∈ [x]
  · rw [if_pos hyx] at hw1
    simp [IntersectTrace, deref, hv, e, hn, hw1, hc, hy, htw]
  · rw [if_neg hyx] at hw1
    simp [IntersectTrace, deref, hv, e, hn, hw1, hc, hy, htw]

/-- One pass of the inner loop of `Intersect` when the next vertex is an unvisited
`InToOut` vertex: the vertex found by `FindFirstOf` is pushed and the walk hops to the
twin. -/
theorem IntersectTrace_step_cross {h h1 : Heap} (cs : Ptr) {p : Ptr} {x y t : Nat}
    {v w u : ClipVertex} {fuel : Nat}
    (hv : h[x]? = some v) (hn : v.mNext = some y) (hw : h[y]? = some w) (hxy : y ≠ x)
    (hc : w.mClassification = ClipVertexClassification.InToOut) (hvis : w.mVisited = false)
    (ht : w.mTwin = some t) (htcs : some t ≠ cs) (hu : h[t]? = some u) (hucs : u.mTwin ≠ cs)
    (hs : store h (some x) (fun c => { c with mVisited := true }) = some h1)
    (hF : FindFirstOf fuel h1 (some y) ClipVertexClassification.OutToIn = some p)
    (wl : List Ptr) (cur : PointContour) :
    IntersectTrace cs (fuel + 1) h (some x) wl cur =
      IntersectTrace cs fuel h1 (some t) (p :: wl) (cur ++ [v.mPoint]) := by
  have hm := MarkVisited.of_store_visited hs
  have hw1 := hm.2 y w hw
  rw [if_neg (by simpa using hxy)] at hw1
  have hu1 := hm.2 t u hu
  by_cases htx : t ∈ [x]
  · rw [if_pos htx] at hu1
    simp [IntersectTrace, deref, hv, hs, hn, hw1, hc, hvis, hF, ht, htcs, hu1, hucs]
  · rw [if_neg htx] at hu1
    simp [IntersectTrace, deref, hv, hs, hn, hw1, hc, hvis, hF, ht, htcs, hu1, hucs]

/-- The last pass of the inner loop of `Intersect` when the next vertex is an unvisited
`InToOut` vertex whose twin is the start of the contour. -/
theorem IntersectTrace_last_cross {h h1 : Heap} (cs : Ptr) {p : Ptr} {x y : Nat}
    {v w : ClipVertex} {fuel : Nat}
    (hv : h[x]? = some v) (hn : v.mNext = some y) (hw : h[y]? = some w) (hxy : y ≠ x)
    (hc : w.mClassification = ClipVertexClassification.InToOut) (hvis : w.mVisited = false)
    (ht : w.mTwin = cs)
    (hs : store h (some x) (fun c => { c with mVisited := true }) = some h1)
    (hF : FindFirstOf fuel h1 (some y) ClipVertexClassification.OutToIn = some p)
    (wl : List Ptr) (cur : PointContour) :
    IntersectTrace cs (fuel + 1) h (some x) wl cur =
      some (h1, p :: wl, cur ++ [v.mPoint]) := by
  have hm := MarkVisited.of_store_visited hs
  have hw1 := hm.2 y w hw
  rw [if_neg (by simpa using hxy)] at hw1
  simp [IntersectTrace, deref, hv, hs, hn, hw1, hc, hvis, hF, ht]

/-- The last pass of the inner loop of `Intersect` when the next vertex is not an
`InToOut` vertex and its twin is the start of the contour. -/
theorem IntersectTrace_last_other {h h1 : Heap} (cs : Ptr) (fuel : Nat) {x y : Nat}
    {v w : ClipVertex}
    (hv : h[x]? = some v) (hn : v.mNext = some y) (hw : h[y]? = some w)
    (hc : w.mClassification ≠ ClipVertexClassification.InToOut)
    (ht : w.mTwin = cs)
    (hs : store h (some x) (fun c => { c with mVisited := true }) = some h1)
    (wl : List Ptr) (cur : PointContour) :
    IntersectTrace cs (fuel + 1) h (some x) wl cur =
      some (h1, wl, cur ++ [v.mPoint]) := by
  have hm := MarkVisited.of_store_visited hs
  have hw1 := hm.2 y w hw
  by_cases hyx : y ∈ [x]
  · rw [if_pos hyx] at hw1
    by_cases hycs : some y = cs
    · subst hycs
      simp [IntersectTrace, deref, hv, hs, hn, hw1, hc]
    · simp [IntersectTrace, deref, hv, hs, hn, hw1, hc, ht, hycs]
  · rw [if_neg hyx] at hw1
    by_cases hycs : some y = cs
    · subst hycs
      simp [IntersectTrace, deref, hv, hs, hn, hw1, hc]
    · simp [IntersectTrace, deref, hv, hs, hn, hw1, hc, ht, hycs]

/-- The inner loop of `Intersect` along vertices without a twin: every vertex but the last
is appended and marked visited. -/
theorem IntersectTrace_path {c : Nat} : ∀ (A : List Nat) (x : Nat) (h : Heap),
    List.Chain' (Link h) (x :: A) → (∀ a ∈ A, Plain h a) → c ∉ A →
    ∃ h', MarkVisited (x :: A).dropLast h h' ∧
      ∀ (fuel : Nat) (wl : List Ptr) (cur : PointContour),
        IntersectTrace (some c) (fuel + A.length) h (some x) wl cur =
          IntersectTrace (some c) fuel h' (some (A.getLastD x)) wl
            (cur ++ (x :: A).dropLast.map (pointOf h)) := by
  intro A
  induction A with
  | nil =>
    intro x h _ _ _
    exact ⟨h, MarkVisited.nothing h, fun fuel wl cur => by simp⟩
  | cons a A ih =>
    intro x h hch hpl hcs
    rw [List.chain'_cons] at hch
    obtain ⟨⟨v, hv, hn⟩, -⟩ := hch.1
    obtain ⟨w, hw, htw, hside⟩ := hpl a (by simp)
    have hc : w.mClassification ≠ ClipVertexClassification.InToOut := by
      rcases hside with e | e <;> rw [e] <;> decide
    have hac : a ≠ c := fun hcon => hcs (by simp [hcon])
    obtain ⟨h1, hm1, hstep⟩ := IntersectTrace_step_plain (some c) hv hn hw hc
      (by simpa using hac) (by rw [htw]; simp)
    obtain ⟨h', hm', hrest⟩ := ih a h1 (hm1.keepsChain hch.2)
      (fun b hb => hm1.keepsPlain (hpl b (List.mem_cons_of_mem _ hb)))
      (fun hcon => hcs (List.mem_cons_of_mem _ hcon))
    refine ⟨h', ?_, fun fuel wl cur => ?_⟩
    · have := hm1.concat hm'
      simpa [List.dropLast] using this
    · have hlen : fuel + (a :: A).length = (fuel + A.length) + 1 := by simp; omega
      rw [hlen, hstep, hrest]
      have hpts : ∀ b ∈ (a :: A).dropLast, pointOf h1 b = pointOf h b := by
        intro b hb
        have hbm : b ∈ a :: A := List.mem_of_mem_dropLast hb
        obtain ⟨vb, hvb, -, -⟩ := hpl b hbm
        exact hm1.keepsPoint (getElem?_lt_of_some hvb)
      simp only [List.getLastD_cons, List.dropLast_cons₂, List.map_cons, pointOf_eq hv,
        List.append_assoc, List.singleton_append]
      rw [List.map_congr_left hpts]

/-! ### Rings with two crossings -/

theorem tagOf_eq {h : Heap} {a : Nat} {v : ClipVertex} (hv : h[a]? = some v) :
    tagOf h a = v.mClassification := by
  simp [tagOf, hv]

theorem filter_map_none {α β : Type} (f : α → β) (p : β → Bool) (l : List α)
    (hl : (l.map f).filter p = []) : ∀ a ∈ l, p (f a) = false := by
  intro a ha
  have := List.filter_eq_nil_iff.mp hl (f a) (List.mem_map_of_mem f ha)
  simpa using this

theorem filter_map_first {α β : Type} (f : α → β) (p : β → Bool) (c : β) (cs : List β) :
    ∀ (l : List α), (l.map f).filter p = c :: cs →
      ∃ (L : List α) (x : α) (R : List α), l = L ++ x :: R ∧ f x = c ∧
        (∀ a ∈ L, p (f a) = false) ∧ (R.map f).filter p = cs := by
  intro l
  induction l with
  | nil => intro hl; simp at hl
  | cons a t ih =>
    intro hl
    rw [List.map_cons, List.filter_cons] at hl
    by_cases hp : p (f a) = true
    · rw [if_pos hp] at hl
      rw [List.cons.injEq] at hl
      exact ⟨[], a, t, rfl, hl.1, by simp, hl.2⟩
    · rw [if_neg hp] at hl
      obtain ⟨L, x, R, e, hx, hL, hR⟩ := ih hl
      refine ⟨a :: L, x, R, by rw [e]; rfl, hx, ?_, hR⟩
      intro b hb
      rcases List.mem_cons.mp hb with rfl | hb
      · simpa using hp
      · exact hL b hb

/-- A list whose image has exactly two elements passing a test splits around them. -/
theorem filter_map_pair {α β : Type} (f : α → β) (p : β → Bool) (c1 c2 : β) (l : List α)
    (hl : (l.map f).filter p = [c1, c2]) :
    ∃ (L : List α) (x1 : α) (M : List α) (x2 : α) (R : List α),
      l = L ++ x1 :: (M ++ x2 :: R) ∧ f x1 = c1 ∧ f x2 = c2 ∧
      (∀ a ∈ L, p (f a) = false) ∧ (∀ a ∈ M, p (f a) = false) ∧ (∀ a ∈ R, p (f a) = false) := by
  obtain ⟨L, x1, T, e1, hx1, hL, hT⟩ := filter_map_first f p c1 [c2] l hl
  obtain ⟨M, x2, R, e2, hx2, hM, hR⟩ := filter_map_first f p c2 [] T hT
  exact ⟨L, x1, M, x2, R, by rw [e1, e2], hx1, hx2, hL, hM, filter_map_none f p R hR⟩

/-- A ring split at two of its cells gives the two arcs between them. -/
theorem Ring.two_chains {h : Heap} {L M R : List Nat} {x1 x2 : Nat}
    (hr : Ring h (L ++ x1 :: (M ++ x2 :: R))) :
    List.Chain' (Link h) (x1 :: M ++ [x2]) ∧ List.Chain' (Link h) (x2 :: (R ++ L) ++ [x1]) := by
  obtain ⟨-, -, hc⟩ := hr
  cases L with
  | nil =>
    have e : closed ([] ++ x1 :: (M ++ x2 :: R)) = (x1 :: M) ++ x2 :: (R ++ [x1]) := by
      simp [closed]
    rw [e] at hc
    have := List.chain'_split.mp hc
    exact ⟨this.1, by simpa using this.2⟩
  | cons l L =>
    have e : closed (l :: L ++ x1 :: (M ++ x2 :: R)) =
        (l :: L) ++ x1 :: (M ++ x2 :: (R ++ [l])) := by
      simp [closed]
    rw [e] at hc
    have h1 := List.chain'_split.mp hc
    have e2 : x1 :: (M ++ x2 :: (R ++ [l])) = (x1 :: M) ++ x2 :: (R ++ [l]) := by simp
    rw [e2] at h1
    have h2 := List.chain'_split.mp h1.2
    refine ⟨h2.1, ?_⟩
    have e3 : x2 :: (R ++ l :: L) ++ [x1] = (x2 :: R) ++ l :: (L ++ [x1]) := by simp
    rw [e3]
    exact List.chain'_split.mpr ⟨h2.2, h1.1⟩

theorem TwoArcs.swapped {h : Heap} {r : List Nat} {p q : Nat} {A B : List Nat}
    (hT : TwoArcs h r p q A B) : TwoArcs h r q p B A := by
  obtain ⟨hp, c1, c2, pA, pB⟩ := hT
  refine ⟨hp.trans ?_, c2, c1, pB, pA⟩
  have : (p :: A ++ q :: B) = (p :: A) ++ (q :: B) := rfl
  rw [this]
  exact List.perm_append_comm

/-- The cells of a ring with two arcs: the two ends and the cells of the arcs. -/
theorem TwoArcs.mem_iff {h : Heap} {r : List Nat} {p q : Nat} {A B : List Nat}
    (hT : TwoArcs h r p q A B) (a : Nat) : a ∈ r ↔ a = p ∨ a ∈ A ∨ a = q ∨ a ∈ B := by
  rw [hT.1.mem_iff]
  simp

/-- Every cell of an arc with its two ends is a cell of the heap. -/
theorem arc_cells {h : Heap} : ∀ (X : List Nat) (a b : Nat),
    List.Chain' (Link h) (a :: X ++ [b]) → ∀ x ∈ a :: X ++ [b], ∃ v : ClipVertex, h[x]? = some v := by
  intro X
  induction X with
  | nil =>
    intro a b hc x hx
    simp only [List.cons_append, List.nil_append, List.chain'_cons] at hc
    obtain ⟨⟨v, hv, -⟩, ⟨w, hw, -⟩⟩ := hc.1
    simp only [List.cons_append, List.nil_append, List.mem_cons, List.not_mem_nil,
      or_false] at hx
    rcases hx with rfl | rfl
    · exact ⟨v, hv⟩
    · exact ⟨w, hw⟩
  | cons y Y ih =>
    intro a b hc x hx
    simp only [List.cons_append, List.chain'_cons] at hc
    obtain ⟨⟨v, hv, -⟩, -⟩ := hc.1
    rw [List.cons_append, List.mem_cons] at hx
    rcases hx with rfl | hx
    · exact ⟨v, hv⟩
    · exact ih y b (by simpa using hc.2) x (by simpa using hx)

theorem forall₂_pointOf {h : Heap} : ∀ (c : List Nat),
    (∀ x ∈ c, ∃ v : ClipVertex, h[x]? = some v) →
    List.Forall₂ (fun a p => ∃ v : ClipVertex, h[a]? = some v ∧ v.mPoint = p) c
      (c.map (pointOf h)) := by
  intro c
  induction c with
  | nil => intro _; exact List.Forall₂.nil
  | cons a t ih =>
    intro hc
    obtain ⟨v, hv⟩ := hc a (by simp)
    exact List.Forall₂.cons ⟨v, hv, (pointOf_eq hv).symm⟩
      (ih (fun x hx => hc x (List.mem_cons_of_mem _ hx)))

/-- The area contributions of the cells of a ring with two arcs add up to the cross sums
along the two arcs. -/
theorem TwoArcs.area_sum {h : Heap} {r : List Nat} {p q : Nat} {A B : List Nat}
    (hT : TwoArcs h r p q A B) :
    (r.map (areaAt h)).sum = pathCross ((p :: A ++ [q]).map (pointOf h)) +
      pathCross ((q :: B ++ [p]).map (pointOf h)) := by
  obtain ⟨hp, c1, c2, pA, pB⟩ := hT
  have a1 := chain_area _ _ (forall₂_pointOf _ (arc_cells A p q c1)) c1
  have a2 := chain_area _ _ (forall₂_pointOf _ (arc_cells B q p c2)) c2
  rw [← a1, ← a2, (hp.map (areaAt h)).sum_eq]
  have d1 : (p :: A ++ [q]).dropLast = p :: A := by
    rw [List.dropLast_concat]
  have d2 : (q :: B ++ [p]).dropLast = q :: B := by
    rw [List.dropLast_concat]
  rw [d1, d2]
  simp only [List.cons_append, List.map_cons, List.map_append, List.sum_cons, List.sum_append]
  ring

/-! ### `Union` and `Intersect` on rings with two crossings -/

theorem chain_last_link {α : Type} {R : α → α → Prop} : ∀ (A : List α) (x z : α),
    List.Chain' R (x :: A ++ [z]) → R (A.getLastD x) z := by
  intro A
  induction A with
  | nil =>
    intro x z hc
    simp only [List.cons_append, List.nil_append, List.chain'_cons] at hc
    exact hc.1
  | cons a A ih =>
    intro x z hc
    simp only [List.cons_append, List.chain'_cons] at hc
    rw [List.getLastD_cons]
    exact ih a z (by simpa using hc.2)

theorem dropLast_getLastD {α : Type} : ∀ (A : List α) (x : α),
    (x :: A).dropLast ++ [A.getLastD x] = x :: A := by
  intro A
  induction A with
  | nil => intro x; rfl
  | cons a A ih =>
    intro x
    rw [List.dropLast_cons₂, List.getLastD_cons, List.cons_append, ih a]

theorem getLastD_mem {α : Type} (A : List α) (x : α) : A.getLastD x ∈ x :: A := by
  have h := dropLast_getLastD A x
  rw [← h]
  simp

/-- The search `FindFirstOf` on a ring with exactly one vertex of the sought tag. -/
theorem FindFirstOf_unique {h : Heap} {r : List Nat} (hr : Ring h r)
    (c : ClipVertexClassification) {x b : Nat} (hx : x ∈ r) (hb : b ∈ r)
    (hbc : tagOf h b = c)
    (huniq : ∀ a ∈ r, tagOf h a = c → a = b)
    (fuel : Nat) (hfuel : r.length ≤ fuel) :
    FindFirstOf fuel h (some x) c = some (some b) := by
  obtain ⟨vb, -, hvb, -⟩ := hr.mem_heap hb
  obtain ⟨b', w, e, hb', hw, hwc⟩ := FindFirstOf_ring_found hr c hx
    ⟨b, vb, hb, hvb, by rw [← tagOf_eq hvb, hbc]⟩ fuel hfuel
  have := huniq b' hb' (by rw [tagOf_eq hw, hwc])
  rw [e, this]

/-- The worklist loop of `Intersect` skips vertices that are already visited. -/
theorem IntersectLoop_visited {h : Heap} : ∀ (wl : List Ptr) (cs : PointContourList)
    (fuel : Nat),
    (∀ p ∈ wl, ∃ (a : Nat) (v : ClipVertex), p = some a ∧ h[a]? = some v ∧ v.mVisited = true) →
    wl.length + 1 ≤ fuel → IntersectLoop fuel h wl cs = some cs := by
  intro wl
  induction wl with
  | nil =>
    intro cs fuel _ hf
    obtain ⟨fuel, rfl⟩ : ∃ k, fuel = k + 1 := ⟨fuel - 1, by simp at hf; omega⟩
    simp [IntersectLoop]
  | cons p wl ih =>
    intro cs fuel hv hf
    obtain ⟨fuel, rfl⟩ : ∃ k, fuel = k + 1 := ⟨fuel - 1, by simp at hf; omega⟩
    obtain ⟨a, v, rfl, hva, hvis⟩ := hv p (by simp)
    simp only [IntersectLoop, deref, hva, hvis, if_true]
    exact ih cs fuel (fun q hq => hv q (List.mem_cons_of_mem _ hq)) (by simp at hf ⊢; omega)

theorem TwoArcs.nodup {h : Heap} {r : List Nat} {p q : Nat} {A B : List Nat}
    (hT : TwoArcs h r p q A B) (hr : Ring h r) : (p :: A ++ q :: B).Nodup :=
  hT.1.nodup_iff.mp hr.2.1

theorem TwoArcs.length {h : Heap} {r : List Nat} {p q : Nat} {A B : List Nat}
    (hT : TwoArcs h r p q A B) : r.length = A.length + B.length + 2 := by
  rw [hT.1.length_eq]
  simp
  omega

/-- On the subject ring only `xo` is tagged `OutToIn`. -/
theorem TwoCrossings.uniqueOut {h : Heap} {rs rc : List Nat} {xo xi yo yi : Nat}
    {A1 A2 D1 D2 : List Nat} (T : TwoCrossings h rs rc xo xi yo yi A1 A2 D1 D2) :
    tagOf h xo = ClipVertexClassification.OutToIn ∧
      ∀ a ∈ rs, tagOf h a = ClipVertexClassification.OutToIn → a = xo := by
  obtain ⟨vo, hvo, -, hco⟩ := T.cellXo
  obtain ⟨vi, hvi, -, hci⟩ := T.cellXi
  refine ⟨by rw [tagOf_eq hvo, hco], fun a ha hta => ?_⟩
  have hplain : ∀ x, Plain h x → tagOf h x ≠ ClipVertexClassification.OutToIn := by
    rintro x ⟨v, hv, -, hs⟩
    rw [tagOf_eq hv]
    rcases hs with e | e <;> rw [e] <;> decide
  rcases (T.arcsS.mem_iff a).mp ha with rfl | hA | rfl | hB
  · rfl
  · exact absurd hta (hplain a (T.arcsS.2.2.2.1 a hA))
  · rw [tagOf_eq hvi, hci] at hta
    cases hta
  · exact absurd hta (hplain a (T.arcsS.2.2.2.2 a hB))

/-- On the clip ring, when `yo` is tagged `InToOut`, only `yi` is tagged `OutToIn`. -/
theorem TwoCrossings.uniqueOutClip {h : Heap} {rs rc : List Nat} {xo xi yo yi : Nat}
    {A1 A2 D1 D2 : List Nat} (T : TwoCrossings h rs rc xo xi yo yi A1 A2 D1 D2)
    (hyo : tagOf h yo = ClipVertexClassification.InToOut) :
    tagOf h yi = ClipVertexClassification.OutToIn ∧
      ∀ a ∈ rc, tagOf h a = ClipVertexClassification.OutToIn → a = yi := by
  refine ⟨T.tagsC hyo, fun a ha hta => ?_⟩
  have hplain : ∀ x, Plain h x → tagOf h x ≠ ClipVertexClassification.OutToIn := by
    rintro x ⟨v, hv, -, hs⟩
    rw [tagOf_eq hv]
    rcases hs with e | e <;> rw [e] <;> decide
  rcases (T.arcsC.mem_iff a).mp ha with rfl | hA | rfl | hB
  · rw [hyo] at hta
    cases hta
  · exact absurd hta (hplain a (T.arcsC.2.2.2.1 a hA))
  · rfl
  · exact absurd hta (hplain a (T.arcsC.2.2.2.2 a hB))

/-- The ring-level `Union` on rings with two crossings returns the arc of the clip ring
from `yo` to `yi` followed by the arc of the subject ring from `xi` to `xo`. -/
theorem UnionList_two {h : Heap} {rs rc : List Nat} {xo xi yo yi : Nat}
    {A1 A2 D1 D2 : List Nat} (T : TwoCrossings h rs rc xo xi yo yi A1 A2 D1 D2)
    {x : Nat} (hx : x ∈ rs) (fuel : Nat) (hfuel : rs.length + rc.length ≤ fuel) :
    UnionList fuel h { mHead := some x } [] =
      some (pointOf h xo :: (D1.map (pointOf h) ++ [pointOf h xi] ++ A2.map (pointOf h))) := by
  obtain ⟨vo, hvo, hto, hco⟩ := T.cellXo
  obtain ⟨vi, hvi, hti, hci⟩ := T.cellXi
  obtain ⟨wi, hwi, htwi, hpi⟩ := T.cellYi
  have hxo : xo ∈ rs := (T.arcsS.mem_iff xo).mpr (Or.inl rfl)
  have hF := FindFirstOf_unique T.ringS ClipVertexClassification.OutToIn hx hxo
    T.uniqueOut.1 T.uniqueOut.2 fuel (by omega)
  have hnd := T.arcsS.nodup T.ringS
  have hxA : xo ∉ A2 := by
    intro hcon
    have := (List.nodup_cons.mp hnd).1
    exact this (by simp [hcon])
  have hl1 := T.arcsS.length
  have hl2 := T.arcsC.length
  have hT := Traverse_union_two hvo hto hvi hwi htwi T.arcsC.2.1 T.arcsC.2.2.2.1
    T.arcsS.2.2.1 T.arcsS.2.2.2.2 hxA fuel fuel (by omega) (by omega)
  simp only [UnionList, hF, reduceCtorEq, if_false, hT, Option.map_some']
  rw [pointOf_eq hvo, hpi]

theorem MarkVisited.samePoints {X : List Nat} {h h' : Heap} (hm : MarkVisited X h h') :
    pointOf h' = pointOf h := by
  funext a
  by_cases ha : a < h.length
  · exact hm.keepsPoint ha
  · have h1 : h[a]? = none := List.getElem?_eq_none (Nat.le_of_not_lt ha)
    have h2 : h'[a]? = none := List.getElem?_eq_none (by rw [hm.1]; exact Nat.le_of_not_lt ha)
    simp [pointOf, h1, h2]

theorem MarkVisited.sameTags {X : List Nat} {h h' : Heap} (hm : MarkVisited X h h') :
    tagOf h' = tagOf h := by
  funext a
  by_cases ha : a < h.length
  · have hv : h[a]? = some h[a] := List.getElem?_eq_getElem ha
    rw [tagOf_eq hv, tagOf_eq (hm.2 a _ hv)]
    by_cases hX : a ∈ X <;> simp [hX]
  · have h1 : h[a]? = none := List.getElem?_eq_none (Nat.le_of_not_lt ha)
    have h2 : h'[a]? = none := List.getElem?_eq_none (by rw [hm.1]; exact Nat.le_of_not_lt ha)
    simp [tagOf, h1, h2]

/-- A cell of the marked heap: the cell of the old heap with the same point, tag, twin
and links; it is visited when it is marked or was visited. -/
theorem MarkVisited.cellOf {X : List Nat} {h h' : Heap} (hm : MarkVisited X h h') {a : Nat}
    {v : ClipVertex} (hv : h[a]? = some v) :
    ∃ v' : ClipVertex, h'[a]? = some v' ∧ v'.mPoint = v.mPoint ∧
      v'.mClassification = v.mClassification ∧ v'.mTwin = v.mTwin ∧ v'.mNext = v.mNext ∧
      (a ∈ X → v'.mVisited = true) ∧ (a ∉ X → v'.mVisited = v.mVisited) := by
  refine ⟨_, hm.2 a v hv, ?_⟩
  by_cases hX : a ∈ X <;> simp [hX]

/-- Marking the cell `x` visited in a heap that contains it. -/
theorem store_markVisited {h : Heap} {x : Nat} {v : ClipVertex} (hv : h[x]? = some v) :
    ∃ h1, store h (some x) (fun c => { c with mVisited := true }) = some h1 ∧
      MarkVisited [x] h h1 := by
  obtain ⟨h1, e, -, -⟩ := store_spec h x (fun c => { c with mVisited := true })
    (getElem?_lt_of_some hv)
  exact ⟨h1, e, MarkVisited.of_store_visited e⟩

/-- The ring-level `Intersect` on rings with two crossings returns one contour: the arc
of the subject ring from `xo` to `xi` followed by the arc of the clip ring from `yi` to
`yo`. -/
theorem IntersectList_two {h : Heap} {rs rc : List Nat} {xo xi yo yi : Nat}
    {A1 A2 D1 D2 : List Nat} (T : TwoCrossings h rs rc xo xi yo yi A1 A2 D1 D2)
    {x : Nat} (hx : x ∈ rs) (fuel : Nat) (hfuel : 2 * (rs.length + rc.length) + 4 ≤ fuel) :
    IntersectList fuel h { mHead := some x } [] =
      some [pointOf h xo :: (A1.map (pointOf h) ++ [pointOf h xi] ++ D2.map (pointOf h))] := by
  obtain ⟨vo, hvo, hto, hco⟩ := T.cellXo
  obtain ⟨vi, hvi, hti, hci⟩ := T.cellXi
  obtain ⟨wo, hwo, htwo, hpo⟩ := T.cellYo
  obtain ⟨wi, hwi, htwi, hpi⟩ := T.cellYi
  have hxo : xo ∈ rs := (T.arcsS.mem_iff xo).mpr (Or.inl rfl)
  have hxi : xi ∈ rs := (T.arcsS.mem_iff xi).mpr (Or.inr (Or.inr (Or.inl rfl)))
  have hyo : yo ∈ rc := (T.arcsC.mem_iff yo).mpr (Or.inl rfl)
  have hyi : yi ∈ rc := (T.arcsC.mem_iff yi).mpr (Or.inr (Or.inr (Or.inl rfl)))
  have hA1 : ∀ a ∈ A1, a ∈ rs := fun a ha => (T.arcsS.mem_iff a).mpr (Or.inr (Or.inl ha))
  have hD2 : ∀ a ∈ D2, a ∈ rc := fun a ha =>
    (T.arcsC.mem_iff a).mpr (Or.inr (Or.inr (Or.inr ha)))
  have hndS := T.arcsS.nodup T.ringS
  have hndC := T.arcsC.nodup T.ringC
  have hlS := T.arcsS.length
  have hlC := T.arcsC.length
  -- distinctness
  have hxoA1 : xo ∉ A1 := fun hcon => (List.nodup_cons.mp hndS).1 (by simp [hcon])
  have hxiS : xi ∉ xo :: A1 := by
    have e : xo :: A1 ++ xi :: A2 = (xo :: A1) ++ xi :: A2 := rfl
    rw [e] at hndS
    have := (List.nodup_append.mp hndS).2.2
    intro hcon
    exact this hcon (by simp)
  have hyoC : yo ∉ yi :: D2 := by
    have := (List.nodup_cons.mp hndC).1
    intro hcon
    rcases List.mem_cons.mp hcon with e | e
    · exact this (by simp [← e])
    · exact this (by simp [e])
  have hxoD2 : xo ∉ D2 := fun hcon => T.disj xo hxo (hD2 xo hcon)
  have hyiS : yi ∉ xo :: A1 := by
    intro hcon
    rcases List.mem_cons.mp hcon with e | e
    · exact T.disj xo hxo (e ▸ hyi)
    · exact T.disj yi (hA1 yi e) hyi
  have hyoS : yo ∉ xo :: A1 := by
    intro hcon
    rcases List.mem_cons.mp hcon with e | e
    · exact T.disj xo hxo (e ▸ hyo)
    · exact T.disj yo (hA1 yo e) hyo
  -- the start of the contour
  have hF := FindFirstOf_unique T.ringS ClipVertexClassification.OutToIn hx hxo
    T.uniqueOut.1 T.uniqueOut.2 fuel (by omega)
  obtain ⟨F, rfl⟩ : ∃ k, fuel = k + 1 := ⟨fuel - 1, by omega⟩
  obtain ⟨fd, hfd⟩ : ∃ k, F = (((k + 1) + D2.length) + 1) + A1.length :=
    ⟨F - (A1.length + D2.length + 2), by omega⟩
  have hfd' : rs.length + rc.length ≤ fd := by omega
  -- the arc of the subject ring
  have hchA1 : List.Chain' (Link h) (xo :: A1) := by
    have e : xo :: A1 ++ [xi] = (xo :: A1) ++ [xi] := rfl
    have := T.arcsS.2.1
    rw [e] at this
    exact this.left_of_append
  obtain ⟨h1, hm1, hp1⟩ := IntersectTrace_path (c := xo) A1 xo h hchA1 T.arcsS.2.2.2.1 hxoA1
  have hl1mem := getLastD_mem A1 xo
  obtain ⟨⟨v1, hv1, hn1⟩, -⟩ := chain_last_link A1 xo xi T.arcsS.2.1
  obtain ⟨v1', hv1', hp1', -, -, hn1', -, -⟩ := hm1.cellOf hv1
  obtain ⟨vi1, hvi1, -, hci1, hti1, -, -, hvis1⟩ := hm1.cellOf hvi
  have hxi1 : xi ∉ (xo :: A1).dropLast := fun hcon => hxiS (List.mem_of_mem_dropLast hcon)
  obtain ⟨wi1, hwi1, -, -, htwi1, -, -, -⟩ := hm1.cellOf hwi
  obtain ⟨h2, e2, hm2⟩ := store_markVisited hv1'
  have hm12 : MarkVisited (xo :: A1) h h2 := by
    have := hm1.concat hm2
    rwa [dropLast_getLastD] at this
  have hF2 : FindFirstOf (((fd + 1) + D2.length)) h2 (some xi) ClipVertexClassification.OutToIn =
      some (some xo) := by
    refine FindFirstOf_unique (hm12.keepsRing T.ringS) _ hxi hxo ?_ ?_ _ (by omega)
    · rw [hm12.sameTags]
      exact T.uniqueOut.1
    · rw [hm12.sameTags]
      exact T.uniqueOut.2
  have hstep1 := IntersectTrace_step_cross (some xo) hv1' (hn1'.trans hn1) hvi1
    (fun hcon => hxiS (hcon ▸ hl1mem)) (hci1.trans hci)
    ((hvis1 hxi1).trans (T.unvisited xi vi hvi)) (hti1.trans hti)
    (fun hcon => T.disj xo hxo (by cases hcon; exact hyi)) hwi1
    (by
      rw [htwi1, htwi]
      intro hcon
      cases hcon
      exact hxiS (by simp)) e2 hF2
  -- the arc of the clip ring
  have hchD2 : List.Chain' (Link h2) (yi :: D2) := by
    have e : yi :: D2 ++ [yo] = (yi :: D2) ++ [yo] := rfl
    have := T.arcsC.2.2.1
    rw [e] at this
    exact hm12.keepsChain this.left_of_append
  obtain ⟨h3, hm3, hp3⟩ := IntersectTrace_path (c := xo) D2 yi h2 hchD2
    (fun a ha => hm12.keepsPlain (T.arcsC.2.2.2.2 a ha)) hxoD2
  have hm13 := hm12.concat hm3
  have hl2mem := getLastD_mem D2 yi
  obtain ⟨⟨v2, hv2, hn2⟩, -⟩ := chain_last_link D2 yi yo T.arcsC.2.2.1
  obtain ⟨v2', hv2', hp2', -, -, hn2', -, -⟩ := hm13.cellOf hv2
  obtain ⟨wo3, hwo3, -, hcwo3, htwo3, -, -, hvis3⟩ := hm13.cellOf hwo
  have hyo3 : yo ∉ (xo :: A1) ++ (yi :: D2).dropLast := by
    intro hcon
    rcases List.mem_append.mp hcon with e | e
    · exact hyoS e
    · exact hyoC (List.mem_of_mem_dropLast e)
  obtain ⟨h4, e4, hm4⟩ := store_markVisited hv2'
  have hm14 : MarkVisited ((xo :: A1) ++ (yi :: D2)) h h4 := by
    have := hm13.concat hm4
    rwa [List.append_assoc, dropLast_getLastD] at this
  obtain ⟨vo4, hvo4, -, -, -, -, hviso4, -⟩ := hm14.cellOf hvo
  obtain ⟨wi4, hwi4, -, -, -, -, hvisi4, -⟩ := hm14.cellOf hwi
  have hpts : [] ++ List.map (pointOf h) (xo :: A1).dropLast ++ [v1'.mPoint] ++
      List.map (pointOf h2) (yi :: D2).dropLast ++ [v2'.mPoint] =
      pointOf h xo :: (A1.map (pointOf h) ++ [pointOf h xi] ++ D2.map (pointOf h)) := by
    rw [hm12.samePoints, hp1', hp2', ← pointOf_eq hv1, ← pointOf_eq hv2]
    have e1 := congrArg (List.map (pointOf h)) (dropLast_getLastD A1 xo)
    have e2 := congrArg (List.map (pointOf h)) (dropLast_getLastD D2 yi)
    rw [List.map_append, List.map_singleton] at e1 e2
    rw [List.nil_append, e1, List.append_assoc, e2, List.map_cons, List.map_cons,
      pointOf_eq hwi, hpi]
    simp
  have hlen4 : ([some xo] : List Ptr).length + 1 ≤ F := by simp; omega
  have hlen4' : ([some yi, some xo] : List Ptr).length + 1 ≤ F := by simp; omega
  have hvisited : ∀ p ∈ ([some yi, some xo] : List Ptr), ∃ (a : Nat) (v : ClipVertex),
      p = some a ∧ h4[a]? = some v ∧ v.mVisited = true := by
    intro p hp
    simp only [List.mem_cons, List.mem_singleton, List.not_mem_nil, or_false] at hp
    rcases hp with rfl | rfl
    · exact ⟨yi, wi4, rfl, hwi4, hvisi4 (by simp)⟩
    · exact ⟨xo, vo4, rfl, hvo4, hviso4 (by simp)⟩
  have htrace : ∃ wl : List Ptr, (∀ p ∈ wl, p ∈ ([some yi, some xo] : List Ptr)) ∧
      wl.length ≤ 2 ∧
      IntersectTrace (some xo) F h (some xo) [] [] = some (h4, wl,
        pointOf h xo :: (A1.map (pointOf h) ++ [pointOf h xi] ++ D2.map (pointOf h))) := by
    rw [hfd, hp1, hstep1, hp3]
    by_cases hc : wo3.mClassification = ClipVertexClassification.InToOut
    · have hF4 : FindFirstOf fd h4 (some yo) ClipVertexClassification.OutToIn =
          some (some yi) := by
        have hyoT : tagOf h yo = ClipVertexClassification.InToOut := by
          rw [tagOf_eq hwo, ← hcwo3, hc]
        refine FindFirstOf_unique (hm14.keepsRing T.ringC) _ hyo hyi ?_ ?_ _ (by omega)
        · rw [hm14.sameTags]
          exact (T.uniqueOutClip hyoT).1
        · rw [hm14.sameTags]
          exact (T.uniqueOutClip hyoT).2
      have := IntersectTrace_last_cross (some xo) hv2' (hn2'.trans hn2) hwo3
        (fun hcon => hyoC (hcon ▸ hl2mem)) hc ((hvis3 hyo3).trans (T.unvisited yo wo hwo))
        (htwo3.trans htwo) e4 hF4 [some xo]
        ([] ++ List.map (pointOf h) (xo :: A1).dropLast ++ [v1'.mPoint] ++
          List.map (pointOf h2) (yi :: D2).dropLast)
      rw [this, hpts]
      exact ⟨_, fun p hp => hp, by simp, rfl⟩
    · have := IntersectTrace_last_other (some xo) fd hv2' (hn2'.trans hn2) hwo3
        hc (htwo3.trans htwo) e4 [some xo]
        ([] ++ List.map (pointOf h) (xo :: A1).dropLast ++ [v1'.mPoint] ++
          List.map (pointOf h2) (yi :: D2).dropLast)
      rw [this, hpts]
      exact ⟨_, fun p hp => by simp at hp; simp [hp], by simp, rfl⟩
  obtain ⟨wl, hwl, hwlen, htr⟩ := htrace
  have hloop := IntersectLoop_visited (h := h4) wl
    [pointOf h xo :: (A1.map (pointOf h) ++ [pointOf h xi] ++ D2.map (pointOf h))] F
    (fun p hp => hvisited p (hwl p hp)) (by omega)
  simp only [IntersectList, hF, reduceCtorEq, if_false, IntersectLoop, deref, hvo,
    T.unvisited xo vo hvo, Bool.false_eq_true, htr, List.nil_append, hloop]

/-! ### From the tags of the rings to the two arcs -/

theorem readBack_tags {h : Heap} : ∀ (l : List Nat), (∀ a ∈ l, a < h.length) →
    ((l.filterMap (fun a => h[a]?)).map (fun v => (v.mPoint, v.mClassification))).map Prod.snd =
      l.map (tagOf h) := by
  intro l
  induction l with
  | nil => intro _; rfl
  | cons a t ih =>
    intro hl
    have ha : a < h.length := hl a (by simp)
    obtain ⟨v, hv⟩ : ∃ v : ClipVertex, h[a]? = some v := ⟨h[a], List.getElem?_eq_getElem ha⟩
    rw [List.filterMap_cons, hv]
    simp only [List.map_cons, tagOf_eq hv]
    rw [ih (fun b hb => hl b (List.mem_cons_of_mem _ hb))]

theorem isCrossingTag_of_isCrossing {c : ClipVertexClassification} (hc : IsCrossing c) :
    isCrossingTag c = true := by
  rcases hc with e | e <;> rw [e] <;> decide

/-- A ring whose crossing tags are `c1, c2` splits into the two arcs between the two
crossing vertices. -/
theorem twoArcs_of_tags {h : Heap} {r other : List Nat} (hr : Ring h r)
    (htw : ∀ a ∈ r, ∀ v : ClipVertex, h[a]? = some v → TwinOK IsSide h other a v)
    {c1 c2 : ClipVertexClassification}
    (hf : (r.map (tagOf h)).filter isCrossingTag = [c1, c2]) :
    ∃ (x1 x2 : Nat) (A B : List Nat), TwoArcs h r x1 x2 A B ∧ tagOf h x1 = c1 ∧
      tagOf h x2 = c2 := by
  obtain ⟨L, x1, M, x2, R, e, t1, t2, hL, hM, hR⟩ :=
    filter_map_pair (tagOf h) isCrossingTag c1 c2 r hf
  have hplain : ∀ a ∈ r, isCrossingTag (tagOf h a) = false → Plain h a := by
    intro a ha hc
    obtain ⟨v, -, hv, -, -⟩ := hr.mem_heap ha
    rcases htw a ha v hv with ⟨htwin, hside⟩ | ⟨b, w, -, -, -, -, -, hcr⟩
    · exact ⟨v, hv, htwin, hside⟩
    · rw [tagOf_eq hv, isCrossingTag_of_isCrossing hcr] at hc
      cases hc
  subst e
  obtain ⟨c1', c2'⟩ := hr.two_chains
  refine ⟨x1, x2, M, R ++ L, ⟨?_, c1', c2', ?_, ?_⟩, t1, t2⟩
  · have e : x1 :: M ++ x2 :: (R ++ L) = (x1 :: (M ++ x2 :: R)) ++ L := by simp
    rw [e]
    exact List.perm_append_comm
  · intro a ha
    exact hplain a (by simp [ha]) (hM a ha)
  · intro a ha
    rcases List.mem_append.mp ha with ha | ha
    · exact hplain a (by simp [ha]) (hR a ha)
    · exact hplain a (by simp [ha]) (hL a ha)

/-- A vertex of an arc has no twin. -/
theorem TwoArcs.ends_of_twin {h : Heap} {r : List Nat} {p q : Nat} {A B : List Nat}
    (hT : TwoArcs h r p q A B) {b t : Nat} {w : ClipVertex} (hb : b ∈ r)
    (hw : h[b]? = some w) (ht : w.mTwin = some t) : b = p ∨ b = q := by
  rcases (hT.mem_iff b).mp hb with e | hA | e | hB
  · exact Or.inl e
  · obtain ⟨v, hv, htw, -⟩ := hT.2.2.2.1 b hA
    rw [hw] at hv
    cases hv
    rw [ht] at htw
    cases htw
  · exact Or.inr e
  · obtain ⟨v, hv, htw, -⟩ := hT.2.2.2.2 b hB
    rw [hw] at hv
    cases hv
    rw [ht] at htw
    cases htw

/-- After enrichment, when each ring carries exactly one `OutToIn` and one `InToOut`
vertex, the two rings meet in two crossings. -/
theorem twoCrossings_of_tags {N0 : Nat} {oS oC : List Nat} {h : Heap} {rs rc : List Nat}
    (E : Enr IsSide IsSide N0 oS oC h rs rc [])
    (hS : (rs.map (tagOf h)).filter isCrossingTag =
        [ClipVertexClassification.OutToIn, ClipVertexClassification.InToOut] ∨
      (rs.map (tagOf h)).filter isCrossingTag =
        [ClipVertexClassification.InToOut, ClipVertexClassification.OutToIn])
    (hC : (rc.map (tagOf h)).filter isCrossingTag =
        [ClipVertexClassification.OutToIn, ClipVertexClassification.InToOut] ∨
      (rc.map (tagOf h)).filter isCrossingTag =
        [ClipVertexClassification.InToOut, ClipVertexClassification.OutToIn]) :
    ∃ (xo xi yo yi : Nat) (A1 A2 D1 D2 : List Nat),
      TwoCrossings h rs rc xo xi yo yi A1 A2 D1 D2 := by
  have htwS : ∀ a ∈ rs, ∀ v : ClipVertex, h[a]? = some v → TwinOK IsSide h rc a v :=
    fun a ha v hv => E.twinS a (by simp [ha]) v hv
  have htwC : ∀ a ∈ rc, ∀ v : ClipVertex, h[a]? = some v → TwinOK IsSide h (rs ++ []) a v :=
    fun a ha v hv => E.twinC a ha v hv
  obtain ⟨xo, xi, A1, A2, hTS, hto, hti⟩ : ∃ (xo xi : Nat) (A1 A2 : List Nat),
      TwoArcs h rs xo xi A1 A2 ∧ tagOf h xo = ClipVertexClassification.OutToIn ∧
        tagOf h xi = ClipVertexClassification.InToOut := by
    rcases hS with hS | hS
    · obtain ⟨x1, x2, A, B, hT, t1, t2⟩ := twoArcs_of_tags E.ringS htwS hS
      exact ⟨x1, x2, A, B, hT, t1, t2⟩
    · obtain ⟨x1, x2, A, B, hT, t1, t2⟩ := twoArcs_of_tags E.ringS htwS hS
      exact ⟨x2, x1, B, A, hT.swapped, t2, t1⟩
  obtain ⟨y1, y2, D, D', hTC, htags⟩ : ∃ (y1 y2 : Nat) (D D' : List Nat),
      TwoArcs h rc y1 y2 D D' ∧
        ((tagOf h y1 = ClipVertexClassification.OutToIn ∧
            tagOf h y2 = ClipVertexClassification.InToOut) ∨
          (tagOf h y1 = ClipVertexClassification.InToOut ∧
            tagOf h y2 = ClipVertexClassification.OutToIn)) := by
    rcases hC with hC | hC
    · obtain ⟨x1, x2, A, B, hT, t1, t2⟩ := twoArcs_of_tags E.ringC htwC hC
      exact ⟨x1, x2, A, B, hT, Or.inl ⟨t1, t2⟩⟩
    · obtain ⟨x1, x2, A, B, hT, t1, t2⟩ := twoArcs_of_tags E.ringC htwC hC
      exact ⟨x1, x2, A, B, hT, Or.inr ⟨t1, t2⟩⟩
  have hxo : xo ∈ rs := (hTS.mem_iff xo).mpr (Or.inl rfl)
  have hxi : xi ∈ rs := (hTS.mem_iff xi).mpr (Or.inr (Or.inr (Or.inl rfl)))
  have hne : xo ≠ xi := by
    intro hcon
    rw [hcon, hti] at hto
    cases hto
  -- the twins
  have htwin : ∀ x ∈ rs, isCrossingTag (tagOf h x) = true →
      ∃ (v : ClipVertex) (b : Nat) (w : ClipVertex), h[x]? = some v ∧ v.mTwin = some b ∧
        b ∈ rc ∧ h[b]? = some w ∧ w.mTwin = some x ∧ w.mPoint = v.mPoint ∧
        (b = y1 ∨ b = y2) := by
    intro x hx hc
    obtain ⟨v, -, hv, -, -⟩ := E.ringS.mem_heap hx
    rcases htwS x hx v hv with ⟨-, hside⟩ | ⟨b, w, hb, hbm, hw, hwt, hwp, -⟩
    · rw [tagOf_eq hv] at hc
      rcases hside with e | e <;> rw [e] at hc <;> cases hc
    · exact ⟨v, b, w, hv, hb, hbm, hw, hwt, hwp, hTC.ends_of_twin hbm hw hwt⟩
  obtain ⟨vo, bo, wo, hvo, htwo, hbo, hwo, hwot, hwop, hbo12⟩ :=
    htwin xo hxo (by rw [hto]; decide)
  obtain ⟨vi, bi, wi, hvi, htwi, hbi, hwi, hwit, hwip, hbi12⟩ :=
    htwin xi hxi (by rw [hti]; decide)
  have hbne : bo ≠ bi := by
    intro hcon
    rw [hcon, hwi] at hwo
    cases hwo
    rw [hwit] at hwot
    cases hwot
    exact hne rfl
  have hco : vo.mClassification = ClipVertexClassification.OutToIn := by
    rw [← tagOf_eq hvo, hto]
  have hci : vi.mClassification = ClipVertexClassification.InToOut := by
    rw [← tagOf_eq hvi, hti]
  have hmk : ∀ {D1 D2 : List Nat}, TwoArcs h rc bo bi D1 D2 →
      (tagOf h bo = ClipVertexClassification.InToOut →
        tagOf h bi = ClipVertexClassification.OutToIn) →
      TwoCrossings h rs rc xo xi bo bi A1 A2 D1 D2 := by
    intro D1 D2 hT ht
    exact { ringS := E.ringS, ringC := E.ringC, disj := E.disjSC, arcsS := hTS, arcsC := hT,
            cellXo := ⟨vo, hvo, htwo, hco⟩, cellXi := ⟨vi, hvi, htwi, hci⟩,
            cellYo := ⟨wo, hwo, hwot, by rw [hwop, pointOf_eq hvo]⟩,
            cellYi := ⟨wi, hwi, hwit, by rw [hwip, pointOf_eq hvi]⟩,
            tagsC := ht, unvisited := E.unvisited }
  rcases hbo12 with e1 | e1
  · have e2 : bi = y2 := by
      rcases hbi12 with e | e
      · exact absurd (e1.trans e.symm) hbne
      · exact e
    subst e1
    subst e2
    refine ⟨xo, xi, bo, bi, A1, A2, D, D', hmk hTC ?_⟩
    intro ht
    rcases htags with ⟨a, -⟩ | ⟨-, b⟩
    · rw [a] at ht
      cases ht
    · exact b
  · have e2 : bi = y1 := by
      rcases hbi12 with e | e
      · exact e
      · exact absurd (e1.trans e.symm) hbne
    subst e1
    subst e2
    refine ⟨xo, xi, bo, bi, A1, A2, D', D, hmk hTC.swapped ?_⟩
    intro ht
    rcases htags with ⟨a, -⟩ | ⟨-, b⟩
    · exact a
    · rw [b] at ht
      cases ht

/-- The area of the heap after enrichment is the sum of the contributions of the cells of
the two rings. -/
theorem heapArea_rings {pS pC : ClipVertexClassification → Prop} {N0 : Nat} {oS oC : List Nat}
    {h : Heap} {rs rc : List Nat} (E : Enr pS pC N0 oS oC h rs rc []) :
    heapArea h = (rs.map (areaAt h)).sum + (rc.map (areaAt h)).sum := by
  have hnd : (rs ++ rc).Nodup :=
    List.nodup_append.mpr ⟨E.ringS.2.1, E.ringC.2.1, fun a ha hb => E.disjSC a ha hb⟩
  have hperm : (rs ++ rc).Perm (List.range h.length) := by
    rw [List.perm_ext_iff_of_nodup hnd (List.nodup_range _)]
    intro a
    rw [List.mem_range, List.mem_append]
    constructor
    · rintro (ha | ha)
      · exact E.ringS.lt_length ha
      · exact E.ringC.lt_length ha
    · intro ha
      rcases E.cover a ha with h1 | h1 | h1
      · exact Or.inl h1
      · exact Or.inr h1
      · cases h1
  rw [heapArea, areaBelow, ← (hperm.map (areaAt h)).sum_eq, List.map_append, List.sum_append]

/-- On rings with two crossings the areas of the contour of `Union` and of the contour of
`Intersect` add up to half the area of the heap. -/
theorem TwoCrossings.area_halves {h : Heap} {rs rc : List Nat} {xo xi yo yi : Nat}
    {A1 A2 D1 D2 : List Nat} (T : TwoCrossings h rs rc xo xi yo yi A1 A2 D1 D2) :
    shoelaceArea (pointOf h xo :: (D1.map (pointOf h) ++ [pointOf h xi] ++ A2.map (pointOf h))) +
      shoelaceArea (pointOf h xo :: (A1.map (pointOf h) ++ [pointOf h xi] ++ D2.map (pointOf h))) =
      ((rs.map (areaAt h)).sum + (rc.map (areaAt h)).sum) / 2 := by
  obtain ⟨wo, hwo, -, hpo⟩ := T.cellYo
  obtain ⟨wi, hwi, -, hpi⟩ := T.cellYi
  have ho : pointOf h yo = pointOf h xo := by rw [pointOf_eq hwo, hpo]
  have hi : pointOf h yi = pointOf h xi := by rw [pointOf_eq hwi, hpi]
  rw [T.arcsS.area_sum, T.arcsC.area_sum, shoelaceArea_eq_pathCross, shoelaceArea_eq_pathCross]
  simp only [List.map_cons, List.map_append, List.map_nil, List.cons_append, List.take_succ_cons,
    List.take_zero, List.append_assoc, List.nil_append, ho, hi]
  have s1 := pathCross_append (pointOf h xo :: D1.map (pointOf h)) (pointOf h xi)
    (A2.map (pointOf h) ++ [pointOf h xo])
  have s2 := pathCross_append (pointOf h xo :: A1.map (pointOf h)) (pointOf h xi)
    (D2.map (pointOf h) ++ [pointOf h xo])
  simp only [List.cons_append] at s1 s2
  rw [s1, s2]
  ring

theorem ClipPolygon_nil_subject (fuel : Nat) (h : Heap) (cl : ClipVertexList) :
    ClipPolygon fuel h { mHead := none } cl = none := by
  cases fuel <;> simp [ClipPolygon, Traverse, deref]

theorem ClipPolygon_nil_clip (fuel : Nat) (h : Heap) (pl : ClipVertexList) :
    ClipPolygon fuel h pl { mHead := none } = none := by
  cases fuel with
  | zero => simp [ClipPolygon, Traverse]
  | succ n =>
    simp only [ClipPolygon, Traverse, ClipPolygonCallback, ClipEdges, ClipEdgesLoop, deref]
    cases hd : deref h pl.mHead <;> simp [deref] at hd ⊢ <;> simp [hd]

theorem BuildVertexList_nil (h : Heap) :
    BuildVertexList [] h = some (h, { mHead := none }) := by
  simp [BuildVertexList]

/-- On an empty subject or an empty clip contour `BuildClipList` does not return. -/
theorem BuildClipList_nonempty {fuel : Nat} {P Q : PointContour}
    {r : Heap × ClipVertexList × ClipVertexList} (hr : BuildClipList fuel P Q [] = some r) :
    P ≠ [] ∧ Q ≠ [] := by
  constructor
  · rintro rfl
    unfold BuildClipList at hr
    cases h1 : BuildVertexList Q [] with
    | none => simp [h1] at hr
    | some r1 =>
      obtain ⟨h1', cl⟩ := r1
      simp only [h1, BuildVertexList_nil, ClipPolygon_nil_subject] at hr
      cases hr
  · rintro rfl
    unfold BuildClipList at hr
    rw [BuildVertexList_nil] at hr
    cases h2 : BuildVertexList P [] with
    | none => simp [h2] at hr
    | some r2 =>
      obtain ⟨h2', pl⟩ := r2
      simp only [h2, ClipPolygon_nil_clip] at hr
      cases hr

theorem ringTags_nonempty {fuel : Nat} {P Q : PointContour}
    {r : List (Vec2 × ClipVertexClassification) × List (Vec2 × ClipVertexClassification)}
    (hr : ringTags fuel P Q = some r) : P ≠ [] ∧ Q ≠ [] := by
  unfold ringTags at hr
  cases hb : BuildClipList fuel P Q [] with
  | none => simp [hb] at hr
  | some b => exact BuildClipList_nonempty hb

theorem ReadVertices_mono (n m : Nat) (h : Heap) (l : ClipVertexList) (r : List ClipVertex)
    (hnm : n ≤ m) (hr : ReadVertices n h l = some r) : ReadVertices m h l = some r := by
  unfold ReadVertices at hr ⊢
  cases ht : Traverse ReadVerticesCallback n l.mHead l.mHead (h, []) with
  | none => simp [ht] at hr
  | some st =>
    rw [Traverse_mono _ _ (fun _ _ _ _ x => x) n m _ _ _ st hnm ht]
    rw [ht] at hr
    exact hr

theorem ringTags_mono (n m : Nat) (P Q : PointContour)
    (r : List (Vec2 × ClipVertexClassification) × List (Vec2 × ClipVertexClassification))
    (hnm : n ≤ m) (hr : ringTags n P Q = some r) : ringTags m P Q = some r := by
  unfold ringTags at hr ⊢
  cases hb : BuildClipList n P Q [] with
  | none => simp [hb] at hr
  | some b =>
    obtain ⟨h, pl, cl⟩ := b
    rw [BuildClipList_mono n m _ _ _ _ hnm hb]
    simp only [hb] at hr ⊢
    cases h1 : ReadVertices n h pl with
    | none => simp [h1] at hr
    | some a =>
      cases h2 : ReadVertices n h cl with
      | none => simp [h1, h2] at hr
      | some b =>
        rw [ReadVertices_mono n m _ _ _ hnm h1, ReadVertices_mono n m _ _ _ hnm h2]
        simp only [h1, h2] at hr ⊢
        exact hr

/-- The read-back of the two rings after `BuildClipList`, with the enrichment invariant
and the area of the heap. -/
theorem ringTags_spec (P Q : PointContour) (hP : P ≠ []) (hQ : Q ≠ []) :
    ∃ (h : Heap) (rs rc : List Nat) (F : Nat),
      (∀ fuel, F ≤ fuel → BuildClipList fuel P Q [] =
        some (h, { mHead := some Q.length }, { mHead := some 0 })) ∧
      Enr IsSide IsSide (Q.length + P.length) (List.range' Q.length P.length)
        (List.range' 0 Q.length) h rs rc [] ∧
      heapArea h = 2 * (shoelaceArea P + shoelaceArea Q) ∧
      rs[0]? = some Q.length ∧ rc[0]? = some 0 ∧
      (∀ fuel, F ≤ fuel → ∃ (ts tc : List (Vec2 × ClipVertexClassification)),
        ringTags fuel P Q = some (ts, tc) ∧
        ts.map Prod.snd = rs.map (tagOf h) ∧ tc.map Prod.snd = rc.map (tagOf h)) := by
  obtain ⟨h, rs, rc, F, hb, E, -, -, hA⟩ := BuildClipList_spec_area P Q hP hQ
  have hrs0 : rs[0]? = some Q.length := by
    rw [← List.head?_eq_getElem?, E.headS, List.head?_eq_getElem?, range'_head hP]
  have hrc0 : rc[0]? = some 0 := by
    rw [← List.head?_eq_getElem?, E.headC, List.head?_eq_getElem?, range'_head hQ]
  refine ⟨h, rs, rc, max F (rs.length + rc.length), fun fuel hf => hb fuel (by omega), E, hA,
    hrs0, hrc0, fun fuel hf => ?_⟩
  have r1 := ReadVertices_ring E.ringS fuel (by omega)
  have r2 := ReadVertices_ring E.ringC fuel (by omega)
  rw [hrs0] at r1
  rw [hrc0] at r2
  refine ⟨(rs.filterMap (fun a => h[a]?)).map (fun v => (v.mPoint, v.mClassification)),
    (rc.filterMap (fun a => h[a]?)).map (fun v => (v.mPoint, v.mClassification)),
    by simp only [ringTags, hb fuel (by omega), r1, r2], ?_, ?_⟩
  · exact readBack_tags rs (fun a ha => E.ringS.lt_length ha)
  · exact readBack_tags rc (fun a ha => E.ringC.lt_length ha)

/-- In exact arithmetic, when each ring carries exactly one `OutToIn` and one `InToOut`
crossing after `BuildClipList`, `Union` returns a contour and `Intersect` one contour whose
areas add up to the areas of the two inputs. -/
theorem area_identity_of_tags (P Q : PointContour) (hP : P ≠ []) (hQ : Q ≠ [])
    (ts tc : List (Vec2 × ClipVertexClassification))
    (hT : Returns (fun fuel => ringTags fuel P Q) (ts, tc))
    (hS : crossingTags ts =
        [ClipVertexClassification.OutToIn, ClipVertexClassification.InToOut] ∨
      crossingTags ts = [ClipVertexClassification.InToOut, ClipVertexClassification.OutToIn])
    (hC : crossingTags tc =
        [ClipVertexClassification.OutToIn, ClipVertexClassification.InToOut] ∨
      crossingTags tc = [ClipVertexClassification.InToOut, ClipVertexClassification.OutToIn]) :
    ∃ (u c : PointContour), Returns (fun fuel => Union fuel P Q) u ∧
      Returns (fun fuel => Intersect fuel P Q) [c] ∧
      shoelaceArea u + totalArea [c] = shoelaceArea P + shoelaceArea Q := by
  obtain ⟨h, rs, rc, F, hb, E, hA, hrs0, hrc0, hread⟩ := ringTags_spec P Q hP hQ
  obtain ⟨n, hn⟩ := hT
  obtain ⟨ts', tc', e, hts, htc⟩ := hread (max F n) (by omega)
  have e' := hn (max F n) (by omega)
  simp only [e] at e'
  cases e'
  rw [crossingTags, hts] at hS
  rw [crossingTags, htc] at hC
  obtain ⟨xo, xi, yo, yi, A1, A2, D1, D2, T⟩ := twoCrossings_of_tags E hS hC
  have hhead : Q.length ∈ rs := List.mem_iff_getElem?.mpr ⟨0, hrs0⟩
  have hd : ∀ fuel, rs.length + rc.length ≤ fuel →
      destroyLists fuel h { mHead := some Q.length } { mHead := some 0 } = some () := by
    intro fuel hf
    have hd1 := destroy_ring h rs E.ringS.toIsRing E.ringS.1 fuel (by omega)
    have hd2 := destroy_ring h rc E.ringC.toIsRing E.ringC.1 fuel (by omega)
    rw [hrs0] at hd1
    rw [hrc0] at hd2
    simp only [destroyLists, hd1, hd2]
  refine ⟨pointOf h xo :: (D1.map (pointOf h) ++ [pointOf h xi] ++ A2.map (pointOf h)),
    pointOf h xo :: (A1.map (pointOf h) ++ [pointOf h xi] ++ D2.map (pointOf h)),
    ⟨max F (rs.length + rc.length), fun fuel hf => ?_⟩,
    ⟨max F (2 * (rs.length + rc.length) + 4), fun fuel hf => ?_⟩, ?_⟩
  · simp only [Union, hb fuel (by omega), UnionList_two T hhead fuel (by omega),
      hd fuel (by omega), Option.map_some']
  · simp only [Intersect, hb fuel (by omega), IntersectList_two T hhead fuel (by omega),
      hd fuel (by omega), Option.map_some']
  · rw [totalArea, List.map_singleton, List.sum_singleton, T.area_halves, ← heapArea_rings E, hA]
    ring

set_option maxRecDepth 100000 in
theorem ringTags_squares_eval :
    ringTags 20 unitSquare offsetSquare =
      some ([(⟨0, 0⟩, ClipVertexClassification.Inside),
             (⟨1, 0⟩, ClipVertexClassification.Inside),
             (⟨1, 1/2⟩, ClipVertexClassification.InToOut),
             (⟨1, 1⟩, ClipVertexClassification.Outside),
             (⟨1/2, 1⟩, ClipVertexClassification.OutToIn),
             (⟨0, 1⟩, ClipVertexClassification.Inside)],
            [(⟨1/2, 1/2⟩, ClipVertexClassification.Inside),
             (⟨1, 1/2⟩, ClipVertexClassification.OutToIn),
             (⟨3/2, 1/2⟩, ClipVertexClassification.Inside),
             (⟨3/2, 3/2⟩, ClipVertexClassification.Inside),
             (⟨1/2, 3/2⟩, ClipVertexClassification.Inside),
             (⟨1/2, 1⟩, ClipVertexClassification.InToOut)]) := by
  decide!


/-- C6 (amended): in exact arithmetic, for every subject `A` and clip contour `B` for which
`BuildClipList` leaves exactly two crossing vertices on each ring, one tagged `OutToIn`
and one tagged `InToOut` (the tags read back by walking each ring forward from its head),
`Union(A,B)` returns a contour `u` and `Intersect(A,B)` a list of exactly one contour `c`,
and `area(u) + area(c) = area(A) + area(B)` for the shoelace signed area. -/
theorem C6_area_identity (A B : PointContour)
    (ts tc : List (Vec2 × ClipVertexClassification))
    (hT : Returns (fun fuel => ringTags fuel A B) (ts, tc))
    (hS : crossingTags ts =
        [ClipVertexClassification.OutToIn, ClipVertexClassification.InToOut] ∨
      crossingTags ts = [ClipVertexClassification.InToOut, ClipVertexClassification.OutToIn])
    (hC : crossingTags tc =
        [ClipVertexClassification.OutToIn, ClipVertexClassification.InToOut] ∨
      crossingTags tc = [ClipVertexClassification.InToOut, ClipVertexClassification.OutToIn]) :
    ∃ (u c : PointContour), Returns (fun fuel => Union fuel A B) u ∧
      Returns (fun fuel => Intersect fuel A B) [c] ∧
      shoelaceArea u + totalArea [c] = shoelaceArea A + shoelaceArea B := by
  obtain ⟨n, hn⟩ := hT
  have hne := ringTags_nonempty (hn n (le_refl n))
  exact area_identity_of_tags A B hne.1 hne.2 ts tc ⟨n, hn⟩ hS hC

/-- C6 (amended) on the two overlapping squares: the subject ring carries the crossings
`(1,0.5)` tagged `InToOut` and `(0.5,1)` tagged `OutToIn`, the clip ring carries `(1,0.5)`
tagged `OutToIn` and `(0.5,1)` tagged `InToOut`. -/
theorem C6_area_identity_witness :
    Returns (fun fuel => ringTags fuel unitSquare offsetSquare)
      ([(⟨0, 0⟩, ClipVertexClassification.Inside),
        (⟨1, 0⟩, ClipVertexClassification.Inside),
        (⟨1, 1/2⟩, ClipVertexClassification.InToOut),
        (⟨1, 1⟩, ClipVertexClassification.Outside),
        (⟨1/2, 1⟩, ClipVertexClassification.OutToIn),
        (⟨0, 1⟩, ClipVertexClassification.Inside)],
       [(⟨1/2, 1/2⟩, ClipVertexClassification.Inside),
        (⟨1, 1/2⟩, ClipVertexClassification.OutToIn),
        (⟨3/2, 1/2⟩, ClipVertexClassification.Inside),
        (⟨3/2, 3/2⟩, ClipVertexClassification.Inside),
        (⟨1/2, 3/2⟩, ClipVertexClassification.Inside),
        (⟨1/2, 1⟩, ClipVertexClassification.InToOut)]) ∧
    ∃ (u c : PointContour), Returns (fun fuel => Union fuel unitSquare offsetSquare) u ∧
      Returns (fun fuel => Intersect fuel unitSquare offsetSquare) [c] ∧
      shoelaceArea u + totalArea [c] = shoelaceArea unitSquare + shoelaceArea offsetSquare :=
  ⟨Returns_of_eq _ _ 20 (fun a b x hab hx => ringTags_mono a b _ _ x hab hx)
      ringTags_squares_eval,
    C6_area_identity unitSquare offsetSquare _ _
      (Returns_of_eq _ _ 20 (fun a b x hab hx => ringTags_mono a b _ _ x hab hx)
        ringTags_squares_eval)
      (Or.inr (by decide)) (Or.inl (by decide))⟩

/-! ### The walk of `Subtract` along rings with four crossings -/

theorem Step.of_link {h : Heap} {x y : Nat} (hl : Link h x y) :
    Step h ClipVertexSearchDirection.Forwards x y := by
  obtain ⟨⟨v, hv, hn⟩, -⟩ := hl
  exact ⟨v, hv, hn⟩

theorem Step.of_link_back {h : Heap} {x y : Nat} (hl : Link h x y) :
    Step h ClipVertexSearchDirection.Backward y x := by
  obtain ⟨-, ⟨w, hw, hp⟩⟩ := hl
  exact ⟨w, hw, hp⟩

theorem chain_step_forwards {h : Heap} {l : List Nat} (hc : List.Chain' (Link h) l) :
    List.Chain' (Step h ClipVertexSearchDirection.Forwards) l :=
  hc.imp (fun _ _ hl => Step.of_link hl)

theorem chain_step_backward {h : Heap} {l : List Nat} (hc : List.Chain' (Link h) l) :
    List.Chain' (Step h ClipVertexSearchDirection.Backward) l.reverse := by
  rw [List.chain'_reverse]
  exact hc.imp (fun _ _ hl => Step.of_link_back hl)

theorem MarkVisited.keepsStep {X : List Nat} {h h' : Heap} (hm : MarkVisited X h h')
    {d : ClipVertexSearchDirection} {x y : Nat} (hs : Step h d x y) : Step h' d x y := by
  obtain ⟨v, hv, hn⟩ := hs
  refine ⟨_, hm.2 x v hv, ?_⟩
  by_cases hX : x ∈ X <;> simp only [hX, if_true, if_false] <;> cases d <;> exact hn

/-- One pass of the inner loop of `Subtract` when the next vertex has no twin and is not
the start of the contour. -/
theorem SubtractTrace_step_plain {h : Heap} (cs : Ptr) (d : ClipVertexSearchDirection)
    {x y : Nat} {v w : ClipVertex}
    (hv : h[x]? = some v) (hn : GetNext v d = some y) (hw : h[y]? = some w)
    (htw : w.mTwin = none) (hy : some y ≠ cs) (hcs : cs ≠ none) :
    ∃ h1, MarkVisited [x] h h1 ∧ ∀ (fuel : Nat) (wl : List Ptr) (cur : PointContour),
      SubtractTrace cs (fuel + 1) h (some x) d wl cur =
        SubtractTrace cs fuel h1 (some y) d wl (cur ++ [v.mPoint]) := by
  obtain ⟨h1, e, hm⟩ := store_markVisited hv
  refine ⟨h1, hm, fun fuel wl cur => ?_⟩
  obtain ⟨w1, hw1, -, -, ht1, -, -, -⟩ := hm.cellOf hw
  have ht1' : w1.mTwin = none := ht1.trans htw
  have hne : ¬ (none : Ptr) = cs := fun hcon => hcs hcon.symm
  simp [SubtractTrace, deref, hv, e, hn, hw1, ht1', hy, hne]

/-- The inner loop of `Subtract` along vertices without a twin: every vertex but the last
is appended and marked visited. -/
theorem SubtractTrace_path {c : Nat} {d : ClipVertexSearchDirection} :
    ∀ (A : List Nat) (x : Nat) (h : Heap),
    List.Chain' (Step h d) (x :: A) → (∀ a ∈ A, Plain h a) → c ∉ A →
    ∃ h', MarkVisited (x :: A).dropLast h h' ∧
      ∀ (fuel : Nat) (wl : List Ptr) (cur : PointContour),
        SubtractTrace (some c) (fuel + A.length) h (some x) d wl cur =
          SubtractTrace (some c) fuel h' (some (A.getLastD x)) d wl
            (cur ++ (x :: A).dropLast.map (pointOf h)) := by
  intro A
  induction A with
  | nil =>
    intro x h _ _ _
    exact ⟨h, MarkVisited.nothing h, fun fuel wl cur => by simp⟩
  | cons a A ih =>
    intro x h hch hpl hcs
    rw [List.chain'_cons] at hch
    obtain ⟨v, hv, hn⟩ := hch.1
    obtain ⟨w, hw, htw, -⟩ := hpl a (by simp)
    have hac : a ≠ c := fun hcon => hcs (by simp [hcon])
    obtain ⟨h1, hm1, hstep⟩ := SubtractTrace_step_plain (some c) d hv hn hw htw
      (by simpa using hac) (by simp)
    obtain ⟨h', hm', hrest⟩ := ih a h1 (hch.2.imp (fun _ _ hs => hm1.keepsStep hs))
      (fun b hb => hm1.keepsPlain (hpl b (List.mem_cons_of_mem _ hb)))
      (fun hcon => hcs (List.mem_cons_of_mem _ hcon))
    refine ⟨h', ?_, fun fuel wl cur => ?_⟩
    · have := hm1.concat hm'
      simpa [List.dropLast] using this
    · have hlen : fuel + (a :: A).length = (fuel + A.length) + 1 := by simp; omega
      rw [hlen, hstep, hrest, hm1.samePoints]
      simp only [List.getLastD_cons, List.dropLast_cons₂, List.map_cons, pointOf_eq hv,
        List.append_assoc, List.singleton_append]

/-- One pass of the inner loop of `Subtract`, walking forwards, when the next vertex is an
unvisited `OutToIn` vertex with a twin: the vertex found by `FindFirstOf` is pushed, and
the walk hops to the twin and turns backward. -/
theorem SubtractTrace_step_enter {h h1 : Heap} (cs : Ptr) {p : Ptr} {x y t : Nat}
    {v w u : ClipVertex} {fuel : Nat}
    (hv : h[x]? = some v) (hn : v.mNext = some y) (hw : h[y]? = some w) (hxy : y ≠ x)
    (hc : w.mClassification = ClipVertexClassification.OutToIn) (hvis : w.mVisited = false)
    (ht : w.mTwin = some t) (htcs : some t ≠ cs) (hu : h[t]? = some u) (hucs : u.mTwin ≠ cs)
    (hs : store h (some x) (fun c => { c with mVisited := true }) = some h1)
    (hF : FindFirstOf fuel h1 (some y) ClipVertexClassification.InToOut = some p)
    (wl : List Ptr) (cur : PointContour) :
    SubtractTrace cs (fuel + 1) h (some x) ClipVertexSearchDirection.Forwards wl cur =
      SubtractTrace cs fuel h1 (some t) ClipVertexSearchDirection.Backward (p :: wl)
        (cur ++ [v.mPoint]) := by
  have hm := MarkVisited.of_store_visited hs
  obtain ⟨w1, hw1, -, hc1, ht1, -, -, hvis1⟩ := hm.cellOf hw
  have hvis1' : w1.mVisited = false := (hvis1 (by simpa using hxy)).trans hvis
  obtain ⟨u1, hu1, -, -, htu1, -, -, -⟩ := hm.cellOf hu
  have hucs' : u1.mTwin ≠ cs := by rw [htu1]; exact hucs
  simp [SubtractTrace, deref, hv, hs, GetNext, hn, hw1, hc1.trans hc, hvis1', ht1.trans ht,
    hF, htcs, hu1, hucs', FlipSearchDirection]

/-- The last pass of the inner loop of `Subtract`, walking backward, when the next vertex
has the start of the contour as its twin. -/
theorem SubtractTrace_last_back {h h1 : Heap} (cs : Ptr) (fuel : Nat) {x y : Nat}
    {v w : ClipVertex}
    (hv : h[x]? = some v) (hn : v.mPrev = some y) (hw : h[y]? = some w)
    (ht : w.mTwin = cs) (hcs : cs ≠ none)
    (hs : store h (some x) (fun c => { c with mVisited := true }) = some h1)
    (wl : List Ptr) (cur : PointContour) :
    SubtractTrace cs (fuel + 1) h (some x) ClipVertexSearchDirection.Backward wl cur =
      some (h1, wl, cur ++ [v.mPoint]) := by
  have hm := MarkVisited.of_store_visited hs
  obtain ⟨w1, hw1, -, -, ht1, -, -, -⟩ := hm.cellOf hw
  have ht1' : w1.mTwin = cs := ht1.trans ht
  have hne : ¬ w1.mTwin = none := by rw [ht1']; exact hcs
  simp [SubtractTrace, deref, hv, hs, GetNext, hn, hw1, ht1', hcs]

theorem Step.point {h : Heap} {d : ClipVertexSearchDirection} {x y : Nat}
    (hs : Step h d x y) : ∃ v : ClipVertex, h[x]? = some v ∧ GetNext v d = some y ∧
      v.mPoint = pointOf h x := by
  obtain ⟨v, hv, hn⟩ := hs
  exact ⟨v, hv, hn, (pointOf_eq hv).symm⟩

/-- One contour of `Subtract`: from the `InToOut` vertex `x` forwards along the subject
ring to the next crossing `x'`, over to its twin `y'`, and backward along the clip ring to
the twin `y` of `x`. -/
theorem SubtractTrace_lobe {h : Heap} {x x' y y' : Nat} {A D : List Nat}
    {vx' wy wy' : ClipVertex} {p : Ptr} {N : Nat}
    (hcA : List.Chain' (Link h) (x :: A ++ [x'])) (hA : ∀ a ∈ A, Plain h a) (hxA : x ∉ A)
    (hx'A : x' ∉ x :: A)
    (hvx' : h[x']? = some vx')
    (htag : vx'.mClassification = ClipVertexClassification.OutToIn)
    (hvis : vx'.mVisited = false) (htw : vx'.mTwin = some y')
    (hcD : List.Chain' (Link h) (y :: D ++ [y'])) (hD : ∀ a ∈ D, Plain h a) (hxD : x ∉ D)
    (hy'x : y' ≠ x)
    (hwy' : h[y']? = some wy') (htwy' : wy'.mTwin = some x')
    (hwy : h[y]? = some wy) (htwy : wy.mTwin = some x)
    (hF : ∀ h1, MarkVisited (x :: A) h h1 → ∀ f, N ≤ f →
      FindFirstOf f h1 (some x') ClipVertexClassification.InToOut = some p) :
    ∃ hE, MarkVisited ((x :: A) ++ (y' :: D.reverse)) h hE ∧
      ∀ (fuel : Nat) (wl : List Ptr), N + A.length + D.length + 2 ≤ fuel →
        SubtractTrace (some x) fuel h (some x) ClipVertexSearchDirection.Forwards wl [] =
          some (hE, p :: wl,
            (x :: A).map (pointOf h) ++ (y' :: D.reverse).map (pointOf h)) := by
  -- forwards along the subject ring
  have hcA' := chain_step_forwards hcA
  have hchA : List.Chain' (Step h ClipVertexSearchDirection.Forwards) (x :: A) := by
    have e : x :: A ++ [x'] = (x :: A) ++ [x'] := rfl
    rw [e] at hcA'
    exact hcA'.left_of_append
  obtain ⟨h1, hm1, hp1⟩ := SubtractTrace_path (c := x) A x h hchA hA hxA
  have hl1mem := getLastD_mem A x
  obtain ⟨v1, hv1, hn1, hpt1⟩ := (hm1.keepsStep (chain_last_link A x x' hcA')).point
  obtain ⟨vx1, hvx1, -, hc1, ht1, -, -, hvis1⟩ := hm1.cellOf hvx'
  have hx'1 : x' ∉ (x :: A).dropLast := fun hcon => hx'A (List.mem_of_mem_dropLast hcon)
  obtain ⟨wy1', hwy1', -, -, htwy1', -, -, -⟩ := hm1.cellOf hwy'
  obtain ⟨h2, e2, hm2⟩ := store_markVisited hv1
  have hm12 : MarkVisited (x :: A) h h2 := by
    have := hm1.concat hm2
    rwa [dropLast_getLastD] at this
  have hx'x : x' ≠ x := fun hcon => hx'A (by simp [hcon])
  -- backward along the clip ring
  have hcB : List.Chain' (Step h2 ClipVertexSearchDirection.Backward)
      (y' :: D.reverse ++ [y]) := by
    have := chain_step_backward hcD
    have e : (y :: D ++ [y']).reverse = y' :: D.reverse ++ [y] := by simp
    rw [e] at this
    exact this.imp (fun _ _ hs => hm12.keepsStep hs)
  have hchD : List.Chain' (Step h2 ClipVertexSearchDirection.Backward) (y' :: D.reverse) := by
    have e : y' :: D.reverse ++ [y] = (y' :: D.reverse) ++ [y] := rfl
    rw [e] at hcB
    exact hcB.left_of_append
  obtain ⟨h3, hm3, hp3⟩ := SubtractTrace_path (c := x) D.reverse y' h2 hchD
    (fun a ha => hm12.keepsPlain (hD a (List.mem_reverse.mp ha)))
    (fun hcon => hxD (List.mem_reverse.mp hcon))
  have hm13 := hm12.concat hm3
  obtain ⟨v2, hv2, hn2, hpt2⟩ := (hm3.keepsStep (chain_last_link D.reverse y' y hcB)).point
  obtain ⟨wy3, hwy3, -, -, htwy3, -, -, -⟩ := hm13.cellOf hwy
  obtain ⟨h4, e4, hm4⟩ := store_markVisited hv2
  have hm14 : MarkVisited ((x :: A) ++ (y' :: D.reverse)) h h4 := by
    have := hm13.concat hm4
    rwa [List.append_assoc, dropLast_getLastD] at this
  refine ⟨h4, hm14, fun fuel wl hfuel => ?_⟩
  have hrl : D.reverse.length = D.length := List.length_reverse D
  obtain ⟨fd, hfd⟩ : ∃ k, fuel = (((k + 1) + D.reverse.length) + 1) + A.length :=
    ⟨fuel - (A.length + D.length + 2), by omega⟩
  have hfdN : N ≤ (fd + 1) + D.reverse.length := by omega
  have hstep1 := SubtractTrace_step_enter (some x) hv1 (by simpa [GetNext] using hn1) hvx1
    (fun hcon => hx'A (hcon ▸ hl1mem)) (hc1.trans htag) ((hvis1 hx'1).trans hvis)
    (ht1.trans htw) (by simpa using hy'x) hwy1'
    (by rw [htwy1', htwy']; simpa using hx'x) e2 (hF h2 hm12 _ hfdN) wl
    ([] ++ (x :: A).dropLast.map (pointOf h))
  have hlast := SubtractTrace_last_back (some x) fd hv2 (by simpa [GetNext] using hn2) hwy3
    (htwy3.trans htwy) (by simp) e4 (p :: wl)
    ([] ++ (x :: A).dropLast.map (pointOf h) ++ [v1.mPoint] ++
      (y' :: D.reverse).dropLast.map (pointOf h2))
  rw [hfd, hp1, hstep1, hp3, hlast, hpt1, hpt2, hm12.samePoints, hm13.samePoints,
    hm1.samePoints]
  have e1 := congrArg (List.map (pointOf h)) (dropLast_getLastD A x)
  have e2 := congrArg (List.map (pointOf h)) (dropLast_getLastD D.reverse y')
  rw [List.map_append, List.map_singleton] at e1 e2
  rw [List.nil_append, e1, List.append_assoc, e2]

theorem FourArcs.shift {h : Heap} {r : List Nat} {x1 x2 x3 x4 : Nat}
    {A1 A2 A3 A4 : List Nat} (hT : FourArcs h r x1 x2 x3 x4 A1 A2 A3 A4) :
    FourArcs h r x2 x3 x4 x1 A2 A3 A4 A1 := by
  obtain ⟨hp, c1, c2, c3, c4, p1, p2, p3, p4⟩ := hT
  refine ⟨hp.trans ?_, c2, c3, c4, c1, p2, p3, p4, p1⟩
  have e1 : x1 :: A1 ++ (x2 :: A2 ++ (x3 :: A3 ++ x4 :: A4)) =
      (x1 :: A1) ++ (x2 :: A2 ++ (x3 :: A3 ++ x4 :: A4)) := rfl
  have e2 : x2 :: A2 ++ (x3 :: A3 ++ (x4 :: A4 ++ x1 :: A1)) =
      (x2 :: A2 ++ (x3 :: A3 ++ x4 :: A4)) ++ (x1 :: A1) := by simp
  rw [e1, e2]
  exact List.perm_append_comm

theorem FourArcs.mem_iff4 {h : Heap} {r : List Nat} {x1 x2 x3 x4 : Nat}
    {A1 A2 A3 A4 : List Nat} (hT : FourArcs h r x1 x2 x3 x4 A1 A2 A3 A4) (a : Nat) :
    a ∈ r ↔ a = x1 ∨ a ∈ A1 ∨ a = x2 ∨ a ∈ A2 ∨ a = x3 ∨ a ∈ A3 ∨ a = x4 ∨ a ∈ A4 := by
  rw [hT.1.mem_iff]
  simp

theorem FourArcs.nodup4 {h : Heap} {r : List Nat} {x1 x2 x3 x4 : Nat}
    {A1 A2 A3 A4 : List Nat} (hT : FourArcs h r x1 x2 x3 x4 A1 A2 A3 A4) (hr : Ring h r) :
    (x1 :: A1 ++ (x2 :: A2 ++ (x3 :: A3 ++ x4 :: A4))).Nodup :=
  hT.1.nodup_iff.mp hr.2.1

theorem FourArcs.length_eq {h : Heap} {r : List Nat} {x1 x2 x3 x4 : Nat}
    {A1 A2 A3 A4 : List Nat} (hT : FourArcs h r x1 x2 x3 x4 A1 A2 A3 A4) :
    r.length = A1.length + A2.length + A3.length + A4.length + 4 := by
  rw [hT.1.length_eq]
  simp
  omega

theorem FourCrossings.rotated2 {h : Heap} {rs rc : List Nat} {xa xb xc xd ya yb yc yd : Nat}
    {A1 A2 A3 A4 D1 D2 D3 D4 : List Nat}
    (T : FourCrossings h rs rc xa xb xc xd ya yb yc yd A1 A2 A3 A4 D1 D2 D3 D4) :
    FourCrossings h rs rc xc xd xa xb yc yd ya yb A3 A4 A1 A2 D3 D4 D1 D2 :=
  { ringS := T.ringS, ringC := T.ringC, disj := T.disj,
    arcsS := T.arcsS.shift.shift, arcsC := T.arcsC.shift.shift,
    cellXa := T.cellXc, cellXb := T.cellXd, cellXc := T.cellXa, cellXd := T.cellXb,
    cellYa := T.cellYc, cellYb := T.cellYd, cellYc := T.cellYa, cellYd := T.cellYb,
    unvisited := T.unvisited }

/-- The search `FindFirstOf` along an arc: it stops at the first vertex with the sought
tag. -/
theorem Traverse_find_arc {h : Heap} (c : ClipVertexClassification) (s y : Nat) :
    ∀ (A : List Nat) (x : Nat) (fuel : Nat), List.Chain' (Link h) (x :: A ++ [y]) →
      (∀ a ∈ x :: A, tagOf h a ≠ c) → tagOf h y = c → s ∉ A → y ≠ s → A.length + 2 ≤ fuel →
      Traverse (FindFirstOfCallback c) fuel (some s) (some x) (h, none) =
        some (h, some y) := by
  intro A
  induction A with
  | nil =>
    intro x fuel hc hx hy _ hys hf
    obtain ⟨fuel, rfl⟩ : ∃ k, fuel = k + 2 := ⟨fuel - 2, by simp at hf; omega⟩
    simp only [List.cons_append, List.nil_append, List.chain'_cons] at hc
    obtain ⟨⟨v, hv, hn⟩, ⟨w, hw, -⟩⟩ := hc.1
    have hxc := hx x (by simp)
    rw [tagOf_eq hv] at hxc
    rw [tagOf_eq hw] at hy
    simp [Traverse, FindFirstOfCallback, deref, hv, hn, hw, hxc, hy, hys]
  | cons a A ih =>
    intro x fuel hc hx hy hs hys hf
    obtain ⟨fuel, rfl⟩ : ∃ k, fuel = k + 1 := ⟨fuel - 1, by simp at hf; omega⟩
    simp only [List.cons_append, List.chain'_cons] at hc
    obtain ⟨⟨v, hv, hn⟩, -⟩ := hc.1
    have hxc := hx x (by simp)
    rw [tagOf_eq hv] at hxc
    have has : a ≠ s := fun hcon => hs (by simp [hcon])
    have := ih a fuel (by simpa using hc.2) (fun b hb => hx b (List.mem_cons_of_mem _ hb)) hy
      (fun hcon => hs (List.mem_cons_of_mem _ hcon)) hys (by simp at hf ⊢; omega)
    simp [Traverse, FindFirstOfCallback, deref, hv, hn, hxc, has, this]

theorem FindFirstOf_arc {h : Heap} (c : ClipVertexClassification) {x y : Nat} {A : List Nat}
    (hc : List.Chain' (Link h) (x :: A ++ [y])) (hx : ∀ a ∈ x :: A, tagOf h a ≠ c)
    (hy : tagOf h y = c) (hxA : x ∉ A) (fuel : Nat) (hf : A.length + 2 ≤ fuel) :
    FindFirstOf fuel h (some x) c = some (some y) := by
  have hyx : y ≠ x := by
    intro hcon
    exact hx x (by simp) (hcon ▸ hy)
  rw [FindFirstOf, Traverse_find_arc c x y A x fuel hc hx hy hxA hyx hf]
  rfl

/-- The worklist loop of `Subtract` skips vertices that are already visited. -/
theorem SubtractLoop_visited {h : Heap} : ∀ (wl : List Ptr) (cs : PointContourList)
    (fuel : Nat),
    (∀ p ∈ wl, ∃ (a : Nat) (v : ClipVertex), p = some a ∧ h[a]? = some v ∧ v.mVisited = true) →
    wl.length + 1 ≤ fuel → SubtractLoop fuel h wl cs = some cs := by
  intro wl
  induction wl with
  | nil =>
    intro cs fuel _ hf
    obtain ⟨fuel, rfl⟩ : ∃ k, fuel = k + 1 := ⟨fuel - 1, by simp at hf; omega⟩
    simp [SubtractLoop]
  | cons p wl ih =>
    intro cs fuel hv hf
    obtain ⟨fuel, rfl⟩ : ∃ k, fuel = k + 1 := ⟨fuel - 1, by simp at hf; omega⟩
    obtain ⟨a, v, rfl, hva, hvis⟩ := hv p (by simp)
    simp only [SubtractLoop, deref, hva, hvis, if_true]
    exact ih cs fuel (fun q hq => hv q (List.mem_cons_of_mem _ hq)) (by simp at hf ⊢; omega)

theorem Plain.tag_ne_inToOut {h : Heap} {a : Nat} (hp : Plain h a) :
    tagOf h a ≠ ClipVertexClassification.InToOut := by
  obtain ⟨v, hv, -, hs⟩ := hp
  rw [tagOf_eq hv]
  rcases hs with e | e <;> rw [e] <;> decide

theorem four_nodup_facts {x1 x2 x3 x4 : Nat} {A1 A2 A3 A4 : List Nat}
    (hnd : (x1 :: A1 ++ (x2 :: A2 ++ (x3 :: A3 ++ x4 :: A4))).Nodup) :
    x1 ∉ A1 ∧ x2 ∉ x1 :: A1 ∧ x2 ∉ A2 ∧ x3 ∉ x1 :: A1 ∧ x4 ∉ x1 :: A1 ∧ x3 ∉ A3 ∧
      x4 ∉ x3 :: A3 ∧ x4 ∉ A4 ∧ x1 ∉ x3 :: A3 := by
  simp [List.nodup_cons, List.nodup_append] at hnd
  simp only [List.mem_cons, not_or]
  refine ⟨?_, ⟨?_, ?_⟩, ?_, ⟨?_, ?_⟩, ⟨?_, ?_⟩, ?_, ⟨?_, ?_⟩, ?_, ⟨?_, ?_⟩⟩ <;> tauto

/-- The worklist loop of `Subtract` from the `InToOut` vertex `xa` on rings with four
crossings in the same cyclic order: two contours, one for each pair of crossings. -/
theorem SubtractLoop_four {h : Heap} {rs rc : List Nat} {xa xb xc xd ya yb yc yd : Nat}
    {A1 A2 A3 A4 D1 D2 D3 D4 : List Nat}
    (T : FourCrossings h rs rc xa xb xc xd ya yb yc yd A1 A2 A3 A4 D1 D2 D3 D4)
    (fuel : Nat) (hfuel : 2 * (rs.length + rc.length) + 8 ≤ fuel) :
    SubtractLoop fuel h [some xa] [] =
      some [(xa :: A1).map (pointOf h) ++ (yb :: D1.reverse).map (pointOf h),
            (xc :: A3).map (pointOf h) ++ (yd :: D3.reverse).map (pointOf h)] := by
  obtain ⟨va, hva, htwa, hca⟩ := T.cellXa
  obtain ⟨vb, hvb, htwb, hcb⟩ := T.cellXb
  obtain ⟨vc, hvc, htwc, hcc⟩ := T.cellXc
  obtain ⟨vd, hvd, htwd, hcd⟩ := T.cellXd
  obtain ⟨wa, hwa, htya⟩ := T.cellYa
  obtain ⟨wb, hwb, htyb⟩ := T.cellYb
  obtain ⟨wc, hwc, htyc⟩ := T.cellYc
  obtain ⟨wd, hwd, htyd⟩ := T.cellYd
  obtain ⟨-, cA1, cA2, cA3, cA4, pA1, pA2, pA3, pA4⟩ := T.arcsS
  obtain ⟨-, cD1, cD2, cD3, cD4, pD1, pD2, pD3, pD4⟩ := T.arcsC
  obtain ⟨n1, n2, n3, n4, n5, n6, n7, n8, n9⟩ := four_nodup_facts (T.arcsS.nodup4 T.ringS)
  have hlS := T.arcsS.length_eq
  have hlC := T.arcsC.length_eq
  have hS : ∀ a, a = xa ∨ a ∈ A1 ∨ a = xb ∨ a ∈ A2 ∨ a = xc ∨ a ∈ A3 ∨ a = xd ∨ a ∈ A4 →
      a ∈ rs := fun a ha => (T.arcsS.mem_iff4 a).mpr ha
  have hC : ∀ a, a = ya ∨ a ∈ D1 ∨ a = yb ∨ a ∈ D2 ∨ a = yc ∨ a ∈ D3 ∨ a = yd ∨ a ∈ D4 →
      a ∈ rc := fun a ha => (T.arcsC.mem_iff4 a).mpr ha
  have hxa : xa ∈ rs := hS xa (by simp)
  have hxc : xc ∈ rs := hS xc (by simp)
  have hxd : xd ∈ rs := hS xd (by simp)
  have hyb : yb ∈ rc := hC yb (by simp)
  have hyd : yd ∈ rc := hC yd (by simp)
  have hD1 : ∀ a ∈ D1, a ∈ rc := fun a ha => hC a (by simp [ha])
  have hD3 : ∀ a ∈ D3, a ∈ rc := fun a ha => hC a (by simp [ha])
  have hnotC : ∀ {a : Nat} {l : List Nat}, a ∈ rs → (∀ b ∈ l, b ∈ rc) → a ∉ l :=
    fun ha hl hcon => T.disj _ ha (hl _ hcon)
  -- the tags along the arcs searched by `FindFirstOf`
  have htagb : ∀ a ∈ xb :: A2, tagOf h a ≠ ClipVertexClassification.InToOut := by
    intro a ha
    rcases List.mem_cons.mp ha with rfl | ha
    · rw [tagOf_eq hvb, hcb]
      decide
    · exact (pA2 a ha).tag_ne_inToOut
  have htagd : ∀ a ∈ xd :: A4, tagOf h a ≠ ClipVertexClassification.InToOut := by
    intro a ha
    rcases List.mem_cons.mp ha with rfl | ha
    · rw [tagOf_eq hvd, hcd]
      decide
    · exact (pA4 a ha).tag_ne_inToOut
  have htc : tagOf h xc = ClipVertexClassification.InToOut := by rw [tagOf_eq hvc, hcc]
  have hta : tagOf h xa = ClipVertexClassification.InToOut := by rw [tagOf_eq hva, hca]
  -- the first contour
  obtain ⟨hE1, hm1, htr1⟩ := SubtractTrace_lobe (N := A2.length + 2)
    (p := some xc) cA1 pA1 n1 n2 hvb hcb
    (T.unvisited xb vb hvb) htwb cD1 pD1 (hnotC hxa hD1)
    (fun hcon => T.disj xa hxa (hcon ▸ hyb)) hwb htyb hwa htya
    (fun h1 hm f hf => FindFirstOf_arc _ (hm.keepsChain cA2)
      (by rw [hm.sameTags]; exact htagb) (by rw [hm.sameTags]; exact htc) n3 f hf)
  -- the second contour
  obtain ⟨vc1, hvc1, -, -, -, -, -, hvisc1⟩ := hm1.cellOf hvc
  obtain ⟨vd1, hvd1, -, hcd1, htwd1, -, -, hvisd1⟩ := hm1.cellOf hvd
  obtain ⟨wd1, hwd1, -, -, htyd1, -, -, -⟩ := hm1.cellOf hwd
  obtain ⟨wc1, hwc1, -, -, htyc1, -, -, -⟩ := hm1.cellOf hwc
  have hxc1 : xc ∉ (xa :: A1) ++ (yb :: D1.reverse) := by
    intro hcon
    rcases List.mem_append.mp hcon with e | e
    · exact n4 e
    · rcases List.mem_cons.mp e with e | e
      · exact T.disj xc hxc (e ▸ hyb)
      · exact T.disj xc hxc (hD1 xc (List.mem_reverse.mp e))
  have hxd1 : xd ∉ (xa :: A1) ++ (yb :: D1.reverse) := by
    intro hcon
    rcases List.mem_append.mp hcon with e | e
    · exact n5 e
    · rcases List.mem_cons.mp e with e | e
      · exact T.disj xd hxd (e ▸ hyb)
      · exact T.disj xd hxd (hD1 xd (List.mem_reverse.mp e))
  obtain ⟨hE2, hm2, htr2⟩ := SubtractTrace_lobe (N := A4.length + 2)
    (p := some xa) (hm1.keepsChain cA3) (fun a ha => hm1.keepsPlain (pA3 a ha)) n6 n7 hvd1
    (hcd1.trans hcd) ((hvisd1 hxd1).trans (T.unvisited xd vd hvd)) (htwd1.trans htwd)
    (hm1.keepsChain cD3) (fun a ha => hm1.keepsPlain (pD3 a ha)) (hnotC hxc hD3)
    (fun hcon => T.disj xc hxc (hcon ▸ hyd)) hwd1 (htyd1.trans htyd) hwc1 (htyc1.trans htyc)
    (fun h1 hm f hf => FindFirstOf_arc _ (hm.keepsChain (hm1.keepsChain cA4))
      (by rw [hm.sameTags, hm1.sameTags]; exact htagd)
      (by rw [hm.sameTags, hm1.sameTags]; exact hta) n8 f hf)
  have hm12 := hm1.concat hm2
  obtain ⟨va2, hva2, -, -, -, -, hvisa2, -⟩ := hm12.cellOf hva
  have hlenD1 : D1.reverse.length = D1.length := List.length_reverse D1
  obtain ⟨F, rfl⟩ : ∃ k, fuel = k + 2 := ⟨fuel - 2, by omega⟩
  have hloop := SubtractLoop_visited (h := hE2) [some xa]
    [(xa :: A1).map (pointOf h) ++ (yb :: D1.reverse).map (pointOf h),
     (xc :: A3).map (pointOf h) ++ (yd :: D3.reverse).map (pointOf h)] F
    (fun p hp => by
      rw [List.mem_singleton] at hp
      exact ⟨xa, va2, hp, hva2, hvisa2 (by simp)⟩) (by simp; omega)
  rw [SubtractLoop]
  simp only [deref, hva, T.unvisited xa va hva, Bool.false_eq_true, if_false,
    htr1 (F + 1) [] (by omega), List.nil_append]
  rw [SubtractLoop]
  simp only [deref, hvc1, (hvisc1 hxc1).trans (T.unvisited xc vc hvc), Bool.false_eq_true,
    if_false, htr2 F [] (by omega), hm1.samePoints, List.singleton_append, hloop]

/-! ### From the read-back of the rings to the four arcs -/

theorem readBack_cells {h : Heap} : ∀ (l : List Nat), (∀ a ∈ l, a < h.length) →
    (l.filterMap (fun a => h[a]?)).map (fun v => (v.mPoint, v.mClassification)) =
      l.map (fun a => (pointOf h a, tagOf h a)) := by
  intro l
  induction l with
  | nil => intro _; rfl
  | cons a t ih =>
    intro hl
    have ha : a < h.length := hl a (by simp)
    obtain ⟨v, hv⟩ : ∃ v : ClipVertex, h[a]? = some v := ⟨h[a], List.getElem?_eq_getElem ha⟩
    rw [List.filterMap_cons, hv]
    simp only [List.map_cons, tagOf_eq hv, pointOf_eq hv]
    rw [ih (fun b hb => hl b (List.mem_cons_of_mem _ hb))]

/-- A list with exactly four elements passing a test splits around them. -/
theorem filter_four {α : Type} (q : α → Bool) (x1 x2 x3 x4 : α) (l : List α)
    (hl : l.filter q = [x1, x2, x3, x4]) :
    ∃ (L M1 M2 M3 R : List α),
      l = L ++ x1 :: (M1 ++ x2 :: (M2 ++ x3 :: (M3 ++ x4 :: R))) ∧
      ∀ a ∈ L ++ (M1 ++ (M2 ++ (M3 ++ R))), q a = false := by
  obtain ⟨L, T1, e1, hL, -, h1⟩ := List.filter_eq_cons_iff.mp hl
  obtain ⟨M1, T2, e2, hM1, -, h2⟩ := List.filter_eq_cons_iff.mp h1
  obtain ⟨M2, T3, e3, hM2, -, h3⟩ := List.filter_eq_cons_iff.mp h2
  obtain ⟨M3, R, e4, hM3, -, h4⟩ := List.filter_eq_cons_iff.mp h3
  have hR := List.filter_eq_nil_iff.mp h4
  refine ⟨L, M1, M2, M3, R, by rw [e1, e2, e3, e4], fun a ha => ?_⟩
  simp only [List.mem_append] at ha
  rcases ha with ha | ha | ha | ha | ha
  · simpa using hL a ha
  · simpa using hM1 a ha
  · simpa using hM2 a ha
  · simpa using hM3 a ha
  · simpa using hR a ha

/-- A ring split at four of its cells gives the four arcs between them. -/
theorem Ring.four_chains {h : Heap} {L M1 M2 M3 R : List Nat} {x1 x2 x3 x4 : Nat}
    (hr : Ring h (L ++ x1 :: (M1 ++ x2 :: (M2 ++ x3 :: (M3 ++ x4 :: R))))) :
    List.Chain' (Link h) (x1 :: M1 ++ [x2]) ∧ List.Chain' (Link h) (x2 :: M2 ++ [x3]) ∧
      List.Chain' (Link h) (x3 :: M3 ++ [x4]) ∧
      List.Chain' (Link h) (x4 :: (R ++ L) ++ [x1]) := by
  have e2 : L ++ x1 :: (M1 ++ x2 :: (M2 ++ x3 :: (M3 ++ x4 :: R))) =
      (L ++ x1 :: M1) ++ x2 :: (M2 ++ x3 :: (M3 ++ x4 :: R)) := by simp
  have e3 : L ++ x1 :: (M1 ++ x2 :: (M2 ++ x3 :: (M3 ++ x4 :: R))) =
      (L ++ x1 :: (M1 ++ x2 :: M2)) ++ x3 :: (M3 ++ x4 :: R) := by simp
  have e4 : L ++ x1 :: (M1 ++ x2 :: (M2 ++ x3 :: (M3 ++ x4 :: R))) =
      L ++ x1 :: ((M1 ++ x2 :: (M2 ++ x3 :: M3)) ++ x4 :: R) := by simp
  have r2 := hr
  have r3 := hr
  have r4 := hr
  rw [e2] at r2
  rw [e3] at r3
  rw [e4] at r4
  exact ⟨hr.two_chains.1, r2.two_chains.1, r3.two_chains.1, r4.two_chains.2⟩

/-- A ring with exactly four crossing vertices splits into the four arcs between them. -/
theorem fourArcs_of_filter {h : Heap} {r other : List Nat} (hr : Ring h r)
    (htw : ∀ a ∈ r, ∀ v : ClipVertex, h[a]? = some v → TwinOK IsSide h other a v)
    {x1 x2 x3 x4 : Nat}
    (hf : r.filter (fun a => isCrossingTag (tagOf h a)) = [x1, x2, x3, x4]) :
    ∃ (A1 A2 A3 A4 : List Nat), FourArcs h r x1 x2 x3 x4 A1 A2 A3 A4 := by
  obtain ⟨L, M1, M2, M3, R, e, hrest⟩ := filter_four _ x1 x2 x3 x4 r hf
  have hplain : ∀ a ∈ r, isCrossingTag (tagOf h a) = false → Plain h a := by
    intro a ha hc
    obtain ⟨v, -, hv, -, -⟩ := hr.mem_heap ha
    rcases htw a ha v hv with ⟨htwin, hside⟩ | ⟨b, w, -, -, -, -, -, hcr⟩
    · exact ⟨v, hv, htwin, hside⟩
    · rw [tagOf_eq hv, isCrossingTag_of_isCrossing hcr] at hc
      cases hc
  subst e
  obtain ⟨c1, c2, c3, c4⟩ := hr.four_chains
  refine ⟨M1, M2, M3, R ++ L, ?_, c1, c2, c3, c4, ?_, ?_, ?_, ?_⟩
  · have e : x1 :: M1 ++ (x2 :: M2 ++ (x3 :: M3 ++ x4 :: (R ++ L))) =
        (x1 :: (M1 ++ x2 :: (M2 ++ x3 :: (M3 ++ x4 :: R)))) ++ L := by simp
    rw [e]
    exact List.perm_append_comm
  · intro a ha
    exact hplain a (by simp [ha]) (hrest a (by simp [ha]))
  · intro a ha
    exact hplain a (by simp [ha]) (hrest a (by simp [ha]))
  · intro a ha
    exact hplain a (by simp [ha]) (hrest a (by simp [ha]))
  · intro a ha
    rcases List.mem_append.mp ha with ha | ha
    · exact hplain a (by simp [ha]) (hrest a (by simp [ha]))
    · exact hplain a (by simp [ha]) (hrest a (by simp [ha]))

/-- A ring whose crossing vertices show, up to rotation, the values `e1, e2, e3, e4` of
an observation `f` splits into four arcs between the vertices with these values. -/
theorem fourArcs_of_rotation {β : Type} {h : Heap} {r other : List Nat} (hr : Ring h r)
    (htw : ∀ a ∈ r, ∀ v : ClipVertex, h[a]? = some v → TwinOK IsSide h other a v)
    (f : Nat → β) (e1 e2 e3 e4 : β) (k : Nat)
    (hf : (r.filter (fun a => isCrossingTag (tagOf h a))).map f = [e1, e2, e3, e4].rotate k) :
    ∃ (x1 x2 x3 x4 : Nat) (A1 A2 A3 A4 : List Nat), FourArcs h r x1 x2 x3 x4 A1 A2 A3 A4 ∧
      f x1 = e1 ∧ f x2 = e2 ∧ f x3 = e3 ∧ f x4 = e4 := by
  have hk : [e1, e2, e3, e4].rotate k = [e1, e2, e3, e4].rotate (k % 4) :=
    (List.rotate_mod [e1, e2, e3, e4] k).symm
  rw [hk] at hf
  have hk4 : k % 4 < 4 := Nat.mod_lt _ (by decide)
  generalize k % 4 = j at hf hk4
  have hlen : (r.filter (fun a => isCrossingTag (tagOf h a))).length = 4 := by
    have := congrArg List.length hf
    simpa using this
  obtain ⟨y1, y2, y3, y4, hc⟩ : ∃ y1 y2 y3 y4 : Nat,
      r.filter (fun a => isCrossingTag (tagOf h a)) = [y1, y2, y3, y4] := by
    match hm : r.filter (fun a => isCrossingTag (tagOf h a)), hlen with
    | [y1, y2, y3, y4], _ => exact ⟨y1, y2, y3, y4, rfl⟩
  · obtain ⟨A1, A2, A3, A4, hT⟩ := fourArcs_of_filter hr htw hc
    rw [hc] at hf
    interval_cases j
    · simp only [List.rotate_zero, List.map_cons, List.map_nil, List.cons.injEq,
        and_true] at hf
      exact ⟨y1, y2, y3, y4, A1, A2, A3, A4, hT, hf.1, hf.2.1, hf.2.2.1, hf.2.2.2⟩
    · have e : [e1, e2, e3, e4].rotate 1 = [e2, e3, e4, e1] := rfl
      rw [e] at hf
      simp only [List.map_cons, List.map_nil, List.cons.injEq, and_true] at hf
      exact ⟨y4, y1, y2, y3, A4, A1, A2, A3, hT.shift.shift.shift, hf.2.2.2, hf.1,
        hf.2.1, hf.2.2.1⟩
    · have e : [e1, e2, e3, e4].rotate 2 = [e3, e4, e1, e2] := rfl
      rw [e] at hf
      simp only [List.map_cons, List.map_nil, List.cons.injEq, and_true] at hf
      exact ⟨y3, y4, y1, y2, A3, A4, A1, A2, hT.shift.shift, hf.2.2.1, hf.2.2.2, hf.1,
        hf.2.1⟩
    · have e : [e1, e2, e3, e4].rotate 3 = [e4, e1, e2, e3] := rfl
      rw [e] at hf
      simp only [List.map_cons, List.map_nil, List.cons.injEq, and_true] at hf
      exact ⟨y2, y3, y4, y1, A2, A3, A4, A1, hT.shift, hf.2.1, hf.2.2.1, hf.2.2.2, hf.1⟩

/-- A vertex of an arc has no twin. -/
theorem FourArcs.ends_of_twin4 {h : Heap} {r : List Nat} {x1 x2 x3 x4 : Nat}
    {A1 A2 A3 A4 : List Nat} (hT : FourArcs h r x1 x2 x3 x4 A1 A2 A3 A4) {b t : Nat}
    {w : ClipVertex} (hb : b ∈ r) (hw : h[b]? = some w) (ht : w.mTwin = some t) :
    b = x1 ∨ b = x2 ∨ b = x3 ∨ b = x4 := by
  have hno : ∀ {A : List Nat}, (∀ a ∈ A, Plain h a) → b ∉ A := by
    intro A hA hcon
    obtain ⟨v, hv, htw, -⟩ := hA b hcon
    rw [hw] at hv
    cases hv
    rw [ht] at htw
    cases htw
  have hmem := (hT.mem_iff4 b).mp hb
  obtain ⟨-, -, -, -, -, p1, p2, p3, p4⟩ := hT
  rcases hmem with e | e | e | e | e | e | e | e
  · exact Or.inl e
  · exact absurd e (hno p1)
  · exact Or.inr (Or.inl e)
  · exact absurd e (hno p2)
  · exact Or.inr (Or.inr (Or.inl e))
  · exact absurd e (hno p3)
  · exact Or.inr (Or.inr (Or.inr e))
  · exact absurd e (hno p4)

/-- After enrichment, when the subject ring carries four crossing vertices with the points
`a, b, c, d` tagged `InToOut, OutToIn, InToOut, OutToIn` in ring order and the clip ring
carries its crossing vertices in the same cyclic order of points, the two rings meet in
four crossings. -/
theorem fourCrossings_of_tags {N0 : Nat} {oS oC : List Nat} {h : Heap} {rs rc : List Nat}
    (E : Enr IsSide IsSide N0 oS oC h rs rc []) (a b c d : Vec2) (hd : [a, b, c, d].Nodup)
    (hS : ∃ k, (rs.filter (fun x => isCrossingTag (tagOf h x))).map
        (fun x => (pointOf h x, tagOf h x)) =
      [(a, ClipVertexClassification.InToOut), (b, ClipVertexClassification.OutToIn),
       (c, ClipVertexClassification.InToOut), (d, ClipVertexClassification.OutToIn)].rotate k)
    (hC : ∃ k, (rc.filter (fun x => isCrossingTag (tagOf h x))).map (pointOf h) =
      [a, b, c, d].rotate k) :
    ∃ (xa xb xc xd ya yb yc yd : Nat) (A1 A2 A3 A4 D1 D2 D3 D4 : List Nat),
      FourCrossings h rs rc xa xb xc xd ya yb yc yd A1 A2 A3 A4 D1 D2 D3 D4 ∧
      pointOf h xa = a ∧ pointOf h xc = c := by
  have htwS : ∀ x ∈ rs, ∀ v : ClipVertex, h[x]? = some v → TwinOK IsSide h rc x v :=
    fun x hx v hv => E.twinS x (by simp [hx]) v hv
  have htwC : ∀ x ∈ rc, ∀ v : ClipVertex, h[x]? = some v → TwinOK IsSide h (rs ++ []) x v :=
    fun x hx v hv => E.twinC x hx v hv
  obtain ⟨k, hk⟩ := hS
  obtain ⟨j, hj⟩ := hC
  obtain ⟨xa, xb, xc, xd, A1, A2, A3, A4, hTS, ia, ib, ic, id⟩ :=
    fourArcs_of_rotation E.ringS htwS _ _ _ _ _ k hk
  obtain ⟨ya, yb, yc, yd, D1, D2, D3, D4, hTC, pa, pb, pc, pd⟩ :=
    fourArcs_of_rotation E.ringC htwC _ _ _ _ _ j hj
  rw [Prod.mk.injEq] at ia ib ic id
  simp only [List.nodup_cons, List.mem_cons, List.mem_singleton, List.not_mem_nil, not_or,
    or_false, not_false_eq_true, List.nodup_nil, and_true] at hd
  obtain ⟨⟨hab, hac, had⟩, ⟨hbc, hbd⟩, hcd⟩ := hd
  -- the twin of a crossing vertex of the subject ring
  have htwin : ∀ x ∈ rs, isCrossingTag (tagOf h x) = true →
      ∃ (v : ClipVertex) (t : Nat) (w : ClipVertex), h[x]? = some v ∧ v.mTwin = some t ∧
        h[t]? = some w ∧ w.mTwin = some x ∧ pointOf h t = pointOf h x ∧
        (t = ya ∨ t = yb ∨ t = yc ∨ t = yd) := by
    intro x hx hc
    obtain ⟨v, -, hv, -, -⟩ := E.ringS.mem_heap hx
    rcases htwS x hx v hv with ⟨-, hside⟩ | ⟨t, w, ht, htm, hw, hwt, hwp, -⟩
    · rw [tagOf_eq hv] at hc
      rcases hside with e | e <;> rw [e] at hc <;> cases hc
    · exact ⟨v, t, w, hv, ht, hw, hwt, by rw [pointOf_eq hw, pointOf_eq hv, hwp],
        hTC.ends_of_twin4 htm hw hwt⟩
  have hxa : xa ∈ rs := (hTS.mem_iff4 xa).mpr (by simp)
  have hxb : xb ∈ rs := (hTS.mem_iff4 xb).mpr (by simp)
  have hxc : xc ∈ rs := (hTS.mem_iff4 xc).mpr (by simp)
  have hxd : xd ∈ rs := (hTS.mem_iff4 xd).mpr (by simp)
  obtain ⟨va, ta, wa, hva, htwa, hwa, hwta, hpa, hta⟩ := htwin xa hxa (by rw [ia.2]; decide)
  obtain ⟨vb, tb, wb, hvb, htwb, hwb, hwtb, hpb, htb⟩ := htwin xb hxb (by rw [ib.2]; decide)
  obtain ⟨vc, tc, wc, hvc, htwc, hwc, hwtc, hpc, htc⟩ := htwin xc hxc (by rw [ic.2]; decide)
  obtain ⟨vd, td, wd, hvd, htwd, hwd, hwtd, hpd, htd⟩ := htwin xd hxd (by rw [id.2]; decide)
  have hxap := ia.1
  have hxcp := ic.1
  rw [ia.1] at hpa
  rw [ib.1] at hpb
  rw [ic.1] at hpc
  rw [id.1] at hpd
  have ea : ta = ya := by
    rcases hta with e | e | e | e
    · exact e
    · rw [e, pb] at hpa; exact absurd hpa.symm hab
    · rw [e, pc] at hpa; exact absurd hpa.symm hac
    · rw [e, pd] at hpa; exact absurd hpa.symm had
  have eb : tb = yb := by
    rcases htb with e | e | e | e
    · rw [e, pa] at hpb; exact absurd hpb hab
    · exact e
    · rw [e, pc] at hpb; exact absurd hpb.symm hbc
    · rw [e, pd] at hpb; exact absurd hpb.symm hbd
  have ec : tc = yc := by
    rcases htc with e | e | e | e
    · rw [e, pa] at hpc; exact absurd hpc hac
    · rw [e, pb] at hpc; exact absurd hpc hbc
    · exact e
    · rw [e, pd] at hpc; exact absurd hpc.symm hcd
  have ed : td = yd := by
    rcases htd with e | e | e | e
    · rw [e, pa] at hpd; exact absurd hpd had
    · rw [e, pb] at hpd; exact absurd hpd hbd
    · rw [e, pc] at hpd; exact absurd hpd hcd
    · exact e
  subst ea
  subst eb
  subst ec
  subst ed
  exact ⟨xa, xb, xc, xd, ta, tb, tc, td, A1, A2, A3, A4, D1, D2, D3, D4,
    { ringS := E.ringS, ringC := E.ringC, disj := E.disjSC, arcsS := hTS, arcsC := hTC,
      cellXa := ⟨va, hva, htwa, by rw [← tagOf_eq hva, ia.2]⟩,
      cellXb := ⟨vb, hvb, htwb, by rw [← tagOf_eq hvb, ib.2]⟩,
      cellXc := ⟨vc, hvc, htwc, by rw [← tagOf_eq hvc, ic.2]⟩,
      cellXd := ⟨vd, hvd, htwd, by rw [← tagOf_eq hvd, id.2]⟩,
      cellYa := ⟨wa, hwa, hwta⟩, cellYb := ⟨wb, hwb, hwtb⟩,
      cellYc := ⟨wc, hwc, hwtc⟩, cellYd := ⟨wd, hwd, hwtd⟩,
      unvisited := E.unvisited }, hxap, hxcp⟩

/-- The ring-level `Subtract` on rings with four crossings in the same cyclic order
returns exactly two contours. -/
theorem SubtractList_four {h : Heap} {rs rc : List Nat} {xa xb xc xd ya yb yc yd : Nat}
    {A1 A2 A3 A4 D1 D2 D3 D4 : List Nat}
    (T : FourCrossings h rs rc xa xb xc xd ya yb yc yd A1 A2 A3 A4 D1 D2 D3 D4)
    {x : Nat} (hx : x ∈ rs) :
    ∃ (c1 c2 : PointContour), (∀ fuel, 2 * (rs.length + rc.length) + 8 ≤ fuel →
      SubtractList fuel h { mHead := some x } [] = some [c1, c2]) ∧
      ((c1.head? = some (pointOf h xa) ∧ c2.head? = some (pointOf h xc)) ∨
        (c1.head? = some (pointOf h xc) ∧ c2.head? = some (pointOf h xa))) := by
  obtain ⟨va, hva, -, hca⟩ := T.cellXa
  obtain ⟨vb, hvb, -, hcb⟩ := T.cellXb
  obtain ⟨vc, hvc, -, hcc⟩ := T.cellXc
  obtain ⟨vd, hvd, -, hcd⟩ := T.cellXd
  have hxa : xa ∈ rs := (T.arcsS.mem_iff4 xa).mpr (by simp)
  obtain ⟨b0, w0, hfind, hb0, hw0, hc0⟩ := FindFirstOf_ring_found T.ringS
    ClipVertexClassification.InToOut hx ⟨xa, va, hxa, hva, hca⟩ rs.length (le_refl _)
  have hfind' : ∀ fuel, rs.length ≤ fuel →
      FindFirstOf fuel h (some x) ClipVertexClassification.InToOut = some (some b0) :=
    fun fuel hf => FindFirstOf_mono _ _ _ _ _ _ hf hfind
  have ht0 : tagOf h b0 = ClipVertexClassification.InToOut := by rw [tagOf_eq hw0, hc0]
  have hcases : b0 = xa ∨ b0 = xc := by
    obtain ⟨-, -, -, -, -, p1, p2, p3, p4⟩ := T.arcsS
    rcases (T.arcsS.mem_iff4 b0).mp hb0 with e | e | e | e | e | e | e | e
    · exact Or.inl e
    · exact absurd ht0 (p1 b0 e).tag_ne_inToOut
    · rw [e, tagOf_eq hvb, hcb] at ht0
      cases ht0
    · exact absurd ht0 (p2 b0 e).tag_ne_inToOut
    · exact Or.inr e
    · exact absurd ht0 (p3 b0 e).tag_ne_inToOut
    · rw [e, tagOf_eq hvd, hcd] at ht0
      cases ht0
    · exact absurd ht0 (p4 b0 e).tag_ne_inToOut
  rcases hcases with e | e
  · rw [e] at hfind'
    refine ⟨(xa :: A1).map (pointOf h) ++ (yb :: D1.reverse).map (pointOf h),
      (xc :: A3).map (pointOf h) ++ (yd :: D3.reverse).map (pointOf h), fun fuel hf => ?_,
      Or.inl ⟨rfl, rfl⟩⟩
    simp only [SubtractList, hfind' fuel (by omega), reduceCtorEq, if_false,
      SubtractLoop_four T fuel hf]
  · rw [e] at hfind'
    refine ⟨(xc :: A3).map (pointOf h) ++ (yd :: D3.reverse).map (pointOf h),
      (xa :: A1).map (pointOf h) ++ (yb :: D1.reverse).map (pointOf h), fun fuel hf => ?_,
      Or.inr ⟨rfl, rfl⟩⟩
    simp only [SubtractList, hfind' fuel (by omega), reduceCtorEq, if_false,
      SubtractLoop_four T.rotated2 fuel hf]

/-- The read-back of the two rings after `BuildClipList`, cell by cell. -/
theorem ringTags_cells (P Q : PointContour) (hP : P ≠ []) (hQ : Q ≠ []) :
    ∃ (h : Heap) (rs rc : List Nat) (F : Nat),
      (∀ fuel, F ≤ fuel → BuildClipList fuel P Q [] =
        some (h, { mHead := some Q.length }, { mHead := some 0 })) ∧
      Enr IsSide IsSide (Q.length + P.length) (List.range' Q.length P.length)
        (List.range' 0 Q.length) h rs rc [] ∧
      rs[0]? = some Q.length ∧ rc[0]? = some 0 ∧
      (∀ fuel, F ≤ fuel → ringTags fuel P Q =
        some (rs.map (fun a => (pointOf h a, tagOf h a)),
              rc.map (fun a => (pointOf h a, tagOf h a)))) := by
  obtain ⟨h, rs, rc, F, hb, E, -, -⟩ := BuildClipList_spec_points P Q hP hQ
  have hrs0 : rs[0]? = some Q.length := by
    rw [← List.head?_eq_getElem?, E.headS, List.head?_eq_getElem?, range'_head hP]
  have hrc0 : rc[0]? = some 0 := by
    rw [← List.head?_eq_getElem?, E.headC, List.head?_eq_getElem?, range'_head hQ]
  refine ⟨h, rs, rc, max F (rs.length + rc.length), fun fuel hf => hb fuel (by omega), E,
    hrs0, hrc0, fun fuel hf => ?_⟩
  have r1 := ReadVertices_ring E.ringS fuel (by omega)
  have r2 := ReadVertices_ring E.ringC fuel (by omega)
  rw [hrs0] at r1
  rw [hrc0] at r2
  simp only [ringTags, hb fuel (by omega), r1, r2,
    readBack_cells rs (fun a ha => E.ringS.lt_length ha),
    readBack_cells rc (fun a ha => E.ringC.lt_length ha)]

/-- C7 (amended): in exact arithmetic, for every subject `P` and clip contour `Q` that
cross four times in the way of a subject pierced by a clip contour wound the same way,
`Subtract` returns a list of exactly two contours. Precisely: `BuildClipList` leaves four
crossing vertices on the subject ring, at the distinct points `a, b, c, d`, tagged
`InToOut, OutToIn, InToOut, OutToIn` in ring order (read forward from the head, up to
rotation), and the crossing vertices of the clip ring lie at the same four points in the
same cyclic order; then `Subtract(P,Q)` returns a list of exactly two contours, one
starting at `a` and one starting at `c`. -/
theorem C7_Subtract_pierced_two_contours (P Q : PointContour)
    (ts tc : List (Vec2 × ClipVertexClassification)) (a b c d : Vec2)
    (hT : Returns (fun fuel => ringTags fuel P Q) (ts, tc))
    (hd : [a, b, c, d].Nodup)
    (hS : ∃ k, crossingVertices ts =
      [(a, ClipVertexClassification.InToOut), (b, ClipVertexClassification.OutToIn),
       (c, ClipVertexClassification.InToOut), (d, ClipVertexClassification.OutToIn)].rotate k)
    (hC : ∃ k, (crossingVertices tc).map Prod.fst = [a, b, c, d].rotate k) :
    ∃ (c1 c2 : PointContour), Returns (fun fuel => Subtract fuel P Q) [c1, c2] ∧
      ((c1.head? = some a ∧ c2.head? = some c) ∨ (c1.head? = some c ∧ c2.head? = some a)) := by
  obtain ⟨n, hn⟩ := hT
  have hne := ringTags_nonempty (hn n (le_refl n))
  obtain ⟨h, rs, rc, F, hb, E, hrs0, hrc0, hread⟩ := ringTags_cells P Q hne.1 hne.2
  have e := hread (max F n) (by omega)
  have e' := hn (max F n) (by omega)
  simp only [e] at e'
  rw [Option.some.injEq, Prod.mk.injEq] at e'
  obtain ⟨e1, e2⟩ := e'
  subst e1
  subst e2
  have hS' : ∃ k, (rs.filter (fun x => isCrossingTag (tagOf h x))).map
        (fun x => (pointOf h x, tagOf h x)) =
      [(a, ClipVertexClassification.InToOut), (b, ClipVertexClassification.OutToIn),
       (c, ClipVertexClassification.InToOut), (d, ClipVertexClassification.OutToIn)].rotate k := by
    obtain ⟨k, hk⟩ := hS
    refine ⟨k, ?_⟩
    rw [← hk, crossingVertices, List.filter_map]
    rfl
  have hC' : ∃ k, (rc.filter (fun x => isCrossingTag (tagOf h x))).map (pointOf h) =
      [a, b, c, d].rotate k := by
    obtain ⟨k, hk⟩ := hC
    refine ⟨k, ?_⟩
    rw [← hk, crossingVertices, List.filter_map, List.map_map]
    rfl
  obtain ⟨xa, xb, xc, xd, ya, yb, yc, yd, A1, A2, A3, A4, D1, D2, D3, D4, T, hpa, hpc⟩ :=
    fourCrossings_of_tags E a b c d hd hS' hC'
  have hhead : Q.length ∈ rs := List.mem_iff_getElem?.mpr ⟨0, hrs0⟩
  obtain ⟨c1, c2, hsub, hheads⟩ := SubtractList_four T hhead
  rw [hpa, hpc] at hheads
  have hdl : ∀ fuel, rs.length + rc.length ≤ fuel →
      destroyLists fuel h { mHead := some Q.length } { mHead := some 0 } = some () := by
    intro fuel hf
    have hd1 := destroy_ring h rs E.ringS.toIsRing E.ringS.1 fuel (by omega)
    have hd2 := destroy_ring h rc E.ringC.toIsRing E.ringC.1 fuel (by omega)
    rw [hrs0] at hd1
    rw [hrc0] at hd2
    simp only [destroyLists, hd1, hd2]
  refine ⟨c1, c2, ⟨max F (2 * (rs.length + rc.length) + 8), fun fuel hf => ?_⟩, hheads⟩
  simp only [Subtract, hb fuel (by omega), hsub fuel (by omega), hdl fuel (by omega),
    Option.map_some']

set_option maxRecDepth 100000 in
theorem ringTags_pierced_eval :
    ringTags 40 bigSquare thinRect =
      some ([(⟨0, 0⟩, ClipVertexClassification.Inside),
             (⟨1, 0⟩, ClipVertexClassification.InToOut),
             (⟨2, 0⟩, ClipVertexClassification.OutToIn),
             (⟨4, 0⟩, ClipVertexClassification.Inside),
             (⟨4, 4⟩, ClipVertexClassification.Inside),
             (⟨2, 4⟩, ClipVertexClassification.InToOut),
             (⟨1, 4⟩, ClipVertexClassification.OutToIn),
             (⟨0, 4⟩, ClipVertexClassification.Inside)],
            [(⟨1, -1⟩, ClipVertexClassification.Inside),
             (⟨2, -1⟩, ClipVertexClassification.Inside),
             (⟨2, 0⟩, ClipVertexClassification.InToOut),
             (⟨2, 4⟩, ClipVertexClassification.OutToIn),
             (⟨2, 5⟩, ClipVertexClassification.Inside),
             (⟨1, 5⟩, ClipVertexClassification.Inside),
             (⟨1, 4⟩, ClipVertexClassification.InToOut),
             (⟨1, 0⟩, ClipVertexClassification.OutToIn)]) := by
  decide!

set_option maxRecDepth 100000 in
/-- C7 (amended) on the square `[(0,0),(4,0),(4,4),(0,4)]` pierced through its bottom and
top edges by the thin rectangle `[(1,-1),(2,-1),(2,5),(1,5)]`, both counter-clockwise: the
subject ring carries `(1,0), (2,0), (2,4), (1,4)` tagged `InToOut, OutToIn, InToOut,
OutToIn`, the clip ring carries `(2,0), (2,4), (1,4), (1,0)`. -/
theorem C7_Subtract_pierced_two_contours_witness :
    Returns (fun fuel => ringTags fuel bigSquare thinRect)
      ([(⟨0, 0⟩, ClipVertexClassification.Inside),
        (⟨1, 0⟩, ClipVertexClassification.InToOut),
        (⟨2, 0⟩, ClipVertexClassification.OutToIn),
        (⟨4, 0⟩, ClipVertexClassification.Inside),
        (⟨4, 4⟩, ClipVertexClassification.Inside),
        (⟨2, 4⟩, ClipVertexClassification.InToOut),
        (⟨1, 4⟩, ClipVertexClassification.OutToIn),
        (⟨0, 4⟩, ClipVertexClassification.Inside)],
       [(⟨1, -1⟩, ClipVertexClassification.Inside),
        (⟨2, -1⟩, ClipVertexClassification.Inside),
        (⟨2, 0⟩, ClipVertexClassification.InToOut),
        (⟨2, 4⟩, ClipVertexClassification.OutToIn),
        (⟨2, 5⟩, ClipVertexClassification.Inside),
        (⟨1, 5⟩, ClipVertexClassification.Inside),
        (⟨1, 4⟩, ClipVertexClassification.InToOut),
        (⟨1, 0⟩, ClipVertexClassification.OutToIn)]) ∧
    ∃ (c1 c2 : PointContour), Returns (fun fuel => Subtract fuel bigSquare thinRect) [c1, c2] ∧
      ((c1.head? = some ⟨1, 0⟩ ∧ c2.head? = some ⟨2, 4⟩) ∨
        (c1.head? = some ⟨2, 4⟩ ∧ c2.head? = some ⟨1, 0⟩)) :=
  ⟨Returns_of_eq _ _ 40 (fun a b x hab hx => ringTags_mono a b _ _ x hab hx)
      ringTags_pierced_eval,
    C7_Subtract_pierced_two_contours bigSquare thinRect _ _ ⟨1, 0⟩ ⟨2, 0⟩ ⟨2, 4⟩ ⟨1, 4⟩
      (Returns_of_eq _ _ 40 (fun a b x hab hx => ringTags_mono a b _ _ x hab hx)
        ringTags_pierced_eval)
      (by decide!) ⟨0, by decide!⟩ ⟨1, by decide!⟩⟩

/-! ### The witnesses of the walks in binary32 -/

set_option maxRecDepth 100000 in
/-- The pierced square with every float operation rounded to binary32: the crossing points
are exactly representable and `Subtract` returns the same two contours as in exact
arithmetic. -/
theorem Subtract_pierced_binary32 :
    Binary32.Subtract 40 bigSquare thinRect =
      some [[⟨1, 0⟩, ⟨2, 0⟩, ⟨2, -1⟩, ⟨1, -1⟩], [⟨2, 4⟩, ⟨1, 4⟩, ⟨1, 5⟩, ⟨2, 5⟩]] ∧
    Binary32.Subtract 40 bigSquare.reverse thinRect.reverse =
      some [[⟨2, 4⟩, ⟨4, 4⟩, ⟨4, 0⟩, ⟨2, 0⟩], [⟨1, 0⟩, ⟨0, 0⟩, ⟨0, 4⟩, ⟨1, 4⟩]] := by
  decide!

set_option maxRecDepth 100000 in
/-- The two overlapping squares with every float operation rounded to binary32: `Union`
and `Intersect` return the same contours as in exact arithmetic, and their areas add up
to the areas of the inputs. -/
theorem area_identity_squares_binary32 :
    Binary32.Union 20 unitSquare offsetSquare =
      some [⟨1/2, 1⟩, ⟨1/2, 1/2⟩, ⟨1, 1/2⟩, ⟨1, 1⟩] ∧
    Binary32.Intersect 20 unitSquare offsetSquare =
      some [[⟨1/2, 1⟩, ⟨0, 1⟩, ⟨0, 0⟩, ⟨1, 0⟩, ⟨1, 1/2⟩, ⟨3/2, 1/2⟩, ⟨3/2, 3/2⟩, ⟨1/2, 3/2⟩]] ∧
    shoelaceArea [⟨1/2, 1⟩, ⟨1/2, 1/2⟩, ⟨1, 1/2⟩, ⟨1, 1⟩] +
        totalArea [[⟨1/2, 1⟩, ⟨0, 1⟩, ⟨0, 0⟩, ⟨1, 0⟩, ⟨1, 1/2⟩, ⟨3/2, 1/2⟩, ⟨3/2, 3/2⟩,
          ⟨1/2, 3/2⟩]]
      = shoelaceArea unitSquare + shoelaceArea offsetSquare := by
  decide!

end Clipper2D
